import Mathlib

/-!
graphics-lib: pixel blending, affine matrices, CTM stack and rectangle fill

A shallow embedding of the rendering core (`my_utils.h`, `my_matrix.cpp`,
`my_edge.h`, `my_canvas.cpp`) together with theorems about it.

Conventions of the embedding

* `unsigned` / `GPixel` values are natural numbers; where the C++ arithmetic is
  done modulo `2^32` the reduction is written out.
* `float` values are exact rationals (`ℚ`), `int` values are integers.
* Objects that are written through a pointer are threaded through explicitly.
-/

namespace GraphicsLib

/-! ## Pixels (`GPixel.h`, `my_utils.h`) -/

/-- A pixel is a 32-bit word. -/
abbrev GPixel := Nat

/-- Modelled from the spec: `GPixel_GetA` of the absent header `GPixel.h`;
alpha is bits 24..31 of the word. -/
def GPixel_GetA (p : GPixel) : Nat := (p >>> 24) &&& 0xFF

/-- Modelled from the spec: `GPixel_GetR` of the absent header `GPixel.h`;
red is bits 16..23 of the word. -/
def GPixel_GetR (p : GPixel) : Nat := (p >>> 16) &&& 0xFF

/-- Modelled from the spec: `GPixel_GetG` of the absent header `GPixel.h`;
green is bits 8..15 of the word. -/
def GPixel_GetG (p : GPixel) : Nat := (p >>> 8) &&& 0xFF

/-- Modelled from the spec: `GPixel_GetB` of the absent header `GPixel.h`;
blue is bits 0..7 of the word. -/
def GPixel_GetB (p : GPixel) : Nat := p &&& 0xFF

/-- Modelled from the spec: `GPixel_PackARGB` of the absent header `GPixel.h`;
a = bits 24..31, r = 16..23, g = 8..15, b = 0..7, computed on 32-bit unsigned
operands (so anything shifted past bit 31 is lost). -/
def GPixel_PackARGB (a r g b : Nat) : GPixel :=
  ((a <<< 24) ||| (r <<< 16) ||| (g <<< 8) ||| b) % 2 ^ 32

/-- `MUquickDivide255` on a 32-bit unsigned operand:
`(value + 128) * 257 >> 16`. -/
def MUquickDivide255 (value : Nat) : Nat :=
  (((value + 128) % 2 ^ 32 * 257) % 2 ^ 32) >>> 16

/-- The four local variables `a, r, g, b` of a blend helper, in this order. -/
structure ARGB where
  a : Nat
  r : Nat
  g : Nat
  b : Nat
  deriving DecidableEq, Repr

/-- Pack four computed channels, as the last line of every blend helper does. -/
def ARGB.pack (c : ARGB) : GPixel := GPixel_PackARGB c.a c.r c.g c.b

/-- The channels stored in a pixel. -/
def GPixel.channels (p : GPixel) : ARGB :=
  ⟨GPixel_GetA p, GPixel_GetR p, GPixel_GetG p, GPixel_GetB p⟩

/-- Locals of `MUsrcOver`: `S + (1 - Sa)*D`. -/
def MUsrcOverARGB (src dest : GPixel) : ARGB where
  a := GPixel_GetA src + MUquickDivide255 (GPixel_GetA dest * (255 - GPixel_GetA src))
  r := GPixel_GetR src + MUquickDivide255 (GPixel_GetR dest * (255 - GPixel_GetA src))
  g := GPixel_GetG src + MUquickDivide255 (GPixel_GetG dest * (255 - GPixel_GetA src))
  b := GPixel_GetB src + MUquickDivide255 (GPixel_GetB dest * (255 - GPixel_GetA src))

/-- `MUsrcOver`. -/
def MUsrcOver (src dest : GPixel) : GPixel := (MUsrcOverARGB src dest).pack

/-- Locals of `MUsrcIn`: `Da * S`. -/
def MUsrcInARGB (src dest : GPixel) : ARGB where
  a := MUquickDivide255 (GPixel_GetA dest * GPixel_GetA src)
  r := MUquickDivide255 (GPixel_GetA dest * GPixel_GetR src)
  g := MUquickDivide255 (GPixel_GetA dest * GPixel_GetG src)
  b := MUquickDivide255 (GPixel_GetA dest * GPixel_GetB src)

/-- `MUsrcIn`. -/
def MUsrcIn (src dest : GPixel) : GPixel := (MUsrcInARGB src dest).pack

/-- Locals of `MUsrcOut`: `(1 - Da)*S`. -/
def MUsrcOutARGB (src dest : GPixel) : ARGB where
  a := MUquickDivide255 ((255 - GPixel_GetA dest) * GPixel_GetA src)
  r := MUquickDivide255 ((255 - GPixel_GetA dest) * GPixel_GetR src)
  g := MUquickDivide255 ((255 - GPixel_GetA dest) * GPixel_GetG src)
  b := MUquickDivide255 ((255 - GPixel_GetA dest) * GPixel_GetB src)

/-- `MUsrcOut`. -/
def MUsrcOut (src dest : GPixel) : GPixel := (MUsrcOutARGB src dest).pack

/-- Locals of `MUsrcATop`: `Da*S + (1 - Sa)*D`. -/
def MUsrcATopARGB (src dest : GPixel) : ARGB where
  a := MUquickDivide255 (GPixel_GetA dest * GPixel_GetA src)
        + MUquickDivide255 ((255 - GPixel_GetA src) * GPixel_GetA dest)
  r := MUquickDivide255 (GPixel_GetA dest * GPixel_GetR src)
        + MUquickDivide255 ((255 - GPixel_GetA src) * GPixel_GetR dest)
  g := MUquickDivide255 (GPixel_GetA dest * GPixel_GetG src)
        + MUquickDivide255 ((255 - GPixel_GetA src) * GPixel_GetG dest)
  b := MUquickDivide255 (GPixel_GetA dest * GPixel_GetB src)
        + MUquickDivide255 ((255 - GPixel_GetA src) * GPixel_GetB dest)

/-- `MUsrcATop`. -/
def MUsrcATop (src dest : GPixel) : GPixel := (MUsrcATopARGB src dest).pack

/-- Locals of `MUxor`: `(1 - Sa)*D + (1 - Da)*S`. -/
def MUxorARGB (src dest : GPixel) : ARGB where
  a := MUquickDivide255 ((255 - GPixel_GetA src) * GPixel_GetA dest)
        + MUquickDivide255 ((255 - GPixel_GetA dest) * GPixel_GetA src)
  r := MUquickDivide255 ((255 - GPixel_GetA src) * GPixel_GetR dest)
        + MUquickDivide255 ((255 - GPixel_GetA dest) * GPixel_GetR src)
  g := MUquickDivide255 ((255 - GPixel_GetA src) * GPixel_GetG dest)
        + MUquickDivide255 ((255 - GPixel_GetA dest) * GPixel_GetG src)
  b := MUquickDivide255 ((255 - GPixel_GetA src) * GPixel_GetB dest)
        + MUquickDivide255 ((255 - GPixel_GetA dest) * GPixel_GetB src)

/-- `MUxor`. -/
def MUxor (src dest : GPixel) : GPixel := (MUxorARGB src dest).pack

/-- The twelve Porter-Duff modes of `GBlendMode`. -/
inductive GBlendMode
  | kClear | kSrc | kDst | kSrcOver | kDstOver | kSrcIn | kDstIn
  | kSrcOut | kDstOut | kSrcATop | kDstATop | kXor
  deriving DecidableEq, Repr

open GBlendMode

/-- The channel values `MUblend` works out for each mode, before any packing.
For `kSrc` and `kDst` the pixel is passed through, so these are its own
channels; for `kClear` they are the four zero arguments. -/
def MUblendARGB (src dest : GPixel) : GBlendMode → ARGB
  | kClear => ⟨0, 0, 0, 0⟩
  | kSrc => GPixel.channels src
  | kDst => GPixel.channels dest
  | kSrcOver => MUsrcOverARGB src dest
  | kDstOver => MUsrcOverARGB dest src
  | kSrcIn => MUsrcInARGB src dest
  | kDstIn => MUsrcInARGB dest src
  | kSrcOut => MUsrcOutARGB src dest
  | kDstOut => MUsrcOutARGB dest src
  | kSrcATop => MUsrcATopARGB src dest
  | kDstATop => MUsrcATopARGB dest src
  | kXor => MUxorARGB src dest

/-- `MUblend`: the switch over the blend mode. -/
def MUblend (src dest : GPixel) : GBlendMode → GPixel
  | kClear => GPixel_PackARGB 0 0 0 0
  | kSrc => src
  | kDst => dest
  | kSrcOver => MUsrcOver src dest
  | kDstOver => MUsrcOver dest src
  | kSrcIn => MUsrcIn src dest
  | kDstIn => MUsrcIn dest src
  | kSrcOut => MUsrcOut src dest
  | kDstOut => MUsrcOut dest src
  | kSrcATop => MUsrcATop src dest
  | kDstATop => MUsrcATop dest src
  | kXor => MUxor src dest

/-- The table of the spec for one channel: `sa`, `da` are the two alphas and
`s`, `d` the source and destination values of the channel being computed. -/
def blendTable (sa da s d : Nat) : GBlendMode → Nat
  | kClear => 0
  | kSrc => s
  | kDst => d
  | kSrcOver => s + MUquickDivide255 ((255 - sa) * d)
  | kDstOver => d + MUquickDivide255 ((255 - da) * s)
  | kSrcIn => MUquickDivide255 (da * s)
  | kDstIn => MUquickDivide255 (sa * d)
  | kSrcOut => MUquickDivide255 ((255 - da) * s)
  | kDstOut => MUquickDivide255 ((255 - sa) * d)
  | kSrcATop => MUquickDivide255 (da * s) + MUquickDivide255 ((255 - sa) * d)
  | kDstATop => MUquickDivide255 (sa * d) + MUquickDivide255 ((255 - da) * s)
  | kXor => MUquickDivide255 ((255 - sa) * d) + MUquickDivide255 ((255 - da) * s)

/-- A pixel is premultiplied when no colour channel exceeds its alpha. -/
def Premul (p : GPixel) : Prop :=
  GPixel_GetR p ≤ GPixel_GetA p ∧ GPixel_GetG p ≤ GPixel_GetA p ∧ GPixel_GetB p ≤ GPixel_GetA p

instance (p : GPixel) : Decidable (Premul p) := by unfold Premul; infer_instance

/-! ## Colours (`GColor.h`, `my_utils.h`) -/

/-- A colour: four unpremultiplied components. -/
structure GColor where
  r : ℚ
  g : ℚ
  b : ℚ
  a : ℚ
  deriving DecidableEq, Repr

/-- Clamp one component to the unit interval. -/
def pinUnit (x : ℚ) : ℚ := max 0 (min 1 x)

/-- Modelled from the spec: `GColor::pinToUnit` of the absent header
`GColor.h`; each component is clamped to [0,1]. -/
def GColor.pinToUnit (c : GColor) : GColor :=
  ⟨pinUnit c.r, pinUnit c.g, pinUnit c.b, pinUnit c.a⟩

/-- `MUfloatTo255`: `floor(f * 255 + 0.5)` as an `int`. -/
def MUfloatTo255 (f : ℚ) : Int := ⌊f * 255 + 1 / 2⌋

/-- Conversion of an `int` argument to an `unsigned` parameter. -/
def toUnsigned (i : Int) : Nat := (i % 2 ^ 32).toNat

/-- `MUcolorToPixel`: pin, premultiply, round, pack. -/
def MUcolorToPixel (c : GColor) : GPixel :=
  let nc := c.pinToUnit
  let nc := { nc with r := nc.r * nc.a }
  let nc := { nc with g := nc.g * nc.a }
  let nc := { nc with b := nc.b * nc.a }
  GPixel_PackARGB (toUnsigned (MUfloatTo255 nc.a)) (toUnsigned (MUfloatTo255 nc.r))
    (toUnsigned (MUfloatTo255 nc.g)) (toUnsigned (MUfloatTo255 nc.b))

/-! ## Matrices (`my_matrix.cpp`) -/

/-- A point. -/
structure GPoint where
  fX : ℚ
  fY : ℚ
  deriving DecidableEq, Repr

/-- The 2x3 affine matrix `[a b c; d e f]`; `fMat[0..5]` are `a..f`. -/
structure GMatrix where
  a : ℚ
  b : ℚ
  c : ℚ
  d : ℚ
  e : ℚ
  f : ℚ
  deriving DecidableEq, Repr

/-- `GMatrix::GMatrix()`: initialise to the identity. -/
def GMatrix.identity : GMatrix := ⟨1, 0, 0, 0, 1, 0⟩

/-- `GMatrix::Translate`. -/
def GMatrix.Translate (tx ty : ℚ) : GMatrix := ⟨1, 0, tx, 0, 1, ty⟩

/-- `GMatrix::Scale`. -/
def GMatrix.Scale (sx sy : ℚ) : GMatrix := ⟨sx, 0, 0, 0, sy, 0⟩

/-- `GMatrix::Concat`: the product `A * B`. -/
def GMatrix.Concat (A B : GMatrix) : GMatrix :=
  ⟨A.a * B.a + A.b * B.d,
   A.a * B.b + A.b * B.e,
   A.a * B.c + A.b * B.f + A.c,
   A.d * B.a + A.e * B.d,
   A.d * B.b + A.e * B.e,
   A.d * B.c + A.e * B.f + A.f⟩

/-- Matrix objects in memory, by address. Two pointers alias exactly when
they are the same address. -/
abbrev MatrixMem := Nat → GMatrix

/-- Store `fMat[i] = v` into the object at address `p`
(an index above 5 does not occur). -/
def MatrixMem.setAt (mem : MatrixMem) (p : Nat) (i : Nat) (v : ℚ) : MatrixMem :=
  fun q =>
    if q = p then
      match i with
      | 0 => { mem q with a := v }
      | 1 => { mem q with b := v }
      | 2 => { mem q with c := v }
      | 3 => { mem q with d := v }
      | 4 => { mem q with e := v }
      | 5 => { mem q with f := v }
      | _ => mem q
    else mem q

/-- `GMatrix::invert`, with `self` the address of the matrix and `inverse` the
address written to. All of `fMat` is read into the locals `determinant` and
`inv[0..5]` before the first store through `inverse`. Returns the boolean
result and the memory afterwards. -/
def GMatrix.invert (mem : MatrixMem) (self inverse : Nat) : Bool × MatrixMem :=
  let fMat := mem self
  let determinant := fMat.b * fMat.d - fMat.a * fMat.e
  if determinant = 0 then (false, mem) else
  let detinv := 1 / determinant
  let inv0 := (-1 * fMat.e) * detinv
  let inv1 := fMat.b * detinv
  let inv2 := (-1 * fMat.b * fMat.f + fMat.e * fMat.c) * detinv
  let inv3 := fMat.d * detinv
  let inv4 := (-1 * fMat.a) * detinv
  let inv5 := (-1 * fMat.c * fMat.d + fMat.a * fMat.f) * detinv
  let mem := mem.setAt inverse 0 inv0
  let mem := mem.setAt inverse 1 inv1
  let mem := mem.setAt inverse 2 inv2
  let mem := mem.setAt inverse 3 inv3
  let mem := mem.setAt inverse 4 inv4
  let mem := mem.setAt inverse 5 inv5
  (true, mem)

/-- The body of the loop of `GMatrix::mapPoints` for one source point. -/
def GMatrix.mapPoint (M : GMatrix) (p : GPoint) : GPoint :=
  let x_ := (M.a * p.fX) + (M.b * p.fY) + M.c
  let y_ := (M.d * p.fX) + (M.e * p.fY) + M.f
  ⟨x_, y_⟩

/-- `GMatrix::mapPoints` with `dst` and `src` two separate arrays:
`dst[i] = M(src[i])` for `i = 0 .. count-1`. Reading past the end of `src`
is undefined and yields `none`; so does writing past the end of `dst`. -/
def GMatrix.mapPoints (M : GMatrix) (dst src : List GPoint) (count : Nat) :
    Option (List GPoint) :=
  (List.range count).foldlM
    (fun dst i =>
      match src.get? i with
      | some p => if i < dst.length then some (dst.set i (M.mapPoint p)) else none
      | none => none)
    dst

/-- `GMatrix::mapPoints` called with `dst == src` (the in-place use the
comment allows): every read of `src[i]` sees the array as written so far. -/
def GMatrix.mapPointsInPlace (M : GMatrix) (pts : List GPoint) (count : Nat) :
    Option (List GPoint) :=
  (List.range count).foldlM
    (fun pts i =>
      match pts.get? i with
      | some p => some (pts.set i (M.mapPoint p))
      | none => none)
    pts

/-! ## Edges (`my_edge.h`) -/

/-- Modelled from the spec: `GRoundToInt` of the absent header `GMath.h`;
rounding is `floor(v + 0.5)`. -/
def GRoundToInt (x : ℚ) : Int := ⌊x + 1 / 2⌋

/-- The edge record `x = m*y + b`. -/
structure my_edge where
  m : ℚ
  b : ℚ
  curr_x : ℚ
  top : Int
  bottom : Int
  winding : Int
  deriving DecidableEq, Repr

/-- The content of a `my_edge e;` that has not been assigned yet. Every field
is overwritten before an edge is appended to an edge list. -/
def my_edge.fresh : my_edge := ⟨0, 0, 0, 0, 0, 0⟩

/-- `my_edge::set(GPoint, GPoint)` on the edge `e`: the result and the edge
afterwards. -/
def my_edge.set (e : my_edge) (p0 p1 : GPoint) : Bool × my_edge :=
  let swapped := decide (p0.fY > p1.fY)
  let q0 := if swapped then p1 else p0
  let q1 := if swapped then p0 else p1
  let e := if swapped then { e with winding := e.winding * -1 } else e
  let e := { e with top := GRoundToInt q0.fY }
  let e := { e with bottom := GRoundToInt q1.fY }
  if e.top = e.bottom then (false, e) else
  let e := { e with m := (q1.fX - q0.fX) / (q1.fY - q0.fY) }
  let e := { e with b := q0.fX - (e.m * q0.fY) }
  let e := { e with curr_x := q0.fX + e.m * ((e.top : ℚ) - q0.fY + 1 / 2) }
  (true, e)

/-- `my_edge::set(GPoint, GPoint, int w)`. -/
def my_edge.setWinding (e : my_edge) (p0 p1 : GPoint) (w : Int) : Bool × my_edge :=
  match e.set p0 p1 with
  | (true, e) => (true, { e with winding := w })
  | (false, e) => (false, e)

/-- `my_edge::get_X`. -/
def my_edge.get_X (e : my_edge) (y : Int) : Int :=
  GRoundToInt (e.m * ((y : ℚ) + 1 / 2) + e.b)

/-- `my_edge::valid`. -/
def my_edge.valid (e : my_edge) (y : Int) : Bool :=
  if y > e.top ∧ y < e.bottom then true else false

/-! ## Edge building and sorting (`my_utils.h`) -/

/-- `MUmakeEdgeWinding`: append the edge when `set` accepts it. -/
def MUmakeEdgeWinding (p0 p1 : GPoint) (edges : List my_edge) (w : Int) : List my_edge :=
  match my_edge.fresh.setWinding p0 p1 w with
  | (true, e) => edges ++ [e]
  | (false, _) => edges

/-- The `// TOP` step of `MUclipPoints`: a top point above the device is moved
to `(b, 0)`. -/
def clipTop (b : ℚ) (pTop : GPoint) : GPoint :=
  if pTop.fY < 0 then ⟨b, 0⟩ else pTop

/-- The `// BOTTOM` step of `MUclipPoints`: a bottom point below the device is
moved to `(m*h + b, h)`. -/
def clipBottom (m b : ℚ) (h : Int) (pBottom : GPoint) : GPoint :=
  if pBottom.fY > (h : ℚ) then ⟨(m * h) + b, h⟩ else pBottom

/-- The `// LEFT` step of `MUclipPoints`: the two points and the edge list
afterwards. -/
def clipLeft (m b : ℚ) (winding : Int) (pLeft pRight : GPoint) (edges : List my_edge) :
    GPoint × GPoint × List my_edge :=
  if pLeft.fX < 0 then
    if pRight.fX < 0 then
      (⟨0, pLeft.fY⟩, ⟨0, pRight.fY⟩, edges)
    else
      let pProjection : GPoint := ⟨0, pLeft.fY⟩
      let pLeft : GPoint := ⟨0, (0 - b) / m⟩
      (pLeft, pRight, MUmakeEdgeWinding pLeft pProjection edges winding)
  else (pLeft, pRight, edges)

/-- The `// RIGHT` step of `MUclipPoints`: the two points and the edge list
afterwards. -/
def clipRight (m b : ℚ) (w : Int) (winding : Int) (pLeft pRight : GPoint)
    (edges : List my_edge) : GPoint × GPoint × List my_edge :=
  if pRight.fX > (w : ℚ) then
    if pLeft.fX > (w : ℚ) then
      (⟨w, pLeft.fY⟩, ⟨w, pRight.fY⟩, edges)
    else
      let pProjection : GPoint := ⟨w, pRight.fY⟩
      let pRight : GPoint := ⟨w, ((w : ℚ) - b) / m⟩
      (pLeft, pRight, MUmakeEdgeWinding pRight pProjection edges winding)
  else (pLeft, pRight, edges)

/-- `MUclipPoints`. The pointers `pTop`, `pBottom` are `p0`, `p1` after the
swap; `pLeft`, `pRight` are chosen by the x comparison (over the rationals the
`else if` test is the negation of the `if` test) and are only dereferenced
after the vertical clipping, so from there on the two points are carried as
`pLeft`, `pRight`. -/
def MUclipPoints (p0 p1 : GPoint) (w h : Int) (edges : List my_edge) : List my_edge :=
  let winding : Int := 1
  let swapped := decide (p0.fY > p1.fY)
  let q0 := if swapped then p1 else p0
  let q1 := if swapped then p0 else p1
  let winding := if swapped then winding * -1 else winding
  if GRoundToInt q0.fY = GRoundToInt q1.fY then edges else
  let leftIsP0 := !decide (q0.fX ≥ q1.fX)
  let winding := winding * -1
  if q1.fY ≤ 0 then edges else
  if q0.fY ≥ (h : ℚ) then edges else
  let m := (q1.fX - q0.fX) / (q1.fY - q0.fY)
  let b := q0.fX - (m * q0.fY)
  let q0 := clipTop b q0
  let q1 := clipBottom m b h q1
  let pLeft := if leftIsP0 then q0 else q1
  let pRight := if leftIsP0 then q1 else q0
  match clipLeft m b winding pLeft pRight edges with
  | (pLeft, pRight, edges) =>
    match clipRight m b w winding pLeft pRight edges with
    | (pLeft, pRight, edges) => MUmakeEdgeWinding pLeft pRight edges winding

/-- `MULT`: compare by top, then current x, then slope. -/
def MULT (a b : my_edge) : Bool :=
  if a.top < b.top then true
  else if b.top < a.top then false
  else if a.curr_x < b.curr_x then true
  else if b.curr_x < a.curr_x then false
  else decide (a.m < b.m)

/-- `MUsortEdges`: `std::sort` with `MULT`. The standard leaves the order of
equivalent elements open; here they keep their order, as in the insertion
sort that `std::sort` runs on short ranges. -/
def MUsortEdges (edges : List my_edge) : List my_edge :=
  edges.insertionSort (fun a b => MULT b a = false)

/-! ## Canvas (`my_canvas.cpp`) -/

/-- A rectangle. -/
structure GRect where
  fLeft : ℚ
  fTop : ℚ
  fRight : ℚ
  fBottom : ℚ
  deriving DecidableEq, Repr

/-- The pixel cells of a bitmap with its dimensions; `pixels x y` is the word
at column `x`, row `y`. -/
structure GBitmap where
  width : Int
  height : Int
  pixels : Int → Int → GPixel

/-- Store a pixel through `getAddr(x, y)`; an address outside the bitmap is
undefined and yields `none`. -/
def GBitmap.store (bm : GBitmap) (x y : Int) (v : GPixel) : Option GBitmap :=
  if 0 ≤ x ∧ x < bm.width ∧ 0 ≤ y ∧ y < bm.height then
    some { bm with pixels := fun i j => if i = x ∧ j = y then v else bm.pixels i j }
  else none

/-- What the canvas uses of a shader within one draw: `setContext(ctm)` and
the row `shadeRow(x, y, count, row)` writes once the context is `ctm`. -/
structure GShader where
  setContext : GMatrix → Bool
  shadeRow : GMatrix → Int → Int → Nat → List GPixel

/-- A paint: colour, blend mode and an optional shader. -/
structure GPaint where
  fColor : GColor
  fMode : GBlendMode := GBlendMode.kSrcOver
  fShader : Option GShader := none

/-- The canvas object. -/
structure my_canvas where
  fDevice : GBitmap
  width : Int
  height : Int
  ctm : GMatrix
  saves : List GMatrix

/-- `my_canvas::save`. -/
def my_canvas.save (cv : my_canvas) : my_canvas :=
  { cv with saves := cv.ctm :: cv.saves }

/-- The constructor `my_canvas(device)`. -/
def my_canvas.create (device : GBitmap) : my_canvas :=
  my_canvas.save
    { fDevice := device, width := device.width, height := device.height,
      ctm := GMatrix.identity, saves := [] }

/-- `my_canvas::restore`; `top()` of an empty stack is undefined: `none`. -/
def my_canvas.restore (cv : my_canvas) : Option my_canvas :=
  match cv.saves with
  | [] => none
  | top :: rest => some { cv with ctm := top, saves := rest }

/-- `my_canvas::concat`: `ctm = ctm * m`. -/
def my_canvas.concat (cv : my_canvas) (m : GMatrix) : my_canvas :=
  { cv with ctm := GMatrix.Concat cv.ctm m }

/-- The loop `for (x = x0; x < x1; ++x) *p = MUblend(s, *p, mode)` of `blit`,
with `n` the number of iterations left and `src x` the source pixel used at
column `x`. -/
def blendRow (src : Int → GPixel) (mode : GBlendMode) (y : Int) :
    Nat → Int → GBitmap → Option GBitmap
  | 0, _, bm => some bm
  | n + 1, x, bm =>
    match bm.store x y (MUblend (src x) (bm.pixels x y) mode) with
    | some bm => blendRow src mode y n (x + 1) bm
    | none => none

/-- `my_canvas::blit`. With a shader the assertion `x0 >= 0 && width >= 0`
guards the row buffer. -/
def my_canvas.blit (cv : my_canvas) (x0 x1 y : Int) (paint : GPaint) : Option my_canvas :=
  match paint.fShader with
  | some shader =>
    let width := x1 - x0
    if x0 ≥ 0 ∧ width ≥ 0 then
      let row := shader.shadeRow cv.ctm x0 y width.toNat
      (blendRow (fun x => row.getD (x - x0).toNat 0) paint.fMode y (x1 - x0).toNat x0
        cv.fDevice).map fun bm => { cv with fDevice := bm }
    else none
  | none =>
    let src := MUcolorToPixel paint.fColor
    (blendRow (fun _ => src) paint.fMode y (x1 - x0).toNat x0 cv.fDevice).map
      fun bm => { cv with fDevice := bm }

/-- The scan loop of `drawConvexPolygon`: `for (y = min_y; y < max_y; ++y)`.
The first argument bounds the number of iterations; `edges.at(i)` past the end
throws, which is `none`. -/
def convexScan (edges : List my_edge) (paint : GPaint) (max_y : Int) :
    Nat → Int → Nat → Nat → Nat → my_canvas → Option my_canvas
  | 0, y, _, _, _, cv => if y < max_y then none else some cv
  | fuel + 1, y, L, R, next_edge, cv =>
    if y < max_y then
      match edges.get? L, edges.get? R with
      | some e_L, some e_R =>
        match cv.blit (e_L.get_X y) (e_R.get_X y) y paint with
        | none => none
        | some cv =>
          let stepL := e_L.valid (y + 1) == false
          let L := if stepL then next_edge else L
          let next_edge := if stepL then next_edge + 1 else next_edge
          if stepL ∧ L ≥ edges.length then some cv else
          let stepR := e_R.valid (y + 1) == false
          let R := if stepR then next_edge else R
          let next_edge := if stepR then next_edge + 1 else next_edge
          if stepR ∧ R ≥ edges.length then some cv else
          convexScan edges paint max_y fuel (y + 1) L R next_edge cv
      | _, _ => none
    else some cv

/-- The edge-building loops of `drawConvexPolygon`: every consecutive pair,
then the closing pair. -/
def buildPolygonEdges (pts : List GPoint) (count : Nat) (w h : Int) : Option (List my_edge) := do
  let edges ← (List.range (count - 1)).foldlM
    (fun edges i => do
      let p ← pts.get? i
      let q ← pts.get? (i + 1)
      pure (MUclipPoints p q w h edges))
    []
  let p ← pts.get? (count - 1)
  let q ← pts.get? 0
  pure (MUclipPoints p q w h edges)

/-- `my_canvas::drawConvexPolygon`. -/
def my_canvas.drawConvexPolygon (cv : my_canvas) (points : List GPoint) (count : Nat)
    (paint : GPaint) : Option my_canvas :=
  let rejected :=
    match paint.fShader with
    | some shader => !(shader.setContext cv.ctm)
    | none => false
  if rejected then some cv else
  match cv.ctm.mapPoints (List.replicate count ⟨0, 0⟩) points count with
  | none => none
  | some matrix_pts =>
    match buildPolygonEdges matrix_pts count cv.width cv.height with
    | none => none
    | some edges =>
      if edges.length = 0 then some cv else
      let edges := MUsortEdges edges
      match edges.head?, edges.getLast? with
      | some front, some back =>
        let min_y := front.top
        let max_y := back.bottom
        convexScan edges paint max_y (max_y - min_y).toNat min_y 0 1 2 cv
      | _, _ => none

/-- `my_canvas::drawRect`. -/
def my_canvas.drawRect (cv : my_canvas) (rect : GRect) (paint : GPaint) : Option my_canvas :=
  let pts : List GPoint :=
    [⟨rect.fLeft, rect.fTop⟩, ⟨rect.fRight, rect.fTop⟩,
     ⟨rect.fRight, rect.fBottom⟩, ⟨rect.fLeft, rect.fBottom⟩]
  cv.drawConvexPolygon pts 4 paint

/-- `my_canvas::drawPaint`. -/
def my_canvas.drawPaint (cv : my_canvas) (paint : GPaint) : Option my_canvas :=
  cv.drawRect ⟨0, 0, 0 + cv.fDevice.width, 0 + cv.fDevice.height⟩ paint

/-- The calls made on a canvas. A draw call reads the canvas and writes pixels
of the device only: no draw method assigns `ctm` or `saves`. -/
inductive CanvasOp
  | save
  | restore
  | concat (m : GMatrix)
  | draw (d : my_canvas → GBitmap)

/-- One call. -/
def my_canvas.step (cv : my_canvas) : CanvasOp → Option my_canvas
  | CanvasOp.save => some cv.save
  | CanvasOp.restore => cv.restore
  | CanvasOp.concat m => some (cv.concat m)
  | CanvasOp.draw d => some { cv with fDevice := d cv }

/-- A sequence of calls, in order. -/
def my_canvas.run (cv : my_canvas) : List CanvasOp → Option my_canvas
  | [] => some cv
  | op :: ops =>
    match cv.step op with
    | some cv => cv.run ops
    | none => none

/-- Sequences of concat calls, draws and balanced nested save/restore pairs. -/
inductive Balanced : List CanvasOp → Prop
  | nil : Balanced []
  | concat (m : GMatrix) {ops : List CanvasOp} :
      Balanced ops → Balanced (CanvasOp.concat m :: ops)
  | draw (d : my_canvas → GBitmap) {ops : List CanvasOp} :
      Balanced ops → Balanced (CanvasOp.draw d :: ops)
  | nest {inner rest : List CanvasOp} :
      Balanced inner → Balanced rest →
      Balanced (CanvasOp.save :: (inner ++ CanvasOp.restore :: rest))

/-! ## Point arithmetic (`GPoint.h`) -/

/-- Modelled from the spec: `GPoint operator+` of the absent header
`GPoint.h`, componentwise. -/
instance : Add GPoint := ⟨fun p q => ⟨p.fX + q.fX, p.fY + q.fY⟩⟩

/-- Modelled from the spec: `GPoint operator-` of the absent header
`GPoint.h`, componentwise. -/
instance : Sub GPoint := ⟨fun p q => ⟨p.fX - q.fX, p.fY - q.fY⟩⟩

/-- Modelled from the spec: `float * GPoint` of the absent header `GPoint.h`,
componentwise. -/
instance : HMul ℚ GPoint GPoint := ⟨fun s p => ⟨s * p.fX, s * p.fY⟩⟩

/-- Modelled from the spec: `GPoint * float` of the absent header `GPoint.h`,
componentwise. -/
instance : HMul GPoint ℚ GPoint := ⟨fun p s => ⟨p.fX * s, p.fY * s⟩⟩

/-! ## Curves (`my_utils.h`) -/

/-- The least natural `k` with `q ≤ k^4`, found by searching upwards; it is
`ceil(sqrt(sqrt(q)))` in exact real arithmetic (0 for `q ≤ 0`). -/
def ceilRoot4 (q : ℚ) : Nat :=
  ((List.range (Int.toNat ⌈q⌉ + 1)).find? fun (k : Nat) => decide (q ≤ (k : ℚ) ^ 4)).getD 0

/-- `MUcomputeQuadSegments` in exact real arithmetic:
`ceil(sqrt(4 * sqrt(e.x^2 + e.y^2)))` is the least `k` with
`16 * (e.x^2 + e.y^2) ≤ k^4`. -/
def MUcomputeQuadSegments (pts : Nat → GPoint) : Int :=
  let e : GPoint := (((-1 : ℚ) * pts 0 + (2 : ℚ) * pts 1) - pts 2) * (1 / 4 : ℚ)
  (ceilRoot4 (16 * (e.fX * e.fX + e.fY * e.fY)) : Int)

/-- `MUcomputeCubicSegments` in exact real arithmetic:
`ceil(sqrt(3 * sqrt(e.x^2 + e.y^2)))` is the least `k` with
`9 * (e.x^2 + e.y^2) ≤ k^4`. -/
def MUcomputeCubicSegments (pts : Nat → GPoint) : Int :=
  let p : GPoint := ((-1 : ℚ) * pts 0 + (2 : ℚ) * pts 1) - pts 2
  let q : GPoint := ((-1 : ℚ) * pts 1 + (2 : ℚ) * pts 2) - pts 3
  let e : GPoint := ⟨max |p.fX| |q.fX|, max |p.fY| |q.fY|⟩
  (ceilRoot4 (9 * (e.fX * e.fX + e.fY * e.fY)) : Int)

/-- `MUevalQuad`. -/
def MUevalQuad (src : Nat → GPoint) (t : ℚ) : GPoint :=
  ((1 - t) * (1 - t)) * src 0 + (2 * t * (1 - t)) * src 1 + (t * t) * src 2

/-- `MUevalCubic`. -/
def MUevalCubic (src : Nat → GPoint) (t : ℚ) : GPoint :=
  ((1 - t) * (1 - t) * (1 - t)) * src 0 + (3 * t * (1 - t) * (1 - t)) * src 1
    + (3 * t * t * (1 - t)) * src 2 + (t * t * t) * src 3

/-- An array of points read through a pointer: `arr.getD i` at index `i`. -/
def pointArray (l : List GPoint) : Nat → GPoint := fun i => l.getD i ⟨0, 0⟩

/-! ## Paths (`GPath.h`, `my_path.cpp`) -/

/-- The verbs of a path. -/
inductive Verb
  | kMove | kLine | kQuad | kCubic | kDone
  deriving DecidableEq, Repr

/-- The direction of a contour. -/
inductive Direction
  | kCW_Direction | kCCW_Direction
  deriving DecidableEq, Repr

/-- A path: the point array and the verb array. -/
structure GPath where
  fPts : List GPoint
  fVerbs : List Verb
  deriving DecidableEq, Repr

/-- Modelled from the spec: `GPath::moveTo` of the absent header `GPath.h`;
appends a Move verb and its point. -/
def GPath.moveTo (p : GPath) (pt : GPoint) : GPath :=
  ⟨p.fPts ++ [pt], p.fVerbs ++ [Verb.kMove]⟩

/-- Modelled from the spec: `GPath::lineTo` of the absent header `GPath.h`;
appends a Line verb and its point. -/
def GPath.lineTo (p : GPath) (pt : GPoint) : GPath :=
  ⟨p.fPts ++ [pt], p.fVerbs ++ [Verb.kLine]⟩

/-- Modelled from the spec: `GPath::quadTo` of the absent header `GPath.h`;
appends a Quad verb and its two points. -/
def GPath.quadTo (p : GPath) (p1 p2 : GPoint) : GPath :=
  ⟨p.fPts ++ [p1, p2], p.fVerbs ++ [Verb.kQuad]⟩

/-- Modelled from the spec: `GPath::cubicTo` of the absent header `GPath.h`;
appends a Cubic verb and its three points. -/
def GPath.cubicTo (p : GPath) (p1 p2 p3 : GPoint) : GPath :=
  ⟨p.fPts ++ [p1, p2, p3], p.fVerbs ++ [Verb.kCubic]⟩

/-- Modelled from the spec: `GPath::countPoints` of the absent header
`GPath.h`. -/
def GPath.countPoints (p : GPath) : Nat := p.fPts.length

/-- `GPath::addRect`. -/
def GPath.addRect (p : GPath) (r : GRect) (dir : Direction) : GPath :=
  let left := r.fLeft
  let right := r.fRight
  let top := r.fTop
  let bottom := r.fBottom
  if dir = Direction.kCW_Direction then
    (((p.moveTo ⟨left, top⟩).lineTo ⟨right, top⟩).lineTo ⟨right, bottom⟩).lineTo ⟨left, bottom⟩
  else
    (((p.moveTo ⟨left, top⟩).lineTo ⟨left, bottom⟩).lineTo ⟨right, bottom⟩).lineTo ⟨right, top⟩

/-- `GPath::addPolygon`; reading `pts[i]` past the end of the array is
undefined: `none`. -/
def GPath.addPolygon (p : GPath) (pts : List GPoint) (count : Nat) : Option GPath := do
  let p0 ← pts.get? 0
  (List.range (count - 1)).foldlM
    (fun p i => do
      let q ← pts.get? (i + 1)
      pure (p.lineTo q))
    (p.moveTo p0)

/-- The loop of `GPath::bounds` for three or more points: the locals
`l, t, r, b` after the point `(x, y)`. -/
def boundsStep (acc : ℚ × ℚ × ℚ × ℚ) (pt : GPoint) : ℚ × ℚ × ℚ × ℚ :=
  let (l, t, r, b) := acc
  let x := pt.fX
  let y := pt.fY
  let (l, r) := if x < l then (x, r) else if x > r then (l, x) else (l, r)
  let (t, b) := if y < t then (y, b) else if y > b then (t, y) else (t, b)
  (l, t, r, b)

/-- `GPath::bounds`. -/
def GPath.bounds (p : GPath) : GRect :=
  match p.fPts with
  | [] => ⟨0, 0, 0, 0⟩
  | [p0] => ⟨p0.fX, p0.fY, p0.fX + 0, p0.fY + 0⟩
  | [p0, p1] =>
    let x1 := p0.fX
    let x2 := p1.fX
    let y1 := p0.fY
    let y2 := p1.fY
    ⟨min x1 x2, min y1 y2, max x1 x2, max y1 y2⟩
  | pts =>
    let (l, t, r, b) := pts.foldl boundsStep (999999, 999999, 0, 0)
    ⟨l, t, r, b⟩

/-- `GPath::transform`: every point is replaced by its image. -/
def GPath.transform (p : GPath) (m : GMatrix) : GPath :=
  { p with fPts := p.fPts.map m.mapPoint }

/-- `GPath::addCircle`. -/
def GPath.addCircle (p : GPath) (center : GPoint) (radius : ℚ) (dir : Direction) : GPath :=
  let x := center.fX
  let y := center.fY
  let h := (5522847498 / 10000000000 : ℚ) * radius
  let p := p.moveTo ⟨x + radius, y⟩
  if dir = Direction.kCCW_Direction then
    let p := p.cubicTo ⟨x + radius, y + h⟩ ⟨x + h, y + radius⟩ ⟨x, y + radius⟩
    let p := p.cubicTo ⟨x - h, y + radius⟩ ⟨x - radius, y + h⟩ ⟨x - radius, y⟩
    let p := p.cubicTo ⟨x - radius, y - h⟩ ⟨x - h, y - radius⟩ ⟨x, y - radius⟩
    p.cubicTo ⟨x + h, y - radius⟩ ⟨x + radius, y - h⟩ ⟨x + radius, y⟩
  else
    let p := p.cubicTo ⟨x + radius, y - h⟩ ⟨x + h, y - radius⟩ ⟨x, y - radius⟩
    let p := p.cubicTo ⟨x - h, y - radius⟩ ⟨x - radius, y - h⟩ ⟨x - radius, y⟩
    let p := p.cubicTo ⟨x - radius, y + h⟩ ⟨x - h, y + radius⟩ ⟨x, y + radius⟩
    p.cubicTo ⟨x + h, y + radius⟩ ⟨x + radius, y + h⟩ ⟨x + radius, y⟩

/-- `GPath::ChopQuadAt`: the five points written to `dst`. -/
def GPath.ChopQuadAt (src : Nat → GPoint) (t : ℚ) : List GPoint :=
  [src 0,
   (1 - t) * src 0 + t * src 1,
   ((1 - t) * (1 - t)) * src 0 + (2 * t * (1 - t)) * src 1 + (t * t) * src 2,
   (1 - t) * src 1 + t * src 2,
   src 2]

/-- `GPath::ChopCubicAt`: the seven points written to `dst`. -/
def GPath.ChopCubicAt (src : Nat → GPoint) (t : ℚ) : List GPoint :=
  let ab : GPoint := (1 - t) * src 0 + t * src 1
  let bc : GPoint := (1 - t) * src 1 + t * src 2
  let cd : GPoint := (1 - t) * src 2 + t * src 3
  let ab_bc : GPoint := (1 - t) * ab + t * bc
  let bc_cd : GPoint := (1 - t) * bc + t * cd
  [src 0, ab, ab_bc,
   ((1 - t) * (1 - t) * (1 - t)) * src 0 + (3 * t * (1 - t) * (1 - t)) * src 1
     + (3 * t * t * (1 - t)) * src 2 + (t * t * t) * src 3,
   bc_cd, cd, src 3]

/-- What `GPath::Edger::next` yields: the verb with its control points. -/
inductive Segment
  | line (p0 p1 : GPoint)
  | quad (p0 p1 p2 : GPoint)
  | cubic (p0 p1 p2 p3 : GPoint)
  deriving DecidableEq, Repr

/-- The closing line of a contour, when it has emitted a segment. -/
def closeContour (contour : Option (GPoint × GPoint × Bool)) : List Segment :=
  match contour with
  | some (move, last, true) => [Segment.line last move]
  | _ => []

/-- Modelled from the spec: `GPath::Edger` of the absent header `GPath.h`.
The traversal walks the verbs; for each contour it remembers the move point
and, when the next verb is a Move or the verbs end, yields a closing Line from
the last emitted point back to the move point. `contour` is the move point,
the last point and whether a segment was emitted since the move. -/
def edgerWalk : List Verb → List GPoint → Option (GPoint × GPoint × Bool) → List Segment
  | Verb.kMove :: vs, p :: ps, contour =>
    closeContour contour ++ edgerWalk vs ps (some (p, p, false))
  | Verb.kLine :: vs, p :: ps, some (move, last, _) =>
    Segment.line last p :: edgerWalk vs ps (some (move, p, true))
  | Verb.kQuad :: vs, p1 :: p2 :: ps, some (move, last, _) =>
    Segment.quad last p1 p2 :: edgerWalk vs ps (some (move, p2, true))
  | Verb.kCubic :: vs, p1 :: p2 :: p3 :: ps, some (move, last, _) =>
    Segment.cubic last p1 p2 p3 :: edgerWalk vs ps (some (move, p3, true))
  | _, _, contour => closeContour contour

/-- All segments the Edger of a path yields before `kDone`. -/
def GPath.edgerSegments (p : GPath) : List Segment :=
  edgerWalk p.fVerbs p.fPts none

/-! ## Winding scan and `drawPath` (`my_utils.h`, `my_canvas.cpp`) -/

/-- `MUSinX`: compare by current x, then slope. -/
def MUSinX (a b : my_edge) : Bool :=
  if a.curr_x < b.curr_x then true
  else if b.curr_x < a.curr_x then false
  else decide (a.m < b.m)

/-- `MUsortInX`: `std::sort` of the first `x` edges with `MUSinX`; equivalent
elements keep their order, as in `MUsortEdges`. -/
def MUsortInX (edges : List my_edge) (x : Nat) : List my_edge :=
  (edges.take x).insertionSort (fun a b => MUSinX b a = false) ++ edges.drop x

/-- The state of the inner loop of `complex_scan`. -/
structure ScanState where
  edges : List my_edge
  index : Nat
  w : Int
  x0 : Int
  cv : my_canvas

/-- The inner loop of `complex_scan` over the active edges of row `y`; every
iteration erases an edge or advances `index`, so `fuel = edges.size()`
iterations suffice. -/
def complexRow (paint : GPaint) (y : Int) : Nat → ScanState → Option ScanState
  | 0, st => some st
  | fuel + 1, st =>
    match st.edges.get? st.index with
    | none => some st
    | some e =>
      if e.top ≤ y then
        let x0 := if st.w = 0 then e.get_X y else st.x0
        let w := st.w + e.winding
        let blitted :=
          if w = 0 then st.cv.blit x0 (e.get_X y) y paint else some st.cv
        match blitted with
        | none => none
        | some cv =>
          if e.valid (y + 1) = false then
            complexRow paint y fuel
              { edges := st.edges.eraseIdx st.index, index := st.index, w := w, x0 := x0,
                cv := cv }
          else
            complexRow paint y fuel
              { edges := st.edges.set st.index { e with curr_x := e.curr_x + e.m },
                index := st.index + 1, w := w, x0 := x0, cv := cv }
      else some st

/-- The loop `while (index < edges.size() && y == edges.at(index).top) index += 1`. -/
def admitEdges (edges : List my_edge) (y : Int) : Nat → Nat → Nat
  | 0, index => index
  | fuel + 1, index =>
    match edges.get? index with
    | some e => if y = e.top then admitEdges edges y fuel (index + 1) else index
    | none => index

/-- The outer loop of `my_canvas::complex_scan`: one row per iteration, with
`fuel` bounding the number of rows; `none` when the fuel runs out or a blit
fails. -/
def complexLoop (paint : GPaint) : Nat → List my_edge → Int → Int → my_canvas → Option my_canvas
  | 0, edges, _, _, cv => if edges.length > 0 then none else some cv
  | fuel + 1, edges, y, x0, cv =>
    if edges.length > 0 then
      match complexRow paint y edges.length
          { edges := edges, index := 0, w := 0, x0 := x0, cv := cv } with
      | none => none
      | some st =>
        let y := y + 1
        let index := admitEdges st.edges y st.edges.length st.index
        complexLoop paint fuel (MUsortInX st.edges index) y st.x0 st.cv
    else some cv

/-- The number of rows between the first top and the last bottom of an edge
list, plus one. -/
def scanRows (edges : List my_edge) : Nat :=
  match edges with
  | [] => 0
  | e :: es => ((es.foldl (fun acc e' => max acc e'.bottom) e.bottom) - e.top).toNat + 1

/-- `my_canvas::complex_scan`; the assertion `edges.size() > 0` fails on an
empty list. -/
def my_canvas.complex_scan (cv : my_canvas) (edges : List my_edge) (paint : GPaint) :
    Option my_canvas :=
  match edges with
  | [] => none
  | e :: _ => complexLoop paint (scanRows edges) edges e.top 0 cv

/-- The chords of a flattened curve: `MUclipPoints(p0, p1)` for the points at
`t = i/k`, `i = 1 .. k-1`; returns the last point and the edges. -/
def flattenLoop (eval : ℚ → GPoint) (k : Int) (w h : Int) :
    Nat → Int → GPoint → List my_edge → GPoint × List my_edge
  | 0, _, p0, edges => (p0, edges)
  | fuel + 1, i, p0, edges =>
    if i < k then
      let t := (i : ℚ) / (k : ℚ)
      let p1 := eval t
      flattenLoop eval k w h fuel (i + 1) p1 (MUclipPoints p0 p1 w h edges)
    else (p0, edges)

/-- The body of the `switch` in `my_canvas::drawPath` for one segment. -/
def clipSegment (w h : Int) (edges : List my_edge) : Segment → List my_edge
  | Segment.line p0 p1 => MUclipPoints p0 p1 w h edges
  | Segment.cubic a b c d =>
    let next_pts := pointArray [a, b, c, d]
    let k := MUcomputeCubicSegments next_pts
    let (p0, edges) := flattenLoop (MUevalCubic next_pts) k w h (k - 1).toNat 1 a edges
    MUclipPoints p0 d w h edges
  | Segment.quad a b c =>
    let next_pts := pointArray [a, b, c]
    let k := MUcomputeQuadSegments next_pts
    let (p0, edges) := flattenLoop (MUevalQuad next_pts) k w h (k - 1).toNat 1 a edges
    MUclipPoints p0 c w h edges

/-- `my_canvas::drawPath`. -/
def my_canvas.drawPath (cv : my_canvas) (path : GPath) (paint : GPaint) : Option my_canvas :=
  let p := path
  let rejected :=
    match paint.fShader with
    | some shader => !(shader.setContext cv.ctm)
    | none => false
  if rejected then some cv else
  let p := p.transform cv.ctm
  let edges := p.edgerSegments.foldl (clipSegment cv.width cv.height) []
  if edges.length = 0 then some cv else
  let edges := MUsortEdges edges
  cv.complex_scan edges paint

/-! ## Shaders (`my_shader.h`): construction and `setContext` -/

/-- Modelled from the spec: `GFloorToInt` of the absent header `GMath.h`;
the floor of the value as an `int`. -/
def GFloorToInt (x : ℚ) : Int := ⌊x⌋

/-- The tile modes of `GShader`. -/
inductive TileMode
  | kClamp | kRepeat | kMirror
  deriving DecidableEq, Repr

/-- `my_shader::clamp`. The second `GFloorToInt` is applied to the `int` `x_`
converted back to `float`. -/
def my_shader.clamp (x : ℚ) (bounds : Int) : Int :=
  let x_ := max (GFloorToInt x) 0
  let x_ := min (GFloorToInt (x_ : ℚ)) (bounds - 1)
  x_

/-- The five shader classes with their member variables. A proxy or composite
shader holds its children by pointer; here it holds their values. -/
inductive Shader
  | bitmap (fDevice : GBitmap) (fMatrix fInverse : GMatrix) (tm : TileMode)
  | linearGradient (colors : List GColor) (colors_count : Int) (fInverse fMatrix : GMatrix)
      (tm : TileMode)
  | triColor (c0 c1 c2 : GColor) (p0 p1 p2 : GPoint) (fInverse fMatrix : GMatrix)
  | proxy (fRealShader : Shader) (fExtraTransform : GMatrix)
  | composite (s0 s1 : Shader)

/-- The constructor `my_shader(device, matrix, tm)`. -/
def my_shader.create (device : GBitmap) (matrix : GMatrix) (tm : TileMode) : Shader :=
  Shader.bitmap device matrix GMatrix.identity tm

/-- The constructor `my_linear_gradient(p0, p1, c, count, tm)`. -/
def my_linear_gradient.create (p0 p1 : GPoint) (c : List GColor) (count : Nat)
    (tm : TileMode) : Shader :=
  let dx := p1.fX - p0.fX
  let dy := p1.fY - p0.fY
  Shader.linearGradient (c.take count) count GMatrix.identity
    ⟨dx, -dy, p0.fX, dy, dx, p0.fY⟩ tm

/-- The constructor `my_tri_color_shader(points, colors)`. -/
def my_tri_color_shader.create (points : Nat → GPoint) (colors : Nat → GColor) : Shader :=
  let p0 := points 0
  let p1 := points 1
  let p2 := points 2
  let u := p1 - p0
  let v := p2 - p0
  Shader.triColor (colors 0) (colors 1) (colors 2) p0 p1 p2 GMatrix.identity
    ⟨u.fX, v.fX, p0.fX, u.fY, v.fY, p0.fY⟩

/-- `M.invert(&out)` for a matrix `M` and a separate output object holding
`out`: the result and the output object afterwards. -/
def GMatrix.invertTo (M out : GMatrix) : Bool × GMatrix :=
  let r := GMatrix.invert (fun q => if q = 0 then M else out) 0 1
  (r.1, r.2 1)

/-- `setContext` of each shader class: the result and the shader afterwards.
The composite evaluates `s0->setContext(ctm) && s1->setContext(ctm)`, so the
second child is only called when the first accepts. -/
def Shader.setContext : Shader → GMatrix → Bool × Shader
  | Shader.bitmap d M inv tm, ctm =>
    let r := (GMatrix.Concat ctm M).invertTo inv
    (r.1, Shader.bitmap d M r.2 tm)
  | Shader.linearGradient cs n inv M tm, ctm =>
    let r := (GMatrix.Concat ctm M).invertTo inv
    (r.1, Shader.linearGradient cs n r.2 M tm)
  | Shader.triColor c0 c1 c2 p0 p1 p2 inv M, ctm =>
    let r := (GMatrix.Concat ctm M).invertTo inv
    (r.1, Shader.triColor c0 c1 c2 p0 p1 p2 r.2 M)
  | Shader.proxy real E, ctm =>
    let r := real.setContext (GMatrix.Concat ctm E)
    (r.1, Shader.proxy r.2 E)
  | Shader.composite s0 s1, ctm =>
    let r0 := s0.setContext ctm
    if r0.1 then
      let r1 := s1.setContext ctm
      (r1.1, Shader.composite r0.2 r1.2)
    else (false, Shader.composite r0.2 s1)

/-- A shader object as the canvas sees it during one draw: `setContext(ctm)`,
then rows from the shader as `setContext(ctm)` left it. `rows` is the
`shadeRow` of the shader classes. -/
def Shader.toGShader (s : Shader) (rows : Shader → Int → Int → Nat → List GPixel) : GShader :=
  { setContext := fun ctm => (s.setContext ctm).1
    shadeRow := fun ctm x y count => rows (s.setContext ctm).2 x y count }

/-- The determinant of the linear part of a matrix. -/
def GMatrix.det (M : GMatrix) : ℚ := M.a * M.e - M.b * M.d

/-- The product of the CTM with the local matrix of the shader is singular:
for a bitmap, gradient or tri-colour shader its own matrix, for a proxy its
extra transform (or the wrapped shader is singular under the combined matrix),
for a composite one of its two children. -/
def Shader.Singular : Shader → GMatrix → Prop
  | Shader.bitmap _ M _ _, ctm => (GMatrix.Concat ctm M).det = 0
  | Shader.linearGradient _ _ _ M _, ctm => (GMatrix.Concat ctm M).det = 0
  | Shader.triColor _ _ _ _ _ _ _ M, ctm => (GMatrix.Concat ctm M).det = 0
  | Shader.proxy real E, ctm =>
    (GMatrix.Concat ctm E).det = 0 ∨ real.Singular (GMatrix.Concat ctm E)
  | Shader.composite s0 s1, ctm => s0.Singular ctm ∨ s1.Singular ctm

/-! ## Orientation of a contour -/

/-- The first point of a segment. -/
def Segment.start : Segment → GPoint
  | Segment.line p0 _ => p0
  | Segment.quad p0 _ _ => p0
  | Segment.cubic p0 _ _ _ => p0

/-- The on-curve points of the contours of a path, in traversal order: the
start of every segment the Edger yields. -/
def GPath.onCurvePoints (p : GPath) : List GPoint :=
  p.edgerSegments.map Segment.start

/-- The sum of `x_i * y_(i+1) - x_(i+1) * y_i` along an open chain of points. -/
def shoelaceChain : List GPoint → ℚ
  | p :: q :: rest => (p.fX * q.fY - q.fX * p.fY) + shoelaceChain (q :: rest)
  | _ => 0

/-- Twice the signed area of the closed polygon through the points; its sign
is the orientation of the polygon. -/
def shoelace (pts : List GPoint) : ℚ :=
  match pts with
  | [] => 0
  | p :: _ => shoelaceChain (pts ++ [p])

/-! ## The source pixels of a paint -/

/-- The source pixel `blit(x0, x1, y, paint)` uses at column `x`: the packed
colour, or the entry of the shaded row. -/
def paintSource (ctm : GMatrix) (paint : GPaint) (x0 x1 y : Int) : Int → GPixel :=
  match paint.fShader with
  | some shader => fun x => (shader.shadeRow ctm x0 y (x1 - x0).toNat).getD (x - x0).toNat 0
  | none => fun _ => MUcolorToPixel paint.fColor

/-! ## Device clipping of an interval -/

/-- A coordinate moved into `[0, n]`: up to 0 first, then down to `n`. -/
def clampTo (x : ℚ) (n : Int) : ℚ :=
  let x1 := if x < 0 then 0 else x
  if x1 > (n : ℚ) then (n : ℚ) else x1

/-- The rows of a vertical segment from `t` down to `b` survive the clipping
to a device of height `h`. -/
def rowsSurvive (t b : ℚ) (h : Int) : Prop :=
  GRoundToInt t ≠ GRoundToInt b ∧ 0 < b ∧ t < (h : ℚ) ∧
    GRoundToInt (clampTo t h) ≠ GRoundToInt (clampTo b h)

instance (t b : ℚ) (h : Int) : Decidable (rowsSurvive t b h) := by
  unfold rowsSurvive; infer_instance

/-! ## Convex polygons: sides, edges and the containment rule -/

/-- The consecutive pairs of a chain of points. -/
def chainPairs : List GPoint → List (GPoint × GPoint)
  | p :: q :: rest => (p, q) :: chainPairs (q :: rest)
  | _ => []

/-- The sides of a polygon: every vertex with the next one, the last with the
first. -/
def polygonSides (pts : List GPoint) : List (GPoint × GPoint) :=
  match pts with
  | [] => []
  | p :: _ => chainPairs (pts ++ [p])

/-- The end of a side with the smaller y. -/
def topEnd (s : GPoint × GPoint) : GPoint := if s.1.fY > s.2.fY then s.2 else s.1

/-- The end of a side with the larger y. -/
def bottomEnd (s : GPoint × GPoint) : GPoint := if s.1.fY > s.2.fY then s.1 else s.2

/-- The edge `MUclipPoints` makes of a side that needs no clipping. -/
def insideEdge (s : GPoint × GPoint) : my_edge :=
  let m := ((bottomEnd s).fX - (topEnd s).fX) / ((bottomEnd s).fY - (topEnd s).fY)
  { m := m
    b := (topEnd s).fX - m * (topEnd s).fY
    curr_x := (topEnd s).fX + m * ((GRoundToInt (topEnd s).fY : ℚ) - (topEnd s).fY + 1 / 2)
    top := GRoundToInt (topEnd s).fY
    bottom := GRoundToInt (bottomEnd s).fY
    winding := if s.1.fY > s.2.fY then 1 else -1 }

/-- The edge of a side, when the side crosses the centre of a row. -/
def sideEdge (s : GPoint × GPoint) : Option my_edge :=
  if GRoundToInt s.1.fY = GRoundToInt s.2.fY then none else some (insideEdge s)

/-- The point lies in the closed device rectangle. -/
def GPoint.inDevice (p : GPoint) (w h : Int) : Prop :=
  0 ≤ p.fX ∧ p.fX ≤ (w : ℚ) ∧ 0 ≤ p.fY ∧ p.fY ≤ (h : ℚ)

/-- The cross product `(b - a) x (p - a)`: its sign says on which side of the
directed line from `a` to `b` the point `p` lies. -/
def cross (a b p : GPoint) : ℚ :=
  (b.fX - a.fX) * (p.fY - a.fY) - (b.fY - a.fY) * (p.fX - a.fX)

/-- The x at which the line of a side meets the height `c`. -/
def sideX (s : GPoint × GPoint) (c : ℚ) : ℚ :=
  (topEnd s).fX + (c - (topEnd s).fY) * ((bottomEnd s).fX - (topEnd s).fX)
    / ((bottomEnd s).fY - (topEnd s).fY)

/-- A convex polygon given by its vertices in order, in either direction: the
vertices are distinct, not all on one line, and every vertex lies on the same
side of (or on) the line of every side. Three or more vertices in a row on
one line are allowed. -/
def ConvexPolygon (pts : List GPoint) : Prop :=
  pts.Nodup ∧
    (∃ s ∈ polygonSides pts, ∃ p ∈ pts, cross s.1 s.2 p ≠ 0) ∧
    ((∀ s ∈ polygonSides pts, ∀ p ∈ pts, 0 ≤ cross s.1 s.2 p) ∨
      (∀ s ∈ polygonSides pts, ∀ p ∈ pts, cross s.1 s.2 p ≤ 0))

/-- The x of the points where a side meets the horizontal line at height `c`:
both ends of a horizontal side on the line, else the one point of a side
whose ends lie on either side of the line or on it. -/
def sideCrossings (c : ℚ) (s : GPoint × GPoint) : List ℚ :=
  if s.1.fY = s.2.fY then (if s.1.fY = c then [s.1.fX, s.2.fX] else [])
  else if (topEnd s).fY ≤ c ∧ c ≤ (bottomEnd s).fY then [sideX s c] else []

/-- The x of the points where the outline of the polygon meets the horizontal
line at height `c`. -/
def rowCrossings (pts : List GPoint) (c : ℚ) : List ℚ :=
  (polygonSides pts).flatMap (sideCrossings c)

/-- The containment rule for the centre of pixel `(x, y)`: the top of the
polygon (its least y) is above the centre and the bottom (its largest y) is
at or below it; the left boundary on the centre row (the least crossing x) is
left of the centre and the right boundary (the largest crossing x) at or
right of it. -/
def centreContained (pts : List GPoint) (x y : Int) : Prop :=
  (∃ p ∈ pts, p.fY < (y : ℚ) + 1 / 2) ∧ (∃ p ∈ pts, (y : ℚ) + 1 / 2 ≤ p.fY) ∧
    (∃ u ∈ rowCrossings pts ((y : ℚ) + 1 / 2), u < (x : ℚ) + 1 / 2) ∧
    (∃ u ∈ rowCrossings pts ((y : ℚ) + 1 / 2), (x : ℚ) + 1 / 2 ≤ u)

/-- The winding of the edges on the left of a convex polygon of direction `σ`:
the sides that run upwards when `σ = 1`, those that run downwards when
`σ = -1`. -/
def leftWinding (σ : ℚ) : Int := if σ = 1 then 1 else -1

/-- The edges of a polygon inside the device, before sorting. -/
def polygonEdges (pts : List GPoint) : List my_edge := (polygonSides pts).filterMap sideEdge

/-! ## The state of the convex scan -/

/-- The rows of an edge: `top ≤ y < bottom`. -/
def my_edge.covers (e : my_edge) (y : Int) : Prop := e.top ≤ y ∧ y < e.bottom

/-- The x of the edge's line at the centre of row `y`, before rounding. -/
def my_edge.xAt (e : my_edge) (y : Int) : ℚ := e.m * ((y : ℚ) + 1 / 2) + e.b

/-- What the convex scan needs of a sorted edge list between the rows `y0` and
`y1`: on every row exactly one edge of winding `lw` and one of winding `-lw`,
the first never to the right of the second, and the two meeting only on their
last row. -/
structure ScanReady (E : List my_edge) (y0 y1 : Int) (lw : Int) : Prop where
  lw_ne : lw ≠ -lw
  pos : ∀ e ∈ E, e.top < e.bottom
  range : ∀ e ∈ E, y0 ≤ e.top ∧ e.bottom ≤ y1
  curr : ∀ e ∈ E, e.curr_x = e.xAt e.top
  wind : ∀ e ∈ E, e.winding = lw ∨ e.winding = -lw
  sorted : E.Pairwise (fun a b => MULT b a = false)
  ex : ∀ y, y0 ≤ y → y < y1 → ∀ w, (w = lw ∨ w = -lw) → ∃ e ∈ E, e.covers y ∧ e.winding = w
  uniq : ∀ y i j e e', E.get? i = some e → E.get? j = some e' → e.covers y → e'.covers y →
    e.winding = e'.winding → i = j
  ord : ∀ e ∈ E, ∀ e' ∈ E, ∀ y, e.covers y → e'.covers y → e.winding = lw →
    e'.winding = -lw → e.xAt y ≤ e'.xAt y
  point : ∀ e ∈ E, ∀ e' ∈ E, ∀ y, e.covers y → e'.covers y → e.winding = lw →
    e'.winding = -lw → e.xAt y = e'.xAt y → e.bottom = y + 1 ∧ e'.bottom = y + 1

/-- The state of the convex scan at the start of row `y`: the left and right
index hold the two edges of the row, in order; the other edges before
`next` have ended and those from `next` on start later. -/
structure ScanInv (E : List my_edge) (y : Int) (L R next : Nat) (eL eR : my_edge) : Prop where
  getL : E.get? L = some eL
  getR : E.get? R = some eR
  ne : L ≠ R
  ltL : L < next
  ltR : R < next
  covL : eL.covers y
  covR : eR.covers y
  le : eL.xAt y ≤ eR.xAt y
  dead : ∀ k e, E.get? k = some e → k < next → k ≠ L → k ≠ R → e.bottom ≤ y
  future : ∀ k e, E.get? k = some e → next ≤ k → y < e.top

/-- Pixel column `i` of row `j` lies in the span between the rounded x of the
edge of winding `lw` and the rounded x of the edge of winding `-lw`. -/
def rowSpan (E : List my_edge) (lw : Int) (i j : Int) : Prop :=
  ∃ el ∈ E, ∃ er ∈ E, el.covers j ∧ er.covers j ∧ el.winding = lw ∧ er.winding = -lw ∧
    el.get_X j ≤ i ∧ i < er.get_X j

/-- A convex polygon with its direction: `σ = 1` when every vertex has a
cross product `≥ 0` with every side, `σ = -1` when `≤ 0`. -/
structure Oriented (pts : List GPoint) (σ : ℚ) : Prop where
  sign : σ = 1 ∨ σ = -1
  nodup : pts.Nodup
  off : ∃ s ∈ polygonSides pts, ∃ p ∈ pts, cross s.1 s.2 p ≠ 0
  side : ∀ s ∈ polygonSides pts, ∀ p ∈ pts, 0 ≤ σ * cross s.1 s.2 p

/-! ## Shaders (`my_shader.h`): `shadeRow` -/

/-- Modelled from the spec: `GColor operator+` of the absent header
`GColor.h`, componentwise. -/
instance : Add GColor := ⟨fun c d => ⟨c.r + d.r, c.g + d.g, c.b + d.b, c.a + d.a⟩⟩

/-- Modelled from the spec: `GColor operator-` of the absent header
`GColor.h`, componentwise. -/
instance : Sub GColor := ⟨fun c d => ⟨c.r - d.r, c.g - d.g, c.b - d.b, c.a - d.a⟩⟩

/-- Modelled from the spec: `float * GColor` of the absent header `GColor.h`,
componentwise. -/
instance : HMul ℚ GColor GColor := ⟨fun s c => ⟨s * c.r, s * c.g, s * c.b, s * c.a⟩⟩

/-- `MUmultiplyPixels`. -/
def MUmultiplyPixels (p0 p1 : GPixel) : GPixel :=
  let r := MUquickDivide255 (GPixel_GetR p0 * GPixel_GetR p1)
  let g := MUquickDivide255 (GPixel_GetG p0 * GPixel_GetG p1)
  let b := MUquickDivide255 (GPixel_GetB p0 * GPixel_GetB p1)
  let a := MUquickDivide255 (GPixel_GetA p0 * GPixel_GetA p1)
  GPixel_PackARGB a r g b

/-- Read a pixel through `getAddr(x, y)`; an address outside the bitmap is
undefined and yields `none`. -/
def GBitmap.load (bm : GBitmap) (x y : Int) : Option GPixel :=
  if 0 ≤ x ∧ x < bm.width ∧ 0 ≤ y ∧ y < bm.height then some (bm.pixels x y) else none

/-- The loop `while (x < 0) x += bounds`, with a bound on the number of
rounds; `none` when the bound is used up. -/
def raiseLoop (bounds : ℚ) : Nat → ℚ → Option ℚ
  | 0, x => if x < 0 then none else some x
  | fuel + 1, x => if x < 0 then raiseLoop bounds fuel (x + bounds) else some x

/-- The loop `while (x >= bounds) x -= bounds`, with a bound on the number of
rounds. -/
def lowerLoop (bounds : ℚ) : Nat → ℚ → Option ℚ
  | 0, x => if x ≥ bounds then none else some x
  | fuel + 1, x => if x ≥ bounds then lowerLoop bounds fuel (x - bounds) else some x

/-- `my_shader::repeat`; `fuel` bounds the rounds of each loop. -/
def my_shader.repeat (fuel : Nat) (x : ℚ) (bounds : Int) : Option Int := do
  let x ← raiseLoop bounds fuel x
  let x ← lowerLoop bounds fuel x
  pure (GFloorToInt x)

/-- `my_shader::mirror`. `%` is the remainder of C++, which truncates; a
remainder by `bounds = 0` is undefined and yields `none`. -/
def my_shader.mirror (x : ℚ) (bounds : Int) : Option Int :=
  let x := if x < 0 then x * -1 else x
  if bounds = 0 then none else
  let r := x / (bounds : ℚ)
  let floor := GFloorToInt r
  let x_ := GFloorToInt x
  if floor.tmod 2 = 0 then some (x_.tmod bounds)
  else some (bounds - x_.tmod bounds)

/-- The body of the loop of `my_shader::shadeRow` for the pixel `i`. -/
def my_shader.shadePixel (fuel : Nat) (fDevice : GBitmap) (fInverse : GMatrix) (tm : TileMode)
    (x y : Int) (i : Nat) : Option GPixel := do
  let canvas_pt : GPoint := ⟨(x : ℚ) + 1 / 2 + (i : ℚ), (y : ℚ) + 1 / 2⟩
  let inv_pt := fInverse.mapPoint canvas_pt
  let (x_, y_) ←
    match tm with
    | TileMode.kRepeat => do
      let x_ ← my_shader.repeat fuel inv_pt.fX fDevice.width
      let y_ ← my_shader.repeat fuel inv_pt.fY fDevice.height
      pure (x_, y_)
    | TileMode.kMirror => do
      let mx ← my_shader.mirror inv_pt.fX fDevice.width
      let my ← my_shader.mirror inv_pt.fY fDevice.height
      pure (my_shader.clamp (mx : ℚ) fDevice.width, my_shader.clamp (my : ℚ) fDevice.height)
    | TileMode.kClamp =>
      pure (my_shader.clamp inv_pt.fX fDevice.width, my_shader.clamp inv_pt.fY fDevice.height)
  fDevice.load x_ y_

/-- `my_linear_gradient::clamp`. -/
def my_linear_gradient.clamp (p : GPoint) : ℚ :=
  let x := p.fX
  let x := if p.fX < 0 then 0 else x
  let x := if p.fX > 1 then 1 else x
  x

/-- The loop `while (x > 1.0) x -= 1.0`, with a bound on the number of
rounds. -/
def lowerUnitLoop : Nat → ℚ → Option ℚ
  | 0, x => if x > 1 then none else some x
  | fuel + 1, x => if x > 1 then lowerUnitLoop fuel (x - 1) else some x

/-- `my_linear_gradient::repeat`; `fuel` bounds the rounds of each loop. -/
def my_linear_gradient.repeat (fuel : Nat) (p : GPoint) : Option ℚ := do
  let x := p.fX
  let x ← raiseLoop 1 fuel x
  lowerUnitLoop fuel x

/-- `my_linear_gradient::mirror`. -/
def my_linear_gradient.mirror (p : GPoint) : ℚ :=
  let x := p.fX
  let r := x - (GFloorToInt x : ℚ)
  if (GFloorToInt x).tmod 2 = 0 then 1 - r else r

/-- The element `a[index]` or `a.at(index)` for an `int` index: outside the
array or vector the read is undefined or throws, for a negative index too. -/
def arrayAt {α : Type} (a : List α) (index : Int) : Option α :=
  if 0 ≤ index then a.get? index.toNat else none

/-- The body of the loop of `my_linear_gradient::shadeRow` for the pixel `i`;
`none` when the assertion fails, `at` throws or a loop uses up `fuel`. -/
def my_linear_gradient.shadePixel (fuel : Nat) (colors : List GColor) (colors_count : Int)
    (fInverse : GMatrix) (tm : TileMode) (x y : Int) (i : Nat) : Option GPixel := do
  let pt : GPoint := ⟨(x : ℚ) + 1 / 2 + (i : ℚ), (y : ℚ) + 1 / 2⟩
  let p := fInverse.mapPoint pt
  let p_x ←
    match tm with
    | TileMode.kMirror => some (my_linear_gradient.mirror p)
    | TileMode.kRepeat => my_linear_gradient.repeat fuel p
    | TileMode.kClamp => some (my_linear_gradient.clamp p)
  let x_ := p_x * ((colors_count : ℚ) - 1)
  let index := GFloorToInt x_
  let w := x_ - (index : ℚ)
  let c ←
    if w = 0 then
      if index ≤ colors_count - 1 then arrayAt colors index else none
    else do
      let ca ← arrayAt colors index
      let cb ← arrayAt colors (index + 1)
      pure ((1 - w) * ca + w * cb)
  pure (MUcolorToPixel c)

/-- The loop of `my_tri_color_shader::shadeRow`: `row[i] = MUcolorToPixel(c)`,
then `c += dc`. -/
def triColorLoop : Nat → GColor → GColor → List GPixel
  | 0, _, _ => []
  | n + 1, c, dc => MUcolorToPixel c :: triColorLoop n (c + dc) dc

/-- `my_tri_color_shader::shadeRow`; `fInverse[0]` and `fInverse[3]` are the
entries `a` and `d` of the matrix. -/
def my_tri_color_shader.shadeRow (c0 c1 c2 : GColor) (fInverse : GMatrix) (x y : Int)
    (count : Nat) : List GPixel :=
  let dc1 := c1 - c0
  let dc2 := c2 - c0
  let pt : GPoint := ⟨(x : ℚ) + 1 / 2, (y : ℚ) + 1 / 2⟩
  let _p := fInverse.mapPoint pt
  let ddc1 := fInverse.a * dc1
  let ddc2 := fInverse.d * dc2
  let c := _p.fX * dc1 + _p.fY * dc2 + c0
  let dc := ddc1 + ddc2
  triColorLoop count c dc

/-- The loop `for (i = 0; i < count; ++i) row[i] = ...` of a `shadeRow`, from
the pixel computed for each `i`: undefined as soon as one pixel is. -/
def shadeLoop (pixel : Nat → Option GPixel) : Nat → Option (List GPixel)
  | 0 => some []
  | n + 1 => do
    let row ← shadeLoop pixel n
    let p ← pixel n
    pure (row ++ [p])

/-- `shadeRow` of each shader class, on the shader as `setContext` left it:
the `count` pixels written to `row`, or `none` when a pixel is undefined. -/
def Shader.shadeRow (fuel : Nat) : Shader → Int → Int → Nat → Option (List GPixel)
  | Shader.bitmap d _ inv tm, x, y, count =>
    shadeLoop (my_shader.shadePixel fuel d inv tm x y) count
  | Shader.linearGradient cs n inv _ tm, x, y, count =>
    shadeLoop (my_linear_gradient.shadePixel fuel cs n inv tm x y) count
  | Shader.triColor c0 c1 c2 _ _ _ inv _, x, y, count =>
    some (my_tri_color_shader.shadeRow c0 c1 c2 inv x y count)
  | Shader.proxy real _, x, y, count => real.shadeRow fuel x y count
  | Shader.composite s0 s1, x, y, count => do
    let c0 ← s0.shadeRow fuel x y count
    let c1 ← s1.shadeRow fuel x y count
    pure (List.zipWith MUmultiplyPixels c0 c1)

/-- The bitmap shader's index for a coordinate in mirror mode:
`clamp((float) mirror(c, dim), dim)`. -/
def my_shader.mirrorIndex (c : ℚ) (dim : Int) : Option Int :=
  (my_shader.mirror c dim).map fun m => my_shader.clamp (m : ℚ) dim

/-! ## Triangles, meshes and quads (`my_canvas.cpp`, `my_utils.h`) -/

/-- A shader object that a draw call builds around shader pointers, any of
which may be null: `setContext` is `none` where the call goes through a null
pointer, which is undefined. -/
structure BuiltShader where
  setContext : GMatrix → Option Bool
  shadeRow : GMatrix → Int → Int → Nat → List GPixel

/-- A shader of the caller, seen as a built shader. -/
def GShader.built (s : GShader) : BuiltShader :=
  { setContext := fun ctm => some (s.setContext ctm)
    shadeRow := s.shadeRow }

/-- `my_proxy_shader(shader, extraTransform)`: `setContext(ctm)` is
`fRealShader->setContext(ctm * fExtraTransform)` and `shadeRow` is the one of
the real shader in that context. -/
def my_proxy_shader.built (fRealShader : Option BuiltShader) (fExtraTransform : GMatrix) :
    BuiltShader :=
  { setContext := fun ctm =>
      match fRealShader with
      | some real => real.setContext (GMatrix.Concat ctm fExtraTransform)
      | none => none
    shadeRow := fun ctm x y count =>
      match fRealShader with
      | some real => real.shadeRow (GMatrix.Concat ctm fExtraTransform) x y count
      | none => [] }

/-- `my_composite_shader(s0, s1)`: `setContext(ctm)` is
`s0->setContext(ctm) && s1->setContext(ctm)`, so the second pointer is only
used when the first shader accepts; `shadeRow` multiplies the two rows. -/
def my_composite_shader.built (s0 : BuiltShader) (s1 : Option BuiltShader) : BuiltShader :=
  { setContext := fun ctm =>
      match s0.setContext ctm with
      | some true =>
        match s1 with
        | some s1 => s1.setContext ctm
        | none => none
      | r => r
    shadeRow := fun ctm x y count =>
      match s1 with
      | some s1 =>
        List.zipWith MUmultiplyPixels (s0.shadeRow ctm x y count) (s1.shadeRow ctm x y count)
      | none => [] }

/-- `new my_tri_color_shader(points, colors)` as a built shader. -/
def my_tri_color_shader.built (points : Nat → GPoint) (colors : Nat → GColor) : BuiltShader :=
  GShader.built ((my_tri_color_shader.create points colors).toGShader
    fun s x y count => (s.shadeRow 0 x y count).getD [])

/-- A paint whose shader pointer refers to a built shader or is null. -/
structure BuiltPaint where
  fColor : GColor
  fMode : GBlendMode := GBlendMode.kSrcOver
  fShader : Option BuiltShader := none

/-- The paint of the caller, seen as a paint over built shaders. -/
def GPaint.built (paint : GPaint) : BuiltPaint :=
  { fColor := paint.fColor, fMode := paint.fMode, fShader := paint.fShader.map GShader.built }

/-- Modelled from the spec: the constructor `GPaint(GShader*)` of the absent
header `GPaint.h`; the colour is opaque black and the blend mode the default
`kSrcOver`. -/
def BuiltPaint.ofShader (s : BuiltShader) : BuiltPaint :=
  { fColor := ⟨0, 0, 0, 1⟩, fShader := some s }

/-- `drawConvexPolygon` with a paint over built shaders: the one call
`setContext(ctm)` at its start is undefined when it goes through a null
pointer; otherwise the polygon is drawn with the shader seen as a `GShader`. -/
def my_canvas.drawConvexPolygonBuilt (cv : my_canvas) (points : List GPoint) (count : Nat)
    (paint : BuiltPaint) : Option my_canvas :=
  match paint.fShader with
  | none => cv.drawConvexPolygon points count { fColor := paint.fColor, fMode := paint.fMode }
  | some s =>
    match s.setContext cv.ctm with
    | none => none
    | some _ =>
      cv.drawConvexPolygon points count
        { fColor := paint.fColor, fMode := paint.fMode,
          fShader := some
            { setContext := fun ctm => (s.setContext ctm).getD false, shadeRow := s.shadeRow } }

/-- An array of colours given by its first elements. -/
def colorArray (l : List GColor) : Nat → GColor := fun i => l.getD i ⟨0, 0, 0, 0⟩

/-- `my_canvas::drawTriangle`; `colors` and `texs` are `none` for a null
pointer. -/
def my_canvas.drawTriangle (cv : my_canvas) (points : List GPoint)
    (colors : Option (List GColor)) (texs : Option (List GPoint)) (paint : BuiltPaint) :
    Option my_canvas :=
  match colors, texs with
  | some colors, some _ =>
    cv.drawConvexPolygonBuilt points 3
      (BuiltPaint.ofShader (my_composite_shader.built
        (my_tri_color_shader.built (pointArray points) (colorArray colors)) paint.fShader))
  | some colors, none =>
    cv.drawConvexPolygonBuilt points 3
      (BuiltPaint.ofShader (my_tri_color_shader.built (pointArray points) (colorArray colors)))
  | none, _ => cv.drawConvexPolygonBuilt points 3 paint

/-- `my_canvas::drawTriangleWithTex`; `originalShader` is `none` for a null
pointer. -/
def my_canvas.drawTriangleWithTex (cv : my_canvas) (points : List GPoint)
    (colors : Option (List GColor)) (texs : List GPoint) (originalShader : Option BuiltShader) :
    Option my_canvas :=
  let p := pointArray points
  let t := pointArray texs
  let P : GMatrix :=
    ⟨(p 1).fX - (p 0).fX, (p 2).fX - (p 0).fX, (p 0).fX,
     (p 1).fY - (p 0).fY, (p 2).fY - (p 0).fY, (p 0).fY⟩
  let T : GMatrix :=
    ⟨(t 1).fX - (t 0).fX, (t 2).fX - (t 0).fX, (t 0).fX,
     (t 1).fY - (t 0).fY, (t 2).fY - (t 0).fY, (t 0).fY⟩
  let r := T.invertTo GMatrix.identity
  if r.1 = false then some cv else
  let proxy := my_proxy_shader.built originalShader (GMatrix.Concat P r.2)
  cv.drawTriangle points colors (some texs) (BuiltPaint.ofShader proxy)

/-- The three elements `a[indices[n+0]]`, `a[indices[n+1]]`, `a[indices[n+2]]`;
`none` when a read is outside an array. -/
def gather {α : Type} (a : List α) (indices : List Int) (n : Int) : Option (List α) := do
  let i0 ← arrayAt indices (n + 0)
  let i1 ← arrayAt indices (n + 1)
  let i2 ← arrayAt indices (n + 2)
  let a0 ← arrayAt a i0
  let a1 ← arrayAt a i1
  let a2 ← arrayAt a i2
  pure [a0, a1, a2]

/-- The loop of `my_canvas::drawMesh`, with the number of triangles left and
the running index `n`. -/
def meshLoop (verts : List GPoint) (_colors : Option (List GColor))
    (_texs : Option (List GPoint)) (indices : List Int) (paint : GPaint) :
    Nat → Int → my_canvas → Option my_canvas
  | 0, _, cv => some cv
  | k + 1, n, cv => do
    let points ← gather verts indices n
    let cv ←
      match _colors, _texs with
      | some cs, some ts => do
        let colors ← gather cs indices n
        let texs ← gather ts indices n
        cv.drawTriangleWithTex points (some colors) texs (paint.fShader.map GShader.built)
      | some cs, none => do
        let colors ← gather cs indices n
        cv.drawTriangle points (some colors) none paint.built
      | none, some ts => do
        let texs ← gather ts indices n
        cv.drawTriangleWithTex points none texs (paint.fShader.map GShader.built)
      | none, none => cv.drawTriangle points none none paint.built
    meshLoop verts _colors _texs indices paint k (n + 3) cv

/-- `my_canvas::drawMesh`. -/
def my_canvas.drawMesh (cv : my_canvas) (verts : List GPoint) (_colors : Option (List GColor))
    (_texs : Option (List GPoint)) (count : Int) (indices : List Int) (paint : GPaint) :
    Option my_canvas :=
  meshLoop verts _colors _texs indices paint count.toNat 0 cv

/-- `MUbilerpPoint`. -/
def MUbilerpPoint (p : Nat → GPoint) (u v : ℚ) : GPoint :=
  ((1 - u) * (1 - v)) * p 0 + (u * (1 - v)) * p 1 + (u * v) * p 2 + (v * (1 - u)) * p 3

/-- `MUbilerpColor`. -/
def MUbilerpColor (c : Nat → GColor) (u v : ℚ) : GColor :=
  ((1 - u) * (1 - v)) * c 0 + (u * (1 - v)) * c 1 + (u * v) * c 2 + (v * (1 - u)) * c 3

/-- The point assignment loops of `drawQuad`: for `y` and `x` from 0 to
`level + 1` the value at `u = x / (level + 1)`, `v = y / (level + 1)`, stored
at consecutive places. -/
def quadGrid {α : Type} (level : Int) (f : ℚ → ℚ → α) : List α :=
  (List.range (level + 2).toNat).flatMap fun y : Nat =>
    (List.range (level + 2).toNat).map fun x : Nat =>
      f ((x : ℚ) / ((level + 1 : Int) : ℚ)) ((y : ℚ) / ((level + 1 : Int) : ℚ))

/-- The loop over the inner triangles of a row in `drawQuad`: the iterations
left, the running `l`, and the indices written so far. -/
def quadInner (level : Int) : Nat → Int → List Int → Int × List Int
  | 0, l, indices => (l, indices)
  | n + 1, l, indices =>
    quadInner level n (l + 1)
      (indices ++ [l, l + level + 2, l + level + 1, l, l + 1, l + level + 2])

/-- The loop `for (; j <= level; j++)` of `drawQuad`: the rows left, the
running `l`, and the indices written so far. -/
def quadRows (level : Int) : Nat → Int → List Int → List Int
  | 0, _, indices => indices
  | n + 1, l, indices =>
    let indices := indices ++ [l, l + 1, l + level + 2]
    let l := l + 1
    match quadInner level level.toNat l indices with
    | (l, indices) =>
      let indices := indices ++ [l, l + level + 2, l + level + 1]
      quadRows level n (l + 1) indices

/-- The array `indices` that `drawQuad` fills. -/
def quadIndices (level : Int) : List Int := quadRows level (level + 1).toNat 0 []

/-- `my_canvas::drawQuad`. -/
def my_canvas.drawQuad (cv : my_canvas) (verts : Nat → GPoint) (_colors : Option (Nat → GColor))
    (_texs : Option (Nat → GPoint)) (level : Int) (paint : GPaint) : Option my_canvas :=
  let nQuads := (level + 1) ^ 2
  let nTris := nQuads * 2
  let corner := quadGrid level (MUbilerpPoint verts)
  let colors := _colors.map fun c => quadGrid level (MUbilerpColor c)
  let texs := _texs.map fun t => quadGrid level (MUbilerpPoint t)
  cv.drawMesh corner colors texs nTris (quadIndices level) paint

/-- The indices of the claim for the cell in row `j`, column `m` of a grid of
level `L`, whose top-left corner is `tl = j*(L+2) + m`: the triangles
(TL, TR, BL) and (TR, BR, BL). -/
def cellTriangles (L j m : Nat) : List Int :=
  let tl : Int := (j : Int) * ((L : Int) + 2) + (m : Int)
  [tl, tl + 1, tl + (L : Int) + 2, tl + 1, tl + (L : Int) + 3, tl + (L : Int) + 2]

/-- The indices of the claim: the two triangles of every cell, row by row. -/
def cellIndices (L : Nat) : List Int :=
  (List.range (L + 1)).flatMap fun j => (List.range (L + 1)).flatMap fun m => cellTriangles L j m

/-! ## The pieces of a clipped segment -/

/-- The edge between two points with the winding `wd`. -/
def pieceEdge (a c : GPoint) (wd : Int) : my_edge :=
  { insideEdge (a, c) with winding := wd }

/-- The edges `MUmakeEdgeWinding(a, c, edges, wd)` appends: the edge between
the two points with the winding `wd`, unless both round to the same row. -/
def pieceEdges (a c : GPoint) (wd : Int) : List my_edge :=
  if GRoundToInt a.fY = GRoundToInt c.fY then [] else [pieceEdge a c wd]

/-- The steps `// LEFT` and `// RIGHT` of `MUclipPoints` and its final edge. -/
def clipSides (m b : ℚ) (w : Int) (winding : Int) (pLeft pRight : GPoint)
    (edges : List my_edge) : List my_edge :=
  match clipLeft m b winding pLeft pRight edges with
  | (pLeft, pRight, edges) =>
    match clipRight m b w winding pLeft pRight edges with
    | (pLeft, pRight, edges) => MUmakeEdgeWinding pLeft pRight edges winding

/-- The winding sign as the claim describes it: it starts at +1, is multiplied
by -1 when `p0.y > p1.y` (the points are then swapped), and once more exactly
when `p0.x ≥ p1.x` after that swap. -/
def claimedWinding (p0 p1 : GPoint) : Int :=
  let s : Int := 1
  let swapped := decide (p0.fY > p1.fY)
  let q0 := if swapped then p1 else p0
  let q1 := if swapped then p0 else p1
  let s := if swapped then s * -1 else s
  if q0.fX ≥ q1.fX then s * -1 else s

/-- The row `y` has its centre in the half-open span of heights between `a`
and `c`: above the centre the smaller one, at or below it the larger one. -/
def rowBetween (a c : ℚ) (y : Int) : Prop :=
  min a c < (y : ℚ) + 1 / 2 ∧ (y : ℚ) + 1 / 2 ≤ max a c

instance (a c : ℚ) (y : Int) : Decidable (rowBetween a c y) := by
  unfold rowBetween; infer_instance

instance (e : my_edge) (y : Int) : Decidable (e.covers y) := by
  unfold my_edge.covers; infer_instance

/-- The emitted edges whose rows include `y`. -/
def coveringEdges (edges : List my_edge) (y : Int) : List my_edge :=
  edges.filter fun e => decide (e.covers y)

/-- The edges of a segment cut in three: a vertical piece on `x = 0` between
the heights `cL` and `c1`, a vertical piece on `x = w` between `c2` and `cR`,
and the piece from `(X1, c1)` to `(X2, c2)`, in the order in which
`MUclipPoints` appends them. -/
def chainEdges (w : Int) (wd : Int) (cL cR c1 c2 X1 X2 : ℚ) : List my_edge :=
  pieceEdges ⟨0, c1⟩ ⟨0, cL⟩ wd ++ pieceEdges ⟨w, c2⟩ ⟨w, cR⟩ wd
    ++ pieceEdges ⟨X1, c1⟩ ⟨X2, c2⟩ wd

/-- The three pieces follow the line `x = m*y + b` clamped to `[0, w]` between
the heights `cL` and `cR`: the heights `cL`, `c1`, `c2`, `cR` are in order, up
or down; between `cL` and `c1` the line is left of the device, between `c2`
and `cR` right of it, and between `c1` and `c2` the piece from `(X1, c1)` to
`(X2, c2)` is the clamped line. -/
structure ClipChain (m b : ℚ) (w : Int) (cL cR c1 c2 X1 X2 : ℚ) : Prop where
  order : (cL ≤ c1 ∧ c1 ≤ c2 ∧ c2 ≤ cR) ∨ (cR ≤ c2 ∧ c2 ≤ c1 ∧ c1 ≤ cL)
  left : ∀ c, min cL c1 ≤ c → c ≤ max cL c1 → cL ≠ c1 → m * c + b ≤ 0
  right : ∀ c, min c2 cR ≤ c → c ≤ max c2 cR → c2 ≠ cR → (w : ℚ) ≤ m * c + b
  main : ∀ c, min c1 c2 ≤ c → c ≤ max c1 c2 → c1 ≠ c2 →
    sideX (⟨X1, c1⟩, ⟨X2, c2⟩) c = clampTo (m * c + b) w
  x1 : 0 ≤ X1 ∧ X1 ≤ (w : ℚ)
  x2 : 0 ≤ X2 ∧ X2 ≤ (w : ℚ)

/-! ## Closed polygons -/

/-- The sum of the windings of a list of edges. -/
def windingSum (edges : List my_edge) : Int := (edges.map fun e => e.winding).sum

/-- The edges of a closed polygon: `MUclipPoints` on every side in turn, the
side from the last point back to the first one last. -/
def closedPolygonEdges (pts : List GPoint) (w h : Int) : List my_edge :=
  (polygonSides pts).foldl (fun edges s => MUclipPoints s.1 s.2 w h edges) []

/-- The point lies above the centre of row `y`: 1 if so, else 0. -/
def aboveRow (y : Int) (p : GPoint) : Int := if p.fY < (y : ℚ) + 1 / 2 then 1 else 0

/-! ## The chords of a flattened curve -/

/-- The calls `MUclipPoints(p0, p1, ...)` of the loop
`for (int i = 1; i < k; ++i)` of `drawPath` over a curve, as the pairs of
points passed, with the point the loop leaves in `p0`; `none` when
`(float) i / k` divides by zero. -/
def chordLoop (eval : ℚ → GPoint) (k : Int) :
    Nat → Int → GPoint → Option (GPoint × List (GPoint × GPoint))
  | 0, _, p0 => some (p0, [])
  | fuel + 1, i, p0 =>
    if i < k then
      if k = 0 then none else
      let t := (i : ℚ) / (k : ℚ)
      let p1 := eval t
      match chordLoop eval k fuel (i + 1) p1 with
      | none => none
      | some (p, chords) => some (p, (p0, p1) :: chords)
    else some (p0, [])

/-- The pairs of points the `switch` of `my_canvas::drawPath` passes to
`MUclipPoints` for one segment, in order. -/
def segmentChords : Segment → Option (List (GPoint × GPoint))
  | Segment.line p0 p1 => some [(p0, p1)]
  | Segment.cubic a b c d =>
    let next_pts := pointArray [a, b, c, d]
    let k := MUcomputeCubicSegments next_pts
    match chordLoop (MUevalCubic next_pts) k (k - 1).toNat 1 a with
    | none => none
    | some (p0, chords) => some (chords ++ [(p0, d)])
  | Segment.quad a b c =>
    let next_pts := pointArray [a, b, c]
    let k := MUcomputeQuadSegments next_pts
    match chordLoop (MUevalQuad next_pts) k (k - 1).toNat 1 a with
    | none => none
    | some (p0, chords) => some (chords ++ [(p0, c)])

/-- The interior points of the polyline of a curve as the specification has
them: the curve at `t = i/k` for `i = first, first + 1, ...`, `n` of them. -/
def curvePoints (eval : ℚ → GPoint) (k : Int) (first : Int) (n : Nat) : List GPoint :=
  (List.range n).map fun j : Nat => eval (((first + (j : Int) : Int) : ℚ) / (k : ℚ))

/-- The indices `(x_, y_)` the loop of `my_shader::shadeRow` computes for the
pixel `i` and passes to `fDevice.getAddr`. -/
def my_shader.tileIndices (fuel : Nat) (fDevice : GBitmap) (fInverse : GMatrix) (tm : TileMode)
    (x y : Int) (i : Nat) : Option (Int × Int) :=
  let canvas_pt : GPoint := ⟨(x : ℚ) + 1 / 2 + (i : ℚ), (y : ℚ) + 1 / 2⟩
  let inv_pt := fInverse.mapPoint canvas_pt
  match tm with
  | TileMode.kRepeat => do
    let x_ ← my_shader.repeat fuel inv_pt.fX fDevice.width
    let y_ ← my_shader.repeat fuel inv_pt.fY fDevice.height
    pure (x_, y_)
  | TileMode.kMirror => do
    let mx ← my_shader.mirror inv_pt.fX fDevice.width
    let my ← my_shader.mirror inv_pt.fY fDevice.height
    pure (my_shader.clamp (mx : ℚ) fDevice.width, my_shader.clamp (my : ℚ) fDevice.height)
  | TileMode.kClamp =>
    pure (my_shader.clamp inv_pt.fX fDevice.width, my_shader.clamp inv_pt.fY fDevice.height)

/-- The `switch (tm)` of `my_linear_gradient::shadeRow`: the tiled position
`p_x` of the local point `p`. -/
def my_linear_gradient.tile (fuel : Nat) (tm : TileMode) (p : GPoint) : Option ℚ :=
  match tm with
  | TileMode.kMirror => some (my_linear_gradient.mirror p)
  | TileMode.kRepeat => my_linear_gradient.repeat fuel p
  | TileMode.kClamp => some (my_linear_gradient.clamp p)

/-- The rest of the loop body of `my_linear_gradient::shadeRow` once `p_x` is
known: scale, index, weight and the colour reads. -/
def my_linear_gradient.mix (colors : List GColor) (colors_count : Int) (p_x : ℚ) :
    Option GPixel := do
  let x_ := p_x * ((colors_count : ℚ) - 1)
  let index := GFloorToInt x_
  let w := x_ - (index : ℚ)
  let c ←
    if w = 0 then
      if index ≤ colors_count - 1 then arrayAt colors index else none
    else do
      let ca ← arrayAt colors index
      let cb ← arrayAt colors (index + 1)
      pure ((1 - w) * ca + w * cb)
  pure (MUcolorToPixel c)

/-! ## The winding scan over any `blit` -/

/-- An edge on row `y` as the specification has it: its current x moved on by
the slope once for every row since its top. -/
def my_edge.advanced (y : Int) (e : my_edge) : my_edge :=
  { e with curr_x := e.curr_x + ((y - e.top : Int) : ℚ) * e.m }

/-- An invertible matrix: determinant `2*1 - 1*1 = 1`. -/
def sampleMatrix : GMatrix := ⟨2, 1, 3, 1, 1, 5⟩

/-- A memory in which every address holds `sampleMatrix`. -/
def sampleMem : MatrixMem := fun _ => sampleMatrix

/-- A 4x4 bitmap of opaque black. -/
def sampleBitmap : GBitmap := ⟨4, 4, fun _ _ => 0xFF000000⟩

/-- The rectangle (1, 1, 3, 3). -/
def sampleRect : GRect := ⟨1, 1, 3, 3⟩

/-- Half-transparent white, SrcOver, no shader. -/
def samplePaint : GPaint := { fColor := ⟨1, 1, 1, 1 / 2⟩ }

/-- A call sequence with a nested save/restore pair. -/
def sampleOps : List CanvasOp :=
  [CanvasOp.concat (GMatrix.Translate 3 4), CanvasOp.save,
   CanvasOp.concat (GMatrix.Scale 2 2), CanvasOp.draw (fun cv => cv.fDevice),
   CanvasOp.restore, CanvasOp.draw (fun cv => cv.fDevice)]

/-- Opaque red, mode Src, no shader. -/
def redPaint : GPaint := { fColor := ⟨1, 0, 0, 1⟩, fMode := GBlendMode.kSrc }

/-- A 10x10 bitmap of transparent black. -/
def tenBitmap : GBitmap := ⟨10, 10, fun _ _ => 0⟩

/-- A linear gradient whose two points coincide. -/
def degenerateGradient : Shader :=
  my_linear_gradient.create ⟨1, 1⟩ ⟨1, 1⟩ [⟨1, 0, 0, 1⟩] 1 TileMode.kClamp

/-- Rows of transparent black, standing for rows that are never asked for. -/
def blankRows : Shader → Int → Int → Nat → List GPixel := fun _ _ _ count => List.replicate count 0

/-- A paint carrying `degenerateGradient`, in mode Clear. -/
def degeneratePaint : GPaint :=
  { fColor := ⟨1, 0, 0, 1⟩, fMode := GBlendMode.kClear,
    fShader := some (degenerateGradient.toGShader blankRows) }

/-- The triangle (0,4), (2,2), (-2,0): convex, counter-clockwise, reaching over
the left border of a 4x4 device. -/
def overhangTriangle : List GPoint := [⟨0, 4⟩, ⟨2, 2⟩, ⟨-2, 0⟩]

/-- A 100x100 bitmap of transparent black. -/
def hundredBitmap : GBitmap := ⟨100, 100, fun _ _ => 0⟩

/-- The triangle (10,10), (90,10), (50,90). -/
def sampleTriangle : List GPoint := [⟨10, 10⟩, ⟨90, 10⟩, ⟨50, 90⟩]

/-- A gradient from (1/2, 1/2) to (5/2, 1/2), red to blue, mirrored. -/
def mirrorGradient : Shader :=
  my_linear_gradient.create ⟨1 / 2, 1 / 2⟩ ⟨5 / 2, 1 / 2⟩ [⟨1, 0, 0, 1⟩, ⟨0, 0, 1, 1⟩] 2
    TileMode.kMirror

/-- The corners (0,0), (4,0), (0,4) as the array of a triangle. -/
def triPoints : Nat → GPoint := pointArray [⟨0, 0⟩, ⟨4, 0⟩, ⟨0, 4⟩]

/-- Red, green and blue as the colour array of a triangle. -/
def triColors : Nat → GColor := fun i =>
  if i = 0 then ⟨1, 0, 0, 1⟩ else if i = 1 then ⟨0, 1, 0, 1⟩ else ⟨0, 0, 1, 1⟩

/-- Texture coordinates (0,0), (1,0), (0,1). -/
def unitTexs : List GPoint := [⟨0, 0⟩, ⟨1, 0⟩, ⟨0, 1⟩]

/-- Texture coordinates that are three times the point (0,0). -/
def zeroTexs : List GPoint := [⟨0, 0⟩, ⟨0, 0⟩, ⟨0, 0⟩]

/-- A paint with a bitmap shader over `sampleBitmap` under the identity, which
accepts the identity CTM; the rows asked for in the uses below have no
pixels. -/
def texturePaint : GPaint :=
  { fColor := ⟨1, 0, 0, 1⟩,
    fShader := some
      ((my_shader.create sampleBitmap GMatrix.identity TileMode.kClamp).toGShader blankRows) }

theorem quickDivide255_eq (p : Nat) (h : p ≤ 65025) :
    MUquickDivide255 p = (2 * p + 255) / 510 := by
  unfold MUquickDivide255
  rw [Nat.shiftRight_eq_div_pow, Nat.mod_eq_of_lt (by omega : p + 128 < 2 ^ 32),
    Nat.mod_eq_of_lt (by omega : (p + 128) * 257 < 2 ^ 32)]
  omega



theorem quickDivide255_mono {x y : Nat} (h : x ≤ y) (hy : y ≤ 65025) :
    MUquickDivide255 x ≤ MUquickDivide255 y := by
  rw [quickDivide255_eq x (by omega), quickDivide255_eq y hy]
  omega

theorem quickDivide255_le {p n : Nat} (h : p ≤ 255 * n) (hn : n ≤ 255) :
    MUquickDivide255 p ≤ n := by
  rw [quickDivide255_eq p (by omega)]
  omega

theorem quickDivide255_add_le {p q n : Nat} (h : p + q ≤ 255 * n) (hn : n ≤ 255) :
    MUquickDivide255 p + MUquickDivide255 q ≤ n := by
  rw [quickDivide255_eq p (by omega), quickDivide255_eq q (by omega)]
  omega

theorem byte_mul_le {x y : Nat} (hx : x ≤ 255) (hy : y ≤ 255) : x * y ≤ 65025 :=
  Nat.mul_le_mul hx hy

/-! ### Packing and unpacking -/

theorem getA_eq (p : GPixel) : GPixel_GetA p = p / 2 ^ 24 % 256 := by
  unfold GPixel_GetA
  rw [Nat.shiftRight_eq_div_pow]
  exact Nat.and_pow_two_sub_one_eq_mod _ 8

theorem getR_eq (p : GPixel) : GPixel_GetR p = p / 2 ^ 16 % 256 := by
  unfold GPixel_GetR
  rw [Nat.shiftRight_eq_div_pow]
  exact Nat.and_pow_two_sub_one_eq_mod _ 8

theorem getG_eq (p : GPixel) : GPixel_GetG p = p / 2 ^ 8 % 256 := by
  unfold GPixel_GetG
  rw [Nat.shiftRight_eq_div_pow]
  exact Nat.and_pow_two_sub_one_eq_mod _ 8

theorem getB_eq (p : GPixel) : GPixel_GetB p = p % 256 := by
  unfold GPixel_GetB
  exact Nat.and_pow_two_sub_one_eq_mod _ 8

theorem getA_le (p : GPixel) : GPixel_GetA p ≤ 255 := by rw [getA_eq]; omega

theorem getR_le (p : GPixel) : GPixel_GetR p ≤ 255 := by rw [getR_eq]; omega

theorem getG_le (p : GPixel) : GPixel_GetG p ≤ 255 := by rw [getG_eq]; omega

theorem getB_le (p : GPixel) : GPixel_GetB p ≤ 255 := by rw [getB_eq]; omega

/-- With byte-sized arguments the shifted fields do not overlap, so the
packed word is the positional sum. -/
theorem packARGB_eq {a r g b : Nat} (ha : a ≤ 255) (hr : r ≤ 255) (hg : g ≤ 255)
    (hb : b ≤ 255) : GPixel_PackARGB a r g b = a * 2 ^ 24 + r * 2 ^ 16 + g * 2 ^ 8 + b := by
  unfold GPixel_PackARGB
  have h1 : (g <<< 8) ||| b = g * 2 ^ 8 + b := by
    rw [Nat.shiftLeft_eq, Nat.mul_comm g, ← Nat.mul_add_lt_is_or (by omega : b < 2 ^ 8)]
  have h2 : (r <<< 16) ||| (g * 2 ^ 8 + b) = r * 2 ^ 16 + (g * 2 ^ 8 + b) := by
    rw [Nat.shiftLeft_eq, Nat.mul_comm r,
      ← Nat.mul_add_lt_is_or (by omega : g * 2 ^ 8 + b < 2 ^ 16)]
  have h3 : (a <<< 24) ||| (r * 2 ^ 16 + (g * 2 ^ 8 + b))
      = a * 2 ^ 24 + (r * 2 ^ 16 + (g * 2 ^ 8 + b)) := by
    rw [Nat.shiftLeft_eq, Nat.mul_comm a,
      ← Nat.mul_add_lt_is_or (by omega : r * 2 ^ 16 + (g * 2 ^ 8 + b) < 2 ^ 24)]
  rw [Nat.or_assoc, Nat.or_assoc, h1, h2, h3]
  show @Eq Nat _ _
  omega

theorem getA_pack {a r g b : Nat} (ha : a ≤ 255) (hr : r ≤ 255) (hg : g ≤ 255)
    (hb : b ≤ 255) : GPixel_GetA (GPixel_PackARGB a r g b) = a := by
  rw [getA_eq, packARGB_eq ha hr hg hb]; omega

theorem getR_pack {a r g b : Nat} (ha : a ≤ 255) (hr : r ≤ 255) (hg : g ≤ 255)
    (hb : b ≤ 255) : GPixel_GetR (GPixel_PackARGB a r g b) = r := by
  rw [getR_eq, packARGB_eq ha hr hg hb]; omega

theorem getG_pack {a r g b : Nat} (ha : a ≤ 255) (hr : r ≤ 255) (hg : g ≤ 255)
    (hb : b ≤ 255) : GPixel_GetG (GPixel_PackARGB a r g b) = g := by
  rw [getG_eq, packARGB_eq ha hr hg hb]; omega

theorem getB_pack {a r g b : Nat} (ha : a ≤ 255) (hr : r ≤ 255) (hg : g ≤ 255)
    (hb : b ≤ 255) : GPixel_GetB (GPixel_PackARGB a r g b) = b := by
  rw [getB_eq, packARGB_eq ha hr hg hb]; omega

/-- A 32-bit word is the packing of its own four channels. -/
theorem pack_channels (p : Nat) (hp : p < 2 ^ 32) : (GPixel.channels p).pack = p := by
  unfold GPixel.channels ARGB.pack
  rw [packARGB_eq (getA_le p) (getR_le p) (getG_le p) (getB_le p),
    getA_eq, getR_eq, getG_eq, getB_eq]
  show @Eq Nat _ _
  omega

/-! ### The blend table -/

/-- The locals of every blend helper are the table entries of their channel. -/
theorem MUblendARGB_eq_table (S D : GPixel) (M : GBlendMode) :
    MUblendARGB S D M =
      ⟨blendTable (GPixel_GetA S) (GPixel_GetA D) (GPixel_GetA S) (GPixel_GetA D) M,
       blendTable (GPixel_GetA S) (GPixel_GetA D) (GPixel_GetR S) (GPixel_GetR D) M,
       blendTable (GPixel_GetA S) (GPixel_GetA D) (GPixel_GetG S) (GPixel_GetG D) M,
       blendTable (GPixel_GetA S) (GPixel_GetA D) (GPixel_GetB S) (GPixel_GetB D) M⟩ := by
  cases M <;>
    simp [MUblendARGB, blendTable, GPixel.channels, MUsrcOverARGB, MUsrcInARGB, MUsrcOutARGB,
      MUsrcATopARGB, MUxorARGB, Nat.mul_comm, Nat.add_comm]

/-- The pixel `MUblend` returns is the packing of the channel values. -/
theorem MUblend_eq_pack (S D : GPixel) (M : GBlendMode) (hS : S < 2 ^ 32) (hD : D < 2 ^ 32) :
    MUblend S D M = (MUblendARGB S D M).pack := by
  cases M
  case kClear => rfl
  all_goals
    simp only [MUblend, MUblendARGB, MUsrcOver, MUsrcIn, MUsrcOut, MUsrcATop, MUxor,
      pack_channels _ hS, pack_channels _ hD]

theorem blendTable_mono {sa da s d : Nat} (hsa : sa ≤ 255) (hda : da ≤ 255) (hs : s ≤ sa)
    (hd : d ≤ da) (M : GBlendMode) : blendTable sa da s d M ≤ blendTable sa da sa da M := by
  have h1 : (255 - sa) * d ≤ (255 - sa) * da := Nat.mul_le_mul_left _ hd
  have h2 : (255 - da) * s ≤ (255 - da) * sa := Nat.mul_le_mul_left _ hs
  have h3 : da * s ≤ da * sa := Nat.mul_le_mul_left _ hs
  have h4 : sa * d ≤ sa * da := Nat.mul_le_mul_left _ hd
  have b1 : (255 - sa) * da ≤ 65025 := byte_mul_le (by omega) hda
  have b2 : (255 - da) * sa ≤ 65025 := byte_mul_le (by omega) hsa
  have b3 : da * sa ≤ 65025 := byte_mul_le hda hsa
  have b4 : sa * da ≤ 65025 := byte_mul_le hsa hda
  have q1 := quickDivide255_mono h1 b1
  have q2 := quickDivide255_mono h2 b2
  have q3 := quickDivide255_mono h3 b3
  have q4 := quickDivide255_mono h4 b4
  cases M <;> simp only [blendTable] <;> omega

theorem blendTable_alpha_le {sa da : Nat} (hsa : sa ≤ 255) (hda : da ≤ 255) (M : GBlendMode) :
    blendTable sa da sa da M ≤ 255 := by
  obtain ⟨u, hu⟩ : ∃ u, sa + u = 255 := ⟨255 - sa, by omega⟩
  obtain ⟨v, hv⟩ : ∃ v, da + v = 255 := ⟨255 - da, by omega⟩
  have eu : 255 - sa = u := by omega
  have ev : 255 - da = v := by omega
  have e1 : u * da + sa * da = 255 * da := by rw [← Nat.add_mul]; congr 1; omega
  have e2 : v * sa + da * sa = 255 * sa := by rw [← Nat.add_mul]; congr 1; omega
  have e3 : u * da + v * sa + (sa * da + sa * da) = 255 * da + 255 * sa := by
    have : da * sa = sa * da := Nat.mul_comm _ _
    omega
  have e4 : sa * da + u * da + (v * sa + u * v) = 255 * 255 := by
    have : (sa + u) * (da + v) = 255 * 255 := by rw [hu, hv]
    have e : (sa + u) * (da + v) = sa * da + u * da + (v * sa + u * v) := by ring
    omega
  have c1 : da * sa = sa * da := Nat.mul_comm _ _
  have c2 : u * da ≤ 255 * u := by
    rw [Nat.mul_comm 255 u]; exact Nat.mul_le_mul_left _ hda
  have c3 : v * sa ≤ 255 * v := by
    rw [Nat.mul_comm 255 v]; exact Nat.mul_le_mul_left _ hsa
  have c4 : sa * da ≤ 255 * sa := by
    rw [Nat.mul_comm 255 sa]; exact Nat.mul_le_mul_left _ hda
  have c5 : da * sa ≤ 255 * da := by
    rw [Nat.mul_comm 255 da]; exact Nat.mul_le_mul_left _ hsa
  have q1 : MUquickDivide255 (u * da) ≤ u := quickDivide255_le c2 (by omega)
  have q2 : MUquickDivide255 (v * sa) ≤ v := quickDivide255_le c3 (by omega)
  have q3 : MUquickDivide255 (da * sa) ≤ da := quickDivide255_le c5 hda
  have q4 : MUquickDivide255 (sa * da) ≤ sa := quickDivide255_le c4 hsa
  have q5 : MUquickDivide255 (da * sa) + MUquickDivide255 (u * da) ≤ da :=
    quickDivide255_add_le (by omega) hda
  have q6 : MUquickDivide255 (sa * da) + MUquickDivide255 (v * sa) ≤ sa :=
    quickDivide255_add_le (by omega) hsa
  have q7 : MUquickDivide255 (u * da) + MUquickDivide255 (v * sa) ≤ 255 :=
    quickDivide255_add_le (by omega) (by omega)
  cases M <;> simp only [blendTable, eu, ev] <;> omega

/-- Under premultiplied inputs every channel value is a byte and no colour
channel value exceeds the alpha value. -/
theorem MUblendARGB_bounds (S D : GPixel) (M : GBlendMode) (hS : Premul S) (hD : Premul D) :
    (MUblendARGB S D M).a ≤ 255 ∧ (MUblendARGB S D M).r ≤ (MUblendARGB S D M).a ∧
      (MUblendARGB S D M).g ≤ (MUblendARGB S D M).a ∧
      (MUblendARGB S D M).b ≤ (MUblendARGB S D M).a := by
  obtain ⟨sr, sg, sb⟩ := hS
  obtain ⟨dr, dg, db⟩ := hD
  rw [MUblendARGB_eq_table]
  exact ⟨blendTable_alpha_le (getA_le S) (getA_le D) M,
    blendTable_mono (getA_le S) (getA_le D) sr dr M,
    blendTable_mono (getA_le S) (getA_le D) sg dg M,
    blendTable_mono (getA_le S) (getA_le D) sb db M⟩

/-- Packing premultiplied byte channels gives a premultiplied pixel. -/
theorem premul_pack (c : ARGB) (ha : c.a ≤ 255) (hr : c.r ≤ c.a) (hg : c.g ≤ c.a)
    (hb : c.b ≤ c.a) : Premul c.pack := by
  have h1 : c.r ≤ 255 := le_trans hr ha
  have h2 : c.g ≤ 255 := le_trans hg ha
  have h3 : c.b ≤ 255 := le_trans hb ha
  unfold Premul ARGB.pack
  rw [getA_pack ha h1 h2 h3, getR_pack ha h1 h2 h3, getG_pack ha h1 h2 h3,
    getB_pack ha h1 h2 h3]
  exact ⟨hr, hg, hb⟩

/-! ## The claims about pixels -/

/-- C1: for each of the twelve blend modes and all 32-bit pixels `S`, `D`, the
four channel values `MUblend` computes are the table entries of their own
channel (every product divided by `MUquickDivide255`), and the pixel returned
is the packing of these four values. -/
theorem MUblend_computes_table (S D : GPixel) (M : GBlendMode) (hS : S < 2 ^ 32)
    (hD : D < 2 ^ 32) :
    MUblendARGB S D M =
        ⟨blendTable (GPixel_GetA S) (GPixel_GetA D) (GPixel_GetA S) (GPixel_GetA D) M,
         blendTable (GPixel_GetA S) (GPixel_GetA D) (GPixel_GetR S) (GPixel_GetR D) M,
         blendTable (GPixel_GetA S) (GPixel_GetA D) (GPixel_GetG S) (GPixel_GetG D) M,
         blendTable (GPixel_GetA S) (GPixel_GetA D) (GPixel_GetB S) (GPixel_GetB D) M⟩ ∧
      MUblend S D M =
        GPixel_PackARGB
          (blendTable (GPixel_GetA S) (GPixel_GetA D) (GPixel_GetA S) (GPixel_GetA D) M)
          (blendTable (GPixel_GetA S) (GPixel_GetA D) (GPixel_GetR S) (GPixel_GetR D) M)
          (blendTable (GPixel_GetA S) (GPixel_GetA D) (GPixel_GetG S) (GPixel_GetG D) M)
          (blendTable (GPixel_GetA S) (GPixel_GetA D) (GPixel_GetB S) (GPixel_GetB D) M) := by
  refine ⟨MUblendARGB_eq_table S D M, ?_⟩
  rw [MUblend_eq_pack S D M hS hD, MUblendARGB_eq_table]
  rfl

/-- C1 at a concrete input: half-transparent source over an opaque destination
in mode SrcATop. -/
theorem MUblend_computes_table_witness :
    (0x80402010 < 2 ^ 32 ∧ 0xFF102030 < 2 ^ 32) ∧
      MUblend 0x80402010 0xFF102030 kSrcATop =
        GPixel_PackARGB
          (blendTable (GPixel_GetA 0x80402010) (GPixel_GetA 0xFF102030)
            (GPixel_GetA 0x80402010) (GPixel_GetA 0xFF102030) kSrcATop)
          (blendTable (GPixel_GetA 0x80402010) (GPixel_GetA 0xFF102030)
            (GPixel_GetR 0x80402010) (GPixel_GetR 0xFF102030) kSrcATop)
          (blendTable (GPixel_GetA 0x80402010) (GPixel_GetA 0xFF102030)
            (GPixel_GetG 0x80402010) (GPixel_GetG 0xFF102030) kSrcATop)
          (blendTable (GPixel_GetA 0x80402010) (GPixel_GetA 0xFF102030)
            (GPixel_GetB 0x80402010) (GPixel_GetB 0xFF102030) kSrcATop) :=
  ⟨⟨by decide, by decide⟩,
    (MUblend_computes_table 0x80402010 0xFF102030 kSrcATop (by decide) (by decide)).2⟩

/-- C2: for every `p` with `0 ≤ p ≤ 65025` the 32-bit computation does not
wrap, `MUquickDivide255 p = ((p + 128) * 257) >> 16`, and this is `p / 255`
rounded to the nearest integer: `floor((2p + 255) / 510)`, at distance at most
`127/255` from `p / 255`, which is `floor(p/255 + 1/2)`. -/
theorem MUquickDivide255_exact (p : Nat) (hp : p ≤ 65025) :
    MUquickDivide255 p = ((p + 128) * 257) >>> 16 ∧
      MUquickDivide255 p = (2 * p + 255) / 510 ∧
      255 * MUquickDivide255 p ≤ p + 127 ∧ p ≤ 255 * MUquickDivide255 p + 127 ∧
      (MUquickDivide255 p : Int) = ⌊(p : ℚ) / 255 + 1 / 2⌋ := by
  have h := quickDivide255_eq p hp
  refine ⟨?_, h, by omega, by omega, ?_⟩
  · unfold MUquickDivide255
    rw [Nat.mod_eq_of_lt (by omega : p + 128 < 2 ^ 32),
      Nat.mod_eq_of_lt (by omega : (p + 128) * 257 < 2 ^ 32)]
  · symm
    rw [Int.floor_eq_iff]
    have h1 : 255 * MUquickDivide255 p ≤ p + 127 := by omega
    have h2 : p ≤ 255 * MUquickDivide255 p + 127 := by omega
    have h1' : (255 : ℚ) * (MUquickDivide255 p : ℚ) ≤ (p : ℚ) + 127 := by exact_mod_cast h1
    have h2' : (p : ℚ) ≤ 255 * (MUquickDivide255 p : ℚ) + 127 := by exact_mod_cast h2
    constructor
    · push_cast
      linarith
    · push_cast
      linarith

/-- C2 at the largest product of two bytes. -/
theorem MUquickDivide255_exact_witness :
    65025 ≤ 65025 ∧ MUquickDivide255 65025 = (2 * 65025 + 255) / 510 :=
  ⟨le_refl _, (MUquickDivide255_exact 65025 (le_refl _)).2.1⟩

/-- C3: for premultiplied `S` and `D` and every mode, each of the four channel
values `MUblend` computes before packing is in `0..255`; the subtractions
`255 - alpha` they are built from do not go below zero either. -/
theorem MUblend_channels_in_byte_range (S D : GPixel) (M : GBlendMode) (hS : Premul S)
    (hD : Premul D) :
    (GPixel_GetA S ≤ 255 ∧ GPixel_GetA D ≤ 255) ∧
      0 ≤ (MUblendARGB S D M).a ∧ (MUblendARGB S D M).a ≤ 255 ∧
      0 ≤ (MUblendARGB S D M).r ∧ (MUblendARGB S D M).r ≤ 255 ∧
      0 ≤ (MUblendARGB S D M).g ∧ (MUblendARGB S D M).g ≤ 255 ∧
      0 ≤ (MUblendARGB S D M).b ∧ (MUblendARGB S D M).b ≤ 255 := by
  obtain ⟨ha, hr, hg, hb⟩ := MUblendARGB_bounds S D M hS hD
  exact ⟨⟨getA_le S, getA_le D⟩, Nat.zero_le _, ha, Nat.zero_le _, le_trans hr ha,
    Nat.zero_le _, le_trans hg ha, Nat.zero_le _, le_trans hb ha⟩

/-- C3 at a concrete input: Xor of two half-transparent pixels. -/
theorem MUblend_channels_in_byte_range_witness :
    (Premul 0x80402010 ∧ Premul 0x7F7F0000) ∧
      (MUblendARGB 0x80402010 0x7F7F0000 kXor).a ≤ 255 :=
  ⟨⟨by decide, by decide⟩,
    (MUblend_channels_in_byte_range 0x80402010 0x7F7F0000 kXor (by decide) (by decide)).2.2.1⟩

/-- C4: blending preserves the premultiplied invariant: for premultiplied `S`
and `D` and every mode the pixel `MUblend S D M` has R, G, B at most A. -/
theorem MUblend_preserves_premul (S D : GPixel) (M : GBlendMode) (hS : Premul S)
    (hD : Premul D) : Premul (MUblend S D M) := by
  obtain ⟨ha, hr, hg, hb⟩ := MUblendARGB_bounds S D M hS hD
  have key := premul_pack (MUblendARGB S D M) ha hr hg hb
  cases M
  case kSrc => exact hS
  case kDst => exact hD
  all_goals exact key

/-- C4 at a concrete input, with the resulting pixel. -/
theorem MUblend_preserves_premul_witness :
    (Premul 0x80402010 ∧ Premul 0xFF102030) ∧ Premul (MUblend 0x80402010 0xFF102030 kSrcOver) :=
  ⟨⟨by decide, by decide⟩,
    MUblend_preserves_premul 0x80402010 0xFF102030 kSrcOver (by decide) (by decide)⟩

/-! ## Colour to pixel -/

theorem pinUnit_nonneg (x : ℚ) : 0 ≤ pinUnit x := le_max_left _ _

theorem pinUnit_le_one (x : ℚ) : pinUnit x ≤ 1 :=
  max_le (by norm_num) (min_le_left _ _)

theorem MUfloatTo255_nonneg {x : ℚ} (h : 0 ≤ x) : 0 ≤ MUfloatTo255 x := by
  unfold MUfloatTo255
  apply Int.floor_nonneg.mpr
  linarith

theorem MUfloatTo255_le {x : ℚ} (h : x ≤ 1) : MUfloatTo255 x ≤ 255 := by
  unfold MUfloatTo255
  have : ⌊x * 255 + 1 / 2⌋ < 256 := by
    apply Int.floor_lt.mpr
    push_cast
    linarith
  omega

theorem MUfloatTo255_mono {x y : ℚ} (h : x ≤ y) : MUfloatTo255 x ≤ MUfloatTo255 y := by
  unfold MUfloatTo255
  apply Int.floor_mono
  linarith

theorem toUnsigned_byte {i : Int} (h0 : 0 ≤ i) (h1 : i ≤ 255) :
    ((toUnsigned i : Nat) : Int) = i ∧ toUnsigned i ≤ 255 := by
  unfold toUnsigned
  omega

/-- C5: for every colour, components outside [0,1] included, the pixel
`MUcolorToPixel` packs has alpha `floor(255*a' + 1/2)` and colour channels
`floor(255*(x'*a') + 1/2)` where `'` is the clamp to [0,1]; every channel is
in `0..255` and r, g, b are at most a. -/
theorem MUcolorToPixel_premul (c : GColor) :
    ((GPixel_GetA (MUcolorToPixel c) : Int) = ⌊pinUnit c.a * 255 + 1 / 2⌋ ∧
      (GPixel_GetR (MUcolorToPixel c) : Int) = ⌊pinUnit c.r * pinUnit c.a * 255 + 1 / 2⌋ ∧
      (GPixel_GetG (MUcolorToPixel c) : Int) = ⌊pinUnit c.g * pinUnit c.a * 255 + 1 / 2⌋ ∧
      (GPixel_GetB (MUcolorToPixel c) : Int) = ⌊pinUnit c.b * pinUnit c.a * 255 + 1 / 2⌋) ∧
    (GPixel_GetA (MUcolorToPixel c) ≤ 255 ∧ GPixel_GetR (MUcolorToPixel c) ≤ 255 ∧
      GPixel_GetG (MUcolorToPixel c) ≤ 255 ∧ GPixel_GetB (MUcolorToPixel c) ≤ 255) ∧
    (GPixel_GetR (MUcolorToPixel c) ≤ GPixel_GetA (MUcolorToPixel c) ∧
      GPixel_GetG (MUcolorToPixel c) ≤ GPixel_GetA (MUcolorToPixel c) ∧
      GPixel_GetB (MUcolorToPixel c) ≤ GPixel_GetA (MUcolorToPixel c)) := by
  have a0 := pinUnit_nonneg c.a
  have a1 := pinUnit_le_one c.a
  have chan : ∀ x : ℚ, 0 ≤ pinUnit x * pinUnit c.a ∧ pinUnit x * pinUnit c.a ≤ pinUnit c.a :=
    fun x => ⟨mul_nonneg (pinUnit_nonneg x) a0,
      mul_le_of_le_one_left a0 (pinUnit_le_one x)⟩
  have bnd : ∀ x : ℚ, 0 ≤ MUfloatTo255 (pinUnit x * pinUnit c.a) ∧
      MUfloatTo255 (pinUnit x * pinUnit c.a) ≤ MUfloatTo255 (pinUnit c.a) :=
    fun x => ⟨MUfloatTo255_nonneg (chan x).1, MUfloatTo255_mono (chan x).2⟩
  have A0 := MUfloatTo255_nonneg a0
  have A1 := MUfloatTo255_le a1
  obtain ⟨ua, la⟩ := toUnsigned_byte A0 A1
  obtain ⟨ur, lr⟩ := toUnsigned_byte (bnd c.r).1 (le_trans (bnd c.r).2 A1)
  obtain ⟨ug, lg⟩ := toUnsigned_byte (bnd c.g).1 (le_trans (bnd c.g).2 A1)
  obtain ⟨ub, lb⟩ := toUnsigned_byte (bnd c.b).1 (le_trans (bnd c.b).2 A1)
  have hp : MUcolorToPixel c =
      GPixel_PackARGB (toUnsigned (MUfloatTo255 (pinUnit c.a)))
        (toUnsigned (MUfloatTo255 (pinUnit c.r * pinUnit c.a)))
        (toUnsigned (MUfloatTo255 (pinUnit c.g * pinUnit c.a)))
        (toUnsigned (MUfloatTo255 (pinUnit c.b * pinUnit c.a))) := rfl
  rw [hp, getA_pack la lr lg lb, getR_pack la lr lg lb, getG_pack la lr lg lb,
    getB_pack la lr lg lb]
  have hr := (bnd c.r).2
  have hg := (bnd c.g).2
  have hb := (bnd c.b).2
  refine ⟨⟨ua, ur, ug, ub⟩, ⟨la, lr, lg, lb⟩, ?_, ?_, ?_⟩ <;> omega

/-! ## Matrices -/

theorem invert_singular (mem : MatrixMem) (self inverse : Nat)
    (h : (mem self).b * (mem self).d - (mem self).a * (mem self).e = 0) :
    GMatrix.invert mem self inverse = (false, mem) := by
  unfold GMatrix.invert
  simp only [h, if_true]

/-- The memory after a successful `invert`: the six stores leave exactly the
six locals `inv[0..5]` in the object at `inverse` and touch nothing else. -/
theorem invert_regular (mem : MatrixMem) (self inverse : Nat)
    (h : (mem self).b * (mem self).d - (mem self).a * (mem self).e ≠ 0) :
    GMatrix.invert mem self inverse =
      (true, fun q =>
        if q = inverse then
          ⟨(-1 * (mem self).e) * (1 / ((mem self).b * (mem self).d - (mem self).a * (mem self).e)),
           (mem self).b * (1 / ((mem self).b * (mem self).d - (mem self).a * (mem self).e)),
           (-1 * (mem self).b * (mem self).f + (mem self).e * (mem self).c)
             * (1 / ((mem self).b * (mem self).d - (mem self).a * (mem self).e)),
           (mem self).d * (1 / ((mem self).b * (mem self).d - (mem self).a * (mem self).e)),
           (-1 * (mem self).a) * (1 / ((mem self).b * (mem self).d - (mem self).a * (mem self).e)),
           (-1 * (mem self).c * (mem self).d + (mem self).a * (mem self).f)
             * (1 / ((mem self).b * (mem self).d - (mem self).a * (mem self).e))⟩
        else mem q) := by
  unfold GMatrix.invert
  simp only [h, if_false]
  congr 1
  funext q
  by_cases hq : q = inverse <;> simp [MatrixMem.setAt, hq]

/-- The matrix a successful `invert` leaves at `inverse` is a two-sided inverse
of the matrix that was at `self` when it was called. -/
theorem invert_regular_inverse (mem : MatrixMem) (self inverse : Nat)
    (h : (mem self).b * (mem self).d - (mem self).a * (mem self).e ≠ 0) :
    GMatrix.Concat (mem self) ((GMatrix.invert mem self inverse).2 inverse) = GMatrix.identity ∧
      GMatrix.Concat ((GMatrix.invert mem self inverse).2 inverse) (mem self)
        = GMatrix.identity := by
  rw [invert_regular mem self inverse h]
  simp only [if_true, GMatrix.Concat, GMatrix.identity, GMatrix.mk.injEq]
  refine ⟨⟨?_, ?_, ?_, ?_, ?_, ?_⟩, ⟨?_, ?_, ?_, ?_, ?_, ?_⟩⟩ <;> field_simp <;> ring

theorem mapPoint_Concat (A B : GMatrix) (p : GPoint) :
    (GMatrix.Concat A B).mapPoint p = A.mapPoint (B.mapPoint p) := by
  simp only [GMatrix.mapPoint, GMatrix.Concat, GPoint.mk.injEq]
  constructor <;> ring

theorem mapPoint_identity (p : GPoint) : GMatrix.identity.mapPoint p = p := by
  cases p
  simp [GMatrix.mapPoint, GMatrix.identity]

theorem Concat_identity_left (A : GMatrix) : GMatrix.Concat GMatrix.identity A = A := by
  cases A
  simp [GMatrix.Concat, GMatrix.identity]

theorem Concat_identity_right (A : GMatrix) : GMatrix.Concat A GMatrix.identity = A := by
  cases A
  simp [GMatrix.Concat, GMatrix.identity]

/-- The loop of `mapPoints` after `n` iterations: the first `n` cells of `dst`
hold the images of the first `n` source points. -/
theorem mapPoints_firstN (M : GMatrix) (dst src : List GPoint) (n : Nat)
    (hs : n ≤ src.length) (hd : n ≤ dst.length) :
    M.mapPoints dst src n = some ((src.take n).map M.mapPoint ++ dst.drop n) := by
  unfold GMatrix.mapPoints
  induction n with
  | zero => simp
  | succ n ih =>
    have hs' : n < src.length := hs
    have hd' : n < dst.length := hd
    rw [List.range_succ, List.foldlM_append, ih (by omega) (by omega)]
    simp only [List.get?_eq_getElem?, List.getElem?_eq_getElem hs', List.foldlM_cons,
      List.foldlM_nil, Option.some_bind, Option.bind_eq_bind]
    have hlen : n < ((src.take n).map M.mapPoint ++ dst.drop n).length := by
      simp only [List.length_append, List.length_map, List.length_take, List.length_drop]
      omega
    rw [if_pos hlen]
    simp only [Option.pure_def, Option.bind_some, Option.some.injEq]
    have e0 : ((src.take n).map M.mapPoint).length = n := by
      simp [List.length_take]; omega
    rw [List.set_append_right _ _ (by omega), e0, Nat.sub_self,
      List.drop_eq_getElem_cons hd', List.set_cons_zero]
    rw [List.take_succ, List.getElem?_eq_getElem hs']
    simp only [Option.toList, List.map_append, List.map_cons, List.map_nil, List.append_assoc,
      List.singleton_append]

theorem mapPoints_eq_map (M : GMatrix) (dst src : List GPoint)
    (h : dst.length = src.length) :
    M.mapPoints dst src src.length = some (src.map M.mapPoint) := by
  rw [mapPoints_firstN M dst src src.length (le_refl _) (by omega)]
  simp [← h]

/-- The in-place loop: a cell is read before it is overwritten and never
afterwards, so the result is the same. -/
theorem mapPointsInPlace_firstN (M : GMatrix) (pts : List GPoint) (n : Nat)
    (hn : n ≤ pts.length) :
    M.mapPointsInPlace pts n = some ((pts.take n).map M.mapPoint ++ pts.drop n) := by
  unfold GMatrix.mapPointsInPlace
  induction n with
  | zero => simp
  | succ n ih =>
    have hn' : n < pts.length := hn
    rw [List.range_succ, List.foldlM_append, ih (by omega)]
    have e0 : ((pts.take n).map M.mapPoint).length = n := by
      simp [List.length_take]; omega
    have hget : ((pts.take n).map M.mapPoint ++ pts.drop n)[n]? = some pts[n] := by
      rw [List.getElem?_append_right (by omega), e0, Nat.sub_self,
        List.drop_eq_getElem_cons hn']
      simp
    simp only [List.get?_eq_getElem?, hget, List.foldlM_cons, List.foldlM_nil,
      Option.some_bind, Option.bind_eq_bind, Option.pure_def, Option.bind_some,
      Option.some.injEq]
    rw [List.set_append_right _ _ (by omega), e0, Nat.sub_self,
      List.drop_eq_getElem_cons hn', List.set_cons_zero]
    rw [List.take_succ, List.getElem?_eq_getElem hn']
    simp only [Option.toList, List.map_append, List.map_cons, List.map_nil, List.append_assoc,
      List.singleton_append]

theorem mapPointsInPlace_eq_map (M : GMatrix) (pts : List GPoint) :
    M.mapPointsInPlace pts pts.length = some (pts.map M.mapPoint) := by
  rw [mapPointsInPlace_firstN M pts pts.length (le_refl _)]
  simp

/-- C6: in exact arithmetic, for every matrix with `a*e - b*d ≠ 0`, `invert`
returns true and the matrix it writes is a right and a left inverse under
`Concat`. -/
theorem GMatrix_invert_is_inverse (mem : MatrixMem) (self inverse : Nat)
    (h : (mem self).a * (mem self).e - (mem self).b * (mem self).d ≠ 0) :
    (GMatrix.invert mem self inverse).1 = true ∧
      GMatrix.Concat (mem self) ((GMatrix.invert mem self inverse).2 inverse)
        = GMatrix.identity ∧
      GMatrix.Concat ((GMatrix.invert mem self inverse).2 inverse) (mem self)
        = GMatrix.identity := by
  have h' : (mem self).b * (mem self).d - (mem self).a * (mem self).e ≠ 0 := by
    intro h0
    apply h
    linarith
  refine ⟨?_, invert_regular_inverse mem self inverse h'⟩
  rw [invert_regular mem self inverse h']

/-- C6 at `sampleMatrix`, inverted into a second object. -/
theorem GMatrix_invert_is_inverse_witness :
    (sampleMem 0).a * (sampleMem 0).e - (sampleMem 0).b * (sampleMem 0).d ≠ 0 ∧
      GMatrix.Concat (sampleMem 0) ((GMatrix.invert sampleMem 0 1).2 1) = GMatrix.identity :=
  ⟨by norm_num [sampleMem, sampleMatrix],
    (GMatrix_invert_is_inverse sampleMem 0 1 (by norm_num [sampleMem, sampleMatrix])).2.1⟩

/-- C7: `invert` returns false exactly when `b*d - a*e = 0`, and then the
memory (the output matrix included) is unchanged; when it returns true the
matrix written is the inverse of the matrix as it was before the call, also
when `inverse` is the address of the matrix being inverted, and no other
object is written. -/
theorem GMatrix_invert_failure_and_aliasing (mem : MatrixMem) (self inverse : Nat) :
    ((GMatrix.invert mem self inverse).1 = false ↔
        (mem self).b * (mem self).d - (mem self).a * (mem self).e = 0) ∧
      ((GMatrix.invert mem self inverse).1 = false →
        (GMatrix.invert mem self inverse).2 = mem) ∧
      ((GMatrix.invert mem self self).1 = true →
        GMatrix.Concat (mem self) ((GMatrix.invert mem self self).2 self) = GMatrix.identity ∧
        GMatrix.Concat ((GMatrix.invert mem self self).2 self) (mem self)
          = GMatrix.identity) ∧
      ((GMatrix.invert mem self inverse).1 = true →
        GMatrix.Concat (mem self) ((GMatrix.invert mem self inverse).2 inverse)
          = GMatrix.identity ∧
        GMatrix.Concat ((GMatrix.invert mem self inverse).2 inverse) (mem self)
          = GMatrix.identity ∧
        ∀ q, q ≠ inverse → (GMatrix.invert mem self inverse).2 q = mem q) := by
  by_cases h : (mem self).b * (mem self).d - (mem self).a * (mem self).e = 0
  · have e1 := invert_singular mem self inverse h
    have e2 := invert_singular mem self self h
    simp [e1, e2, h]
  · have e1 := invert_regular mem self inverse h
    have e2 := invert_regular mem self self h
    have i1 := invert_regular_inverse mem self inverse h
    have i2 := invert_regular_inverse mem self self h
    refine ⟨?_, ?_, fun _ => i2, fun _ => ⟨i1.1, i1.2, ?_⟩⟩
    · simp [e1, h]
    · simp [e1]
    · intro q hq
      simp [e1, hq]

/-- C7 at `sampleMatrix` inverted in place: the call succeeds and the object
then holds the inverse of what it held. -/
theorem GMatrix_invert_failure_and_aliasing_witness :
    (GMatrix.invert sampleMem 0 0).1 = true ∧
      GMatrix.Concat (sampleMem 0) ((GMatrix.invert sampleMem 0 0).2 0) = GMatrix.identity :=
  have hdet : ¬ ((sampleMem 0).b * (sampleMem 0).d - (sampleMem 0).a * (sampleMem 0).e = 0) := by
    norm_num [sampleMem, sampleMatrix]
  have ht : (GMatrix.invert sampleMem 0 0).1 = true := by
    cases hb : (GMatrix.invert sampleMem 0 0).1
    · exact absurd ((GMatrix_invert_failure_and_aliasing sampleMem 0 0).1.mp hb) hdet
    · rfl
  ⟨ht, ((GMatrix_invert_failure_and_aliasing sampleMem 0 0).2.2.1 ht).1⟩

/-- C8: `Concat A B` maps a point as `B` followed by `A`, for single points
and for whole arrays through `mapPoints` (separate or in-place destination);
the default-constructed matrix maps every point to itself and is a left and
right unit of `Concat`. -/
theorem Concat_is_composition (A B : GMatrix) (p : GPoint) (src : List GPoint) :
    (GMatrix.Concat A B).mapPoint p = A.mapPoint (B.mapPoint p) ∧
      (∀ dst : List GPoint, dst.length = src.length →
        (GMatrix.Concat A B).mapPoints dst src src.length
          = ((B.mapPoints dst src src.length).bind fun mid =>
              A.mapPoints dst mid mid.length)) ∧
      (GMatrix.Concat A B).mapPointsInPlace src src.length
        = ((B.mapPointsInPlace src src.length).bind fun mid =>
            A.mapPointsInPlace mid mid.length) ∧
      GMatrix.identity.mapPoint p = p ∧
      GMatrix.identity.mapPointsInPlace src src.length = some src ∧
      GMatrix.Concat GMatrix.identity A = A ∧
      GMatrix.Concat A GMatrix.identity = A := by
  have hcomp : src.map (GMatrix.Concat A B).mapPoint
      = (src.map B.mapPoint).map A.mapPoint := by
    rw [List.map_map]
    exact List.map_congr_left fun q _ => mapPoint_Concat A B q
  refine ⟨mapPoint_Concat A B p, ?_, ?_, mapPoint_identity p, ?_,
    Concat_identity_left A, Concat_identity_right A⟩
  · intro dst hd
    rw [mapPoints_eq_map _ dst src hd, mapPoints_eq_map _ dst src hd, Option.some_bind]
    have h2 := mapPoints_eq_map A dst (src.map B.mapPoint) (by simp [hd])
    rw [h2, hcomp]
  · rw [mapPointsInPlace_eq_map, mapPointsInPlace_eq_map, Option.some_bind,
      mapPointsInPlace_eq_map, hcomp]
  · rw [mapPointsInPlace_eq_map]
    congr 1
    conv_rhs => rw [← List.map_id src]
    exact List.map_congr_left fun q _ => mapPoint_identity q

/-! ## The CTM stack -/

theorem run_append (ops₁ ops₂ : List CanvasOp) (cv : my_canvas) :
    cv.run (ops₁ ++ ops₂) = (cv.run ops₁).bind fun cv => cv.run ops₂ := by
  induction ops₁ generalizing cv with
  | nil => rfl
  | cons op ops ih =>
    simp only [List.cons_append, my_canvas.run]
    cases cv.step op with
    | none => rfl
    | some cv1 => exact ih cv1

/-- A balanced sequence runs to completion and leaves the stack of saved
matrices as it found it. -/
theorem balanced_run {ops : List CanvasOp} (hb : Balanced ops) :
    ∀ cv : my_canvas, ∃ cv1, cv.run ops = some cv1 ∧ cv1.saves = cv.saves := by
  induction hb with
  | nil => exact fun cv => ⟨cv, rfl, rfl⟩
  | concat m _ ih =>
    intro cv
    obtain ⟨cv1, h1, h2⟩ := ih (cv.concat m)
    exact ⟨cv1, by simpa [my_canvas.run, my_canvas.step] using h1, h2⟩
  | draw d _ ih =>
    intro cv
    obtain ⟨cv1, h1, h2⟩ := ih { cv with fDevice := d cv }
    exact ⟨cv1, by simpa [my_canvas.run, my_canvas.step] using h1, h2⟩
  | nest _ _ ih₁ ih₂ =>
    intro cv
    obtain ⟨cv1, h1, h2⟩ := ih₁ cv.save
    have hs : cv1.saves = cv.ctm :: cv.saves := h2
    obtain ⟨cv2, h3, h4⟩ := ih₂ { cv1 with ctm := cv.ctm, saves := cv.saves }
    refine ⟨cv2, ?_, h4⟩
    simp only [my_canvas.run, my_canvas.step, run_append, h1, Option.some_bind,
      my_canvas.restore, hs]
    exact h3

/-- C9: from every canvas state, `save()`, then any sequence of concat calls,
draws and balanced nested save/restore pairs, then `restore()` runs to
completion with the CTM and the stack of saved matrices as they were before;
and a freshly constructed canvas has the identity CTM and one saved frame, so
one `restore()` on it succeeds and yields the identity. -/
theorem save_restore_balanced (cv : my_canvas) (ops : List CanvasOp) (hb : Balanced ops) :
    (∃ cv1, cv.run (CanvasOp.save :: (ops ++ [CanvasOp.restore])) = some cv1 ∧
        cv1.ctm = cv.ctm ∧ cv1.saves = cv.saves) ∧
      ∀ device : GBitmap,
        (my_canvas.create device).ctm = GMatrix.identity ∧
        (my_canvas.create device).saves = [GMatrix.identity] ∧
        ∃ cv1, (my_canvas.create device).restore = some cv1 ∧
          cv1.ctm = GMatrix.identity ∧ cv1.saves = [] := by
  constructor
  · obtain ⟨cv1, h1, h2⟩ := balanced_run hb cv.save
    have hs : cv1.saves = cv.ctm :: cv.saves := h2
    refine ⟨{ cv1 with ctm := cv.ctm, saves := cv.saves }, ?_, rfl, rfl⟩
    simp only [my_canvas.run, my_canvas.step, run_append, h1, Option.some_bind,
      my_canvas.restore, hs]
  · intro device
    exact ⟨rfl, rfl, _, rfl, rfl, rfl⟩

theorem sampleOps_balanced : Balanced sampleOps :=
  Balanced.concat _ (Balanced.nest (Balanced.concat _ (Balanced.draw _ Balanced.nil))
    (Balanced.draw _ Balanced.nil))

/-- C9 at `sampleOps` on a fresh canvas over `sampleBitmap`. -/
theorem save_restore_balanced_witness :
    Balanced sampleOps ∧
      ∃ cv1, (my_canvas.create sampleBitmap).run
          (CanvasOp.save :: (sampleOps ++ [CanvasOp.restore])) = some cv1 ∧
        cv1.ctm = (my_canvas.create sampleBitmap).ctm ∧
        cv1.saves = (my_canvas.create sampleBitmap).saves :=
  ⟨sampleOps_balanced,
    (save_restore_balanced (my_canvas.create sampleBitmap) sampleOps sampleOps_balanced).1⟩

/-! ## Rectangle fill -/

theorem round_le_iff (z : ℚ) (n : Int) : GRoundToInt z ≤ n ↔ z < (n : ℚ) + 1 / 2 := by
  unfold GRoundToInt
  rw [← Int.lt_add_one_iff, Int.floor_lt]
  push_cast
  constructor <;> intro h <;> linarith

theorem lt_round_iff (z : ℚ) (n : Int) : n < GRoundToInt z ↔ (n : ℚ) + 1 / 2 ≤ z := by
  unfold GRoundToInt
  rw [← Int.add_one_le_iff, Int.le_floor]
  push_cast
  constructor <;> intro h <;> linarith

theorem round_mono {x y : ℚ} (h : x ≤ y) : GRoundToInt x ≤ GRoundToInt y := by
  unfold GRoundToInt
  apply Int.floor_mono
  linarith

theorem round_intCast (n : Int) : GRoundToInt (n : ℚ) = n := by
  apply le_antisymm
  · rw [round_le_iff]; linarith
  · have := (lt_round_iff (n : ℚ) (n - 1)).mpr (by push_cast; linarith)
    omega

/-- `MUmakeEdgeWinding` on the two ends of a vertical segment. -/
theorem MUmakeEdgeWinding_vertical (x y0 y1 : ℚ) (edges : List my_edge) (w : Int) :
    MUmakeEdgeWinding ⟨x, y0⟩ ⟨x, y1⟩ edges w =
      if GRoundToInt (min y0 y1) = GRoundToInt (max y0 y1) then edges
      else edges ++ [⟨0, x, x, GRoundToInt (min y0 y1), GRoundToInt (max y0 y1), w⟩] := by
  unfold MUmakeEdgeWinding my_edge.setWinding my_edge.set
  by_cases h : y0 > y1
  · have e1 : min y0 y1 = y1 := min_eq_right (le_of_lt h)
    have e2 : max y0 y1 = y0 := max_eq_left (le_of_lt h)
    rw [e1, e2]
    by_cases hr : GRoundToInt y1 = GRoundToInt y0 <;> simp [h, hr]
  · have h' : y0 ≤ y1 := not_lt.mp h
    have e1 : min y0 y1 = y0 := min_eq_left h'
    have e2 : max y0 y1 = y1 := max_eq_right h'
    rw [e1, e2]
    by_cases hr : GRoundToInt y0 = GRoundToInt y1 <;> simp [h, hr]

theorem MUclipPoints_horizontal (p0 p1 : GPoint) (w h : Int) (edges : List my_edge)
    (hy : p0.fY = p1.fY) : MUclipPoints p0 p1 w h edges = edges := by
  unfold MUclipPoints
  simp [hy]

theorem clipLeft_vertical (m b : ℚ) (wd : Int) (x yl yr : ℚ) (edges : List my_edge) :
    clipLeft m b wd ⟨x, yl⟩ ⟨x, yr⟩ edges
      = (⟨if x < 0 then 0 else x, yl⟩, ⟨if x < 0 then 0 else x, yr⟩, edges) := by
  unfold clipLeft
  by_cases h : x < 0 <;> simp [h]

theorem clipRight_vertical (m b : ℚ) (w wd : Int) (x yl yr : ℚ) (edges : List my_edge) :
    clipRight m b w wd ⟨x, yl⟩ ⟨x, yr⟩ edges
      = (⟨if x > (w : ℚ) then (w : ℚ) else x, yl⟩,
         ⟨if x > (w : ℚ) then (w : ℚ) else x, yr⟩, edges) := by
  unfold clipRight
  by_cases h : x > (w : ℚ) <;> simp [h]

theorem clampTo_rows {t b : ℚ} {h : Int} (hh : 0 ≤ h) (hb : ¬ b ≤ 0)
    (ht : ¬ t ≥ (h : ℚ)) :
    clampTo t h = (if t < 0 then 0 else t) ∧ clampTo b h = (if b > (h : ℚ) then (h : ℚ) else b) := by
  have hh' : (0 : ℚ) ≤ (h : ℚ) := by exact_mod_cast hh
  unfold clampTo
  push_neg at hb ht
  by_cases h1 : t < 0 <;> by_cases h2 : b > (h : ℚ) <;>
    simp [h1, h2, not_lt.mpr hb.le, not_lt.mpr hh', not_lt.mpr ht.le]

theorem clampTo_mono {x y : ℚ} (n : Int) (h : x ≤ y) : clampTo x n ≤ clampTo y n := by
  unfold clampTo
  simp only
  split_ifs <;> linarith

theorem clampTo_nonneg (x : ℚ) {n : Int} (hn : 0 ≤ n) : 0 ≤ clampTo x n := by
  have hn' : (0 : ℚ) ≤ (n : ℚ) := by exact_mod_cast hn
  unfold clampTo
  simp only
  split_ifs <;> linarith

theorem clampTo_le (x : ℚ) (n : Int) : clampTo x n ≤ (n : ℚ) := by
  unfold clampTo
  simp only
  split_ifs <;> linarith

/-- A vertical segment given by its two ends in either order: what
`MUclipPoints` appends, with the winding `wd` fixed by the order. -/
theorem MUclipPoints_vertical (x y0 y1 t b : ℚ) (wd : Int) (w h : Int) (edges : List my_edge)
    (htb : t ≤ b) (hh : 0 ≤ h)
    (hord : (y0 = t ∧ y1 = b ∧ wd = -1) ∨ (y0 = b ∧ y1 = t ∧ wd = 1)) :
    MUclipPoints ⟨x, y0⟩ ⟨x, y1⟩ w h edges =
      if rowsSurvive t b h then
        edges ++ [⟨0, clampTo x w, clampTo x w, GRoundToInt (clampTo t h),
          GRoundToInt (clampTo b h), wd⟩]
      else edges := by
  by_cases h1 : GRoundToInt t = GRoundToInt b
  · have hr : GRoundToInt y0 = GRoundToInt y1 := by
      rcases hord with ⟨e0, e1, _⟩ | ⟨e0, e1, _⟩ <;> rw [e0, e1, h1]
    unfold MUclipPoints rowsSurvive
    by_cases hs : y0 > y1 <;> simp [hs, hr, h1]
  have hne : t ≠ b := fun e => h1 (by rw [e])
  have hlt : t < b := lt_of_le_of_ne htb hne
  -- after the swap the top point is `(x, t)` and the bottom point `(x, b)`
  have hpre : MUclipPoints ⟨x, y0⟩ ⟨x, y1⟩ w h edges =
      if b ≤ 0 then edges else if t ≥ (h : ℚ) then edges else
        match clipLeft 0 x wd (clipBottom 0 x h ⟨x, b⟩) (clipTop x ⟨x, t⟩) edges with
        | (pLeft, pRight, edges) =>
          match clipRight 0 x w wd pLeft pRight edges with
          | (pLeft, pRight, edges) => MUmakeEdgeWinding pLeft pRight edges wd := by
    unfold MUclipPoints
    rcases hord with ⟨e0, e1, e2⟩ | ⟨e0, e1, e2⟩
    · subst e0 e1 e2
      simp [not_lt.mpr htb, h1]
    · subst e0 e1 e2
      simp [hlt, h1]
  rw [hpre]
  unfold rowsSurvive
  by_cases h2 : b ≤ 0
  · simp [h2, not_lt.mpr h2]
  by_cases h3 : t ≥ (h : ℚ)
  · simp [h2, h3, not_lt.mpr h3]
  obtain ⟨ct, cb⟩ := clampTo_rows hh h2 h3
  have cle : clampTo t h ≤ clampTo b h := clampTo_mono h htb
  have eB : clipBottom 0 x h ⟨x, b⟩ = ⟨x, clampTo b h⟩ := by
    unfold clipBottom
    rw [cb]
    by_cases c : b > (h : ℚ) <;> simp [c]
  have eT : clipTop x ⟨x, t⟩ = ⟨x, clampTo t h⟩ := by
    unfold clipTop
    rw [ct]
    by_cases c : t < 0 <;> simp [c]
  have eX : (if (if x < 0 then (0 : ℚ) else x) > (w : ℚ) then (w : ℚ)
      else (if x < 0 then (0 : ℚ) else x)) = clampTo x w := rfl
  rw [eB, eT, clipLeft_vertical]
  simp only [h2, h3, if_false]
  rw [clipRight_vertical]
  simp only [eX]
  rw [MUmakeEdgeWinding_vertical, min_eq_right cle, max_eq_left cle]
  push_neg at h2 h3
  by_cases h4 : GRoundToInt (clampTo t h) = GRoundToInt (clampTo b h)
  · simp [h4]
  · simp [h1, h2, h3, h4]

/-- The blend loop of `blit` over `n` columns from `x` on row `y`: inside the
bitmap every store succeeds and exactly these cells are blended, each once. -/
theorem blendRow_spec (src : Int → GPixel) (mode : GBlendMode) (y : Int) :
    ∀ (n : Nat) (x : Int) (bm : GBitmap),
      (n = 0 ∨ (0 ≤ x ∧ x + n ≤ bm.width ∧ 0 ≤ y ∧ y < bm.height)) →
      ∃ bm1, blendRow src mode y n x bm = some bm1 ∧ bm1.width = bm.width ∧
        bm1.height = bm.height ∧
        ∀ i j, bm1.pixels i j =
          if j = y ∧ x ≤ i ∧ i < x + n then MUblend (src i) (bm.pixels i j) mode
          else bm.pixels i j := by
  intro n
  induction n with
  | zero =>
    intro x bm _
    refine ⟨bm, rfl, rfl, rfl, fun i j => ?_⟩
    have : ¬ (j = y ∧ x ≤ i ∧ i < x + ((0 : Nat) : Int)) := by
      intro h
      have := h.2.1
      have := h.2.2
      omega
    rw [if_neg this]
  | succ n ih =>
    intro x bm hb
    have hb' : 0 ≤ x ∧ x + ((n + 1 : Nat) : Int) ≤ bm.width ∧ 0 ≤ y ∧ y < bm.height := by
      rcases hb with h | h
      · omega
      · exact h
    obtain ⟨h0, h1, h2, h3⟩ := hb'
    have hx : x < bm.width := by push_cast at h1; omega
    have hstore : bm.store x y (MUblend (src x) (bm.pixels x y) mode)
        = some { bm with pixels := fun i j =>
            if i = x ∧ j = y then MUblend (src x) (bm.pixels x y) mode else bm.pixels i j } := by
      unfold GBitmap.store
      rw [if_pos ⟨h0, hx, h2, h3⟩]
    obtain ⟨bm1, r1, r2, r3, r4⟩ := ih (x + 1)
      { bm with pixels := fun i j =>
          if i = x ∧ j = y then MUblend (src x) (bm.pixels x y) mode else bm.pixels i j }
      (Or.inr ⟨by omega, by push_cast at h1; simp only; omega, h2, h3⟩)
    refine ⟨bm1, ?_, r2, r3, fun i j => ?_⟩
    · simp only [blendRow, hstore]
      exact r1
    · rw [r4]
      simp only
      push_cast
      by_cases hj : j = y
      · by_cases hi : i = x
        · subst hi hj
          have c1 : ¬ (j = j ∧ i + 1 ≤ i ∧ i < i + 1 + (n : Int)) := by
            intro h; have := h.2.1; omega
          have c2 : j = j ∧ i ≤ i ∧ i < i + ((n : Int) + 1) := ⟨rfl, le_refl _, by omega⟩
          rw [if_neg c1, if_pos c2, if_pos ⟨rfl, rfl⟩]
        · have c0 : ¬ (i = x ∧ j = y) := fun h => hi h.1
          by_cases hr : x + 1 ≤ i ∧ i < x + 1 + (n : Int)
          · have c2 : j = y ∧ x ≤ i ∧ i < x + ((n : Int) + 1) := ⟨hj, by omega, by omega⟩
            rw [if_pos ⟨hj, hr⟩, if_pos c2, if_neg c0]
          · have c1 : ¬ (j = y ∧ x + 1 ≤ i ∧ i < x + 1 + (n : Int)) := fun h => hr h.2
            have c2 : ¬ (j = y ∧ x ≤ i ∧ i < x + ((n : Int) + 1)) := by
              intro h
              apply hr
              have := h.2.1
              have := h.2.2
              constructor <;> omega
            rw [if_neg c1, if_neg c2, if_neg c0]
      · have c0 : ¬ (i = x ∧ j = y) := fun h => hj h.2
        have c1 : ¬ (j = y ∧ x + 1 ≤ i ∧ i < x + 1 + (n : Int)) := fun h => hj h.1
        have c2 : ¬ (j = y ∧ x ≤ i ∧ i < x + ((n : Int) + 1)) := fun h => hj h.1
        rw [if_neg c1, if_neg c2, if_neg c0]

/-- `blit` without a shader on a span inside the bitmap. -/
theorem blit_spec (cv : my_canvas) (x0 x1 y : Int) (paint : GPaint)
    (hsh : paint.fShader = none) (hx0 : 0 ≤ x0) (hx1 : x1 ≤ cv.fDevice.width)
    (hy0 : 0 ≤ y) (hy1 : y < cv.fDevice.height) :
    ∃ bm1, cv.blit x0 x1 y paint = some { cv with fDevice := bm1 } ∧
      bm1.width = cv.fDevice.width ∧ bm1.height = cv.fDevice.height ∧
      ∀ i j, bm1.pixels i j =
        if j = y ∧ x0 ≤ i ∧ i < x1 then
          MUblend (MUcolorToPixel paint.fColor) (cv.fDevice.pixels i j) paint.fMode
        else cv.fDevice.pixels i j := by
  obtain ⟨bm1, r1, r2, r3, r4⟩ := blendRow_spec (fun _ => MUcolorToPixel paint.fColor)
    paint.fMode y (x1 - x0).toNat x0 cv.fDevice
    (by
      by_cases h : x1 ≤ x0
      · left; omega
      · right; exact ⟨hx0, by omega, hy0, hy1⟩)
  refine ⟨bm1, ?_, r2, r3, fun i j => ?_⟩
  · unfold my_canvas.blit
    simp only [hsh, r1, Option.map_some']
  · rw [r4]
    by_cases c : j = y ∧ x0 ≤ i ∧ i < x1
    · have c' : j = y ∧ x0 ≤ i ∧ i < x0 + ((x1 - x0).toNat : Int) :=
        ⟨c.1, c.2.1, by have := c.2.1; have := c.2.2; omega⟩
      rw [if_pos c, if_pos c']
    · have c' : ¬ (j = y ∧ x0 ≤ i ∧ i < x0 + ((x1 - x0).toNat : Int)) := by
        intro h
        apply c
        have := h.2.1
        have := h.2.2
        exact ⟨h.1, h.2.1, by omega⟩
      rw [if_neg c, if_neg c']

theorem get_X_vertical (e : my_edge) (hm : e.m = 0) (y : Int) :
    e.get_X y = GRoundToInt e.b := by
  unfold my_edge.get_X
  rw [hm, zero_mul, zero_add]

/-- The scan loop over two vertical edges with the same rows: every row from
`y` to the bottom is blitted between the two rounded x positions. -/
theorem convexScan_two_vertical (eL eR : my_edge) (paint : GPaint)
    (hsh : paint.fShader = none) (hmL : eL.m = 0) (hmR : eR.m = 0)
    (hT : eR.top = eL.top) (hB : eR.bottom = eL.bottom) :
    ∀ (n : Nat) (y : Int) (cv : my_canvas),
      eL.top ≤ y → eL.bottom - y = (n : Int) + 1 → 0 ≤ y →
      eL.bottom ≤ cv.fDevice.height → 0 ≤ GRoundToInt eL.b →
      GRoundToInt eR.b ≤ cv.fDevice.width →
      ∃ bm1, convexScan [eL, eR] paint eL.bottom (n + 1) y 0 1 2 cv
          = some { cv with fDevice := bm1 } ∧
        bm1.width = cv.fDevice.width ∧ bm1.height = cv.fDevice.height ∧
        ∀ i j, bm1.pixels i j =
          if (y ≤ j ∧ j < eL.bottom) ∧ GRoundToInt eL.b ≤ i ∧ i < GRoundToInt eR.b then
            MUblend (MUcolorToPixel paint.fColor) (cv.fDevice.pixels i j) paint.fMode
          else cv.fDevice.pixels i j := by
  intro n
  induction n with
  | zero =>
    intro y cv hty hby hy0 hbh hx0 hx1
    obtain ⟨bm1, r1, r2, r3, r4⟩ := blit_spec cv (GRoundToInt eL.b) (GRoundToInt eR.b) y paint
      hsh hx0 hx1 hy0 (by omega)
    have hy : y < eL.bottom := by omega
    have hv : eL.valid (y + 1) = false := by
      unfold my_edge.valid
      rw [if_neg]
      intro h
      have := h.2
      omega
    refine ⟨bm1, ?_, r2, r3, fun i j => ?_⟩
    · rw [convexScan]
      simp [hy, get_X_vertical, hmL, hmR, r1, hv]
    · rw [r4]
      by_cases c : j = y
      · have e : (y ≤ j ∧ j < eL.bottom) := ⟨by omega, by omega⟩
        simp [c, e, hy]
      · have e : ¬ (y ≤ j ∧ j < eL.bottom) := by
          intro h
          have := h.1
          have := h.2
          omega
        simp [c, e]
  | succ n ih =>
    intro y cv hty hby hy0 hbh hx0 hx1
    obtain ⟨bm1, r1, r2, r3, r4⟩ := blit_spec cv (GRoundToInt eL.b) (GRoundToInt eR.b) y paint
      hsh hx0 hx1 hy0 (by omega)
    have hy : y < eL.bottom := by omega
    have hvL : eL.valid (y + 1) = true := by
      unfold my_edge.valid
      rw [if_pos]
      push_cast at hby
      constructor <;> omega
    have hvR : eR.valid (y + 1) = true := by
      unfold my_edge.valid
      rw [if_pos]
      rw [hT, hB]
      push_cast at hby
      constructor <;> omega
    obtain ⟨bm2, s1, s2, s3, s4⟩ := ih (y + 1) { cv with fDevice := bm1 } (by omega)
      (by push_cast at hby ⊢; omega) (by omega) (by simpa [r3] using hbh) hx0
      (by simpa [r2] using hx1)
    refine ⟨bm2, ?_, by rw [s2]; exact r2, by rw [s3]; exact r3, fun i j => ?_⟩
    · rw [convexScan]
      simp only [hy, if_true, List.get?_cons_zero, List.get?_cons_succ, get_X_vertical, hmL,
        hmR, r1, hvL, hvR]
      simpa using s1
    · rw [s4]
      simp only [r4]
      by_cases c : j = y
      · have e1 : ¬ (y + 1 ≤ j ∧ j < eL.bottom) := by
          intro h
          have := h.1
          omega
        have e2 : (y ≤ j ∧ j < eL.bottom) := ⟨by omega, by omega⟩
        simp [c, e1, hy]
      · by_cases d : (y + 1 ≤ j ∧ j < eL.bottom)
        · have e2 : (y ≤ j ∧ j < eL.bottom) := ⟨by omega, d.2⟩
          simp [c, d, e2]
        · have e2 : ¬ (y ≤ j ∧ j < eL.bottom) := by
            intro h
            apply d
            have := h.1
            exact ⟨by omega, h.2⟩
          simp [c, d, e2]

theorem int_nonneg_of_half_pos {i : Int} (h : (0 : ℚ) < (i : ℚ) + 1 / 2) : 0 ≤ i := by
  by_contra hc
  have h1 : i ≤ -1 := by omega
  have h2 : (i : ℚ) ≤ -1 := by exact_mod_cast h1
  linarith

theorem int_lt_of_half_le {i n : Int} (h : (i : ℚ) + 1 / 2 ≤ (n : ℚ)) : i < n := by
  by_contra hc
  have h1 : n ≤ i := by omega
  have h2 : (n : ℚ) ≤ (i : ℚ) := by exact_mod_cast h1
  linarith

/-- Rounding the clamped ends of an interval selects exactly the cells of
`0..n-1` whose centre lies in `(lo, hi]`. -/
theorem clamp_interval (lo hi : ℚ) (n : Int) (hn : 0 ≤ n) (i : Int) :
    (GRoundToInt (clampTo lo n) ≤ i ∧ i < GRoundToInt (clampTo hi n)) ↔
      ((0 ≤ i ∧ i < n) ∧ lo < (i : ℚ) + 1 / 2 ∧ (i : ℚ) + 1 / 2 ≤ hi) := by
  have hn' : (0 : ℚ) ≤ (n : ℚ) := by exact_mod_cast hn
  rw [round_le_iff, lt_round_iff]
  constructor
  · rintro ⟨h1, h2⟩
    have i0 : 0 ≤ i := int_nonneg_of_half_pos (lt_of_le_of_lt (clampTo_nonneg lo hn) h1)
    have i1 : i < n := int_lt_of_half_le (le_trans h2 (clampTo_le hi n))
    have i0' : (0 : ℚ) ≤ (i : ℚ) := by exact_mod_cast i0
    refine ⟨⟨i0, i1⟩, ?_, ?_⟩
    · have h3 := le_trans h2 (clampTo_le hi n)
      unfold clampTo at h1
      simp only at h1
      split_ifs at h1 <;> linarith
    · unfold clampTo at h2
      simp only at h2
      split_ifs at h2 <;> linarith
  · rintro ⟨⟨i0, i1⟩, h1, h2⟩
    have i0' : (0 : ℚ) ≤ (i : ℚ) := by exact_mod_cast i0
    have i1' : (i : ℚ) + 1 ≤ (n : ℚ) := by exact_mod_cast i1
    constructor
    · unfold clampTo
      simp only
      split_ifs <;> linarith
    · unfold clampTo
      simp only
      split_ifs <;> linarith

/-- When the rows do not survive the clipping no row of the device has its
centre in `(t, b]`. -/
theorem rows_none {t b : ℚ} {h : Int} (hh : 0 ≤ h) (hs : ¬ rowsSurvive t b h) (j : Int)
    (hj : 0 ≤ j ∧ j < h) : ¬ (t < (j : ℚ) + 1 / 2 ∧ (j : ℚ) + 1 / 2 ≤ b) := by
  rintro ⟨h1, h2⟩
  apply hs
  have j0 : (0 : ℚ) ≤ (j : ℚ) := by exact_mod_cast hj.1
  have j1 : (j : ℚ) + 1 ≤ (h : ℚ) := by exact_mod_cast hj.2
  have a1 : GRoundToInt t ≤ j := (round_le_iff t j).mpr h1
  have a2 : j < GRoundToInt b := (lt_round_iff b j).mpr h2
  have c := (clamp_interval t b h hh j).mpr ⟨hj, h1, h2⟩
  refine ⟨by omega, by linarith, by linarith, ?_⟩
  have := c.1
  have := c.2
  omega

/-- The edge list `drawConvexPolygon` builds for the four corners of a
rectangle: the right edge then the left edge, or nothing. -/
theorem rect_edges (l t r b : ℚ) (w h : Int) (htb : t ≤ b) (hh : 0 ≤ h) :
    buildPolygonEdges [⟨l, t⟩, ⟨r, t⟩, ⟨r, b⟩, ⟨l, b⟩] 4 w h =
      some (if rowsSurvive t b h then
        [⟨0, clampTo r w, clampTo r w, GRoundToInt (clampTo t h), GRoundToInt (clampTo b h), -1⟩,
         ⟨0, clampTo l w, clampTo l w, GRoundToInt (clampTo t h), GRoundToInt (clampTo b h), 1⟩]
      else []) := by
  have hr : List.range (4 - 1) = [0, 1, 2] := rfl
  unfold buildPolygonEdges
  rw [hr]
  simp only [List.foldlM_cons, List.foldlM_nil, List.get?_cons_zero, List.get?_cons_succ,
    Option.pure_def, Option.bind_eq_bind, Option.some_bind]
  rw [MUclipPoints_horizontal ⟨l, t⟩ ⟨r, t⟩ w h [] rfl,
    MUclipPoints_vertical r t b t b (-1) w h [] htb hh (Or.inl ⟨rfl, rfl, rfl⟩),
    MUclipPoints_horizontal ⟨r, b⟩ ⟨l, b⟩ w h _ rfl,
    MUclipPoints_vertical l b t t b 1 w h _ htb hh (Or.inr ⟨rfl, rfl, rfl⟩)]
  by_cases hs : rowsSurvive t b h <;> simp [hs]

theorem sort_rect_edges (cl cr : ℚ) (T B : Int) (h : cl ≤ cr) :
    ∃ w1 w2 : Int, MUsortEdges [⟨0, cr, cr, T, B, -1⟩, ⟨0, cl, cl, T, B, 1⟩]
      = [⟨0, cl, cl, T, B, w1⟩, ⟨0, cr, cr, T, B, w2⟩] := by
  rcases lt_or_eq_of_le h with hlt | heq
  · refine ⟨1, -1, ?_⟩
    have hm : MULT ⟨0, cl, cl, T, B, 1⟩ ⟨0, cr, cr, T, B, -1⟩ = true := by
      unfold MULT
      simp [hlt]
    simp [MUsortEdges, List.insertionSort, List.orderedInsert, hm]
  · refine ⟨-1, 1, ?_⟩
    subst heq
    have hm : MULT ⟨0, cl, cl, T, B, 1⟩ ⟨0, cl, cl, T, B, -1⟩ = false := by
      unfold MULT
      simp
    simp [MUsortEdges, List.insertionSort, List.orderedInsert, hm]

theorem mapPoints_identity_rect (pts : List GPoint) (n : Nat) (hn : pts.length = n) :
    GMatrix.identity.mapPoints (List.replicate n ⟨0, 0⟩) pts n = some pts := by
  subst hn
  rw [mapPoints_eq_map _ _ _ (by simp)]
  congr 1
  conv_rhs => rw [← List.map_id pts]
  exact List.map_congr_left fun q _ => mapPoint_identity q

/-- C10: with the identity CTM and a paint without shader, for every rectangle
with `l ≤ r` and `t ≤ b` (anywhere relative to the device), `drawRect`
completes, and pixel `(x, y)` of the bitmap becomes
`MUblend (MUcolorToPixel color) old mode` exactly when `l < x + 1/2 ≤ r` and
`t < y + 1/2 ≤ b`; every other pixel, the canvas state and the bitmap
dimensions are unchanged, and nothing outside the bitmap is written. -/
theorem drawRect_covers_centres (cv : my_canvas) (rect : GRect) (paint : GPaint)
    (hctm : cv.ctm = GMatrix.identity) (hsh : paint.fShader = none)
    (hw : cv.width = cv.fDevice.width) (hh : cv.height = cv.fDevice.height)
    (hw0 : 0 ≤ cv.fDevice.width) (hh0 : 0 ≤ cv.fDevice.height)
    (hlr : rect.fLeft ≤ rect.fRight) (htb : rect.fTop ≤ rect.fBottom) :
    ∃ bm1, cv.drawRect rect paint = some { cv with fDevice := bm1 } ∧
      bm1.width = cv.fDevice.width ∧ bm1.height = cv.fDevice.height ∧
      ∀ x y : Int, bm1.pixels x y =
        if ((0 ≤ x ∧ x < cv.fDevice.width) ∧ rect.fLeft < (x : ℚ) + 1 / 2 ∧
              (x : ℚ) + 1 / 2 ≤ rect.fRight) ∧
            ((0 ≤ y ∧ y < cv.fDevice.height) ∧ rect.fTop < (y : ℚ) + 1 / 2 ∧
              (y : ℚ) + 1 / 2 ≤ rect.fBottom) then
          MUblend (MUcolorToPixel paint.fColor) (cv.fDevice.pixels x y) paint.fMode
        else cv.fDevice.pixels x y := by
  obtain ⟨l, t, r, b⟩ := rect
  simp only at hlr htb ⊢
  have hh1 : 0 ≤ cv.height := by rw [hh]; exact hh0
  have hw1 : 0 ≤ cv.width := by rw [hw]; exact hw0
  have hedges := rect_edges l t r b cv.width cv.height htb hh1
  have hmap : cv.ctm.mapPoints (List.replicate 4 ⟨0, 0⟩)
      [⟨l, t⟩, ⟨r, t⟩, ⟨r, b⟩, ⟨l, b⟩] 4
      = some [⟨l, t⟩, ⟨r, t⟩, ⟨r, b⟩, ⟨l, b⟩] := by
    rw [hctm]
    exact mapPoints_identity_rect _ 4 rfl
  unfold my_canvas.drawRect my_canvas.drawConvexPolygon
  simp only [hsh, Bool.false_eq_true, if_false, hmap, hedges]
  by_cases hs : rowsSurvive t b cv.height
  · -- two edges: the scan fills the rows between them
    have hT0 : 0 ≤ GRoundToInt (clampTo t cv.height) := by
      have := round_mono (clampTo_nonneg t hh1)
      rwa [show (0 : ℚ) = ((0 : Int) : ℚ) by norm_num, round_intCast] at this
    have hBh : GRoundToInt (clampTo b cv.height) ≤ cv.height := by
      have := round_mono (clampTo_le b cv.height)
      rwa [round_intCast] at this
    have hX0 : 0 ≤ GRoundToInt (clampTo l cv.width) := by
      have := round_mono (clampTo_nonneg l hw1)
      rwa [show (0 : ℚ) = ((0 : Int) : ℚ) by norm_num, round_intCast] at this
    have hXw : GRoundToInt (clampTo r cv.width) ≤ cv.width := by
      have := round_mono (clampTo_le r cv.width)
      rwa [round_intCast] at this
    have hTB : GRoundToInt (clampTo t cv.height) < GRoundToInt (clampTo b cv.height) :=
      lt_of_le_of_ne (round_mono (clampTo_mono _ htb)) hs.2.2.2
    obtain ⟨n, hn⟩ : ∃ n : Nat, GRoundToInt (clampTo b cv.height)
        - GRoundToInt (clampTo t cv.height) = (n : Int) + 1 :=
      ⟨(GRoundToInt (clampTo b cv.height) - GRoundToInt (clampTo t cv.height)).toNat - 1,
        by omega⟩
    have hfuel : (GRoundToInt (clampTo b cv.height)
        - GRoundToInt (clampTo t cv.height)).toNat = n + 1 := by omega
    obtain ⟨w1, w2, hsort⟩ := sort_rect_edges (clampTo l cv.width) (clampTo r cv.width)
      (GRoundToInt (clampTo t cv.height)) (GRoundToInt (clampTo b cv.height))
      (clampTo_mono cv.width hlr)
    obtain ⟨bm1, r1, r2, r3, r4⟩ := convexScan_two_vertical
      ⟨0, clampTo l cv.width, clampTo l cv.width, GRoundToInt (clampTo t cv.height),
        GRoundToInt (clampTo b cv.height), w1⟩
      ⟨0, clampTo r cv.width, clampTo r cv.width, GRoundToInt (clampTo t cv.height),
        GRoundToInt (clampTo b cv.height), w2⟩
      paint hsh rfl rfl rfl rfl n (GRoundToInt (clampTo t cv.height)) cv (le_refl _) hn hT0
      (by rw [← hh]; exact hBh) hX0 (by rw [← hw]; exact hXw)
    refine ⟨bm1, ?_, r2, r3, fun x y => ?_⟩
    · simp only [hs, if_true, hsort,
        List.length_cons, List.length_nil, List.head?_cons, List.getLast?_cons_cons,
        List.getLast?_singleton, hfuel]
      simpa using r1
    · rw [r4]
      simp only
      have ex := clamp_interval l r cv.width hw1 x
      have ey := clamp_interval t b cv.height hh1 y
      rw [← hw, ← hh]
      by_cases c : (GRoundToInt (clampTo t cv.height) ≤ y ∧ y < GRoundToInt (clampTo b cv.height))
          ∧ GRoundToInt (clampTo l cv.width) ≤ x ∧ x < GRoundToInt (clampTo r cv.width)
      · rw [if_pos c, if_pos ⟨ex.mp c.2, ey.mp c.1⟩]
      · rw [if_neg c, if_neg (fun hc => c ⟨ey.mpr hc.2, ex.mpr hc.1⟩)]
  · -- no edge: nothing is drawn, and no row centre is inside
    refine ⟨cv.fDevice, ?_, rfl, rfl, fun x y => ?_⟩
    · simp [hs]
    · rw [if_neg]
      rintro ⟨_, hy, h1, h2⟩
      exact rows_none hh1 hs y (by rw [hh]; exact hy) ⟨h1, h2⟩

/-- C10 at `sampleRect` = (1,1,3,3) on a fresh canvas over the 4x4
`sampleBitmap`: pixel (1,1) is blended and pixel (0,0) is left as it was. -/
theorem drawRect_covers_centres_witness :
    ((my_canvas.create sampleBitmap).ctm = GMatrix.identity ∧ samplePaint.fShader = none ∧
        sampleRect.fLeft ≤ sampleRect.fRight ∧ sampleRect.fTop ≤ sampleRect.fBottom) ∧
      ∃ bm1, (my_canvas.create sampleBitmap).drawRect sampleRect samplePaint
          = some { my_canvas.create sampleBitmap with fDevice := bm1 } ∧
        bm1.pixels 1 1 = MUblend (MUcolorToPixel samplePaint.fColor) 0xFF000000 GBlendMode.kSrcOver ∧
        bm1.pixels 0 0 = 0xFF000000 := by
  have hlr : sampleRect.fLeft ≤ sampleRect.fRight := by norm_num [sampleRect]
  have htb : sampleRect.fTop ≤ sampleRect.fBottom := by norm_num [sampleRect]
  refine ⟨⟨rfl, rfl, hlr, htb⟩, ?_⟩
  obtain ⟨bm1, h1, _, _, h4⟩ := drawRect_covers_centres (my_canvas.create sampleBitmap)
    sampleRect samplePaint rfl rfl rfl rfl (by decide) (by decide) hlr htb
  refine ⟨bm1, h1, ?_, ?_⟩
  · rw [h4 1 1, if_pos]
    · rfl
    · norm_num [sampleRect, my_canvas.create, my_canvas.save, sampleBitmap]
  · rw [h4 0 0, if_neg]
    · rfl
    · norm_num [sampleRect, my_canvas.create, my_canvas.save, sampleBitmap]

/-! ## Paths -/

theorem GPoint.add_fX (p q : GPoint) : (p + q).fX = p.fX + q.fX := rfl

theorem GPoint.add_fY (p q : GPoint) : (p + q).fY = p.fY + q.fY := rfl

theorem GPoint.sub_fX (p q : GPoint) : (p - q).fX = p.fX - q.fX := rfl

theorem GPoint.sub_fY (p q : GPoint) : (p - q).fY = p.fY - q.fY := rfl

theorem GPoint.smul_fX (s : ℚ) (p : GPoint) : (s * p).fX = s * p.fX := rfl

theorem GPoint.smul_fY (s : ℚ) (p : GPoint) : (s * p).fY = s * p.fY := rfl

theorem GPoint.ext_iff' (p q : GPoint) : p = q ↔ p.fX = q.fX ∧ p.fY = q.fY := by
  cases p
  cases q
  simp

/-- C15, the defect: on the three points (5,5), (3,3), (1,1) `bounds` returns
(1, 1, 0, 0), although the largest x and y are 5: the first point only lowers
`l` and `t`, and `r`, `b` start at 0 and are never raised. -/
theorem bounds_misses_maximum :
    (GPath.mk [⟨5, 5⟩, ⟨3, 3⟩, ⟨1, 1⟩] [Verb.kMove, Verb.kLine, Verb.kLine]).bounds
        = ⟨1, 1, 0, 0⟩ ∧
      (GPath.mk [⟨5, 5⟩, ⟨3, 3⟩, ⟨1, 1⟩] [Verb.kMove, Verb.kLine, Verb.kLine]).bounds.fRight
        ≠ max 5 (max 3 1) := by
  decide

/-- C16: `addRect` appends one contour, a Move and three Lines, whose points
are the four corners starting at the top-left one, (l,t),(r,t),(r,b),(l,b) for
CW and (l,t),(l,b),(r,b),(r,t) for CCW; what the path held before is kept in
front, unchanged. -/
theorem addRect_appends_corners (p : GPath) (r : GRect) :
    (p.addRect r Direction.kCW_Direction).fPts
        = p.fPts ++ [⟨r.fLeft, r.fTop⟩, ⟨r.fRight, r.fTop⟩, ⟨r.fRight, r.fBottom⟩,
            ⟨r.fLeft, r.fBottom⟩] ∧
      (p.addRect r Direction.kCW_Direction).fVerbs
        = p.fVerbs ++ [Verb.kMove, Verb.kLine, Verb.kLine, Verb.kLine] ∧
      (p.addRect r Direction.kCCW_Direction).fPts
        = p.fPts ++ [⟨r.fLeft, r.fTop⟩, ⟨r.fLeft, r.fBottom⟩, ⟨r.fRight, r.fBottom⟩,
            ⟨r.fRight, r.fTop⟩] ∧
      (p.addRect r Direction.kCCW_Direction).fVerbs
        = p.fVerbs ++ [Verb.kMove, Verb.kLine, Verb.kLine, Verb.kLine] := by
  simp [GPath.addRect, GPath.moveTo, GPath.lineTo]

/-- What `addCircle` appends: one Move and four Cubics, thirteen points that
start and end at `(cx + radius, cy)`, with the handles at distance
`0.5522847498 * radius` from the on-curve points. -/
theorem addCircle_appends (p : GPath) (c : GPoint) (radius : ℚ) (dir : Direction) :
    (p.addCircle c radius dir).fVerbs
        = p.fVerbs ++ [Verb.kMove, Verb.kCubic, Verb.kCubic, Verb.kCubic, Verb.kCubic] ∧
      ∃ q1 q2 q3 q4 q5 q6 q7 q8 : GPoint, ∃ m1 m2 m3 : GPoint,
        (p.addCircle c radius dir).fPts
          = p.fPts ++ [⟨c.fX + radius, c.fY⟩, q1, q2, m1, q3, q4, m2, q5, q6, m3, q7, q8,
              ⟨c.fX + radius, c.fY⟩] ∧
        q1.fX = c.fX + radius ∧ |q1.fY - c.fY| = (5522847498 / 10000000000 : ℚ) * |radius| ∧
        q8.fX = c.fX + radius ∧ |q8.fY - c.fY| = (5522847498 / 10000000000 : ℚ) * |radius| := by
  unfold GPath.addCircle
  by_cases hd : dir = Direction.kCCW_Direction
  · simp only [hd, if_true, GPath.moveTo, GPath.cubicTo, List.append_assoc, List.cons_append,
      List.nil_append, true_and]
    refine ⟨_, _, _, _, _, _, _, _, _, _, _, rfl, rfl, ?_, rfl, ?_⟩
    · simp only [add_sub_cancel_left, abs_mul]
      norm_num
    · have : c.fY - 5522847498 / 10000000000 * radius - c.fY
          = -(5522847498 / 10000000000 * radius) := by ring
      simp only [this, abs_neg, abs_mul]
      norm_num
  · simp only [hd, if_false, GPath.moveTo, GPath.cubicTo, List.append_assoc, List.cons_append,
      List.nil_append, true_and]
    refine ⟨_, _, _, _, _, _, _, _, _, _, _, rfl, rfl, ?_, rfl, ?_⟩
    · have : c.fY - 5522847498 / 10000000000 * radius - c.fY
          = -(5522847498 / 10000000000 * radius) := by ring
      simp only [this, abs_neg, abs_mul]
      norm_num
    · simp only [add_sub_cancel_left, abs_mul]
      norm_num

/-- The on-curve points of a circle appended to the empty path. -/
theorem addCircle_onCurve (c : GPoint) (radius : ℚ) :
    ((GPath.mk [] []).addCircle c radius Direction.kCW_Direction).onCurvePoints
        = [⟨c.fX + radius, c.fY⟩, ⟨c.fX, c.fY - radius⟩, ⟨c.fX - radius, c.fY⟩,
            ⟨c.fX, c.fY + radius⟩, ⟨c.fX + radius, c.fY⟩] ∧
      ((GPath.mk [] []).addCircle c radius Direction.kCCW_Direction).onCurvePoints
        = [⟨c.fX + radius, c.fY⟩, ⟨c.fX, c.fY + radius⟩, ⟨c.fX - radius, c.fY⟩,
            ⟨c.fX, c.fY - radius⟩, ⟨c.fX + radius, c.fY⟩] := by
  constructor <;>
    simp [GPath.addCircle, GPath.moveTo, GPath.cubicTo, GPath.onCurvePoints,
      GPath.edgerSegments, edgerWalk, closeContour, Segment.start]

/-- The on-curve points of a rectangle appended to the empty path. -/
theorem addRect_onCurve (r : GRect) :
    ((GPath.mk [] []).addRect r Direction.kCW_Direction).onCurvePoints
        = [⟨r.fLeft, r.fTop⟩, ⟨r.fRight, r.fTop⟩, ⟨r.fRight, r.fBottom⟩,
            ⟨r.fLeft, r.fBottom⟩] ∧
      ((GPath.mk [] []).addRect r Direction.kCCW_Direction).onCurvePoints
        = [⟨r.fLeft, r.fTop⟩, ⟨r.fLeft, r.fBottom⟩, ⟨r.fRight, r.fBottom⟩,
            ⟨r.fRight, r.fTop⟩] := by
  constructor <;>
    simp [GPath.addRect, GPath.moveTo, GPath.lineTo, GPath.onCurvePoints,
      GPath.edgerSegments, edgerWalk, closeContour, Segment.start]

/-- C17, the defect: the two branches of `addCircle` are exchanged with
respect to `addRect`. For every centre, every radius > 0 and every non-empty
rect, the on-curve polygon of `addCircle(.., kCW)` has negative signed area
while the contour of `addRect(.., kCW)` has positive signed area, and the
other way round for `kCCW`. -/
theorem addCircle_direction_reversed (c : GPoint) (radius : ℚ) (r : GRect)
    (hr : 0 < radius) (hne : r.fLeft < r.fRight ∧ r.fTop < r.fBottom) :
    shoelace ((GPath.mk [] []).addCircle c radius Direction.kCW_Direction).onCurvePoints < 0 ∧
      0 < shoelace ((GPath.mk [] []).addRect r Direction.kCW_Direction).onCurvePoints ∧
      0 < shoelace ((GPath.mk [] []).addCircle c radius Direction.kCCW_Direction).onCurvePoints ∧
      shoelace ((GPath.mk [] []).addRect r Direction.kCCW_Direction).onCurvePoints < 0 := by
  obtain ⟨h1, h2⟩ := hne
  rw [(addCircle_onCurve c radius).1, (addCircle_onCurve c radius).2, (addRect_onCurve r).1,
    (addRect_onCurve r).2]
  simp only [shoelace, shoelaceChain, List.cons_append, List.nil_append]
  have hr2 : 0 < radius * radius := mul_pos hr hr
  have hA : 0 < (r.fRight - r.fLeft) * (r.fBottom - r.fTop) :=
    mul_pos (by linarith) (by linarith)
  refine ⟨?_, ?_, ?_, ?_⟩ <;> nlinarith

/-- C17 at the unit circle and the unit square. -/
theorem addCircle_direction_reversed_witness :
    ((0 : ℚ) < 1 ∧ (0 : ℚ) < 1 ∧ (0 : ℚ) < 1) ∧
      shoelace ((GPath.mk [] []).addCircle ⟨0, 0⟩ 1 Direction.kCW_Direction).onCurvePoints < 0 ∧
      0 < shoelace ((GPath.mk [] []).addRect ⟨0, 0, 1, 1⟩ Direction.kCW_Direction).onCurvePoints :=
  ⟨⟨by norm_num, by norm_num, by norm_num⟩,
    (addCircle_direction_reversed ⟨0, 0⟩ 1 ⟨0, 0, 1, 1⟩ (by norm_num)
      ⟨by norm_num, by norm_num⟩).1,
    (addCircle_direction_reversed ⟨0, 0⟩ 1 ⟨0, 0, 1, 1⟩ (by norm_num)
      ⟨by norm_num, by norm_num⟩).2.1⟩

/-- C18: `ChopQuadAt` writes five points with `dst[0] = src[0]`,
`dst[4] = src[2]` and `dst[2]` the curve point at `t`, and the two halves
reparametrise the curve: `dst[0..2]` at `s` is `src` at `s*t`, and `dst[2..4]`
at `s` is `src` at `t + s*(1-t)`. -/
theorem ChopQuadAt_reparametrises (src : Nat → GPoint) (t s : ℚ) :
    (GPath.ChopQuadAt src t).length = 5 ∧
      pointArray (GPath.ChopQuadAt src t) 0 = src 0 ∧
      pointArray (GPath.ChopQuadAt src t) 4 = src 2 ∧
      pointArray (GPath.ChopQuadAt src t) 2 = MUevalQuad src t ∧
      MUevalQuad (pointArray (GPath.ChopQuadAt src t)) s = MUevalQuad src (s * t) ∧
      MUevalQuad (fun i => pointArray (GPath.ChopQuadAt src t) (i + 2)) s
        = MUevalQuad src (t + s * (1 - t)) := by
  refine ⟨rfl, rfl, rfl, rfl, ?_, ?_⟩
  · rw [GPoint.ext_iff']
    simp only [MUevalQuad, GPath.ChopQuadAt, pointArray, List.getD_cons_zero,
      List.getD_cons_succ, GPoint.add_fX, GPoint.add_fY, GPoint.smul_fX, GPoint.smul_fY]
    constructor <;> ring
  · rw [GPoint.ext_iff']
    simp only [MUevalQuad, GPath.ChopQuadAt, pointArray, List.getD_cons_zero,
      List.getD_cons_succ, GPoint.add_fX, GPoint.add_fY, GPoint.smul_fX, GPoint.smul_fY]
    constructor <;> ring

/-- C19: `ChopCubicAt` writes seven points with `dst[0] = src[0]`,
`dst[6] = src[3]` and `dst[3]` the curve point at `t`, which is the
De Casteljau point `(1-t)*dst[2] + t*dst[4]`; `dst[0..3]` at `s` is `src` at
`s*t`, and `dst[3..6]` at `s` is `src` at `t + s*(1-t)`. -/
theorem ChopCubicAt_reparametrises (src : Nat → GPoint) (t s : ℚ) :
    (GPath.ChopCubicAt src t).length = 7 ∧
      pointArray (GPath.ChopCubicAt src t) 0 = src 0 ∧
      pointArray (GPath.ChopCubicAt src t) 6 = src 3 ∧
      pointArray (GPath.ChopCubicAt src t) 3 = MUevalCubic src t ∧
      pointArray (GPath.ChopCubicAt src t) 3
        = (1 - t) * pointArray (GPath.ChopCubicAt src t) 2
          + t * pointArray (GPath.ChopCubicAt src t) 4 ∧
      MUevalCubic (pointArray (GPath.ChopCubicAt src t)) s = MUevalCubic src (s * t) ∧
      MUevalCubic (fun i => pointArray (GPath.ChopCubicAt src t) (i + 3)) s
        = MUevalCubic src (t + s * (1 - t)) := by
  refine ⟨rfl, rfl, rfl, rfl, ?_, ?_, ?_⟩
  all_goals
    rw [GPoint.ext_iff']
    simp only [MUevalCubic, GPath.ChopCubicAt, pointArray, List.getD_cons_zero,
      List.getD_cons_succ, GPoint.add_fX, GPoint.add_fY, GPoint.smul_fX, GPoint.smul_fY]
    constructor <;> ring

/-! ## Shaders -/

/-- C20: for `dim ≥ 1` the clamp tiling of the bitmap shader returns
`min(max(floor(c), 0), dim - 1)`: `0`, its value at 0, for every `c < 0`;
`dim - 1`, its value at `dim - 1`, for every `c ≥ dim`; and `floor(c)` for
`0 ≤ c < dim`. -/
theorem clamp_tiling (c : ℚ) (dim : Int) (hdim : 1 ≤ dim) :
    my_shader.clamp c dim = min (max ⌊c⌋ 0) (dim - 1) ∧
      (c < 0 → my_shader.clamp c dim = 0 ∧ my_shader.clamp 0 dim = 0) ∧
      ((dim : ℚ) ≤ c → my_shader.clamp c dim = dim - 1 ∧
        my_shader.clamp ((dim : ℚ) - 1) dim = dim - 1) ∧
      (0 ≤ c → c < (dim : ℚ) → my_shader.clamp c dim = ⌊c⌋) := by
  have key : ∀ x : ℚ, my_shader.clamp x dim = min (max ⌊x⌋ 0) (dim - 1) := by
    intro x
    simp only [my_shader.clamp, GFloorToInt, Int.floor_intCast]
  refine ⟨key c, ?_, ?_, ?_⟩
  · intro hc
    have h1 : ⌊c⌋ < 0 := Int.floor_lt.mpr (by simpa using hc)
    have h0 : ⌊(0 : ℚ)⌋ = 0 := Int.floor_zero
    rw [key, key, h0]
    constructor <;> omega
  · intro hc
    have h1 : dim ≤ ⌊c⌋ := Int.le_floor.mpr hc
    have h2 : ⌊(dim : ℚ) - 1⌋ = dim - 1 := by
      have : ((dim - 1 : Int) : ℚ) = (dim : ℚ) - 1 := by push_cast; ring
      rw [← this, Int.floor_intCast]
    rw [key, key, h2]
    constructor <;> omega
  · intro h0 h1
    have a0 : 0 ≤ ⌊c⌋ := Int.floor_nonneg.mpr h0
    have a1 : ⌊c⌋ < dim := Int.floor_lt.mpr h1
    rw [key]
    omega

/-- C20 on a bitmap of width 4, with a coordinate on either side and one
inside. -/
theorem clamp_tiling_witness :
    (1 : Int) ≤ 4 ∧ my_shader.clamp (-3 / 2) 4 = 0 ∧ my_shader.clamp (9 / 2) 4 = 3 ∧
      my_shader.clamp (5 / 2) 4 = ⌊(5 / 2 : ℚ)⌋ :=
  ⟨by decide, ((clamp_tiling (-3 / 2) 4 (by decide)).2.1 (by norm_num)).1,
    ((clamp_tiling (9 / 2) 4 (by decide)).2.2.1 (by norm_num)).1,
    (clamp_tiling (5 / 2) 4 (by decide)).2.2.2 (by norm_num) (by norm_num)⟩

/-! ## Rectangles under any accepted paint -/

/-- `blit` on a span inside the bitmap, for a paint with or without shader. -/
theorem blit_spec_gen (cv : my_canvas) (x0 x1 y : Int) (paint : GPaint)
    (hx0 : 0 ≤ x0) (hx01 : x0 ≤ x1) (hx1 : x1 ≤ cv.fDevice.width)
    (hy0 : 0 ≤ y) (hy1 : y < cv.fDevice.height) :
    ∃ bm1, cv.blit x0 x1 y paint = some { cv with fDevice := bm1 } ∧
      bm1.width = cv.fDevice.width ∧ bm1.height = cv.fDevice.height ∧
      ∀ i j, bm1.pixels i j =
        if j = y ∧ x0 ≤ i ∧ i < x1 then
          MUblend (paintSource cv.ctm paint x0 x1 y i) (cv.fDevice.pixels i j) paint.fMode
        else cv.fDevice.pixels i j := by
  obtain ⟨bm1, r1, r2, r3, r4⟩ := blendRow_spec (paintSource cv.ctm paint x0 x1 y)
    paint.fMode y (x1 - x0).toNat x0 cv.fDevice (Or.inr ⟨hx0, by omega, hy0, hy1⟩)
  refine ⟨bm1, ?_, r2, r3, fun i j => ?_⟩
  · unfold my_canvas.blit
    cases hsh : paint.fShader with
    | none =>
      have e : paintSource cv.ctm paint x0 x1 y = fun _ => MUcolorToPixel paint.fColor := by
        unfold paintSource
        rw [hsh]
      rw [e] at r1
      simp only [r1, Option.map_some']
    | some sh =>
      have e : paintSource cv.ctm paint x0 x1 y
          = fun x => (sh.shadeRow cv.ctm x0 y (x1 - x0).toNat).getD (x - x0).toNat 0 := by
        unfold paintSource
        rw [hsh]
      rw [e] at r1
      have hc : x0 ≥ 0 ∧ x1 - x0 ≥ 0 := ⟨hx0, by omega⟩
      simp only [hc, and_self, if_true, r1, Option.map_some']
  · rw [r4]
    by_cases c : j = y ∧ x0 ≤ i ∧ i < x1
    · have c' : j = y ∧ x0 ≤ i ∧ i < x0 + ((x1 - x0).toNat : Int) :=
        ⟨c.1, c.2.1, by have := c.2.1; have := c.2.2; omega⟩
      rw [if_pos c, if_pos c']
    · have c' : ¬ (j = y ∧ x0 ≤ i ∧ i < x0 + ((x1 - x0).toNat : Int)) := by
        intro h
        apply c
        have := h.2.1
        have := h.2.2
        exact ⟨h.1, h.2.1, by omega⟩
      rw [if_neg c, if_neg c']

/-- The scan loop over two vertical edges with the same rows, for a paint with
or without shader. -/
theorem convexScan_two_vertical_gen (eL eR : my_edge) (paint : GPaint)
    (hmL : eL.m = 0) (hmR : eR.m = 0) (hT : eR.top = eL.top) (hB : eR.bottom = eL.bottom)
    (hLR : GRoundToInt eL.b ≤ GRoundToInt eR.b) :
    ∀ (n : Nat) (y : Int) (cv : my_canvas),
      eL.top ≤ y → eL.bottom - y = (n : Int) + 1 → 0 ≤ y →
      eL.bottom ≤ cv.fDevice.height → 0 ≤ GRoundToInt eL.b →
      GRoundToInt eR.b ≤ cv.fDevice.width →
      ∃ bm1, convexScan [eL, eR] paint eL.bottom (n + 1) y 0 1 2 cv
          = some { cv with fDevice := bm1 } ∧
        bm1.width = cv.fDevice.width ∧ bm1.height = cv.fDevice.height ∧
        ∀ i j, bm1.pixels i j =
          if (y ≤ j ∧ j < eL.bottom) ∧ GRoundToInt eL.b ≤ i ∧ i < GRoundToInt eR.b then
            MUblend (paintSource cv.ctm paint (GRoundToInt eL.b) (GRoundToInt eR.b) j i)
              (cv.fDevice.pixels i j) paint.fMode
          else cv.fDevice.pixels i j := by
  intro n
  induction n with
  | zero =>
    intro y cv hty hby hy0 hbh hx0 hx1
    obtain ⟨bm1, r1, r2, r3, r4⟩ := blit_spec_gen cv (GRoundToInt eL.b) (GRoundToInt eR.b) y
      paint hx0 hLR hx1 hy0 (by omega)
    have hy : y < eL.bottom := by omega
    have hv : eL.valid (y + 1) = false := by
      unfold my_edge.valid
      rw [if_neg]
      intro h
      have := h.2
      omega
    refine ⟨bm1, ?_, r2, r3, fun i j => ?_⟩
    · rw [convexScan]
      simp [hy, get_X_vertical, hmL, hmR, r1, hv]
    · rw [r4]
      by_cases c : j = y
      · have e : (y ≤ j ∧ j < eL.bottom) := ⟨by omega, by omega⟩
        simp [c, e, hy]
      · have e : ¬ (y ≤ j ∧ j < eL.bottom) := by
          intro h
          have := h.1
          have := h.2
          omega
        simp [c, e]
  | succ n ih =>
    intro y cv hty hby hy0 hbh hx0 hx1
    obtain ⟨bm1, r1, r2, r3, r4⟩ := blit_spec_gen cv (GRoundToInt eL.b) (GRoundToInt eR.b) y
      paint hx0 hLR hx1 hy0 (by omega)
    have hy : y < eL.bottom := by omega
    have hvL : eL.valid (y + 1) = true := by
      unfold my_edge.valid
      rw [if_pos]
      push_cast at hby
      constructor <;> omega
    have hvR : eR.valid (y + 1) = true := by
      unfold my_edge.valid
      rw [if_pos]
      rw [hT, hB]
      push_cast at hby
      constructor <;> omega
    obtain ⟨bm2, s1, s2, s3, s4⟩ := ih (y + 1) { cv with fDevice := bm1 } (by omega)
      (by push_cast at hby ⊢; omega) (by omega) (by simpa [r3] using hbh) hx0
      (by simpa [r2] using hx1)
    refine ⟨bm2, ?_, by rw [s2]; exact r2, by rw [s3]; exact r3, fun i j => ?_⟩
    · rw [convexScan]
      simp only [hy, if_true, List.get?_cons_zero, List.get?_cons_succ, get_X_vertical, hmL,
        hmR, r1, hvL, hvR]
      simpa using s1
    · rw [s4]
      simp only [r4]
      by_cases c : j = y
      · have e1 : ¬ (y + 1 ≤ j ∧ j < eL.bottom) := by
          intro h
          have := h.1
          omega
        have e2 : (y ≤ j ∧ j < eL.bottom) := ⟨by omega, by omega⟩
        simp [c, e1, hy]
      · by_cases d : (y + 1 ≤ j ∧ j < eL.bottom)
        · have e2 : (y ≤ j ∧ j < eL.bottom) := ⟨by omega, d.2⟩
          simp [c, d, e2]
        · have e2 : ¬ (y ≤ j ∧ j < eL.bottom) := by
            intro h
            apply d
            have := h.1
            exact ⟨by omega, h.2⟩
          simp [c, d, e2]

/-- `drawConvexPolygon` on four points that the CTM maps to the corners
(l,t), (r,t), (r,b), (l,b) of a rectangle, for a paint without shader or whose
shader accepts the CTM: exactly the pixels whose centre lies in the mapped
rectangle are blended. -/
theorem drawConvexPolygon_mapped_rect (cv : my_canvas) (pts : List GPoint) (paint : GPaint)
    (l t r b : ℚ)
    (hmap : cv.ctm.mapPoints (List.replicate 4 ⟨0, 0⟩) pts 4
      = some [⟨l, t⟩, ⟨r, t⟩, ⟨r, b⟩, ⟨l, b⟩])
    (hacc : ∀ sh, paint.fShader = some sh → sh.setContext cv.ctm = true)
    (hw : cv.width = cv.fDevice.width) (hh : cv.height = cv.fDevice.height)
    (hw0 : 0 ≤ cv.fDevice.width) (hh0 : 0 ≤ cv.fDevice.height)
    (hlr : l ≤ r) (htb : t ≤ b) :
    ∃ bm1, cv.drawConvexPolygon pts 4 paint = some { cv with fDevice := bm1 } ∧
      bm1.width = cv.fDevice.width ∧ bm1.height = cv.fDevice.height ∧
      ∀ x y : Int, bm1.pixels x y =
        if ((0 ≤ x ∧ x < cv.fDevice.width) ∧ l < (x : ℚ) + 1 / 2 ∧ (x : ℚ) + 1 / 2 ≤ r) ∧
            ((0 ≤ y ∧ y < cv.fDevice.height) ∧ t < (y : ℚ) + 1 / 2 ∧ (y : ℚ) + 1 / 2 ≤ b) then
          MUblend
            (paintSource cv.ctm paint (GRoundToInt (clampTo l cv.width))
              (GRoundToInt (clampTo r cv.width)) y x)
            (cv.fDevice.pixels x y) paint.fMode
        else cv.fDevice.pixels x y := by
  have hh1 : 0 ≤ cv.height := by rw [hh]; exact hh0
  have hw1 : 0 ≤ cv.width := by rw [hw]; exact hw0
  have hedges := rect_edges l t r b cv.width cv.height htb hh1
  have hrej : (match paint.fShader with
      | some shader => !(shader.setContext cv.ctm)
      | none => false) = false := by
    cases hsh : paint.fShader with
    | none => rfl
    | some sh => simp [hacc sh hsh]
  unfold my_canvas.drawConvexPolygon
  simp only [hrej, Bool.false_eq_true, if_false, hmap, hedges]
  by_cases hs : rowsSurvive t b cv.height
  · have hT0 : 0 ≤ GRoundToInt (clampTo t cv.height) := by
      have := round_mono (clampTo_nonneg t hh1)
      rwa [show (0 : ℚ) = ((0 : Int) : ℚ) by norm_num, round_intCast] at this
    have hBh : GRoundToInt (clampTo b cv.height) ≤ cv.height := by
      have := round_mono (clampTo_le b cv.height)
      rwa [round_intCast] at this
    have hX0 : 0 ≤ GRoundToInt (clampTo l cv.width) := by
      have := round_mono (clampTo_nonneg l hw1)
      rwa [show (0 : ℚ) = ((0 : Int) : ℚ) by norm_num, round_intCast] at this
    have hXw : GRoundToInt (clampTo r cv.width) ≤ cv.width := by
      have := round_mono (clampTo_le r cv.width)
      rwa [round_intCast] at this
    have hTB : GRoundToInt (clampTo t cv.height) < GRoundToInt (clampTo b cv.height) :=
      lt_of_le_of_ne (round_mono (clampTo_mono _ htb)) hs.2.2.2
    obtain ⟨n, hn⟩ : ∃ n : Nat, GRoundToInt (clampTo b cv.height)
        - GRoundToInt (clampTo t cv.height) = (n : Int) + 1 :=
      ⟨(GRoundToInt (clampTo b cv.height) - GRoundToInt (clampTo t cv.height)).toNat - 1,
        by omega⟩
    have hfuel : (GRoundToInt (clampTo b cv.height)
        - GRoundToInt (clampTo t cv.height)).toNat = n + 1 := by omega
    obtain ⟨w1, w2, hsort⟩ := sort_rect_edges (clampTo l cv.width) (clampTo r cv.width)
      (GRoundToInt (clampTo t cv.height)) (GRoundToInt (clampTo b cv.height))
      (clampTo_mono cv.width hlr)
    obtain ⟨bm1, r1, r2, r3, r4⟩ := convexScan_two_vertical_gen
      ⟨0, clampTo l cv.width, clampTo l cv.width, GRoundToInt (clampTo t cv.height),
        GRoundToInt (clampTo b cv.height), w1⟩
      ⟨0, clampTo r cv.width, clampTo r cv.width, GRoundToInt (clampTo t cv.height),
        GRoundToInt (clampTo b cv.height), w2⟩
      paint rfl rfl rfl rfl (round_mono (clampTo_mono cv.width hlr)) n
      (GRoundToInt (clampTo t cv.height)) cv (le_refl _) hn hT0
      (by rw [← hh]; exact hBh) hX0 (by rw [← hw]; exact hXw)
    refine ⟨bm1, ?_, r2, r3, fun x y => ?_⟩
    · simp only [hs, if_true, hsort,
        List.length_cons, List.length_nil, List.head?_cons, List.getLast?_cons_cons,
        List.getLast?_singleton, hfuel]
      simpa using r1
    · rw [r4]
      simp only
      have ex := clamp_interval l r cv.width hw1 x
      have ey := clamp_interval t b cv.height hh1 y
      rw [← hw, ← hh]
      by_cases c : (GRoundToInt (clampTo t cv.height) ≤ y ∧ y < GRoundToInt (clampTo b cv.height))
          ∧ GRoundToInt (clampTo l cv.width) ≤ x ∧ x < GRoundToInt (clampTo r cv.width)
      · rw [if_pos c, if_pos ⟨ex.mp c.2, ey.mp c.1⟩]
      · rw [if_neg c, if_neg (fun hc => c ⟨ey.mpr hc.2, ex.mpr hc.1⟩)]
  · refine ⟨cv.fDevice, ?_, rfl, rfl, fun x y => ?_⟩
    · simp [hs]
    · rw [if_neg]
      rintro ⟨_, hy, h1, h2⟩
      exact rows_none hh1 hs y (by rw [hh]; exact hy) ⟨h1, h2⟩

/-! ## Rejected shaders -/

theorem det_Concat (A B : GMatrix) : (GMatrix.Concat A B).det = A.det * B.det := by
  simp only [GMatrix.det, GMatrix.Concat]
  ring

theorem invertTo_singular (M out : GMatrix) (h : M.det = 0) :
    M.invertTo out = (false, out) := by
  unfold GMatrix.invertTo
  have h0 : (if (0 : Nat) = 0 then M else out).b * (if (0 : Nat) = 0 then M else out).d
      - (if (0 : Nat) = 0 then M else out).a * (if (0 : Nat) = 0 then M else out).e = 0 := by
    simp only [if_true]
    unfold GMatrix.det at h
    linarith
  rw [invert_singular _ 0 1 h0]
  simp

/-- Under a singular matrix every shader rejects the context. -/
theorem setContext_of_det_zero (s : Shader) :
    ∀ ctm : GMatrix, ctm.det = 0 → (s.setContext ctm).1 = false := by
  induction s with
  | bitmap d M inv tm =>
    intro ctm h
    simp only [Shader.setContext]
    rw [invertTo_singular _ _ (by rw [det_Concat, h, zero_mul])]
  | linearGradient cs n inv M tm =>
    intro ctm h
    simp only [Shader.setContext]
    rw [invertTo_singular _ _ (by rw [det_Concat, h, zero_mul])]
  | triColor c0 c1 c2 p0 p1 p2 inv M =>
    intro ctm h
    simp only [Shader.setContext]
    rw [invertTo_singular _ _ (by rw [det_Concat, h, zero_mul])]
  | proxy real E ih =>
    intro ctm h
    simp only [Shader.setContext]
    exact ih _ (by rw [det_Concat, h, zero_mul])
  | composite s0 s1 ih0 _ =>
    intro ctm h
    simp only [Shader.setContext, ih0 ctm h]
    simp

/-- A shader that is singular under the CTM rejects the context. -/
theorem setContext_singular (s : Shader) :
    ∀ ctm : GMatrix, s.Singular ctm → (s.setContext ctm).1 = false := by
  induction s with
  | bitmap d M inv tm =>
    intro ctm h
    simp only [Shader.setContext]
    rw [invertTo_singular _ _ h]
  | linearGradient cs n inv M tm =>
    intro ctm h
    simp only [Shader.setContext]
    rw [invertTo_singular _ _ h]
  | triColor c0 c1 c2 p0 p1 p2 inv M =>
    intro ctm h
    simp only [Shader.setContext]
    rw [invertTo_singular _ _ h]
  | proxy real E ih =>
    intro ctm h
    simp only [Shader.setContext]
    rcases h with h | h
    · exact setContext_of_det_zero real _ h
    · exact ih _ h
  | composite s0 s1 ih0 ih1 =>
    intro ctm h
    simp only [Shader.setContext]
    rcases h with h | h
    · simp [ih0 ctm h]
    · by_cases c : (s0.setContext ctm).1 = true
      · simp [c, ih1 ctm h]
      · simp [c]

/-- A draw with a paint whose shader rejects the CTM returns at once. -/
theorem draws_skip_rejected (cv : my_canvas) (paint : GPaint) (g : GShader)
    (hp : paint.fShader = some g) (hrej : g.setContext cv.ctm = false) :
    (∀ pts count, cv.drawConvexPolygon pts count paint = some cv) ∧
      (∀ rect, cv.drawRect rect paint = some cv) ∧ cv.drawPaint paint = some cv ∧
      (∀ path, cv.drawPath path paint = some cv) := by
  have h1 : ∀ pts count, cv.drawConvexPolygon pts count paint = some cv := by
    intro pts count
    unfold my_canvas.drawConvexPolygon
    simp [hp, hrej]
  refine ⟨h1, fun rect => ?_, ?_, fun path => ?_⟩
  · unfold my_canvas.drawRect
    exact h1 _ 4
  · unfold my_canvas.drawPaint my_canvas.drawRect
    exact h1 _ 4
  unfold my_canvas.drawPath
  simp [hp, hrej]

theorem gradient_same_points_singular (p0 : GPoint) (c : List GColor) (count : Nat)
    (tm : TileMode) (ctm : GMatrix) :
    (my_linear_gradient.create p0 p0 c count tm).Singular ctm := by
  simp only [my_linear_gradient.create, Shader.Singular, det_Concat]
  simp [GMatrix.det]

/-- C14: for every shader kind, if the product of the CTM with the local
matrix is singular then `setContext` returns false, and `drawConvexPolygon`,
`drawRect`, `drawPaint` and `drawPath` with a paint carrying that shader return
the canvas as it was, every pixel unchanged; a linear gradient with `p0 = p1`
is singular under every CTM. -/
theorem singular_shader_skips_draw (s : Shader)
    (rows : Shader → Int → Int → Nat → List GPixel) (cv : my_canvas) (paint : GPaint)
    (hp : paint.fShader = some (s.toGShader rows)) (hs : s.Singular cv.ctm) :
    (s.setContext cv.ctm).1 = false ∧
      (∀ pts count, cv.drawConvexPolygon pts count paint = some cv) ∧
      (∀ rect, cv.drawRect rect paint = some cv) ∧ cv.drawPaint paint = some cv ∧
      (∀ path, cv.drawPath path paint = some cv) ∧
      ∀ (p0 : GPoint) (c : List GColor) (count : Nat) (tm : TileMode) (ctm : GMatrix),
        ((my_linear_gradient.create p0 p0 c count tm).setContext ctm).1 = false := by
  have h := setContext_singular s cv.ctm hs
  obtain ⟨d1, d2, d3, d4⟩ := draws_skip_rejected cv paint (s.toGShader rows) hp h
  exact ⟨h, d1, d2, d3, d4, fun p0 c count tm ctm =>
    setContext_singular _ ctm (gradient_same_points_singular p0 c count tm ctm)⟩

/-- C14 at `degeneratePaint` on a fresh canvas over `sampleBitmap`. -/
theorem singular_shader_skips_draw_witness :
    (degeneratePaint.fShader = some (degenerateGradient.toGShader blankRows) ∧
        degenerateGradient.Singular (my_canvas.create sampleBitmap).ctm) ∧
      (degenerateGradient.setContext (my_canvas.create sampleBitmap).ctm).1 = false ∧
      (my_canvas.create sampleBitmap).drawPaint degeneratePaint
        = some (my_canvas.create sampleBitmap) :=
  have hs : degenerateGradient.Singular (my_canvas.create sampleBitmap).ctm :=
    gradient_same_points_singular _ _ _ _ _
  ⟨⟨rfl, hs⟩,
    (singular_shader_skips_draw degenerateGradient blankRows (my_canvas.create sampleBitmap)
      degeneratePaint rfl hs).1,
    (singular_shader_skips_draw degenerateGradient blankRows (my_canvas.create sampleBitmap)
      degeneratePaint rfl hs).2.2.2.1⟩

/-! ## `drawPaint` -/

theorem clampTo_zero {n : Int} (hn : 0 ≤ n) : clampTo 0 n = 0 := by
  have hn' : (0 : ℚ) ≤ (n : ℚ) := by exact_mod_cast hn
  unfold clampTo
  simp [not_lt.mpr hn']

theorem clampTo_self {n : Int} (hn : 0 ≤ n) : clampTo (n : ℚ) n = (n : ℚ) := by
  have hn' : (0 : ℚ) ≤ (n : ℚ) := by exact_mod_cast hn
  unfold clampTo
  simp [not_lt.mpr hn']

theorem MUcolorToPixel_red : MUcolorToPixel ⟨1, 0, 0, 1⟩ = 0xFFFF0000 := by
  have h1 : MUfloatTo255 1 = 255 := by norm_num [MUfloatTo255]
  have h0 : MUfloatTo255 0 = 0 := by norm_num [MUfloatTo255]
  have p1 : pinUnit 1 = 1 := by norm_num [pinUnit]
  have p0 : pinUnit 0 = 0 := by norm_num [pinUnit]
  simp only [MUcolorToPixel, GColor.pinToUnit, p1, p0, mul_one, zero_mul, h1, h0]
  decide

/-- C11, first counterexample: a paint whose shader rejects the CTM. On a fresh
canvas over `sampleBitmap`, `drawPaint degeneratePaint` returns without
touching pixel (0,0), which stays 0xFF000000, whereas a blend in mode Clear
with any source pixel would be 0. -/
theorem drawPaint_skipped_for_rejected_shader :
    ∃ cv1, (my_canvas.create sampleBitmap).drawPaint degeneratePaint = some cv1 ∧
      ∀ S : GPixel, cv1.fDevice.pixels 0 0
        ≠ MUblend S (sampleBitmap.pixels 0 0) degeneratePaint.fMode := by
  have hs : degenerateGradient.Singular (my_canvas.create sampleBitmap).ctm :=
    gradient_same_points_singular _ _ _ _ _
  have h := setContext_singular degenerateGradient _ hs
  refine ⟨my_canvas.create sampleBitmap,
    (draws_skip_rejected (my_canvas.create sampleBitmap) degeneratePaint
      (degenerateGradient.toGShader blankRows) rfl h).2.2.1, fun S => ?_⟩
  show (0xFF000000 : Nat) ≠ GPixel_PackARGB 0 0 0 0
  decide

/-- C11 as amended: with the identity CTM and a paint that has no shader or
whose shader accepts the CTM, `drawPaint` completes and replaces every pixel
`(x, y)` with `0 ≤ x < width`, `0 ≤ y < height` by the blend of the paint's
source pixel with its old value; nothing else changes. With colour (1,0,0,1),
no shader and mode Src every pixel becomes 0xFFFF0000. -/
theorem drawPaint_fills_canvas (cv : my_canvas) (paint : GPaint)
    (hctm : cv.ctm = GMatrix.identity)
    (hacc : ∀ sh, paint.fShader = some sh → sh.setContext cv.ctm = true)
    (hw : cv.width = cv.fDevice.width) (hh : cv.height = cv.fDevice.height)
    (hw0 : 0 ≤ cv.fDevice.width) (hh0 : 0 ≤ cv.fDevice.height) :
    ∃ bm1, cv.drawPaint paint = some { cv with fDevice := bm1 } ∧
      bm1.width = cv.fDevice.width ∧ bm1.height = cv.fDevice.height ∧
      (∀ x y : Int, 0 ≤ x → x < cv.fDevice.width → 0 ≤ y → y < cv.fDevice.height →
        bm1.pixels x y =
          MUblend (paintSource cv.ctm paint 0 cv.fDevice.width y x) (cv.fDevice.pixels x y)
            paint.fMode) ∧
      (∀ x y : Int, ¬ (0 ≤ x ∧ x < cv.fDevice.width ∧ 0 ≤ y ∧ y < cv.fDevice.height) →
        bm1.pixels x y = cv.fDevice.pixels x y) ∧
      (paint.fShader = none → paint.fColor = ⟨1, 0, 0, 1⟩ → paint.fMode = GBlendMode.kSrc →
        ∀ x y : Int, 0 ≤ x → x < cv.fDevice.width → 0 ≤ y → y < cv.fDevice.height →
          bm1.pixels x y = 0xFFFF0000) := by
  have hw1 : 0 ≤ cv.width := by rw [hw]; exact hw0
  have hmap : cv.ctm.mapPoints (List.replicate 4 ⟨0, 0⟩)
      [⟨0, 0⟩, ⟨0 + (cv.fDevice.width : ℚ), 0⟩,
        ⟨0 + (cv.fDevice.width : ℚ), 0 + (cv.fDevice.height : ℚ)⟩,
        ⟨0, 0 + (cv.fDevice.height : ℚ)⟩] 4
      = some [⟨0, 0⟩, ⟨0 + (cv.fDevice.width : ℚ), 0⟩,
        ⟨0 + (cv.fDevice.width : ℚ), 0 + (cv.fDevice.height : ℚ)⟩,
        ⟨0, 0 + (cv.fDevice.height : ℚ)⟩] := by
    rw [hctm]
    exact mapPoints_identity_rect _ 4 rfl
  have hw' : (0 : ℚ) ≤ 0 + (cv.fDevice.width : ℚ) := by
    have : (0 : ℚ) ≤ (cv.fDevice.width : ℚ) := by exact_mod_cast hw0
    linarith
  have hh' : (0 : ℚ) ≤ 0 + (cv.fDevice.height : ℚ) := by
    have : (0 : ℚ) ≤ (cv.fDevice.height : ℚ) := by exact_mod_cast hh0
    linarith
  obtain ⟨bm1, r1, r2, r3, r4⟩ := drawConvexPolygon_mapped_rect cv _ paint 0 0
    (0 + (cv.fDevice.width : ℚ)) (0 + (cv.fDevice.height : ℚ)) hmap hacc hw hh hw0 hh0 hw' hh'
  have hxl : GRoundToInt (clampTo 0 cv.width) = 0 := by
    rw [clampTo_zero hw1]
    exact round_intCast 0
  have hxr : GRoundToInt (clampTo (0 + (cv.fDevice.width : ℚ)) cv.width) = cv.fDevice.width := by
    rw [zero_add, ← hw, clampTo_self hw1]
    exact round_intCast _
  rw [hxl, hxr] at r4
  have hin : ∀ x y : Int, 0 ≤ x → x < cv.fDevice.width → 0 ≤ y → y < cv.fDevice.height →
      ((0 ≤ x ∧ x < cv.fDevice.width) ∧ (0 : ℚ) < (x : ℚ) + 1 / 2 ∧
          (x : ℚ) + 1 / 2 ≤ 0 + (cv.fDevice.width : ℚ)) ∧
        ((0 ≤ y ∧ y < cv.fDevice.height) ∧ (0 : ℚ) < (y : ℚ) + 1 / 2 ∧
          (y : ℚ) + 1 / 2 ≤ 0 + (cv.fDevice.height : ℚ)) := by
    intro x y hx0 hx1 hy0 hy1
    have a0 : (0 : ℚ) ≤ (x : ℚ) := by exact_mod_cast hx0
    have a1 : (x : ℚ) + 1 ≤ (cv.fDevice.width : ℚ) := by exact_mod_cast hx1
    have b0 : (0 : ℚ) ≤ (y : ℚ) := by exact_mod_cast hy0
    have b1 : (y : ℚ) + 1 ≤ (cv.fDevice.height : ℚ) := by exact_mod_cast hy1
    exact ⟨⟨⟨hx0, hx1⟩, by linarith, by linarith⟩, ⟨hy0, hy1⟩, by linarith, by linarith⟩
  have hfill : ∀ x y : Int, 0 ≤ x → x < cv.fDevice.width → 0 ≤ y → y < cv.fDevice.height →
      bm1.pixels x y =
        MUblend (paintSource cv.ctm paint 0 cv.fDevice.width y x) (cv.fDevice.pixels x y)
          paint.fMode := by
    intro x y hx0 hx1 hy0 hy1
    rw [r4 x y, if_pos (hin x y hx0 hx1 hy0 hy1)]
  refine ⟨bm1, ?_, r2, r3, hfill, ?_, ?_⟩
  · unfold my_canvas.drawPaint my_canvas.drawRect
    exact r1
  · intro x y hout
    rw [r4 x y, if_neg]
    rintro ⟨⟨⟨a, b⟩, _⟩, ⟨c, d⟩, _⟩
    exact hout ⟨a, b, c, d⟩
  · intro hsh hcol hmode x y hx0 hx1 hy0 hy1
    rw [hfill x y hx0 hx1 hy0 hy1, hmode]
    unfold paintSource
    rw [hsh, hcol]
    exact MUcolorToPixel_red

/-- C11 as amended, on the 10x10 `tenBitmap` with opaque red in mode Src:
every pixel becomes 0xFFFF0000. -/
theorem drawPaint_fills_canvas_witness :
    ((my_canvas.create tenBitmap).ctm = GMatrix.identity ∧ redPaint.fShader = none) ∧
      ∃ bm1, (my_canvas.create tenBitmap).drawPaint redPaint
          = some { my_canvas.create tenBitmap with fDevice := bm1 } ∧
        ∀ x y : Int, 0 ≤ x → x < 10 → 0 ≤ y → y < 10 → bm1.pixels x y = 0xFFFF0000 := by
  refine ⟨⟨rfl, rfl⟩, ?_⟩
  obtain ⟨bm1, h1, _, _, _, _, h6⟩ := drawPaint_fills_canvas (my_canvas.create tenBitmap)
    redPaint rfl (fun sh h => by cases h) rfl rfl (by decide) (by decide)
  exact ⟨bm1, h1, h6 rfl rfl rfl⟩

/-- The other way `drawPaint` departs from filling the canvas: it maps the
device rectangle through the CTM. After `concat(Scale(1/2, 1/2))` on a fresh
canvas over the 4x4 `sampleBitmap`, `drawPaint` with opaque red in mode Src
leaves pixel (3,3) at 0xFF000000 although its blend is 0xFFFF0000. -/
theorem drawPaint_under_scaled_ctm :
    ∃ cv1, ((my_canvas.create sampleBitmap).concat (GMatrix.Scale (1 / 2) (1 / 2))).drawPaint
          redPaint = some cv1 ∧
      cv1.fDevice.pixels 3 3 = 0xFF000000 ∧
      MUblend (MUcolorToPixel redPaint.fColor) (sampleBitmap.pixels 3 3) redPaint.fMode
        = 0xFFFF0000 := by
  have hmap : ((my_canvas.create sampleBitmap).concat (GMatrix.Scale (1 / 2) (1 / 2))).ctm.mapPoints
      (List.replicate 4 ⟨0, 0⟩)
      [⟨0, 0⟩, ⟨0 + ((4 : Int) : ℚ), 0⟩, ⟨0 + ((4 : Int) : ℚ), 0 + ((4 : Int) : ℚ)⟩,
        ⟨0, 0 + ((4 : Int) : ℚ)⟩] 4
      = some [⟨0, 0⟩, ⟨2, 0⟩, ⟨2, 2⟩, ⟨0, 2⟩] := by
    have h := mapPoints_eq_map
      ((my_canvas.create sampleBitmap).concat (GMatrix.Scale (1 / 2) (1 / 2))).ctm
      (List.replicate 4 ⟨0, 0⟩)
      [⟨0, 0⟩, ⟨0 + ((4 : Int) : ℚ), 0⟩, ⟨0 + ((4 : Int) : ℚ), 0 + ((4 : Int) : ℚ)⟩,
        ⟨0, 0 + ((4 : Int) : ℚ)⟩] rfl
    rw [show ([⟨0, 0⟩, ⟨0 + ((4 : Int) : ℚ), 0⟩, ⟨0 + ((4 : Int) : ℚ), 0 + ((4 : Int) : ℚ)⟩,
        ⟨0, 0 + ((4 : Int) : ℚ)⟩] : List GPoint).length = 4 from rfl] at h
    rw [h]
    norm_num [my_canvas.concat, my_canvas.create, my_canvas.save, GMatrix.Concat,
      GMatrix.identity, GMatrix.Scale, GMatrix.mapPoint]
  obtain ⟨bm1, r1, _, _, r4⟩ := drawConvexPolygon_mapped_rect
    ((my_canvas.create sampleBitmap).concat (GMatrix.Scale (1 / 2) (1 / 2))) _ redPaint
    0 0 2 2 hmap (fun sh h => by cases h) rfl rfl (by decide) (by decide) (by norm_num)
    (by norm_num)
  refine ⟨_, r1, ?_, MUcolorToPixel_red⟩
  show bm1.pixels 3 3 = 0xFF000000
  rw [r4 3 3, if_neg]
  · rfl
  · norm_num

/-! ## The convex scan against the winding scan -/

/-- A `blit` over an empty span with a shaderless paint changes nothing. -/
theorem blit_empty (cv : my_canvas) (x0 x1 y : Int) (paint : GPaint)
    (hp : paint.fShader = none) (h : x1 ≤ x0) : cv.blit x0 x1 y paint = some cv := by
  unfold my_canvas.blit
  rw [hp]
  have : (x1 - x0).toNat = 0 := by omega
  simp [this, blendRow]

/-- The edges `drawConvexPolygon` builds for `overhangTriangle` on a 4x4
device, in the order they are pushed: the edge (0,4)-(2,2); of the edge
(2,2)-(-2,0) the part left of the device projected on the border and the part
inside; the edge (-2,0)-(0,4) projected on the border. -/
theorem overhang_edges : buildPolygonEdges overhangTriangle 3 4 4
    = some [⟨-1, 4, 3 / 2, 2, 4, 1⟩, ⟨0, 0, 0, 0, 1, 1⟩, ⟨2, -2, 1, 1, 2, 1⟩,
        ⟨0, 0, 0, 0, 4, -1⟩] := by
  norm_num [buildPolygonEdges, overhangTriangle, List.range, List.range.loop, List.foldlM,
    MUclipPoints, GRoundToInt, clipTop, clipBottom, clipLeft, clipRight, MUmakeEdgeWinding,
    my_edge.setWinding, my_edge.set, my_edge.fresh]

/-- The two border edges have the same top, x and slope; the sort keeps the
short one first. -/
theorem overhang_sorted :
    MUsortEdges [⟨-1, 4, 3 / 2, 2, 4, 1⟩, ⟨0, 0, 0, 0, 1, 1⟩, ⟨2, -2, 1, 1, 2, 1⟩,
        ⟨0, 0, 0, 0, 4, -1⟩]
    = [⟨0, 0, 0, 0, 1, 1⟩, ⟨0, 0, 0, 0, 4, -1⟩, ⟨2, -2, 1, 1, 2, 1⟩,
        ⟨-1, 4, 3 / 2, 2, 4, 1⟩] := by
  norm_num [MUsortEdges, List.insertionSort, List.orderedInsert, MULT]

/-- The convex scan on `overhangTriangle`: every row is blitted from the x of
the left index to the x of the right index, and on every row the left index
holds the edge further right, so nothing is drawn. -/
theorem overhang_convex :
    (my_canvas.create sampleBitmap).drawConvexPolygon overhangTriangle 3 redPaint
      = some (my_canvas.create sampleBitmap) := by
  have hmap : (my_canvas.create sampleBitmap).ctm.mapPoints (List.replicate 3 ⟨0, 0⟩)
      overhangTriangle 3 = some overhangTriangle := mapPoints_identity_rect _ 3 rfl
  unfold my_canvas.drawConvexPolygon
  rw [hmap]
  have hw : (my_canvas.create sampleBitmap).width = 4 := rfl
  have hh : (my_canvas.create sampleBitmap).height = 4 := rfl
  simp only [hw, hh, overhang_edges, overhang_sorted]
  norm_num [redPaint, convexScan, my_edge.get_X, my_edge.valid, GRoundToInt, blit_empty]

theorem overhang_path :
    (GPath.mk [] []).addPolygon overhangTriangle 3
      = some ⟨overhangTriangle, [Verb.kMove, Verb.kLine, Verb.kLine]⟩ := by
  simp [GPath.addPolygon, overhangTriangle, List.range, List.range.loop, List.foldlM,
    GPath.moveTo, GPath.lineTo]

theorem overhang_segments :
    ((GPath.mk overhangTriangle [Verb.kMove, Verb.kLine, Verb.kLine]).transform
        GMatrix.identity).edgerSegments
      = [Segment.line ⟨0, 4⟩ ⟨2, 2⟩, Segment.line ⟨2, 2⟩ ⟨-2, 0⟩,
          Segment.line ⟨-2, 0⟩ ⟨0, 4⟩] := by
  have h : overhangTriangle.map GMatrix.identity.mapPoint = overhangTriangle := by
    conv_rhs => rw [← List.map_id overhangTriangle]
    exact List.map_congr_left fun q _ => mapPoint_identity q
  simp only [GPath.transform, h]
  simp [GPath.edgerSegments, edgerWalk, closeContour, overhangTriangle]

/-- The path of `overhangTriangle` yields the same edges as the polygon. -/
theorem overhang_path_edges :
    ((GPath.mk overhangTriangle [Verb.kMove, Verb.kLine, Verb.kLine]).transform
        GMatrix.identity).edgerSegments.foldl (clipSegment 4 4) []
      = [⟨-1, 4, 3 / 2, 2, 4, 1⟩, ⟨0, 0, 0, 0, 1, 1⟩, ⟨2, -2, 1, 1, 2, 1⟩,
          ⟨0, 0, 0, 0, 4, -1⟩] := by
  rw [overhang_segments]
  have hl : ∀ (p0 p1 : GPoint) (edges : List my_edge),
      clipSegment 4 4 edges (Segment.line p0 p1) = MUclipPoints p0 p1 4 4 edges :=
    fun _ _ _ => rfl
  simp only [List.foldl_cons, List.foldl_nil, hl]
  norm_num [MUclipPoints, GRoundToInt, clipTop, clipBottom, clipLeft, clipRight,
    MUmakeEdgeWinding, my_edge.setWinding, my_edge.set, my_edge.fresh]

/-- The winding scan on the path of `overhangTriangle` fills the four pixels
whose centres lie in the triangle. -/
theorem overhang_winding :
    ∃ cv1, (my_canvas.create sampleBitmap).drawPath
        ⟨overhangTriangle, [Verb.kMove, Verb.kLine, Verb.kLine]⟩ redPaint = some cv1 ∧
      cv1.fDevice.pixels 0 1 = 0xFFFF0000 ∧ cv1.fDevice.pixels 0 2 = 0xFFFF0000 ∧
      cv1.fDevice.pixels 1 2 = 0xFFFF0000 ∧ cv1.fDevice.pixels 0 3 = 0xFFFF0000 := by
  unfold my_canvas.drawPath
  have hc : (my_canvas.create sampleBitmap).ctm = GMatrix.identity := rfl
  have hw : (my_canvas.create sampleBitmap).width = 4 := rfl
  have hh : (my_canvas.create sampleBitmap).height = 4 := rfl
  simp only [hc, hw, hh, overhang_path_edges, overhang_sorted]
  norm_num [redPaint, my_canvas.complex_scan, scanRows, complexLoop, complexRow, admitEdges,
    MUsortInX, MUSinX, List.insertionSort, List.orderedInsert, my_edge.get_X, my_edge.valid,
    GRoundToInt, my_canvas.blit, blendRow, GBitmap.store, my_canvas.create, sampleBitmap,
    my_canvas.save, MUcolorToPixel_red, MUblend, MUblendARGB]

/-- C13, the defect: on a 4x4 device of opaque black with the identity CTM and
opaque red in mode Src, the counter-clockwise convex triangle (0,4), (2,2),
(-2,0) is drawn differently by the two scans. `drawConvexPolygon` leaves the
bitmap as it was; `drawPath` on the path `addPolygon` builds from the same
points turns the pixels (0,1), (0,2), (1,2), (0,3) into 0xFFFF0000. The
centres of those pixels lie inside the triangle. -/
theorem convex_scan_differs_from_winding_scan :
    shoelace overhangTriangle < 0 ∧
      (my_canvas.create sampleBitmap).drawConvexPolygon overhangTriangle 3 redPaint
        = some (my_canvas.create sampleBitmap) ∧
      (my_canvas.create sampleBitmap).fDevice.pixels 0 1 = 0xFF000000 ∧
      ∃ p cv1, (GPath.mk [] []).addPolygon overhangTriangle 3 = some p ∧
        (my_canvas.create sampleBitmap).drawPath p redPaint = some cv1 ∧
        cv1.fDevice.pixels 0 1 = 0xFFFF0000 ∧ cv1.fDevice.pixels 0 2 = 0xFFFF0000 ∧
        cv1.fDevice.pixels 1 2 = 0xFFFF0000 ∧ cv1.fDevice.pixels 0 3 = 0xFFFF0000 := by
  obtain ⟨cv1, h1, h2⟩ := overhang_winding
  refine ⟨?_, overhang_convex, rfl, _, cv1, overhang_path, h1, h2⟩
  norm_num [shoelace, shoelaceChain, overhangTriangle]

/-! ## The convex scan on a list of edges -/

theorem MULT_false {a b : my_edge} (h : MULT b a = false) :
    a.top ≤ b.top ∧ (a.top = b.top → a.curr_x ≤ b.curr_x) := by
  unfold MULT at h
  split_ifs at h <;> exact ⟨by omega, fun _ => by linarith⟩

theorem sorted_get {E : List my_edge} (hs : E.Pairwise (fun a b => MULT b a = false))
    {i j : Nat} {a b : my_edge} (hi : E.get? i = some a) (hj : E.get? j = some b)
    (hij : i < j) : a.top ≤ b.top ∧ (a.top = b.top → a.curr_x ≤ b.curr_x) := by
  rw [List.get?_eq_getElem?] at hi hj
  obtain ⟨hi1, hi2⟩ := List.getElem?_eq_some_iff.mp hi
  obtain ⟨hj1, hj2⟩ := List.getElem?_eq_some_iff.mp hj
  have := (List.pairwise_iff_getElem.mp hs) i j hi1 hj1 hij
  rw [hi2, hj2] at this
  exact MULT_false this

theorem get_mem {E : List my_edge} {i : Nat} {e : my_edge} (h : E.get? i = some e) : e ∈ E :=
  List.get?_mem h

theorem get_of_le {E : List my_edge} {i k : Nat} {e : my_edge} (h : E.get? k = some e)
    (hik : i ≤ k) : ∃ a, E.get? i = some a := by
  rw [List.get?_eq_getElem?] at h ⊢
  obtain ⟨hk, _⟩ := List.getElem?_eq_some_iff.mp h
  exact ⟨E[i], List.getElem?_eq_getElem (by omega)⟩

theorem get_lt_length {E : List my_edge} {i : Nat} {e : my_edge} (h : E.get? i = some e) :
    i < E.length := by
  rw [List.get?_eq_getElem?] at h
  exact (List.getElem?_eq_some_iff.mp h).1

/-- No three edges cover one row. -/
theorem ScanReady.three_cover {E : List my_edge} {y0 y1 lw : Int} (h : ScanReady E y0 y1 lw)
    {y : Int} {i j k : Nat} {a b c : my_edge} (hi : E.get? i = some a) (hj : E.get? j = some b)
    (hk : E.get? k = some c) (ca : a.covers y) (cb : b.covers y) (cc : c.covers y)
    (hij : i ≠ j) (hik : i ≠ k) (hjk : j ≠ k) : False := by
  have wa := h.wind a (get_mem hi)
  have wb := h.wind b (get_mem hj)
  have wc := h.wind c (get_mem hk)
  by_cases e1 : a.winding = b.winding
  · exact hij (h.uniq y i j a b hi hj ca cb e1)
  by_cases e2 : a.winding = c.winding
  · exact hik (h.uniq y i k a c hi hk ca cc e2)
  have e3 : b.winding = c.winding := by
    rcases wa with wa | wa <;> rcases wb with wb | wb <;> rcases wc with wc | wc <;>
      simp_all
  exact hjk (h.uniq y j k b c hj hk cb cc e3)

theorem ScanReady.wind_ne {E : List my_edge} {y0 y1 lw : Int} (h : ScanReady E y0 y1 lw)
    {e : my_edge} (he : e ∈ E) : e.winding ≠ -e.winding := by
  have := h.lw_ne
  rcases h.wind e he with w | w <;> rw [w] <;> omega

/-- On a row of the range there are two edges, one of each winding. -/
theorem ScanReady.cover_pair {E : List my_edge} {y0 y1 lw : Int} (h : ScanReady E y0 y1 lw)
    {y : Int} (hy0 : y0 ≤ y) (hy1 : y < y1) :
    ∃ i j a b, E.get? i = some a ∧ E.get? j = some b ∧ i ≠ j ∧ a.covers y ∧ b.covers y ∧
      a.winding = lw ∧ b.winding = -lw := by
  obtain ⟨a, ha, ca, wa⟩ := h.ex y hy0 hy1 lw (Or.inl rfl)
  obtain ⟨b, hb, cb, wb⟩ := h.ex y hy0 hy1 (-lw) (Or.inr rfl)
  obtain ⟨i, hi⟩ := List.mem_iff_get?.mp ha
  obtain ⟨j, hj⟩ := List.mem_iff_get?.mp hb
  refine ⟨i, j, a, b, hi, hj, ?_, ca, cb, wa, wb⟩
  intro hij
  subst hij
  rw [hi] at hj
  cases hj
  exact h.lw_ne (wa.symm.trans wb)

/-- Two edges start on row `y` when no edge before `next` covers it. -/
theorem ScanReady.new_edges {E : List my_edge} {y0 y1 lw : Int} (h : ScanReady E y0 y1 lw)
    {y : Int} (hy0 : y0 ≤ y) (hy1 : y < y1) {next : Nat}
    (hold : ∀ k e, E.get? k = some e → k < next → ¬ e.covers y)
    (hfut : ∀ k e, E.get? k = some e → next ≤ k → y ≤ e.top) :
    ∃ N1 N2, E.get? next = some N1 ∧ E.get? (next + 1) = some N2 ∧ N1.covers y ∧
      N2.covers y ∧ N1.xAt y ≤ N2.xAt y ∧
      ∀ k e, E.get? k = some e → next + 2 ≤ k → y < e.top := by
  obtain ⟨i, j, a, b, hi, hj, hij, ca, cb, _, _⟩ := h.cover_pair hy0 hy1
  -- order the two indices
  have key : ∀ (i j : Nat) (a b : my_edge), E.get? i = some a → E.get? j = some b → i < j →
      a.covers y → b.covers y →
      ∃ N1 N2, E.get? next = some N1 ∧ E.get? (next + 1) = some N2 ∧ N1.covers y ∧
        N2.covers y ∧ N1.xAt y ≤ N2.xAt y ∧
        ∀ k e, E.get? k = some e → next + 2 ≤ k → y < e.top := by
    intro i j a b hi hj hij ca cb
    have hni : next ≤ i := by
      by_contra hc
      exact hold i a hi (by omega) ca
    have hnj : next ≤ j := by omega
    have ta : a.top = y := le_antisymm ca.1 (hfut i a hi hni)
    have tb : b.top = y := le_antisymm cb.1 (hfut j b hj hnj)
    -- the edge at `next`
    obtain ⟨N1, hN1⟩ := get_of_le hi hni
    have hi' : next = i := by
      by_contra hne
      have hlt : next < i := by omega
      have t1 := (sorted_get h.sorted hN1 hi hlt).1
      have t2 := hfut next N1 hN1 (le_refl _)
      have c1 : N1.covers y := ⟨by omega, by have := h.pos N1 (get_mem hN1); omega⟩
      exact h.three_cover hN1 hi hj c1 ca cb (by omega) (by omega) (by omega)
    subst hi'
    rw [hi] at hN1
    cases hN1
    obtain ⟨N2, hN2⟩ := get_of_le hj (show next + 1 ≤ j by omega)
    have t2 := hfut (next + 1) N2 hN2 (by omega)
    have hj' : next + 1 = j := by
      by_contra hne
      have hlt : next + 1 < j := by omega
      have t1 := (sorted_get h.sorted hN2 hj hlt).1
      have c1 : N2.covers y := ⟨by omega, by have := h.pos N2 (get_mem hN2); omega⟩
      exact h.three_cover hi hN2 hj ca c1 cb (by omega) (by omega) (by omega)
    subst hj'
    rw [hj] at hN2
    cases hN2
    refine ⟨a, b, hi, hj, ca, cb, ?_, ?_⟩
    · have s := (sorted_get h.sorted hi hj (by omega)).2 (by omega)
      rw [h.curr a (get_mem hi), h.curr b (get_mem hj), ta, tb] at s
      exact s
    · intro k e hk hle
      have t := hfut k e hk (by omega)
      by_contra hc
      have c1 : e.covers y := ⟨by omega, by have := h.pos e (get_mem hk); omega⟩
      exact h.three_cover hi hj hk ca cb c1 (by omega) (by omega) (by omega)
  rcases Nat.lt_or_gt_of_ne hij with hlt | hgt
  · exact key i j a b hi hj hlt ca cb
  · exact key j i b a hj hi hgt cb ca

/-- One edge starts on row `y` when of the edges before `next` only the one at
`K` covers it. -/
theorem ScanReady.one_new {E : List my_edge} {y0 y1 lw : Int} (h : ScanReady E y0 y1 lw)
    {y : Int} (hy0 : y0 ≤ y) (hy1 : y < y1) {next K : Nat} {eK : my_edge}
    (hK : E.get? K = some eK) (cK : eK.covers y) (hKn : K < next)
    (hold : ∀ k e, E.get? k = some e → k < next → k ≠ K → ¬ e.covers y)
    (hfut : ∀ k e, E.get? k = some e → next ≤ k → y ≤ e.top) :
    ∃ N, E.get? next = some N ∧ N.covers y ∧ N.winding = -eK.winding ∧
      ∀ k e, E.get? k = some e → next + 1 ≤ k → y < e.top := by
  have wK := h.wind eK (get_mem hK)
  have hw : (-eK.winding = lw ∨ -eK.winding = -lw) := by
    rcases wK with w | w <;> rw [w]
    · exact Or.inr rfl
    · exact Or.inl (by omega)
  obtain ⟨e, he, ce, we⟩ := h.ex y hy0 hy1 _ hw
  obtain ⟨k, hk⟩ := List.mem_iff_get?.mp he
  have hkK : k ≠ K := by
    intro hc
    subst hc
    rw [hK] at hk
    cases hk
    exact h.wind_ne (get_mem hK) we
  have hnk : next ≤ k := by
    by_contra hc
    exact hold k e hk (by omega) hkK ce
  have te : e.top = y := le_antisymm ce.1 (hfut k e hk hnk)
  obtain ⟨N, hN⟩ := get_of_le hk hnk
  have hk' : next = k := by
    by_contra hne
    have hlt : next < k := by omega
    have t1 := (sorted_get h.sorted hN hk hlt).1
    have t2 := hfut next N hN (le_refl _)
    have c1 : N.covers y := ⟨by omega, by have := h.pos N (get_mem hN); omega⟩
    exact h.three_cover hN hk hK c1 ce cK (by omega) (by omega) (by omega)
  subst hk'
  rw [hk] at hN
  cases hN
  refine ⟨e, hk, ce, we, ?_⟩
  intro k' e' hk' hle
  have t := hfut k' e' hk' (by omega)
  by_contra hc
  have c1 : e'.covers y := ⟨by omega, by have := h.pos e' (get_mem hk'); omega⟩
  exact h.three_cover hk hk' hK ce c1 cK (by omega) (by omega) (by omega)

theorem scan_done (E : List my_edge) (paint : GPaint) (y1 : Int) (f : Nat) (y : Int)
    (L R next : Nat) (cv : my_canvas) (h : y1 ≤ y) :
    convexScan E paint y1 f y L R next cv = some cv := by
  have : ¬ y < y1 := by omega
  cases f <;> simp [convexScan, this]

theorem valid_succ {e : my_edge} {y : Int} (c : e.covers y) :
    e.valid (y + 1) = decide (y + 1 < e.bottom) := by
  unfold my_edge.valid
  have := c.1
  by_cases hb : y + 1 < e.bottom
  · simp [hb]; omega
  · simp [hb]

/-- One round of the scan loop, by which of the two edges end on the row. -/
theorem scan_unfold (E : List my_edge) (paint : GPaint) (y1 : Int) (f : Nat) (y : Int)
    (L R next : Nat) (cv cv' : my_canvas) (eL eR : my_edge) (hy : y < y1)
    (hL : E.get? L = some eL) (hR : E.get? R = some eR) (cL : eL.covers y) (cR : eR.covers y)
    (hb : cv.blit (eL.get_X y) (eR.get_X y) y paint = some cv') :
    (y + 1 < eL.bottom → y + 1 < eR.bottom →
        convexScan E paint y1 (f + 1) y L R next cv
          = convexScan E paint y1 f (y + 1) L R next cv') ∧
      (¬ y + 1 < eL.bottom → y + 1 < eR.bottom → next < E.length →
        convexScan E paint y1 (f + 1) y L R next cv
          = convexScan E paint y1 f (y + 1) next R (next + 1) cv') ∧
      (y + 1 < eL.bottom → ¬ y + 1 < eR.bottom → next < E.length →
        convexScan E paint y1 (f + 1) y L R next cv
          = convexScan E paint y1 f (y + 1) L next (next + 1) cv') ∧
      (¬ y + 1 < eL.bottom → ¬ y + 1 < eR.bottom → next + 1 < E.length →
        convexScan E paint y1 (f + 1) y L R next cv
          = convexScan E paint y1 f (y + 1) next (next + 1) (next + 2) cv') ∧
      (y1 ≤ y + 1 → convexScan E paint y1 (f + 1) y L R next cv = some cv') := by
  have vL := valid_succ cL
  have vR := valid_succ cR
  have hL' : E[L]? = some eL := by rwa [List.get?_eq_getElem?] at hL
  have hR' : E[R]? = some eR := by rwa [List.get?_eq_getElem?] at hR
  refine ⟨?_, ?_, ?_, ?_, ?_⟩
  · intro h1 h2
    rw [convexScan]
    simp [hy, hL', hR', hb, vL, vR, h1, h2]
  · intro h1 h2 h3
    rw [convexScan]
    simp [hy, hL', hR', hb, vL, vR, h1, h2, h3]
  · intro h1 h2 h3
    rw [convexScan]
    simp [hy, hL', hR', hb, vL, vR, h1, h2, h3]
  · intro h1 h2 h3
    rw [convexScan]
    have h4 : next < E.length := by omega
    simp [hy, hL', hR', hb, vL, vR, h1, h2, not_le.mpr h3, not_le.mpr h4]
  · intro h1
    rw [convexScan]
    simp only [hy, if_true, hL, hR, hb]
    have d := fun L R next => scan_done E paint y1 f (y + 1) L R next cv' h1
    simp only [d]
    split_ifs <;> rfl

theorem ScanReady.inv_windings {E : List my_edge} {y0 y1 lw : Int} (h : ScanReady E y0 y1 lw)
    {y : Int} {L R next : Nat} {eL eR : my_edge} (inv : ScanInv E y L R next eL eR) :
    (eL.winding = lw ∧ eR.winding = -lw) ∨ (eL.winding = -lw ∧ eR.winding = lw) := by
  have wL := h.wind eL (get_mem inv.getL)
  have wR := h.wind eR (get_mem inv.getR)
  have hne : eL.winding ≠ eR.winding := fun e =>
    inv.ne (h.uniq y L R eL eR inv.getL inv.getR inv.covL inv.covR e)
  rcases wL with wL | wL <;> rcases wR with wR | wR
  · exact absurd (wL.trans wR.symm) hne
  · exact Or.inl ⟨wL, wR⟩
  · exact Or.inr ⟨wL, wR⟩
  · exact absurd (wL.trans wR.symm) hne

theorem get_X_eq (e : my_edge) (y : Int) : e.get_X y = GRoundToInt (e.xAt y) := rfl

/-- The span the scan blits on row `y` is the span of the row. -/
theorem ScanReady.span_iff {E : List my_edge} {y0 y1 lw : Int} (h : ScanReady E y0 y1 lw)
    {y : Int} {L R next : Nat} {eL eR : my_edge} (inv : ScanInv E y L R next eL eR) (i : Int) :
    (eL.get_X y ≤ i ∧ i < eR.get_X y) ↔ rowSpan E lw i y := by
  have hle : eL.get_X y ≤ eR.get_X y := round_mono inv.le
  have mL := get_mem inv.getL
  have mR := get_mem inv.getR
  constructor
  · rintro ⟨a, b⟩
    rcases h.inv_windings inv with ⟨wL, wR⟩ | ⟨wL, wR⟩
    · exact ⟨eL, mL, eR, mR, inv.covL, inv.covR, wL, wR, a, b⟩
    · have := h.ord eR mR eL mL y inv.covR inv.covL wR wL
      have e : eL.xAt y = eR.xAt y := le_antisymm inv.le this
      have hx : eL.get_X y = eR.get_X y := by rw [get_X_eq, get_X_eq, e]
      omega
  · rintro ⟨el, ml, er, mr, cl, cr, wl, wr, a, b⟩
    obtain ⟨kl, hkl⟩ := List.mem_iff_get?.mp ml
    obtain ⟨kr, hkr⟩ := List.mem_iff_get?.mp mr
    rcases h.inv_windings inv with ⟨wL, wR⟩ | ⟨wL, wR⟩
    · have e1 := h.uniq y kl L el eL hkl inv.getL cl inv.covL (wl.trans wL.symm)
      have e2 := h.uniq y kr R er eR hkr inv.getR cr inv.covR (wr.trans wR.symm)
      subst e1
      subst e2
      rw [inv.getL] at hkl
      rw [inv.getR] at hkr
      cases hkl
      cases hkr
      exact ⟨a, b⟩
    · have e1 := h.uniq y kl R el eR hkl inv.getR cl inv.covR (wl.trans wR.symm)
      have e2 := h.uniq y kr L er eL hkr inv.getL cr inv.covL (wr.trans wL.symm)
      subst e1
      subst e2
      rw [inv.getR] at hkl
      rw [inv.getL] at hkr
      cases hkl
      cases hkr
      omega

/-- The scan state of the next row. -/
theorem ScanReady.next_state {E : List my_edge} {y0 y1 lw : Int} (h : ScanReady E y0 y1 lw)
    {y : Int} {L R next : Nat} {eL eR : my_edge} (inv : ScanInv E y L R next eL eR)
    (hy0 : y0 ≤ y) (hy1 : y + 1 < y1) :
    ∃ L' R' next' eL' eR', ScanInv E (y + 1) L' R' next' eL' eR' ∧
      ∀ (paint : GPaint) (f : Nat) (cv cv' : my_canvas),
        cv.blit (eL.get_X y) (eR.get_X y) y paint = some cv' →
        convexScan E paint y1 (f + 1) y L R next cv
          = convexScan E paint y1 f (y + 1) L' R' next' cv' := by
  have mL := get_mem inv.getL
  have mR := get_mem inv.getR
  have hy : y < y1 := by omega
  have hy0' : y0 ≤ y + 1 := by omega
  have cLt := inv.covL.1
  have cRt := inv.covR.1
  -- a swapped pair ends on this row
  have swapped : eL.winding = -lw → eR.winding = lw →
      eL.bottom = y + 1 ∧ eR.bottom = y + 1 := by
    intro wL wR
    have o := h.ord eR mR eL mL y inv.covR inv.covL wR wL
    have p := h.point eR mR eL mL y inv.covR inv.covL wR wL (le_antisymm o inv.le)
    exact ⟨p.2, p.1⟩
  have hfut : ∀ k e, E.get? k = some e → next ≤ k → y + 1 ≤ e.top := by
    intro k e hk hle
    have := inv.future k e hk hle
    omega
  by_cases h1 : y + 1 < eL.bottom <;> by_cases h2 : y + 1 < eR.bottom
  · -- both go on
    have cL : eL.covers (y + 1) := ⟨by omega, h1⟩
    have cR : eR.covers (y + 1) := ⟨by omega, h2⟩
    refine ⟨L, R, next, eL, eR, ⟨inv.getL, inv.getR, inv.ne, inv.ltL, inv.ltR, cL, cR, ?_, ?_, ?_⟩,
      fun paint f cv cv' hb =>
        (scan_unfold E paint y1 f y L R next cv cv' eL eR hy inv.getL inv.getR inv.covL
          inv.covR hb).1 h1 h2⟩
    · rcases h.inv_windings inv with ⟨wL, wR⟩ | ⟨wL, wR⟩
      · exact h.ord eL mL eR mR (y + 1) cL cR wL wR
      · have := (swapped wL wR).1
        omega
    · intro k e hk hlt hkL hkR
      have := inv.dead k e hk hlt hkL hkR
      omega
    · intro k e hk hle
      have t := hfut k e hk hle
      by_contra hc
      have c1 : e.covers (y + 1) := ⟨by omega, by have := h.pos e (get_mem hk); omega⟩
      have a := inv.ltL
      have b := inv.ltR
      exact h.three_cover hk inv.getL inv.getR c1 cL cR (by omega) (by omega) inv.ne
  · -- the right edge ends
    have cL : eL.covers (y + 1) := ⟨by omega, h1⟩
    have hold : ∀ k e, E.get? k = some e → k < next → k ≠ L → ¬ e.covers (y + 1) := by
      intro k e hk hlt hkL hc
      by_cases hkR : k = R
      · subst hkR
        rw [inv.getR] at hk
        cases hk
        exact h2 hc.2
      · have := inv.dead k e hk hlt hkL hkR
        have := hc.2
        omega
    obtain ⟨N, hN, cN, wN, fN⟩ := h.one_new hy0' hy1 inv.getL cL inv.ltL hold hfut
    have a := inv.ltL
    have b := inv.ltR
    refine ⟨L, next, next + 1, eL, N, ⟨inv.getL, hN, by omega, by omega, by omega, cL, cN, ?_,
        ?_, fN⟩,
      fun paint f cv cv' hb =>
        (scan_unfold E paint y1 f y L R next cv cv' eL eR hy inv.getL inv.getR inv.covL
          inv.covR hb).2.2.1 h1 h2 (get_lt_length hN)⟩
    · rcases h.inv_windings inv with ⟨wL, wR⟩ | ⟨wL, wR⟩
      · exact h.ord eL mL N (get_mem hN) (y + 1) cL cN wL (by rw [wN, wL])
      · have := (swapped wL wR).1
        omega
    · intro k e hk hlt hkL hkn
      have hlt' : k < next := by omega
      by_cases hkR : k = R
      · subst hkR
        rw [inv.getR] at hk
        cases hk
        omega
      · have := inv.dead k e hk hlt' hkL hkR
        omega
  · -- the left edge ends
    have cR : eR.covers (y + 1) := ⟨by omega, h2⟩
    have hold : ∀ k e, E.get? k = some e → k < next → k ≠ R → ¬ e.covers (y + 1) := by
      intro k e hk hlt hkR hc
      by_cases hkL : k = L
      · subst hkL
        rw [inv.getL] at hk
        cases hk
        exact h1 hc.2
      · have := inv.dead k e hk hlt hkL hkR
        have := hc.2
        omega
    obtain ⟨N, hN, cN, wN, fN⟩ := h.one_new hy0' hy1 inv.getR cR inv.ltR hold hfut
    have a := inv.ltL
    have b := inv.ltR
    refine ⟨next, R, next + 1, N, eR, ⟨hN, inv.getR, by omega, by omega, by omega, cN, cR, ?_,
        ?_, fN⟩,
      fun paint f cv cv' hb =>
        (scan_unfold E paint y1 f y L R next cv cv' eL eR hy inv.getL inv.getR inv.covL
          inv.covR hb).2.1 h1 h2 (get_lt_length hN)⟩
    · rcases h.inv_windings inv with ⟨wL, wR⟩ | ⟨wL, wR⟩
      · exact h.ord N (get_mem hN) eR mR (y + 1) cN cR (by rw [wN, wR]; omega) wR
      · have := (swapped wL wR).2
        omega
    · intro k e hk hlt hkn hkR
      have hlt' : k < next := by omega
      by_cases hkL : k = L
      · subst hkL
        rw [inv.getL] at hk
        cases hk
        omega
      · have := inv.dead k e hk hlt' hkL hkR
        omega
  · -- both end
    have hold : ∀ k e, E.get? k = some e → k < next → ¬ e.covers (y + 1) := by
      intro k e hk hlt hc
      by_cases hkL : k = L
      · subst hkL
        rw [inv.getL] at hk
        cases hk
        exact h1 hc.2
      by_cases hkR : k = R
      · subst hkR
        rw [inv.getR] at hk
        cases hk
        exact h2 hc.2
      · have := inv.dead k e hk hlt hkL hkR
        have := hc.2
        omega
    obtain ⟨N1, N2, hN1, hN2, c1, c2, hle, fN⟩ := h.new_edges hy0' hy1 hold hfut
    refine ⟨next, next + 1, next + 2, N1, N2, ⟨hN1, hN2, by omega, by omega, by omega, c1, c2,
        hle, ?_, fN⟩,
      fun paint f cv cv' hb =>
        (scan_unfold E paint y1 f y L R next cv cv' eL eR hy inv.getL inv.getR inv.covL
          inv.covR hb).2.2.2.1 h1 h2 (get_lt_length hN2)⟩
    intro k e hk hlt hkn hkn1
    have hlt' : k < next := by omega
    by_cases hkL : k = L
    · subst hkL
      rw [inv.getL] at hk
      cases hk
      omega
    by_cases hkR : k = R
    · subst hkR
      rw [inv.getR] at hk
      cases hk
      omega
    · have := inv.dead k e hk hlt' hkL hkR
      omega

/-- The convex scan from row `y` on: it completes, and blends on every row
the span between the two edges of the row and nothing else. -/
theorem ScanReady.convexScan_rows {E : List my_edge} {y0 y1 lw : Int}
    (h : ScanReady E y0 y1 lw) (paint : GPaint) (hsh : paint.fShader = none) :
    ∀ (n : Nat) (y : Int) (L R next : Nat) (eL eR : my_edge) (cv : my_canvas),
      ScanInv E y L R next eL eR → y0 ≤ y → y1 - y = (n : Int) + 1 → 0 ≤ y0 →
      y1 ≤ cv.fDevice.height →
      (∀ e ∈ E, ∀ r, e.covers r → 0 ≤ e.get_X r ∧ e.get_X r ≤ cv.fDevice.width) →
      ∃ bm1, convexScan E paint y1 (n + 1) y L R next cv = some { cv with fDevice := bm1 } ∧
        bm1.width = cv.fDevice.width ∧ bm1.height = cv.fDevice.height ∧
        ∀ i j,
          ((y ≤ j ∧ j < y1 ∧ rowSpan E lw i j) → bm1.pixels i j
            = MUblend (MUcolorToPixel paint.fColor) (cv.fDevice.pixels i j) paint.fMode) ∧
          (¬ (y ≤ j ∧ j < y1 ∧ rowSpan E lw i j) → bm1.pixels i j = cv.fDevice.pixels i j) := by
  intro n
  induction n with
  | zero =>
    intro y L R next eL eR cv inv hy0 hn h0 hh hsafe
    have hy : y < y1 := by omega
    obtain ⟨bm1, r1, r2, r3, r4⟩ := blit_spec cv (eL.get_X y) (eR.get_X y) y paint hsh
      (hsafe eL (get_mem inv.getL) y inv.covL).1 (hsafe eR (get_mem inv.getR) y inv.covR).2
      (by omega) (by omega)
    have hu := (scan_unfold E paint y1 0 y L R next cv _ eL eR hy inv.getL inv.getR inv.covL
      inv.covR r1).2.2.2.2 (by omega)
    refine ⟨bm1, hu, r2, r3, fun i j => ⟨?_, ?_⟩⟩
    · rintro ⟨a, b, c⟩
      have e : j = y := by omega
      subst e
      rw [r4, if_pos ⟨rfl, (h.span_iff inv i).mpr c⟩]
    · intro hc
      rw [r4, if_neg]
      rintro ⟨e, s⟩
      subst e
      exact hc ⟨le_refl _, hy, (h.span_iff inv i).mp s⟩
  | succ n ih =>
    intro y L R next eL eR cv inv hy0 hn h0 hh hsafe
    have hy : y < y1 := by omega
    obtain ⟨bm1, r1, r2, r3, r4⟩ := blit_spec cv (eL.get_X y) (eR.get_X y) y paint hsh
      (hsafe eL (get_mem inv.getL) y inv.covL).1 (hsafe eR (get_mem inv.getR) y inv.covR).2
      (by omega) (by omega)
    obtain ⟨L', R', next', eL', eR', inv', hstep⟩ := h.next_state inv hy0 (by omega)
    obtain ⟨bm2, s1, s2, s3, s4⟩ := ih (y + 1) L' R' next' eL' eR' { cv with fDevice := bm1 }
      inv' (by omega) (by push_cast at hn ⊢; omega) h0 (by simpa [r3] using hh)
      (by simpa [r2] using hsafe)
    refine ⟨bm2, ?_, by rw [s2]; exact r2, by rw [s3]; exact r3, fun i j => ⟨?_, ?_⟩⟩
    · rw [hstep paint (n + 1) cv _ r1]
      simpa using s1
    · rintro ⟨a, b, c⟩
      by_cases e : j = y
      · subst e
        rw [(s4 i j).2 (by intro hc; have := hc.1; omega)]
        show bm1.pixels i j = _
        rw [r4, if_pos ⟨rfl, (h.span_iff inv i).mpr c⟩]
      · rw [(s4 i j).1 ⟨by omega, b, c⟩]
        show MUblend _ (bm1.pixels i j) _ = _
        rw [r4, if_neg (fun hc => e hc.1)]
    · intro hc
      rw [(s4 i j).2 (fun hd => hc ⟨by have := hd.1; omega, hd.2.1, hd.2.2⟩)]
      show bm1.pixels i j = _
      rw [r4, if_neg]
      rintro ⟨e, s⟩
      subst e
      exact hc ⟨le_refl _, hy, (h.span_iff inv i).mp s⟩

/-- The last edge of the sorted list ends on the last row. -/
theorem ScanReady.last_bottom {E : List my_edge} {y0 y1 lw : Int} (h : ScanReady E y0 y1 lw)
    {back : my_edge} (hb : E.getLast? = some back) : back.bottom = y1 := by
  rw [List.getLast?_eq_getElem?] at hb
  have hb' : E.get? (E.length - 1) = some back := by rwa [List.get?_eq_getElem?]
  have mb := get_mem hb'
  have hr := h.range back mb
  have hp := h.pos back mb
  by_contra hne
  have hlt : back.bottom < y1 := by omega
  obtain ⟨f, mf, cf, wf⟩ := h.ex back.bottom (by omega) hlt back.winding (h.wind back mb)
  obtain ⟨k, hk⟩ := List.mem_iff_get?.mp mf
  have hkl := get_lt_length hk
  have cb : back.covers (back.bottom - 1) := ⟨by omega, by omega⟩
  have hft : back.bottom ≤ f.top := by
    by_contra hc
    have cf' : f.covers (back.bottom - 1) := ⟨by omega, by have := cf.2; omega⟩
    have e := h.uniq _ k (E.length - 1) f back hk hb' cf' cb wf
    subst e
    rw [hb'] at hk
    cases hk
    have := cf.2
    omega
  by_cases e : k = E.length - 1
  · subst e
    rw [hb'] at hk
    cases hk
    omega
  · have := (sorted_get h.sorted hk hb' (by omega)).1
    omega

/-- The whole convex scan on a list that is ready between `y0` and `y1`. -/
theorem ScanReady.scan_all {E : List my_edge} {y0 y1 lw : Int} (h : ScanReady E y0 y1 lw)
    (hlt : y0 < y1) (paint : GPaint) (hsh : paint.fShader = none) (cv : my_canvas)
    (h0 : 0 ≤ y0) (hh : y1 ≤ cv.fDevice.height)
    (hsafe : ∀ e ∈ E, ∀ r, e.covers r → 0 ≤ e.get_X r ∧ e.get_X r ≤ cv.fDevice.width) :
    ∃ front back, E.head? = some front ∧ E.getLast? = some back ∧ front.top = y0 ∧
      back.bottom = y1 ∧
      ∃ bm1, convexScan E paint y1 (y1 - y0).toNat y0 0 1 2 cv
          = some { cv with fDevice := bm1 } ∧
        bm1.width = cv.fDevice.width ∧ bm1.height = cv.fDevice.height ∧
        ∀ i j,
          ((y0 ≤ j ∧ j < y1 ∧ rowSpan E lw i j) → bm1.pixels i j
            = MUblend (MUcolorToPixel paint.fColor) (cv.fDevice.pixels i j) paint.fMode) ∧
          (¬ (y0 ≤ j ∧ j < y1 ∧ rowSpan E lw i j) → bm1.pixels i j = cv.fDevice.pixels i j) := by
  have hold : ∀ k e, E.get? k = some e → k < 0 → ¬ e.covers y0 :=
    fun k e _ hk => absurd hk (Nat.not_lt_zero k)
  obtain ⟨N1, N2, hN1, hN2, c1, c2, hle, fN⟩ := h.new_edges (le_refl y0) hlt hold
    (fun k e hk _ => (h.range e (get_mem hk)).1)
  have inv : ScanInv E y0 0 1 2 N1 N2 :=
    ⟨hN1, hN2, by omega, by omega, by omega, c1, c2, hle,
      fun k e _ hk h0 h1 => by omega, fN⟩
  have hne : E ≠ [] := by
    intro hc
    rw [hc] at hN1
    simp at hN1
  obtain ⟨back, hback⟩ : ∃ back, E.getLast? = some back :=
    ⟨E.getLast hne, List.getLast?_eq_getLast E hne⟩
  have hfuel : (y1 - y0).toNat = (y1 - y0 - 1).toNat + 1 := by omega
  obtain ⟨bm1, r1, r2, r3, r4⟩ := h.convexScan_rows paint hsh (y1 - y0 - 1).toNat y0 0 1 2 N1 N2
    cv inv (le_refl _) (by omega) h0 hh hsafe
  refine ⟨N1, back, ?_, hback, ?_, h.last_bottom hback, bm1, ?_, r2, r3, r4⟩
  · rw [List.get?_eq_getElem?] at hN1
    rw [List.head?_eq_getElem?]
    exact hN1
  · have := (h.range N1 (get_mem hN1)).1
    have := c1.1
    omega
  · rw [hfuel]
    exact r1

/-! ## The edges of a polygon inside the device -/

theorem round_eq_of_eq {a b : ℚ} (h : a = b) : GRoundToInt a = GRoundToInt b := by rw [h]

/-- Inside the device `MUclipPoints` appends the edge of the side, if any. -/
theorem MUclipPoints_inside (p q : GPoint) (w h : Int) (edges : List my_edge)
    (hp : p.inDevice w h) (hq : q.inDevice w h) :
    MUclipPoints p q w h edges = edges ++ (sideEdge (p, q)).toList := by
  obtain ⟨px0, px1, py0, py1⟩ := hp
  obtain ⟨qx0, qx1, qy0, qy1⟩ := hq
  unfold sideEdge
  by_cases hr : GRoundToInt p.fY = GRoundToInt q.fY
  · unfold MUclipPoints
    by_cases hs : p.fY > q.fY
    · simp [hs, hr]
    · simp [hs, hr]
  have hne : p.fY ≠ q.fY := fun e => hr (round_eq_of_eq e)
  simp only [hr, if_false, Option.toList]
  unfold MUclipPoints
  by_cases hs : p.fY > q.fY
  · have hr' : ¬ GRoundToInt q.fY = GRoundToInt p.fY := fun e => hr e.symm
    have h1 : ¬ p.fY ≤ 0 := by intro hc; apply hne; linarith
    have h2 : ¬ q.fY ≥ (h : ℚ) := by intro hc; apply hne; linarith
    by_cases hx : q.fX ≥ p.fX
    · simp [hs, hr', h1, h2, hx, clipTop, clipBottom, clipLeft, clipRight, not_lt.mpr py0,
        not_lt.mpr qy0, not_lt.mpr py1, not_lt.mpr qy1, not_lt.mpr px0, not_lt.mpr qx0,
        not_lt.mpr px1, not_lt.mpr qx1, MUmakeEdgeWinding, my_edge.setWinding, my_edge.set,
        my_edge.fresh, insideEdge, topEnd, bottomEnd]
    · simp [hs, hr', h1, h2, hx, clipTop, clipBottom, clipLeft, clipRight, not_lt.mpr py0,
        not_lt.mpr qy0, not_lt.mpr py1, not_lt.mpr qy1, not_lt.mpr px0, not_lt.mpr qx0,
        not_lt.mpr px1, not_lt.mpr qx1, MUmakeEdgeWinding, my_edge.setWinding, my_edge.set,
        my_edge.fresh, insideEdge, topEnd, bottomEnd, not_lt.mpr (le_of_lt hs)]
  · have hlt : p.fY < q.fY := lt_of_le_of_ne (not_lt.mp hs) hne
    have h1 : ¬ q.fY ≤ 0 := by intro hc; apply hne; linarith
    have h2 : ¬ p.fY ≥ (h : ℚ) := by intro hc; apply hne; linarith
    by_cases hx : p.fX ≥ q.fX
    · simp [hs, hr, h1, h2, hx, clipTop, clipBottom, clipLeft, clipRight, not_lt.mpr py0,
        not_lt.mpr qy0, not_lt.mpr py1, not_lt.mpr qy1, not_lt.mpr px0, not_lt.mpr qx0,
        not_lt.mpr px1, not_lt.mpr qx1, MUmakeEdgeWinding, my_edge.setWinding, my_edge.set,
        my_edge.fresh, insideEdge, topEnd, bottomEnd, hlt]
    · simp [hs, hr, h1, h2, hx, clipTop, clipBottom, clipLeft, clipRight, not_lt.mpr py0,
        not_lt.mpr qy0, not_lt.mpr py1, not_lt.mpr qy1, not_lt.mpr px0, not_lt.mpr qx0,
        not_lt.mpr px1, not_lt.mpr qx1, MUmakeEdgeWinding, my_edge.setWinding, my_edge.set,
        my_edge.fresh, insideEdge, topEnd, bottomEnd]

theorem chainPairs_snoc (l : List GPoint) (a x : GPoint) :
    chainPairs (l ++ [a] ++ [x]) = chainPairs (l ++ [a]) ++ [(a, x)] := by
  induction l with
  | nil => simp [chainPairs]
  | cons b l ih =>
    cases l with
    | nil => simp [chainPairs]
    | cons c l =>
      simp only [List.cons_append] at ih
      show (b, c) :: chainPairs (c :: (l ++ [a] ++ [x]))
        = (b, c) :: (chainPairs (c :: (l ++ [a])) ++ [(a, x)])
      rw [ih]

theorem chainPairs_append_last (l : List GPoint) (hl : l ≠ []) (x : GPoint) :
    chainPairs (l ++ [x]) = chainPairs l ++ [(l.getLast hl, x)] := by
  have h := chainPairs_snoc l.dropLast (l.getLast hl) x
  rw [List.dropLast_append_getLast hl] at h
  exact h

theorem polygonSides_cons (p : GPoint) (t : List GPoint) :
    polygonSides (p :: t)
      = chainPairs (p :: t) ++ [((p :: t).getLast (List.cons_ne_nil p t), p)] := by
  unfold polygonSides
  exact chainPairs_append_last (p :: t) _ p

theorem take_two_succ (pts : List GPoint) (n : Nat) (p q : GPoint)
    (hp : pts.get? n = some p) (hq : pts.get? (n + 1) = some q) :
    pts.take (n + 2) = pts.take n ++ [p] ++ [q] ∧ pts.take (n + 1) = pts.take n ++ [p] := by
  rw [List.get?_eq_getElem?] at hp hq
  have h1 : pts.take (n + 1) = pts.take n ++ [p] := by
    rw [List.take_succ, hp]
    rfl
  refine ⟨?_, h1⟩
  rw [List.take_succ, hq, h1]
  rfl

/-- The loop over the consecutive pairs. -/
theorem buildLoop (pts : List GPoint) (w h : Int) (hin : ∀ p ∈ pts, p.inDevice w h) :
    ∀ n, n + 1 ≤ pts.length →
      (List.range n).foldlM
        (fun edges i => do
          let p ← pts.get? i
          let q ← pts.get? (i + 1)
          pure (MUclipPoints p q w h edges))
        [] = some ((chainPairs (pts.take (n + 1))).filterMap sideEdge) := by
  intro n
  induction n with
  | zero =>
    intro hn
    cases pts with
    | nil => simp at hn
    | cons p t => simp [chainPairs]
  | succ n ih =>
    intro hn
    rw [List.range_succ, List.foldlM_append, ih (by omega)]
    have hp : pts.get? n = some pts[n] := by
      rw [List.get?_eq_getElem?]; exact List.getElem?_eq_getElem (by omega)
    have hq : pts.get? (n + 1) = some pts[n + 1] := by
      rw [List.get?_eq_getElem?]; exact List.getElem?_eq_getElem (by omega)
    obtain ⟨t2, t1⟩ := take_two_succ pts n _ _ hp hq
    rw [t2, chainPairs_snoc, ← t1, List.filterMap_append]
    simp only [Option.some_bind, Option.bind_eq_bind, List.foldlM_cons, List.foldlM_nil, hp, hq,
      pure, Option.some_bind]
    rw [MUclipPoints_inside _ _ w h _ (hin _ (List.getElem_mem _)) (hin _ (List.getElem_mem _))]
    cases hse : sideEdge (pts[n], pts[n + 1]) <;> simp [hse, List.filterMap]

/-- The edges `drawConvexPolygon` builds of a polygon inside the device. -/
theorem buildPolygonEdges_inside (pts : List GPoint) (w h : Int) (hne : pts ≠ [])
    (hin : ∀ p ∈ pts, p.inDevice w h) :
    buildPolygonEdges pts pts.length w h = some ((polygonSides pts).filterMap sideEdge) := by
  unfold buildPolygonEdges
  have hl : 0 < pts.length := List.length_pos.mpr hne
  rw [buildLoop pts w h hin (pts.length - 1) (by omega)]
  have e1 : pts.length - 1 + 1 = pts.length := by omega
  rw [e1, List.take_length]
  have hp : pts.get? (pts.length - 1) = some pts[pts.length - 1] := by
    rw [List.get?_eq_getElem?]; exact List.getElem?_eq_getElem (by omega)
  have hq : pts.get? 0 = some pts[0] := by
    rw [List.get?_eq_getElem?]; exact List.getElem?_eq_getElem hl
  simp only [Option.some_bind, Option.bind_eq_bind, hp, hq, pure]
  rw [MUclipPoints_inside _ _ w h _ (hin _ (List.getElem_mem _)) (hin _ (List.getElem_mem _))]
  have hs : polygonSides pts
      = chainPairs pts ++ [(pts[pts.length - 1], pts[0])] := by
    obtain ⟨p, t, rfl⟩ := List.exists_cons_of_ne_nil hne
    rw [polygonSides_cons, List.getLast_eq_getElem]
    rfl
  rw [hs, List.filterMap_append]
  cases hse : sideEdge (pts[pts.length - 1], pts[0]) <;> simp [hse, List.filterMap]

theorem MULT_false_iff (a b : my_edge) :
    MULT b a = false ↔
      a.top < b.top ∨ (a.top = b.top ∧
        (a.curr_x < b.curr_x ∨ (a.curr_x = b.curr_x ∧ a.m ≤ b.m))) := by
  unfold MULT
  constructor
  · intro h
    split_ifs at h with h1 h2 h3 h4
    · exact Or.inl h2
    · exact Or.inr ⟨by omega, Or.inl h4⟩
    · refine Or.inr ⟨by omega, Or.inr ⟨by linarith, ?_⟩⟩
      simpa using h
  · rintro (h | ⟨h1, h | ⟨h2, h3⟩⟩)
    · have : ¬ b.top < a.top := by omega
      simp [this, h]
    · have a1 : ¬ b.top < a.top := by omega
      have a2 : ¬ a.top < b.top := by omega
      have a3 : ¬ b.curr_x < a.curr_x := by linarith
      simp [a1, a2, a3, h]
    · have a1 : ¬ b.top < a.top := by omega
      have a2 : ¬ a.top < b.top := by omega
      have a3 : ¬ b.curr_x < a.curr_x := by linarith
      have a4 : ¬ a.curr_x < b.curr_x := by linarith
      simp [a1, a2, a3, a4, h3]

/-- The sorted list holds the same edges. -/
theorem MUsortEdges_perm (l : List my_edge) : (MUsortEdges l).Perm l :=
  List.perm_insertionSort _ l

/-- The sorted list is in order: no edge is `MULT`-less than one before it. -/
theorem MUsortEdges_sorted (l : List my_edge) :
    (MUsortEdges l).Pairwise (fun a b => MULT b a = false) := by
  haveI : IsTotal my_edge (fun a b => MULT b a = false) := ⟨by
    intro a b
    simp only [MULT_false_iff]
    rcases lt_trichotomy a.top b.top with h | h | h
    · exact Or.inl (Or.inl h)
    · rcases lt_trichotomy a.curr_x b.curr_x with k | k | k
      · exact Or.inl (Or.inr ⟨h, Or.inl k⟩)
      · rcases le_total a.m b.m with m | m
        · exact Or.inl (Or.inr ⟨h, Or.inr ⟨k, m⟩⟩)
        · exact Or.inr (Or.inr ⟨h.symm, Or.inr ⟨k.symm, m⟩⟩)
      · exact Or.inr (Or.inr ⟨h.symm, Or.inl k⟩)
    · exact Or.inr (Or.inl h)⟩
  haveI : IsTrans my_edge (fun a b => MULT b a = false) := ⟨by
    intro a b c
    simp only [MULT_false_iff]
    rintro (h | ⟨h1, h | ⟨h2, h3⟩⟩) (k | ⟨k1, k | ⟨k2, k3⟩⟩)
    · exact Or.inl (by omega)
    · exact Or.inl (by omega)
    · exact Or.inl (by omega)
    · exact Or.inl (by omega)
    · exact Or.inr ⟨by omega, Or.inl (by linarith)⟩
    · exact Or.inr ⟨by omega, Or.inl (by linarith)⟩
    · exact Or.inl (by omega)
    · exact Or.inr ⟨by omega, Or.inl (by linarith)⟩
    · exact Or.inr ⟨by omega, Or.inr ⟨by linarith, by linarith⟩⟩⟩
  exact List.sorted_insertionSort _ l

theorem nodup_filterMap_of_inj {α β : Type} (f : α → Option β) (l : List α)
    (hinj : ∀ a ∈ l, ∀ a' ∈ l, ∀ b, f a = some b → f a' = some b → a = a')
    (hn : l.Nodup) : (l.filterMap f).Nodup := by
  induction l with
  | nil => simp
  | cons x l ih =>
    have hx : x ∉ l := (List.nodup_cons.mp hn).1
    have hl : l.Nodup := (List.nodup_cons.mp hn).2
    have ih' := ih (fun a ha a' ha' b => hinj a (List.mem_cons_of_mem _ ha) a'
      (List.mem_cons_of_mem _ ha') b) hl
    cases hfx : f x with
    | none => rw [List.filterMap_cons_none hfx]; exact ih'
    | some b =>
      rw [List.filterMap_cons_some hfx]
      refine List.nodup_cons.mpr ⟨?_, ih'⟩
      intro hb
      obtain ⟨a, ha, hfa⟩ := List.mem_filterMap.mp hb
      have := hinj x (List.mem_cons_self _ _) a (List.mem_cons_of_mem _ ha) b hfx hfa
      exact hx (this ▸ ha)

theorem nodup_get_inj {α : Type} {l : List α} (hn : l.Nodup) {i j : Nat} {a : α}
    (hi : l.get? i = some a) (hj : l.get? j = some a) : i = j := by
  rw [List.get?_eq_getElem?] at hi hj
  obtain ⟨hi1, hi2⟩ := List.getElem?_eq_some_iff.mp hi
  obtain ⟨hj1, hj2⟩ := List.getElem?_eq_some_iff.mp hj
  exact (List.Nodup.getElem_inj_iff hn).mp (hi2.trans hj2.symm)

/-! ## Geometry of a convex polygon -/

theorem cross_swap (a b p : GPoint) : cross b a p = -cross a b p := by
  unfold cross; ring

theorem cross_self_left (a b : GPoint) : cross a b a = 0 := by
  unfold cross; ring

theorem cross_self_right (a b : GPoint) : cross a b b = 0 := by
  unfold cross; ring

/-- A point on a line that is not horizontal, by its parameter. -/
theorem on_line_param {a b p : GPoint} (h : cross a b p = 0) (hy : a.fY ≠ b.fY) :
    p.fX = a.fX + (p.fY - a.fY) / (b.fY - a.fY) * (b.fX - a.fX) := by
  have hd : b.fY - a.fY ≠ 0 := sub_ne_zero.mpr (Ne.symm hy)
  unfold cross at h
  field_simp
  linarith

/-- Two points of a line that is not horizontal with the same y are one point. -/
theorem on_line_same_y {a b p q : GPoint} (hp : cross a b p = 0) (hq : cross a b q = 0)
    (hy : a.fY ≠ b.fY) (hpq : p.fY = q.fY) : p = q := by
  rw [GPoint.ext_iff']
  refine ⟨?_, hpq⟩
  rw [on_line_param hp hy, on_line_param hq hy, hpq]

/-- The cross product of a segment of a line with a point, against that of the
line itself. -/
theorem cross_on_line {a b g1 g2 : GPoint} (h1 : cross a b g1 = 0) (h2 : cross a b g2 = 0)
    (hy : a.fY ≠ b.fY) (w : GPoint) :
    cross g1 g2 w * (b.fY - a.fY) = (g2.fY - g1.fY) * cross a b w := by
  have e1 := on_line_param h1 hy
  have e2 := on_line_param h2 hy
  have hd : b.fY - a.fY ≠ 0 := sub_ne_zero.mpr (Ne.symm hy)
  unfold cross
  rw [e1, e2]
  field_simp
  ring

/-- Three points of one line. -/
theorem cross_of_on_line {a b p q r : GPoint} (hp : cross a b p = 0) (hq : cross a b q = 0)
    (hr : cross a b r = 0) (hy : a.fY ≠ b.fY) : cross p q r = 0 := by
  have h := cross_on_line hp hq hy r
  rw [hr, mul_zero] at h
  have hd : b.fY - a.fY ≠ 0 := sub_ne_zero.mpr (Ne.symm hy)
  exact (mul_eq_zero.mp h).resolve_right hd

theorem topEnd_le_bottomEnd (s : GPoint × GPoint) : (topEnd s).fY ≤ (bottomEnd s).fY := by
  unfold topEnd bottomEnd
  by_cases h : s.1.fY > s.2.fY
  · simp [h, le_of_lt h]
  · simp [h, not_lt.mp h]

/-- The cross product of a side with a point `(x, c)`: the distance of the
point from the side along the row, scaled, with the sign of the direction. -/
theorem cross_side_point (s : GPoint × GPoint) (hy : s.1.fY ≠ s.2.fY) (x c : ℚ) :
    cross s.1 s.2 ⟨x, c⟩
      = (s.2.fY - s.1.fY) * (sideX s c - x) := by
  unfold cross sideX topEnd bottomEnd
  by_cases h : s.1.fY > s.2.fY
  · have hd : s.1.fY - s.2.fY ≠ 0 := sub_ne_zero.mpr hy
    simp only [h, if_true]
    field_simp
    ring
  · have hd : s.2.fY - s.1.fY ≠ 0 := sub_ne_zero.mpr (Ne.symm hy)
    simp only [h, if_false]
    field_simp
    ring

/-- The cross product is affine along a side. -/
theorem cross_along_side (a b : GPoint) (s : GPoint × GPoint) (hy : s.1.fY ≠ s.2.fY) (c : ℚ) :
    cross a b ⟨sideX s c, c⟩ * ((bottomEnd s).fY - (topEnd s).fY)
      = ((bottomEnd s).fY - c) * cross a b (topEnd s)
        + (c - (topEnd s).fY) * cross a b (bottomEnd s) := by
  have hd : (bottomEnd s).fY - (topEnd s).fY ≠ 0 := by
    unfold topEnd bottomEnd
    by_cases h : s.1.fY > s.2.fY
    · simp only [h, if_true]; exact sub_ne_zero.mpr hy
    · simp only [h, if_false]; exact sub_ne_zero.mpr (Ne.symm hy)
  unfold cross sideX
  field_simp
  ring

/-- The point of a side at one of its heights lies on its line. -/
theorem cross_sideX (s : GPoint × GPoint) (hy : s.1.fY ≠ s.2.fY) (c : ℚ) :
    cross s.1 s.2 ⟨sideX s c, c⟩ = 0 := by
  rw [cross_side_point s hy, sub_self, mul_zero]

/-- The x of the edge of a side on a row is the x of the side at the centre
of the row. -/
theorem insideEdge_xAt (s : GPoint × GPoint) (y : Int) :
    (insideEdge s).xAt y = sideX s ((y : ℚ) + 1 / 2) := by
  unfold my_edge.xAt insideEdge sideX
  simp only
  ring

theorem insideEdge_curr (s : GPoint × GPoint) :
    (insideEdge s).curr_x = (insideEdge s).xAt (insideEdge s).top := by
  unfold my_edge.xAt insideEdge
  simp only
  ring

/-- The rows of the edge of a side. -/
theorem insideEdge_covers (s : GPoint × GPoint) (y : Int) :
    (insideEdge s).covers y
      ↔ (topEnd s).fY < (y : ℚ) + 1 / 2 ∧ (y : ℚ) + 1 / 2 ≤ (bottomEnd s).fY := by
  unfold my_edge.covers insideEdge
  simp only
  rw [round_le_iff, lt_round_iff]

theorem round_half (y : Int) : GRoundToInt ((y : ℚ) + 1 / 2) = y + 1 := by
  have : (y : ℚ) + 1 / 2 = ((y + 1 : Int) : ℚ) - 1 / 2 := by push_cast; ring
  apply le_antisymm
  · rw [round_le_iff]; push_cast; linarith
  · have := (lt_round_iff ((y : ℚ) + 1 / 2) y).mpr (le_refl _)
    omega

theorem chainPairs_eq_zip (p : GPoint) (t : List GPoint) (x : GPoint) :
    chainPairs (p :: t ++ [x]) = (p :: t).zip (t ++ [x]) := by
  induction t generalizing p with
  | nil => simp [chainPairs]
  | cons q t ih =>
    show (p, q) :: chainPairs (q :: t ++ [x]) = _
    rw [ih]
    rfl

theorem polygonSides_eq_zip (p : GPoint) (t : List GPoint) :
    polygonSides (p :: t) = (p :: t).zip (t ++ [p]) :=
  chainPairs_eq_zip p t p

theorem sides_map_fst (p : GPoint) (t : List GPoint) :
    (polygonSides (p :: t)).map Prod.fst = p :: t := by
  rw [polygonSides_eq_zip]
  exact List.map_fst_zip _ _ (by simp)

theorem sides_map_snd (p : GPoint) (t : List GPoint) :
    (polygonSides (p :: t)).map Prod.snd = t ++ [p] := by
  rw [polygonSides_eq_zip]
  exact List.map_snd_zip _ _ (by simp)

theorem side_fst_mem {pts : List GPoint} {s : GPoint × GPoint} (h : s ∈ polygonSides pts) :
    s.1 ∈ pts := by
  cases pts with
  | nil => simp [polygonSides] at h
  | cons p t =>
    have := List.mem_map_of_mem Prod.fst h
    rwa [sides_map_fst] at this

theorem side_snd_mem {pts : List GPoint} {s : GPoint × GPoint} (h : s ∈ polygonSides pts) :
    s.2 ∈ pts := by
  cases pts with
  | nil => simp [polygonSides] at h
  | cons p t =>
    have := List.mem_map_of_mem Prod.snd h
    rw [sides_map_snd] at this
    simp only [List.mem_append, List.mem_singleton] at this
    rcases this with h1 | h1
    · exact List.mem_cons_of_mem _ h1
    · rw [h1]; exact List.mem_cons_self _ _

/-- Every vertex starts a side. -/
theorem vertex_has_succ {pts : List GPoint} {a : GPoint} (h : a ∈ pts) :
    ∃ z, (a, z) ∈ polygonSides pts := by
  cases pts with
  | nil => simp at h
  | cons p t =>
    rw [← sides_map_fst p t] at h
    obtain ⟨s, hs, rfl⟩ := List.mem_map.mp h
    exact ⟨s.2, hs⟩

/-- Every vertex ends a side. -/
theorem vertex_has_pred {pts : List GPoint} {a : GPoint} (h : a ∈ pts) :
    ∃ z, (z, a) ∈ polygonSides pts := by
  cases pts with
  | nil => simp at h
  | cons p t =>
    have h' : a ∈ t ++ [p] := by
      simp only [List.mem_append, List.mem_singleton]
      rcases List.mem_cons.mp h with h1 | h1
      · exact Or.inr h1
      · exact Or.inl h1
    rw [← sides_map_snd p t] at h'
    obtain ⟨s, hs, rfl⟩ := List.mem_map.mp h'
    exact ⟨s.1, hs⟩

theorem sides_fst_nodup {pts : List GPoint} (hn : pts.Nodup) :
    ((polygonSides pts).map Prod.fst).Nodup := by
  cases pts with
  | nil => simp [polygonSides]
  | cons p t => rw [sides_map_fst]; exact hn

theorem sides_snd_nodup {pts : List GPoint} (hn : pts.Nodup) :
    ((polygonSides pts).map Prod.snd).Nodup := by
  cases pts with
  | nil => simp [polygonSides]
  | cons p t =>
    rw [sides_map_snd]
    have : (t ++ [p]).Perm (p :: t) := List.perm_append_comm
    exact this.nodup_iff.mpr hn

theorem sides_nodup {pts : List GPoint} (hn : pts.Nodup) : (polygonSides pts).Nodup :=
  List.Nodup.of_map _ (sides_fst_nodup hn)

/-- With distinct vertices a vertex starts one side only. -/
theorem side_of_fst {pts : List GPoint} (hn : pts.Nodup) {s s' : GPoint × GPoint}
    (hs : s ∈ polygonSides pts) (hs' : s' ∈ polygonSides pts) (h : s.1 = s'.1) : s = s' :=
  List.inj_on_of_nodup_map (sides_fst_nodup hn) hs hs' h

/-- With distinct vertices a vertex ends one side only. -/
theorem side_of_snd {pts : List GPoint} (hn : pts.Nodup) {s s' : GPoint × GPoint}
    (hs : s ∈ polygonSides pts) (hs' : s' ∈ polygonSides pts) (h : s.2 = s'.2) : s = s' :=
  List.inj_on_of_nodup_map (sides_snd_nodup hn) hs hs' h

/-- With two or more distinct vertices no side joins a vertex to itself. -/
theorem side_ends_ne {pts : List GPoint} (hn : pts.Nodup) (hl : 2 ≤ pts.length)
    {s : GPoint × GPoint} (hs : s ∈ polygonSides pts) : s.1 ≠ s.2 := by
  cases pts with
  | nil => simp at hl
  | cons p t =>
    rw [polygonSides_eq_zip] at hs
    obtain ⟨i, hi, he⟩ := List.getElem_of_mem hs
    rw [List.length_zip] at hi
    simp only [List.length_cons, List.length_append, List.length_singleton, min_self] at hi
    rw [List.getElem_zip] at he
    intro hc
    rw [← he] at hc
    simp only at hc
    -- the second list is the first one rotated
    have hrot : t ++ [p] = (p :: t).rotate 1 := by simp [List.rotate_cons_succ]
    have hi2 : i < (t ++ [p]).length := by simp; omega
    have hm : (i + 1) % (t.length + 1) < (p :: t).length := by
      apply Nat.mod_lt; omega
    have e2 : (t ++ [p])[i] = (p :: t)[(i + 1) % (t.length + 1)] := by
      simp only [hrot]
      rw [List.getElem_rotate]
      rfl
    rw [e2] at hc
    have key := (List.Nodup.getElem_inj_iff hn).mp hc
    simp only [List.length_cons] at hl
    have hlt : i < t.length + 1 := by
      simp only [List.length_nil, zero_add, min_self] at hi
      exact hi
    rcases Nat.lt_or_ge (i + 1) (t.length + 1) with h1 | h1
    · rw [Nat.mod_eq_of_lt h1] at key
      omega
    · have e : i + 1 = t.length + 1 := by omega
      rw [e, Nat.mod_self] at key
      omega

theorem chainPairs_append_right (l1 l2 : List GPoint) {s : GPoint × GPoint}
    (h : s ∈ chainPairs l2) : s ∈ chainPairs (l1 ++ l2) := by
  induction l1 with
  | nil => exact h
  | cons x l1 ih =>
    cases hl : l1 ++ l2 with
    | nil =>
      rw [hl] at ih
      simp [chainPairs] at ih
    | cons y r =>
      rw [hl] at ih
      show s ∈ chainPairs (x :: (l1 ++ l2))
      rw [hl]
      exact List.mem_cons_of_mem _ ih

/-- A chain that starts above the height `c` and later reaches it has a pair
going down through `c`. -/
theorem down_of_later (c : ℚ) :
    ∀ (l : List GPoint) (a : GPoint), a.fY < c → (∃ b ∈ l, c ≤ b.fY) →
      ∃ s ∈ chainPairs (a :: l), s.1.fY < c ∧ c ≤ s.2.fY := by
  intro l
  induction l with
  | nil =>
    intro a _ h
    obtain ⟨b, hb, _⟩ := h
    simp at hb
  | cons b0 l ih =>
    intro a ha h
    by_cases hb0 : c ≤ b0.fY
    · exact ⟨(a, b0), List.mem_cons_self _ _, ha, hb0⟩
    · obtain ⟨b, hb, hbc⟩ := h
      have hb' : b ∈ l := by
        rcases List.mem_cons.mp hb with e | e
        · rw [e] at hbc; exact absurd hbc hb0
        · exact e
      obtain ⟨s, hs, hd⟩ := ih b0 (not_le.mp hb0) ⟨b, hb', hbc⟩
      exact ⟨s, List.mem_cons_of_mem _ hs, hd⟩

/-- A chain that starts at or below the height `c` and later rises above it
has a pair going up through `c`. -/
theorem up_of_later (c : ℚ) :
    ∀ (l : List GPoint) (a : GPoint), c ≤ a.fY → (∃ b ∈ l, b.fY < c) →
      ∃ s ∈ chainPairs (a :: l), s.2.fY < c ∧ c ≤ s.1.fY := by
  intro l
  induction l with
  | nil =>
    intro a _ h
    obtain ⟨b, hb, _⟩ := h
    simp at hb
  | cons b0 l ih =>
    intro a ha h
    by_cases hb0 : b0.fY < c
    · exact ⟨(a, b0), List.mem_cons_self _ _, hb0, ha⟩
    · obtain ⟨b, hb, hbc⟩ := h
      have hb' : b ∈ l := by
        rcases List.mem_cons.mp hb with e | e
        · rw [e] at hbc; exact absurd hbc hb0
        · exact e
      obtain ⟨s, hs, hd⟩ := ih b0 (not_lt.mp hb0) ⟨b, hb', hbc⟩
      exact ⟨s, List.mem_cons_of_mem _ hs, hd⟩

/-- The outline of a polygon with a vertex above the height `c` and a vertex at
or below it has a side going down through `c` and a side going up through
it. -/
theorem sides_cross (pts : List GPoint) (c : ℚ) (hp : ∃ p ∈ pts, p.fY < c)
    (hq : ∃ q ∈ pts, c ≤ q.fY) :
    (∃ s ∈ polygonSides pts, s.1.fY < c ∧ c ≤ s.2.fY) ∧
      (∃ s ∈ polygonSides pts, s.2.fY < c ∧ c ≤ s.1.fY) := by
  obtain ⟨p, hp, hpc⟩ := hp
  obtain ⟨q, hq, hqc⟩ := hq
  cases pts with
  | nil => simp at hp
  | cons v t =>
    show (∃ s ∈ chainPairs (v :: t ++ [v]), _) ∧ (∃ s ∈ chainPairs (v :: t ++ [v]), _)
    by_cases hv : v.fY < c
    · have hqt : q ∈ t := by
        rcases List.mem_cons.mp hq with e | e
        · rw [e] at hqc; exact absurd hv (not_lt.mpr hqc)
        · exact e
      refine ⟨down_of_later c (t ++ [v]) v hv ⟨q, List.mem_append_left _ hqt, hqc⟩, ?_⟩
      obtain ⟨t1, t2, rfl⟩ := List.append_of_mem hqt
      obtain ⟨s, hs, hu⟩ := up_of_later c (t2 ++ [v]) q hqc
        ⟨v, List.mem_append_right _ (List.mem_singleton_self v), hv⟩
      refine ⟨s, ?_, hu⟩
      have := chainPairs_append_right (v :: t1) (q :: (t2 ++ [v])) hs
      simpa using this
    · have hv' : c ≤ v.fY := not_lt.mp hv
      have hpt : p ∈ t := by
        rcases List.mem_cons.mp hp with e | e
        · rw [e] at hpc; exact absurd hpc hv
        · exact e
      refine ⟨?_, up_of_later c (t ++ [v]) v hv' ⟨p, List.mem_append_left _ hpt, hpc⟩⟩
      obtain ⟨t1, t2, rfl⟩ := List.append_of_mem hpt
      obtain ⟨s, hs, hd⟩ := down_of_later c (t2 ++ [v]) p hpc
        ⟨v, List.mem_append_right _ (List.mem_singleton_self v), hv'⟩
      refine ⟨s, ?_, hd⟩
      have := chainPairs_append_right (v :: t1) (p :: (t2 ++ [v])) hs
      simpa using this

theorem ConvexPolygon.oriented {pts : List GPoint} (h : ConvexPolygon pts) :
    ∃ σ, Oriented pts σ := by
  obtain ⟨hn, hoff, hs | hs⟩ := h
  · exact ⟨1, Or.inl rfl, hn, hoff, fun s hs' p hp => by rw [one_mul]; exact hs s hs' p hp⟩
  · exact ⟨-1, Or.inr rfl, hn, hoff, fun s hs' p hp => by
      have := hs s hs' p hp
      linarith⟩

theorem Oriented.two_le {pts : List GPoint} {σ : ℚ} (h : Oriented pts σ) : 2 ≤ pts.length := by
  obtain ⟨s, hs, p, hp, hc⟩ := h.off
  match pts, hs, hp with
  | [], hs, _ => simp [polygonSides] at hs
  | [a], hs, hp =>
    simp only [polygonSides, chainPairs, List.singleton_append, List.mem_singleton] at hs hp
    subst hs hp
    exact absurd (cross_self_left _ _) hc
  | _ :: _ :: _, _, _ => simp

theorem Oriented.ends_ne {pts : List GPoint} {σ : ℚ} (h : Oriented pts σ)
    {s : GPoint × GPoint} (hs : s ∈ polygonSides pts) : s.1 ≠ s.2 :=
  side_ends_ne h.nodup h.two_le hs

/-- No line that is not horizontal holds all the vertices. -/
theorem Oriented.off_line {pts : List GPoint} {σ : ℚ} (h : Oriented pts σ)
    (a b : GPoint) (hy : a.fY ≠ b.fY) : ∃ w ∈ pts, cross a b w ≠ 0 := by
  by_contra hc
  push_neg at hc
  obtain ⟨s, hs, p, hp, hne⟩ := h.off
  exact hne (cross_of_on_line (hc _ (side_fst_mem hs)) (hc _ (side_snd_mem hs)) (hc _ hp) hy)

/-- Two sides on one line run the same way. -/
theorem Oriented.same_way {pts : List GPoint} {σ : ℚ} (h : Oriented pts σ)
    {f g : GPoint × GPoint} (hf : f ∈ polygonSides pts) (hg : g ∈ polygonSides pts)
    (hy : f.1.fY ≠ f.2.fY) (h1 : cross f.1 f.2 g.1 = 0) (h2 : cross f.1 f.2 g.2 = 0) :
    0 < (g.2.fY - g.1.fY) * (f.2.fY - f.1.fY) := by
  obtain ⟨w, hw, hwc⟩ := h.off_line f.1 f.2 hy
  have e := cross_on_line h1 h2 hy w
  have a0 : 0 ≤ σ * cross f.1 f.2 w := h.side f hf w hw
  have b0 : 0 ≤ σ * cross g.1 g.2 w := h.side g hg w hw
  have hσ : σ ≠ 0 := by rcases h.sign with e | e <;> rw [e] <;> norm_num
  have a1 : 0 < σ * cross f.1 f.2 w := lt_of_le_of_ne a0 (Ne.symm (mul_ne_zero hσ hwc))
  have hg' : g.2.fY - g.1.fY ≠ 0 := by
    intro hc
    exact h.ends_ne hg (on_line_same_y h1 h2 hy (by linarith))
  have hf' : f.2.fY - f.1.fY ≠ 0 := sub_ne_zero.mpr (Ne.symm hy)
  -- Δg * A = B * Δf
  have e' : (g.2.fY - g.1.fY) * (σ * cross f.1 f.2 w)
      = (σ * cross g.1 g.2 w) * (f.2.fY - f.1.fY) := by
    linear_combination (-σ) * e
  have hprod : 0 < ((g.2.fY - g.1.fY) * (f.2.fY - f.1.fY)) * (σ * cross f.1 f.2 w) := by
    have : ((g.2.fY - g.1.fY) * (f.2.fY - f.1.fY)) * (σ * cross f.1 f.2 w)
        = (σ * cross g.1 g.2 w) * (f.2.fY - f.1.fY) ^ 2 := by
      linear_combination (f.2.fY - f.1.fY) * e'
    rw [this]
    have hb : σ * cross g.1 g.2 w ≠ 0 := by
      intro hc
      rw [hc, zero_mul] at e'
      rcases mul_eq_zero.mp e' with h3 | h3
      · exact hg' h3
      · exact (ne_of_gt a1) h3
    exact mul_pos (lt_of_le_of_ne b0 (Ne.symm hb)) (by positivity)
  exact pos_of_mul_pos_left hprod (le_of_lt a1)

theorem topEnd_mem {pts : List GPoint} {s : GPoint × GPoint} (hs : s ∈ polygonSides pts) :
    topEnd s ∈ pts := by
  unfold topEnd
  split_ifs
  · exact side_snd_mem hs
  · exact side_fst_mem hs

theorem bottomEnd_mem {pts : List GPoint} {s : GPoint × GPoint} (hs : s ∈ polygonSides pts) :
    bottomEnd s ∈ pts := by
  unfold bottomEnd
  split_ifs
  · exact side_fst_mem hs
  · exact side_snd_mem hs

/-- A point of a side lies on the same side of every side as the vertices. -/
theorem Oriented.side_point {pts : List GPoint} {σ : ℚ} (h : Oriented pts σ)
    {s s' : GPoint × GPoint} (hs : s ∈ polygonSides pts) (hs' : s' ∈ polygonSides pts)
    (hy' : s'.1.fY ≠ s'.2.fY) {c : ℚ} (h1 : (topEnd s').fY ≤ c) (h2 : c ≤ (bottomEnd s').fY) :
    0 ≤ σ * cross s.1 s.2 ⟨sideX s' c, c⟩ := by
  have e := cross_along_side s.1 s.2 s' hy' c
  have a := h.side s hs _ (topEnd_mem hs')
  have b := h.side s hs _ (bottomEnd_mem hs')
  have hd : 0 < (bottomEnd s').fY - (topEnd s').fY := by
    have := topEnd_le_bottomEnd s'
    have hne : (topEnd s').fY ≠ (bottomEnd s').fY := by
      unfold topEnd bottomEnd
      split_ifs
      · exact Ne.symm hy'
      · exact hy'
    exact sub_pos.mpr (lt_of_le_of_ne this hne)
  have : 0 ≤ (σ * cross s.1 s.2 ⟨sideX s' c, c⟩) * ((bottomEnd s').fY - (topEnd s').fY) := by
    have e2 : (σ * cross s.1 s.2 ⟨sideX s' c, c⟩) * ((bottomEnd s').fY - (topEnd s').fY)
        = ((bottomEnd s').fY - c) * (σ * cross s.1 s.2 (topEnd s'))
          + (c - (topEnd s').fY) * (σ * cross s.1 s.2 (bottomEnd s')) := by
      linear_combination σ * e
    rw [e2]
    exact add_nonneg (mul_nonneg (by linarith) a) (mul_nonneg (by linarith) b)
  exact nonneg_of_mul_nonneg_left this hd

/-- A side arriving at a point `P` of a line from a point `z`, against the
start `a` of the line. -/
theorem cross_arrive {a b P : GPoint} (hP : cross a b P = 0) (hy : a.fY ≠ b.fY) (z : GPoint) :
    cross z P a * (b.fY - a.fY) = -(P.fY - a.fY) * cross a b z := by
  have e := on_line_param hP hy
  have hd : b.fY - a.fY ≠ 0 := sub_ne_zero.mpr (Ne.symm hy)
  unfold cross
  rw [e]
  field_simp
  ring

/-- A side leaving a point `P` of a line for a point `z`, against the end `b`
of the line. -/
theorem cross_leave {a b P : GPoint} (hP : cross a b P = 0) (hy : a.fY ≠ b.fY) (z : GPoint) :
    cross P z b * (b.fY - a.fY) = -(b.fY - P.fY) * cross a b z := by
  have e := on_line_param hP hy
  have hd : b.fY - a.fY ≠ 0 := sub_ne_zero.mpr (Ne.symm hy)
  unfold cross
  rw [e]
  field_simp
  ring

theorem topEnd_down {s : GPoint × GPoint} (h : ¬ s.1.fY > s.2.fY) :
    topEnd s = s.1 ∧ bottomEnd s = s.2 := by
  unfold topEnd bottomEnd
  simp [h]

theorem topEnd_up {s : GPoint × GPoint} (h : s.1.fY > s.2.fY) :
    topEnd s = s.2 ∧ bottomEnd s = s.1 := by
  unfold topEnd bottomEnd
  simp [h]

/-- No vertex lies on a side strictly between its ends. -/
theorem Oriented.no_vertex_inside {pts : List GPoint} {σ : ℚ} (h : Oriented pts σ) :
    ∀ P ∈ pts, ∀ f ∈ polygonSides pts, cross f.1 f.2 P = 0 → (topEnd f).fY < P.fY →
      P.fY < (bottomEnd f).fY → False := by
  classical
  by_contra hc
  push_neg at hc
  obtain ⟨P0, hP0, f0, hf0, hon0, ht0, hb0, _⟩ := hc
  -- a lowest vertex among those inside a side
  let bad : GPoint → Prop := fun P =>
    ∃ f ∈ polygonSides pts, cross f.1 f.2 P = 0 ∧ (topEnd f).fY < P.fY ∧ P.fY < (bottomEnd f).fY
  have hne : (pts.toFinset.filter bad).Nonempty :=
    ⟨P0, Finset.mem_filter.mpr ⟨List.mem_toFinset.mpr hP0, f0, hf0, hon0, ht0, hb0⟩⟩
  obtain ⟨P, hPm, hmin⟩ := Finset.exists_min_image _ (fun p : GPoint => p.fY) hne
  obtain ⟨hP', f, hf, hon, ht, hb⟩ := Finset.mem_filter.mp hPm
  have hP : P ∈ pts := List.mem_toFinset.mp hP'
  have least : ∀ Q ∈ pts, bad Q → P.fY ≤ Q.fY := fun Q hQ hbad =>
    hmin Q (Finset.mem_filter.mpr ⟨List.mem_toFinset.mpr hQ, hbad⟩)
  have hσ : σ ≠ 0 := by rcases h.sign with e | e <;> rw [e] <;> norm_num
  by_cases hup : f.1.fY > f.2.fY
  · -- the side runs upwards: look at the side leaving `P`
    obtain ⟨e1, e2⟩ := topEnd_up hup
    rw [e1] at ht
    rw [e2] at hb
    have hy : f.1.fY ≠ f.2.fY := ne_of_gt hup
    obtain ⟨z, hg⟩ := vertex_has_succ hP
    have hz : z ∈ pts := side_snd_mem hg
    by_cases hzl : cross f.1 f.2 z = 0
    · have hway := h.same_way hf hg hy hon hzl
      have hzP : z.fY < P.fY := by
        simp only at hway
        nlinarith
      have gup : (P, z).1.fY > (P, z).2.fY := hzP
      obtain ⟨g1, g2⟩ := topEnd_up gup
      rcases lt_trichotomy z.fY f.2.fY with c1 | c1 | c1
      · -- the end of `f` lies inside the leaving side
        have hbad : bad f.2 := by
          refine ⟨(P, z), hg, ?_, ?_, ?_⟩
          · exact cross_of_on_line hon hzl (cross_self_right _ _) hy
          · rw [g1]; exact c1
          · rw [g2]; exact ht
        have := least f.2 (side_snd_mem hf) hbad
        linarith
      · have : z = f.2 := on_line_same_y hzl (cross_self_right _ _) hy c1
        have hfg : (P, z) = f := side_of_snd h.nodup hg hf this
        rw [← hfg] at hb
        simp only at hb
        linarith
      · have hbad : bad z := ⟨f, hf, hzl, by rw [e1]; exact c1, by rw [e2]; linarith⟩
        have := least z hz hbad
        linarith
    · have s1 := h.side (P, z) hg f.2 (side_snd_mem hf)
      have s2 := h.side f hf z hz
      have s2' : 0 < σ * cross f.1 f.2 z := lt_of_le_of_ne s2 (Ne.symm (mul_ne_zero hσ hzl))
      have e := cross_leave hon hy z
      simp only at s1
      have e' : (σ * cross P z f.2) * (f.2.fY - f.1.fY)
          = -(f.2.fY - P.fY) * (σ * cross f.1 f.2 z) := by
        linear_combination σ * e
      have l1 : (σ * cross P z f.2) * (f.2.fY - f.1.fY) ≤ 0 :=
        mul_nonpos_of_nonneg_of_nonpos s1 (by linarith)
      have l2 : 0 < -(f.2.fY - P.fY) * (σ * cross f.1 f.2 z) :=
        mul_pos (by linarith) s2'
      linarith
  · -- the side runs downwards: look at the side arriving at `P`
    obtain ⟨e1, e2⟩ := topEnd_down hup
    rw [e1] at ht
    rw [e2] at hb
    have hy : f.1.fY ≠ f.2.fY := by
      intro hc
      rw [hc] at ht
      linarith
    have hlt : f.1.fY < f.2.fY := lt_of_le_of_ne (not_lt.mp hup) hy
    obtain ⟨z, hg⟩ := vertex_has_pred hP
    have hz : z ∈ pts := side_fst_mem hg
    by_cases hzl : cross f.1 f.2 z = 0
    · have hway := h.same_way hf hg hy hzl hon
      have hzP : z.fY < P.fY := by
        simp only at hway
        nlinarith
      have gdown : ¬ (z, P).1.fY > (z, P).2.fY := by
        simp only
        linarith
      obtain ⟨g1, g2⟩ := topEnd_down gdown
      rcases lt_trichotomy z.fY f.1.fY with c1 | c1 | c1
      · have hbad : bad f.1 := by
          refine ⟨(z, P), hg, ?_, ?_, ?_⟩
          · exact cross_of_on_line hzl hon (cross_self_left _ _) hy
          · rw [g1]; exact c1
          · rw [g2]; exact ht
        have := least f.1 (side_fst_mem hf) hbad
        linarith
      · have : z = f.1 := on_line_same_y hzl (cross_self_left _ _) hy c1
        have hfg : (z, P) = f := side_of_fst h.nodup hg hf this
        rw [← hfg] at hb
        simp only at hb
        linarith
      · have hbad : bad z := ⟨f, hf, hzl, by rw [e1]; exact c1, by rw [e2]; linarith⟩
        have := least z hz hbad
        linarith
    · have s1 := h.side (z, P) hg f.1 (side_fst_mem hf)
      have s2 := h.side f hf z hz
      have s2' : 0 < σ * cross f.1 f.2 z := lt_of_le_of_ne s2 (Ne.symm (mul_ne_zero hσ hzl))
      have e := cross_arrive hon hy z
      simp only at s1
      have e' : (σ * cross z P f.1) * (f.2.fY - f.1.fY)
          = -(P.fY - f.1.fY) * (σ * cross f.1 f.2 z) := by
        linear_combination σ * e
      have l1 : 0 ≤ (σ * cross z P f.1) * (f.2.fY - f.1.fY) :=
        mul_nonneg s1 (by linarith)
      have l2 : -(P.fY - f.1.fY) * (σ * cross f.1 f.2 z) < 0 :=
        mul_neg_of_neg_of_pos (by linarith) s2'
      linarith

theorem side_not_flat {s : GPoint × GPoint} {c : ℚ} (h1 : (topEnd s).fY < c)
    (h2 : c ≤ (bottomEnd s).fY) : s.1.fY ≠ s.2.fY := by
  intro hc
  unfold topEnd at h1
  unfold bottomEnd at h2
  simp only [hc, gt_iff_lt, lt_self_iff_false, if_false] at h1 h2
  linarith

theorem cross_ends {a b : GPoint} {s : GPoint × GPoint} (h1 : cross a b (topEnd s) = 0)
    (h2 : cross a b (bottomEnd s) = 0) : cross a b s.1 = 0 ∧ cross a b s.2 = 0 := by
  unfold topEnd at h1
  unfold bottomEnd at h2
  by_cases h : s.1.fY > s.2.fY
  · simp only [h, if_true] at h1 h2
    exact ⟨h2, h1⟩
  · simp only [h, if_false] at h1 h2
    exact ⟨h1, h2⟩

theorem cross_own_ends (s : GPoint × GPoint) :
    cross s.1 s.2 (topEnd s) = 0 ∧ cross s.1 s.2 (bottomEnd s) = 0 := by
  unfold topEnd bottomEnd
  by_cases h : s.1.fY > s.2.fY
  · simp only [h, if_true]
    exact ⟨cross_self_right _ _, cross_self_left _ _⟩
  · simp only [h, if_false]
    exact ⟨cross_self_left _ _, cross_self_right _ _⟩

/-- Two sides that run the same way and share the top end, or the bottom end,
are one side. -/
theorem Oriented.side_of_end {pts : List GPoint} {σ : ℚ} (h : Oriented pts σ)
    {s s' : GPoint × GPoint} (hs : s ∈ polygonSides pts) (hs' : s' ∈ polygonSides pts)
    (hty : s.1.fY > s.2.fY ↔ s'.1.fY > s'.2.fY)
    (he : topEnd s = topEnd s' ∨ bottomEnd s = bottomEnd s') : s = s' := by
  by_cases hup : s.1.fY > s.2.fY
  · have hup' := hty.mp hup
    obtain ⟨a1, a2⟩ := topEnd_up hup
    obtain ⟨b1, b2⟩ := topEnd_up hup'
    rw [a1, a2, b1, b2] at he
    rcases he with e | e
    · exact side_of_snd h.nodup hs hs' e
    · exact side_of_fst h.nodup hs hs' e
  · have hup' : ¬ s'.1.fY > s'.2.fY := fun hc => hup (hty.mpr hc)
    obtain ⟨a1, a2⟩ := topEnd_down hup
    obtain ⟨b1, b2⟩ := topEnd_down hup'
    rw [a1, a2, b1, b2] at he
    rcases he with e | e
    · exact side_of_fst h.nodup hs hs' e
    · exact side_of_snd h.nodup hs hs' e

/-- A side `s` against a crossing point of the outline on the row: the point
is on the inner side of `s`. -/
theorem Oriented.side_against {pts : List GPoint} {σ : ℚ} (h : Oriented pts σ)
    {s s' : GPoint × GPoint} (hs : s ∈ polygonSides pts) (hs' : s' ∈ polygonSides pts)
    (hy : s.1.fY ≠ s.2.fY) (hy' : s'.1.fY ≠ s'.2.fY) {c : ℚ} (h1 : (topEnd s').fY ≤ c)
    (h2 : c ≤ (bottomEnd s').fY) :
    0 ≤ σ * ((s.2.fY - s.1.fY) * (sideX s c - sideX s' c)) := by
  have := h.side_point hs hs' hy' h1 h2
  rwa [cross_side_point s hy] at this

/-- Two sides through the row that run the same way meet it at the same x. -/
theorem Oriented.same_x {pts : List GPoint} {σ : ℚ} (h : Oriented pts σ)
    {s s' : GPoint × GPoint} (hs : s ∈ polygonSides pts) (hs' : s' ∈ polygonSides pts)
    (hty : s.1.fY > s.2.fY ↔ s'.1.fY > s'.2.fY) {c : ℚ}
    (a1 : (topEnd s).fY < c) (a2 : c ≤ (bottomEnd s).fY)
    (b1 : (topEnd s').fY < c) (b2 : c ≤ (bottomEnd s').fY) :
    sideX s c = sideX s' c := by
  have hy := side_not_flat a1 a2
  have hy' := side_not_flat b1 b2
  have p := h.side_against hs hs' hy hy' (le_of_lt b1) b2
  have q := h.side_against hs' hs hy' hy (le_of_lt a1) a2
  by_cases hup : s.1.fY > s.2.fY
  · have hup' := hty.mp hup
    rcases h.sign with e | e <;> rw [e] at p q <;> nlinarith
  · have hup' : ¬ s'.1.fY > s'.2.fY := fun hc => hup (hty.mpr hc)
    have d1 : s.1.fY < s.2.fY := lt_of_le_of_ne (not_lt.mp hup) hy
    have d2 : s'.1.fY < s'.2.fY := lt_of_le_of_ne (not_lt.mp hup') hy'
    rcases h.sign with e | e <;> rw [e] at p q <;> nlinarith

/-- When two sides meet the row at one point, the bottom end of the second
lies on the line of the first, and its top end too unless the point is its
bottom end. -/
theorem Oriented.end_on_line {pts : List GPoint} {σ : ℚ} (h : Oriented pts σ)
    {s s' : GPoint × GPoint} (hs : s ∈ polygonSides pts) (hs' : s' ∈ polygonSides pts)
    (hy : s.1.fY ≠ s.2.fY) {c : ℚ} (b1 : (topEnd s').fY < c) (b2 : c ≤ (bottomEnd s').fY)
    (hx : sideX s c = sideX s' c) :
    cross s.1 s.2 (bottomEnd s') = 0 ∧
      (c < (bottomEnd s').fY → cross s.1 s.2 (topEnd s') = 0) := by
  have hy' := side_not_flat b1 b2
  have e := cross_along_side s.1 s.2 s' hy' c
  rw [← hx, cross_sideX s hy, zero_mul] at e
  have a := h.side s hs _ (topEnd_mem hs')
  have b := h.side s hs _ (bottomEnd_mem hs')
  have hσ : σ ≠ 0 := by rcases h.sign with e | e <;> rw [e] <;> norm_num
  have e' : ((bottomEnd s').fY - c) * (σ * cross s.1 s.2 (topEnd s'))
      + (c - (topEnd s').fY) * (σ * cross s.1 s.2 (bottomEnd s')) = 0 := by
    linear_combination (-σ) * e
  have t1 : 0 ≤ ((bottomEnd s').fY - c) * (σ * cross s.1 s.2 (topEnd s')) :=
    mul_nonneg (by linarith) a
  have t2 : 0 ≤ (c - (topEnd s').fY) * (σ * cross s.1 s.2 (bottomEnd s')) :=
    mul_nonneg (by linarith) b
  have z1 : ((bottomEnd s').fY - c) * (σ * cross s.1 s.2 (topEnd s')) = 0 := by linarith
  have z2 : (c - (topEnd s').fY) * (σ * cross s.1 s.2 (bottomEnd s')) = 0 := by linarith
  constructor
  · rcases mul_eq_zero.mp z2 with k | k
    · linarith
    · exact (mul_eq_zero.mp k).resolve_left hσ
  · intro hlt
    rcases mul_eq_zero.mp z1 with k | k
    · linarith
    · exact (mul_eq_zero.mp k).resolve_left hσ

/-- Two sides on one line through the row that run the same way are one
side. -/
theorem Oriented.same_line_unique {pts : List GPoint} {σ : ℚ} (h : Oriented pts σ)
    {s s' : GPoint × GPoint} (hs : s ∈ polygonSides pts) (hs' : s' ∈ polygonSides pts)
    (hty : s.1.fY > s.2.fY ↔ s'.1.fY > s'.2.fY) {c : ℚ}
    (a1 : (topEnd s).fY < c) (a2 : c ≤ (bottomEnd s).fY)
    (b1 : (topEnd s').fY < c) (b2 : c ≤ (bottomEnd s').fY)
    (l1 : cross s.1 s.2 (topEnd s') = 0) (l2 : cross s.1 s.2 (bottomEnd s') = 0) : s = s' := by
  have hy := side_not_flat a1 a2
  have hy' := side_not_flat b1 b2
  obtain ⟨o1, o2⟩ := cross_own_ends s
  rcases lt_trichotomy (topEnd s).fY (topEnd s').fY with c1 | c1 | c1
  · exact (h.no_vertex_inside _ (topEnd_mem hs') s hs l1 c1 (by linarith)).elim
  · exact h.side_of_end hs hs' hty (Or.inl (on_line_same_y o1 l1 hy c1))
  · obtain ⟨m1, m2⟩ := cross_ends l1 l2
    have : cross s'.1 s'.2 (topEnd s) = 0 := cross_of_on_line m1 m2 o1 hy
    exact (h.no_vertex_inside _ (topEnd_mem hs) s' hs' this c1 (by linarith)).elim

/-- On a row only one side runs each way. -/
theorem Oriented.unique_side {pts : List GPoint} {σ : ℚ} (h : Oriented pts σ)
    {s s' : GPoint × GPoint} (hs : s ∈ polygonSides pts) (hs' : s' ∈ polygonSides pts)
    (hty : s.1.fY > s.2.fY ↔ s'.1.fY > s'.2.fY) {c : ℚ}
    (a1 : (topEnd s).fY < c) (a2 : c ≤ (bottomEnd s).fY)
    (b1 : (topEnd s').fY < c) (b2 : c ≤ (bottomEnd s').fY) : s = s' := by
  have hy := side_not_flat a1 a2
  have hy' := side_not_flat b1 b2
  have hx := h.same_x hs hs' hty a1 a2 b1 b2
  obtain ⟨p1, p2⟩ := h.end_on_line hs hs' hy b1 b2 hx
  obtain ⟨q1, q2⟩ := h.end_on_line hs' hs hy' a1 a2 hx.symm
  by_cases c1 : c < (bottomEnd s').fY
  · exact h.same_line_unique hs hs' hty a1 a2 b1 b2 (p2 c1) p1
  by_cases c2 : c < (bottomEnd s).fY
  · exact (h.same_line_unique hs' hs hty.symm b1 b2 a1 a2 (q2 c2) q1).symm
  have e : (bottomEnd s).fY = (bottomEnd s').fY := by linarith
  exact h.side_of_end hs hs' hty (Or.inr (on_line_same_y (cross_own_ends s).2 p1 hy e))

/-- Two sides that run opposite ways and meet the row at one point both end
there. -/
theorem Oriented.opposite_meet {pts : List GPoint} {σ : ℚ} (h : Oriented pts σ)
    {s s' : GPoint × GPoint} (hs : s ∈ polygonSides pts) (hs' : s' ∈ polygonSides pts)
    (hty : ¬ (s.1.fY > s.2.fY ↔ s'.1.fY > s'.2.fY)) {c : ℚ}
    (a1 : (topEnd s).fY < c) (a2 : c ≤ (bottomEnd s).fY)
    (b1 : (topEnd s').fY < c) (b2 : c ≤ (bottomEnd s').fY)
    (hx : sideX s c = sideX s' c) : (bottomEnd s).fY = c ∧ (bottomEnd s').fY = c := by
  have hy := side_not_flat a1 a2
  have hy' := side_not_flat b1 b2
  have key : ∀ {s s' : GPoint × GPoint}, s ∈ polygonSides pts → s' ∈ polygonSides pts →
      ¬ (s.1.fY > s.2.fY ↔ s'.1.fY > s'.2.fY) → s.1.fY ≠ s.2.fY → s'.1.fY ≠ s'.2.fY →
      (topEnd s').fY < c → c ≤ (bottomEnd s').fY → sideX s c = sideX s' c →
      (bottomEnd s').fY = c := by
    intro s s' hs hs' hty hy hy' b1 b2 hx
    by_contra hne
    have hlt : c < (bottomEnd s').fY := lt_of_le_of_ne b2 (Ne.symm hne)
    obtain ⟨p1, p2⟩ := h.end_on_line hs hs' hy b1 b2 hx
    obtain ⟨m1, m2⟩ := cross_ends (p2 hlt) p1
    have hway := h.same_way hs hs' hy m1 m2
    apply hty
    constructor
    · intro hu
      by_contra hd
      have : s'.1.fY < s'.2.fY := lt_of_le_of_ne (not_lt.mp hd) hy'
      nlinarith
    · intro hu
      by_contra hd
      have : s.1.fY < s.2.fY := lt_of_le_of_ne (not_lt.mp hd) hy
      nlinarith
  exact ⟨key hs' hs (fun e => hty e.symm) hy' hy a1 a2 hx.symm, key hs hs' hty hy hy' b1 b2 hx⟩

theorem mem_polygonEdges {pts : List GPoint} {e : my_edge} :
    e ∈ polygonEdges pts ↔
      ∃ s ∈ polygonSides pts, GRoundToInt s.1.fY ≠ GRoundToInt s.2.fY ∧ e = insideEdge s := by
  unfold polygonEdges
  rw [List.mem_filterMap]
  constructor
  · rintro ⟨s, hs, he⟩
    unfold sideEdge at he
    split_ifs at he with h
    exact ⟨s, hs, h, (Option.some.inj he).symm⟩
  · rintro ⟨s, hs, h, he⟩
    refine ⟨s, hs, ?_⟩
    unfold sideEdge
    rw [if_neg h, he]

theorem round_ends_ne {s : GPoint × GPoint} (h : GRoundToInt s.1.fY ≠ GRoundToInt s.2.fY) :
    GRoundToInt (topEnd s).fY < GRoundToInt (bottomEnd s).fY := by
  have hle := round_mono (topEnd_le_bottomEnd s)
  refine lt_of_le_of_ne hle ?_
  unfold topEnd bottomEnd
  split_ifs
  · exact Ne.symm h
  · exact h

/-- A side through the centre of a row has an edge. -/
theorem round_ne_of_active {s : GPoint × GPoint} {y : Int}
    (h1 : (topEnd s).fY < (y : ℚ) + 1 / 2) (h2 : (y : ℚ) + 1 / 2 ≤ (bottomEnd s).fY) :
    GRoundToInt s.1.fY ≠ GRoundToInt s.2.fY := by
  have a := (round_le_iff _ y).mpr h1
  have b := (lt_round_iff _ y).mpr h2
  unfold topEnd at a
  unfold bottomEnd at b
  split_ifs at a b <;> omega

theorem insideEdge_winding (s : GPoint × GPoint) (σ : ℚ) (hσ : σ = 1 ∨ σ = -1) :
    ((insideEdge s).winding = leftWinding σ ↔ (σ = 1 ↔ s.1.fY > s.2.fY)) ∧
      ((insideEdge s).winding = -leftWinding σ ↔ ¬ (σ = 1 ↔ s.1.fY > s.2.fY)) := by
  unfold insideEdge leftWinding
  simp only
  rcases hσ with e | e
  · by_cases h : s.1.fY > s.2.fY <;> simp [e, h]
  · have : ¬ ((-1 : ℚ) = 1) := by norm_num
    by_cases h : s.1.fY > s.2.fY <;> simp [e, h, this]

/-- Every crossing of the row lies on the inner side of every side. -/
theorem Oriented.crossing_side {pts : List GPoint} {σ : ℚ} (h : Oriented pts σ)
    {s : GPoint × GPoint} (hs : s ∈ polygonSides pts) (hy : s.1.fY ≠ s.2.fY) {c u : ℚ}
    (hu : u ∈ rowCrossings pts c) :
    0 ≤ σ * ((s.2.fY - s.1.fY) * (sideX s c - u)) := by
  unfold rowCrossings at hu
  obtain ⟨s', hs', hu'⟩ := List.mem_flatMap.mp hu
  unfold sideCrossings at hu'
  split_ifs at hu' with h1 h2 h3
  · -- a horizontal side on the row
    have key : ∀ p ∈ pts, p.fY = c → 0 ≤ σ * ((s.2.fY - s.1.fY) * (sideX s c - p.fX)) := by
      intro p hp hpc
      have := h.side s hs p hp
      have e : p = ⟨p.fX, c⟩ := by rw [GPoint.ext_iff']; exact ⟨rfl, hpc⟩
      rw [e, cross_side_point s hy] at this
      exact this
    simp only [List.mem_cons, List.mem_singleton, List.not_mem_nil, or_false] at hu'
    rcases hu' with e | e
    · rw [e]; exact key _ (side_fst_mem hs') h2
    · rw [e]; exact key _ (side_snd_mem hs') (h1 ▸ h2)
  · simp at hu'
  · simp only [List.mem_singleton] at hu'
    rw [hu']
    exact h.side_against hs hs' hy h1 h3.1 h3.2
  · simp at hu'

/-- The point where a side through the row meets it is a crossing. -/
theorem sideX_mem_crossings {pts : List GPoint} {s : GPoint × GPoint}
    (hs : s ∈ polygonSides pts) {c : ℚ} (h1 : (topEnd s).fY < c) (h2 : c ≤ (bottomEnd s).fY) :
    sideX s c ∈ rowCrossings pts c := by
  unfold rowCrossings
  refine List.mem_flatMap.mpr ⟨s, hs, ?_⟩
  unfold sideCrossings
  rw [if_neg (side_not_flat h1 h2), if_pos ⟨le_of_lt h1, h2⟩]
  exact List.mem_singleton_self _

/-- The left side of the row is left of every crossing. -/
theorem Oriented.left_le {pts : List GPoint} {σ : ℚ} (h : Oriented pts σ)
    {s : GPoint × GPoint} (hs : s ∈ polygonSides pts) {c : ℚ}
    (h1 : (topEnd s).fY < c) (h2 : c ≤ (bottomEnd s).fY) (hl : σ = 1 ↔ s.1.fY > s.2.fY)
    {u : ℚ} (hu : u ∈ rowCrossings pts c) : sideX s c ≤ u := by
  have hy := side_not_flat h1 h2
  have k := h.crossing_side hs hy hu
  rcases h.sign with e | e
  · have hup := hl.mp e
    rw [e] at k
    nlinarith
  · have hd : ¬ s.1.fY > s.2.fY := fun hc => by
      have := hl.mpr hc
      rw [e] at this
      norm_num at this
    have : s.1.fY < s.2.fY := lt_of_le_of_ne (not_lt.mp hd) hy
    rw [e] at k
    nlinarith

/-- The right side of the row is right of every crossing. -/
theorem Oriented.le_right {pts : List GPoint} {σ : ℚ} (h : Oriented pts σ)
    {s : GPoint × GPoint} (hs : s ∈ polygonSides pts) {c : ℚ}
    (h1 : (topEnd s).fY < c) (h2 : c ≤ (bottomEnd s).fY) (hl : ¬ (σ = 1 ↔ s.1.fY > s.2.fY))
    {u : ℚ} (hu : u ∈ rowCrossings pts c) : u ≤ sideX s c := by
  have hy := side_not_flat h1 h2
  have k := h.crossing_side hs hy hu
  rcases h.sign with e | e
  · have hd : ¬ s.1.fY > s.2.fY := fun hc => hl ⟨fun _ => hc, fun _ => e⟩
    have : s.1.fY < s.2.fY := lt_of_le_of_ne (not_lt.mp hd) hy
    rw [e] at k
    nlinarith
  · have hup : s.1.fY > s.2.fY := by
      by_contra hc
      apply hl
      constructor
      · intro h1
        rw [e] at h1
        norm_num at h1
      · intro h2
        exact absurd h2 hc
    rw [e] at k
    nlinarith

/-- The x of a side on a row it passes lies between its ends. -/
theorem sideX_between {s : GPoint × GPoint} {c lo hi : ℚ}
    (h1 : (topEnd s).fY < c) (h2 : c ≤ (bottomEnd s).fY)
    (a1 : lo ≤ (topEnd s).fX) (a2 : (topEnd s).fX ≤ hi)
    (b1 : lo ≤ (bottomEnd s).fX) (b2 : (bottomEnd s).fX ≤ hi) :
    lo ≤ sideX s c ∧ sideX s c ≤ hi := by
  have hd : 0 < (bottomEnd s).fY - (topEnd s).fY := by linarith
  have e : sideX s c = (topEnd s).fX
      + (c - (topEnd s).fY) / ((bottomEnd s).fY - (topEnd s).fY)
        * ((bottomEnd s).fX - (topEnd s).fX) := by
    unfold sideX
    ring
  have t0 : 0 ≤ (c - (topEnd s).fY) / ((bottomEnd s).fY - (topEnd s).fY) :=
    div_nonneg (by linarith) (le_of_lt hd)
  have t1 : (c - (topEnd s).fY) / ((bottomEnd s).fY - (topEnd s).fY) ≤ 1 :=
    (div_le_one hd).mpr (by linarith)
  rw [e]
  constructor <;> nlinarith

theorem mem_sorted_edges {pts : List GPoint} {e : my_edge} :
    e ∈ MUsortEdges (polygonEdges pts) ↔
      ∃ s ∈ polygonSides pts, GRoundToInt s.1.fY ≠ GRoundToInt s.2.fY ∧ e = insideEdge s := by
  rw [(MUsortEdges_perm _).mem_iff, mem_polygonEdges]

theorem leftWinding_ne (σ : ℚ) : leftWinding σ ≠ -leftWinding σ := by
  unfold leftWinding
  split_ifs <;> omega

theorem insideEdge_winding_cases (s : GPoint × GPoint) (σ : ℚ) :
    (insideEdge s).winding = leftWinding σ ∨ (insideEdge s).winding = -leftWinding σ := by
  unfold insideEdge leftWinding
  simp only
  split_ifs <;> simp

/-- Edges of the same winding come from sides that run the same way. -/
theorem same_type_of_winding {s s' : GPoint × GPoint}
    (h : (insideEdge s).winding = (insideEdge s').winding) :
    (s.1.fY > s.2.fY ↔ s'.1.fY > s'.2.fY) := by
  unfold insideEdge at h
  simp only at h
  by_cases a : s.1.fY > s.2.fY <;> by_cases b : s'.1.fY > s'.2.fY <;> simp [a, b] at h ⊢

/-- The edges of a convex polygon are distinct. -/
theorem Oriented.edges_nodup {pts : List GPoint} {σ : ℚ} (h : Oriented pts σ) :
    (polygonEdges pts).Nodup := by
  unfold polygonEdges
  apply nodup_filterMap_of_inj _ _ _ (sides_nodup h.nodup)
  intro s hs s' hs' e he he'
  unfold sideEdge at he he'
  split_ifs at he he' with r r'
  have e1 : insideEdge s = e := Option.some.inj he
  have e2 : insideEdge s' = e := Option.some.inj he'
  have hee : insideEdge s = insideEdge s' := e1.trans e2.symm
  have hty := same_type_of_winding (congrArg my_edge.winding hee)
  -- both sides pass the first row of the edge
  have c1 : (insideEdge s).covers (insideEdge s).top :=
    ⟨le_refl _, round_ends_ne r⟩
  have c2 : (insideEdge s').covers (insideEdge s).top := by
    rw [← hee]; exact c1
  rw [insideEdge_covers] at c1 c2
  exact h.unique_side hs hs' hty c1.1 c1.2 c2.1 c2.2

/-- The sorted edges of a convex polygon inside the device are ready for the
scan between the rows of its top and its bottom. -/
theorem Oriented.scanReady {pts : List GPoint} {σ : ℚ} (h : Oriented pts σ)
    {pmin pmax : GPoint} (hmin : pmin ∈ pts) (hmax : pmax ∈ pts)
    (lmin : ∀ p ∈ pts, pmin.fY ≤ p.fY) (lmax : ∀ p ∈ pts, p.fY ≤ pmax.fY) :
    ScanReady (MUsortEdges (polygonEdges pts)) (GRoundToInt pmin.fY) (GRoundToInt pmax.fY)
      (leftWinding σ) where
  lw_ne := leftWinding_ne σ
  pos := by
    intro e he
    obtain ⟨s, hs, hr, rfl⟩ := mem_sorted_edges.mp he
    exact round_ends_ne hr
  range := by
    intro e he
    obtain ⟨s, hs, hr, rfl⟩ := mem_sorted_edges.mp he
    exact ⟨round_mono (lmin _ (topEnd_mem hs)), round_mono (lmax _ (bottomEnd_mem hs))⟩
  curr := by
    intro e he
    obtain ⟨s, hs, hr, rfl⟩ := mem_sorted_edges.mp he
    exact insideEdge_curr s
  wind := by
    intro e he
    obtain ⟨s, hs, hr, rfl⟩ := mem_sorted_edges.mp he
    exact insideEdge_winding_cases s σ
  sorted := MUsortEdges_sorted _
  ex := by
    intro y hy0 hy1 w hw
    have a : pmin.fY < (y : ℚ) + 1 / 2 := (round_le_iff _ y).mp hy0
    have b : (y : ℚ) + 1 / 2 ≤ pmax.fY := (lt_round_iff _ y).mp hy1
    obtain ⟨⟨sd, hsd, d1, d2⟩, ⟨su, hsu, u1, u2⟩⟩ :=
      sides_cross pts ((y : ℚ) + 1 / 2) ⟨pmin, hmin, a⟩ ⟨pmax, hmax, b⟩
    have hdn : ¬ sd.1.fY > sd.2.fY := by
      intro hc
      have : sd.2.fY < sd.1.fY := hc
      linarith
    have hup : su.1.fY > su.2.fY := by
      show su.2.fY < su.1.fY
      linarith
    obtain ⟨td, bd⟩ := topEnd_down hdn
    obtain ⟨tu, bu⟩ := topEnd_up hup
    have ad : (topEnd sd).fY < (y : ℚ) + 1 / 2 ∧ (y : ℚ) + 1 / 2 ≤ (bottomEnd sd).fY := by
      rw [td, bd]; exact ⟨d1, d2⟩
    have au : (topEnd su).fY < (y : ℚ) + 1 / 2 ∧ (y : ℚ) + 1 / 2 ≤ (bottomEnd su).fY := by
      rw [tu, bu]; exact ⟨u1, u2⟩
    have wd := insideEdge_winding sd σ h.sign
    have wu := insideEdge_winding su σ h.sign
    have md : insideEdge sd ∈ MUsortEdges (polygonEdges pts) :=
      mem_sorted_edges.mpr ⟨sd, hsd, round_ne_of_active ad.1 ad.2, rfl⟩
    have mu : insideEdge su ∈ MUsortEdges (polygonEdges pts) :=
      mem_sorted_edges.mpr ⟨su, hsu, round_ne_of_active au.1 au.2, rfl⟩
    have cd : (insideEdge sd).covers y := (insideEdge_covers sd y).mpr ad
    have cu : (insideEdge su).covers y := (insideEdge_covers su y).mpr au
    -- which of the two has the winding asked for
    by_cases hσ : σ = 1
    · rcases hw with e | e
      · exact ⟨_, mu, cu, by rw [e]; exact wu.1.mpr ⟨fun _ => hup, fun _ => hσ⟩⟩
      · exact ⟨_, md, cd, by rw [e]; exact wd.2.mpr (fun k => hdn (k.mp hσ))⟩
    · rcases hw with e | e
      · exact ⟨_, md, cd, by
          rw [e]; exact wd.1.mpr ⟨fun k => absurd k hσ, fun k => absurd k hdn⟩⟩
      · exact ⟨_, mu, cu, by rw [e]; exact wu.2.mpr (fun k => hσ (k.mpr hup))⟩
  uniq := by
    intro y i j e e' hi hj ce ce' hw
    obtain ⟨s, hs, hr, rfl⟩ := mem_sorted_edges.mp (get_mem hi)
    obtain ⟨s', hs', hr', rfl⟩ := mem_sorted_edges.mp (get_mem hj)
    rw [insideEdge_covers] at ce ce'
    have := h.unique_side hs hs' (same_type_of_winding hw) ce.1 ce.2 ce'.1 ce'.2
    subst this
    exact nodup_get_inj ((MUsortEdges_perm _).nodup_iff.mpr h.edges_nodup) hi hj
  ord := by
    intro e he e' he' y ce ce' we we'
    obtain ⟨s, hs, hr, rfl⟩ := mem_sorted_edges.mp he
    obtain ⟨s', hs', hr', rfl⟩ := mem_sorted_edges.mp he'
    rw [insideEdge_covers] at ce ce'
    rw [insideEdge_xAt, insideEdge_xAt]
    exact h.left_le hs ce.1 ce.2 ((insideEdge_winding s σ h.sign).1.mp we)
      (sideX_mem_crossings hs' ce'.1 ce'.2)
  point := by
    intro e he e' he' y ce ce' we we' hx
    obtain ⟨s, hs, hr, rfl⟩ := mem_sorted_edges.mp he
    obtain ⟨s', hs', hr', rfl⟩ := mem_sorted_edges.mp he'
    rw [insideEdge_covers] at ce ce'
    rw [insideEdge_xAt, insideEdge_xAt] at hx
    have l1 := (insideEdge_winding s σ h.sign).1.mp we
    have l2 := (insideEdge_winding s' σ h.sign).2.mp we'
    have hty : ¬ (s.1.fY > s.2.fY ↔ s'.1.fY > s'.2.fY) := by
      intro k
      exact l2 (l1.trans k)
    obtain ⟨b1, b2⟩ := h.opposite_meet hs hs' hty ce.1 ce.2 ce'.1 ce'.2 hx
    constructor
    · show GRoundToInt (bottomEnd s).fY = y + 1
      rw [b1, round_half]
    · show GRoundToInt (bottomEnd s').fY = y + 1
      rw [b2, round_half]

/-- The rounded x of an edge of a polygon inside the device lies in the
device. -/
theorem sorted_edges_safe {pts : List GPoint} {w h : Int}
    (hin : ∀ p ∈ pts, p.inDevice w h) :
    ∀ e ∈ MUsortEdges (polygonEdges pts), ∀ r, e.covers r →
      0 ≤ e.get_X r ∧ e.get_X r ≤ w := by
  intro e he r ce
  obtain ⟨s, hs, hr, rfl⟩ := mem_sorted_edges.mp he
  rw [insideEdge_covers] at ce
  have t := hin _ (topEnd_mem hs)
  have b := hin _ (bottomEnd_mem hs)
  obtain ⟨x0, x1⟩ := sideX_between ce.1 ce.2 t.1 t.2.1 b.1 b.2.1
  rw [get_X_eq, insideEdge_xAt] at *
  constructor
  · have := round_mono x0
    rw [show GRoundToInt (0 : ℚ) = 0 from round_intCast 0] at this
    exact this
  · have := round_mono x1
    rw [round_intCast] at this
    exact this

/-! ## Convex fill -/

theorem exists_extreme_y {pts : List GPoint} (hne : pts ≠ []) :
    (∃ pmin ∈ pts, ∀ p ∈ pts, pmin.fY ≤ p.fY) ∧ (∃ pmax ∈ pts, ∀ p ∈ pts, p.fY ≤ pmax.fY) := by
  classical
  have hn : pts.toFinset.Nonempty := by
    obtain ⟨a, t, rfl⟩ := List.exists_cons_of_ne_nil hne
    exact ⟨a, by simp⟩
  obtain ⟨pmin, h1, h2⟩ := Finset.exists_min_image _ (fun p : GPoint => p.fY) hn
  obtain ⟨pmax, h3, h4⟩ := Finset.exists_max_image _ (fun p : GPoint => p.fY) hn
  exact ⟨⟨pmin, List.mem_toFinset.mp h1, fun p hp => h2 p (List.mem_toFinset.mpr hp)⟩,
    ⟨pmax, List.mem_toFinset.mp h3, fun p hp => h4 p (List.mem_toFinset.mpr hp)⟩⟩

/-- What `drawConvexPolygon` does with a polygon inside the device under the
identity CTM and a paint without shader, once the edges are built. -/
theorem drawConvexPolygon_inside (cv : my_canvas) (pts : List GPoint) (paint : GPaint)
    (hctm : cv.ctm = GMatrix.identity) (hsh : paint.fShader = none) (hne : pts ≠ [])
    (hin : ∀ p ∈ pts, p.inDevice cv.width cv.height) :
    cv.drawConvexPolygon pts pts.length paint =
      if (polygonEdges pts).length = 0 then some cv else
      match (MUsortEdges (polygonEdges pts)).head?, (MUsortEdges (polygonEdges pts)).getLast? with
      | some front, some back =>
        convexScan (MUsortEdges (polygonEdges pts)) paint back.bottom
          (back.bottom - front.top).toNat front.top 0 1 2 cv
      | _, _ => none := by
  have hmap : cv.ctm.mapPoints (List.replicate pts.length ⟨0, 0⟩) pts pts.length = some pts := by
    rw [hctm]
    exact mapPoints_identity_rect pts pts.length rfl
  have hb := buildPolygonEdges_inside pts cv.width cv.height hne hin
  unfold my_canvas.drawConvexPolygon
  simp only [hsh, hmap, hb]
  rfl

/-- The span of a row of the scan against the containment rule. -/
theorem Oriented.rowSpan_iff {pts : List GPoint} {σ : ℚ} (h : Oriented pts σ)
    {pmin pmax : GPoint} (hmin : pmin ∈ pts) (hmax : pmax ∈ pts)
    (lmin : ∀ p ∈ pts, pmin.fY ≤ p.fY) (lmax : ∀ p ∈ pts, p.fY ≤ pmax.fY) (i j : Int) :
    (GRoundToInt pmin.fY ≤ j ∧ j < GRoundToInt pmax.fY ∧
        rowSpan (MUsortEdges (polygonEdges pts)) (leftWinding σ) i j)
      ↔ centreContained pts i j := by
  have hready := h.scanReady hmin hmax lmin lmax
  constructor
  · rintro ⟨_, _, el, hel, er, her, cl, cr, wl, wr, xl, xr⟩
    obtain ⟨s, hs, hr, rfl⟩ := mem_sorted_edges.mp hel
    obtain ⟨s', hs', hr', rfl⟩ := mem_sorted_edges.mp her
    rw [insideEdge_covers] at cl cr
    rw [get_X_eq, insideEdge_xAt, round_le_iff] at xl
    rw [get_X_eq, insideEdge_xAt, lt_round_iff] at xr
    exact ⟨⟨_, topEnd_mem hs, cl.1⟩, ⟨_, bottomEnd_mem hs, cl.2⟩,
      ⟨_, sideX_mem_crossings hs cl.1 cl.2, xl⟩, ⟨_, sideX_mem_crossings hs' cr.1 cr.2, xr⟩⟩
  · rintro ⟨⟨p, hp, hpc⟩, ⟨q, hq, hqc⟩, ⟨u, hu, hux⟩, ⟨v, hv, hvx⟩⟩
    have r0 : GRoundToInt pmin.fY ≤ j := (round_le_iff _ j).mpr (lt_of_le_of_lt (lmin p hp) hpc)
    have r1 : j < GRoundToInt pmax.fY := (lt_round_iff _ j).mpr (le_trans hqc (lmax q hq))
    obtain ⟨el, hel, cl, wl⟩ := hready.ex j r0 r1 _ (Or.inl rfl)
    obtain ⟨er, her, cr, wr⟩ := hready.ex j r0 r1 _ (Or.inr rfl)
    refine ⟨r0, r1, el, hel, er, her, cl, cr, wl, wr, ?_, ?_⟩
    · obtain ⟨s, hs, hr, rfl⟩ := mem_sorted_edges.mp hel
      rw [insideEdge_covers] at cl
      rw [get_X_eq, insideEdge_xAt, round_le_iff]
      exact lt_of_le_of_lt
        (h.left_le hs cl.1 cl.2 ((insideEdge_winding s σ h.sign).1.mp wl) hu) hux
    · obtain ⟨s, hs, hr, rfl⟩ := mem_sorted_edges.mp her
      rw [insideEdge_covers] at cr
      rw [get_X_eq, insideEdge_xAt, lt_round_iff]
      exact le_trans hvx
        (h.le_right hs cr.1 cr.2 ((insideEdge_winding s σ h.sign).2.mp wr) hv)

/-- The fill of a convex polygon inside the device under the identity CTM
with a paint without shader: exactly the pixels whose centre the polygon
contains are blended. -/
theorem convex_fill_inside (cv : my_canvas) (pts : List GPoint) (paint : GPaint)
    (hctm : cv.ctm = GMatrix.identity) (hsh : paint.fShader = none)
    (hw : cv.width = cv.fDevice.width) (hh : cv.height = cv.fDevice.height)
    (hconv : ConvexPolygon pts) (hin : ∀ p ∈ pts, p.inDevice cv.width cv.height) :
    ∃ bm1, cv.drawConvexPolygon pts pts.length paint = some { cv with fDevice := bm1 } ∧
      bm1.width = cv.fDevice.width ∧ bm1.height = cv.fDevice.height ∧
      ∀ x y : Int,
        (centreContained pts x y → bm1.pixels x y
          = MUblend (MUcolorToPixel paint.fColor) (cv.fDevice.pixels x y) paint.fMode) ∧
        (¬ centreContained pts x y → bm1.pixels x y = cv.fDevice.pixels x y) := by
  obtain ⟨σ, h⟩ := hconv.oriented
  have hne : pts ≠ [] := by
    intro hc
    have := h.two_le
    rw [hc] at this
    simp at this
  obtain ⟨⟨pmin, hmin, lmin⟩, ⟨pmax, hmax, lmax⟩⟩ := exists_extreme_y hne
  have hready := h.scanReady hmin hmax lmin lmax
  have hiff := h.rowSpan_iff hmin hmax lmin lmax
  rw [drawConvexPolygon_inside cv pts paint hctm hsh hne hin]
  by_cases hE : (polygonEdges pts).length = 0
  · rw [if_pos hE]
    refine ⟨cv.fDevice, rfl, rfl, rfl, fun x y => ⟨?_, fun _ => rfl⟩⟩
    intro hc
    obtain ⟨_, _, el, hel, _⟩ := (hiff x y).mpr hc
    have : el ∈ polygonEdges pts := (MUsortEdges_perm _).mem_iff.mp hel
    rw [List.length_eq_zero.mp hE] at this
    simp at this
  · rw [if_neg hE]
    -- there is a row
    obtain ⟨e0, he0⟩ := List.exists_mem_of_length_pos (Nat.pos_of_ne_zero hE)
    have he0' : e0 ∈ MUsortEdges (polygonEdges pts) := (MUsortEdges_perm _).mem_iff.mpr he0
    have hrows : GRoundToInt pmin.fY < GRoundToInt pmax.fY := by
      have a := hready.pos e0 he0'
      have b := hready.range e0 he0'
      omega
    have h0 : 0 ≤ GRoundToInt pmin.fY := by
      have := round_mono (hin pmin hmin).2.2.1
      rwa [show GRoundToInt (0 : ℚ) = 0 from round_intCast 0] at this
    have h1 : GRoundToInt pmax.fY ≤ cv.fDevice.height := by
      have := round_mono (hin pmax hmax).2.2.2
      rwa [round_intCast, hh] at this
    have hsafe := sorted_edges_safe hin
    rw [hw] at hsafe
    obtain ⟨front, back, hf, hb, ft, bb, bm1, r1, r2, r3, r4⟩ :=
      hready.scan_all hrows paint hsh cv h0 h1 hsafe
    refine ⟨bm1, ?_, r2, r3, fun x y => ⟨fun hc => ?_, fun hc => ?_⟩⟩
    · rw [hf, hb]
      simp only
      rw [ft, bb]
      exact r1
    · exact (r4 x y).1 ((hiff x y).mpr hc)
    · exact (r4 x y).2 (fun k => hc ((hiff x y).mp k))

/-- C12: with the identity CTM and a paint without shader, for every convex
polygon whose vertices lie in the closed device rectangle, `drawConvexPolygon`
completes and blends exactly the pixels `(x, y)` whose centre is contained in
the polygon under the rule: the left boundary on the centre row is
`< x + 1/2`, the right boundary is `≥ x + 1/2`, the top is `< y + 1/2` and the
bottom is `≥ y + 1/2`; every other pixel keeps its value. -/
theorem drawConvexPolygon_fills_convex (cv : my_canvas) (pts : List GPoint) (paint : GPaint)
    (hctm : cv.ctm = GMatrix.identity) (hsh : paint.fShader = none)
    (hw : cv.width = cv.fDevice.width) (hh : cv.height = cv.fDevice.height)
    (hconv : ConvexPolygon pts) (hin : ∀ p ∈ pts, p.inDevice cv.width cv.height) :
    ∃ bm1, cv.drawConvexPolygon pts pts.length paint = some { cv with fDevice := bm1 } ∧
      bm1.width = cv.fDevice.width ∧ bm1.height = cv.fDevice.height ∧
      ∀ x y : Int,
        (centreContained pts x y → bm1.pixels x y
          = MUblend (MUcolorToPixel paint.fColor) (cv.fDevice.pixels x y) paint.fMode) ∧
        (¬ centreContained pts x y → bm1.pixels x y = cv.fDevice.pixels x y) :=
  convex_fill_inside cv pts paint hctm hsh hw hh hconv hin

theorem sampleTriangle_convex : ConvexPolygon sampleTriangle := by
  refine ⟨by simp [sampleTriangle], ⟨(⟨10, 10⟩, ⟨90, 10⟩), ?_, ⟨50, 90⟩, ?_, ?_⟩, Or.inl ?_⟩
  · simp [polygonSides, chainPairs, sampleTriangle]
  · simp [sampleTriangle]
  · norm_num [cross]
  · intro s hs p hp
    simp only [polygonSides, chainPairs, sampleTriangle, List.cons_append, List.nil_append,
      List.mem_cons, List.mem_singleton, List.not_mem_nil, or_false] at hs hp
    rcases hs with rfl | rfl | rfl <;> rcases hp with rfl | rfl | rfl <;> norm_num [cross]

theorem sampleTriangle_inside :
    ∀ p ∈ sampleTriangle, p.inDevice (my_canvas.create hundredBitmap).width
      (my_canvas.create hundredBitmap).height := by
  intro p hp
  simp only [sampleTriangle, List.mem_cons, List.mem_singleton, List.not_mem_nil, or_false] at hp
  have hw : (my_canvas.create hundredBitmap).width = 100 := rfl
  have hh : (my_canvas.create hundredBitmap).height = 100 := rfl
  rw [hw, hh]
  rcases hp with rfl | rfl | rfl <;> norm_num [GPoint.inDevice]

theorem sampleTriangle_centre : centreContained sampleTriangle 50 50 := by
  refine ⟨⟨⟨10, 10⟩, by simp [sampleTriangle], by norm_num⟩,
    ⟨⟨50, 90⟩, by simp [sampleTriangle], by norm_num⟩,
    ⟨sideX (⟨50, 90⟩, ⟨10, 10⟩) (50 + 1 / 2), ?_, ?_⟩,
    ⟨sideX (⟨90, 10⟩, ⟨50, 90⟩) (50 + 1 / 2), ?_, ?_⟩⟩
  · refine List.mem_flatMap.mpr ⟨(⟨50, 90⟩, ⟨10, 10⟩), by
      simp [polygonSides, chainPairs, sampleTriangle], ?_⟩
    norm_num [sideCrossings, topEnd, bottomEnd]
  · norm_num [sideX, topEnd, bottomEnd]
  · refine List.mem_flatMap.mpr ⟨(⟨90, 10⟩, ⟨50, 90⟩), by
      simp [polygonSides, chainPairs, sampleTriangle], ?_⟩
    norm_num [sideCrossings, topEnd, bottomEnd]
  · norm_num [sideX, topEnd, bottomEnd]

theorem sampleTriangle_corner : ¬ centreContained sampleTriangle 0 0 := by
  rintro ⟨⟨p, hp, hlt⟩, _⟩
  simp only [sampleTriangle, List.mem_cons, List.mem_singleton, List.not_mem_nil, or_false] at hp
  rcases hp with rfl | rfl | rfl <;> norm_num at hlt

/-- C12 on the triangle (10,10), (90,10), (50,90) with opaque red in mode Src
on a 100x100 bitmap: the pixels whose centre the triangle contains become
0xFFFF0000, among them (50,50); the others stay 0, among them (0,0). -/
theorem drawConvexPolygon_fills_convex_witness :
    (ConvexPolygon sampleTriangle ∧
        ∀ p ∈ sampleTriangle, p.inDevice (my_canvas.create hundredBitmap).width
          (my_canvas.create hundredBitmap).height) ∧
      ∃ bm1, (my_canvas.create hundredBitmap).drawConvexPolygon sampleTriangle 3 redPaint
          = some { my_canvas.create hundredBitmap with fDevice := bm1 } ∧
        (∀ x y : Int, centreContained sampleTriangle x y → bm1.pixels x y = 0xFFFF0000) ∧
        (∀ x y : Int, ¬ centreContained sampleTriangle x y → bm1.pixels x y = 0) ∧
        bm1.pixels 50 50 = 0xFFFF0000 ∧ bm1.pixels 0 0 = 0 := by
  refine ⟨⟨sampleTriangle_convex, sampleTriangle_inside⟩, ?_⟩
  obtain ⟨bm1, h1, _, _, h4⟩ := drawConvexPolygon_fills_convex (my_canvas.create hundredBitmap)
    sampleTriangle redPaint rfl rfl rfl rfl sampleTriangle_convex sampleTriangle_inside
  have hred : ∀ x y : Int, centreContained sampleTriangle x y → bm1.pixels x y = 0xFFFF0000 := by
    intro x y hc
    rw [(h4 x y).1 hc]
    exact MUcolorToPixel_red
  have hold : ∀ x y : Int, ¬ centreContained sampleTriangle x y → bm1.pixels x y = 0 := by
    intro x y hc
    rw [(h4 x y).2 hc]
    rfl
  exact ⟨bm1, h1, hred, hold, hred 50 50 sampleTriangle_centre,
    hold 0 0 sampleTriangle_corner⟩

/-! ## Tiling of the bitmap shader -/

theorem raiseLoop_spec (bounds : ℚ) :
    ∀ (fuel : Nat) (x : ℚ), 0 ≤ x + fuel * bounds →
      ∃ k : ℕ, raiseLoop bounds fuel x = some (x + k * bounds) ∧ 0 ≤ x + k * bounds ∧
        (x < 0 → x + k * bounds < bounds) ∧ (0 ≤ x → k = 0) := by
  intro fuel
  induction fuel with
  | zero =>
    intro x hx
    simp only [Nat.cast_zero, zero_mul, add_zero] at hx
    refine ⟨0, ?_, by simpa using hx, fun h => absurd hx (not_le.mpr h), fun _ => rfl⟩
    simp [raiseLoop, not_lt.mpr hx]
  | succ n ih =>
    intro x hx
    by_cases h : x < 0
    · have hx' : 0 ≤ (x + bounds) + n * bounds := by
        push_cast at hx; linarith
      obtain ⟨k, hk, h0, h1, h2⟩ := ih (x + bounds) hx'
      refine ⟨k + 1, ?_, ?_, ?_, fun h' => absurd h (not_lt.mpr h')⟩
      · rw [raiseLoop, if_pos h, hk]; push_cast; congr 1; ring
      · push_cast; linarith
      · intro _
        by_cases hxb : x + bounds < 0
        · have := h1 hxb; push_cast; linarith
        · have := h2 (not_lt.mp hxb); subst this; push_cast; simp; linarith
    · refine ⟨0, ?_, by simpa using not_lt.mp h, fun h' => absurd h' h, fun _ => rfl⟩
      simp [raiseLoop, h]

theorem lowerLoop_spec (bounds : ℚ) :
    ∀ (fuel : Nat) (x : ℚ), 0 ≤ x → x - fuel * bounds < bounds →
      ∃ k : ℕ, lowerLoop bounds fuel x = some (x - k * bounds) ∧ 0 ≤ x - k * bounds ∧
        x - k * bounds < bounds := by
  intro fuel
  induction fuel with
  | zero =>
    intro x h0 hx
    simp only [Nat.cast_zero, zero_mul, sub_zero] at hx
    exact ⟨0, by simp [lowerLoop, not_le.mpr hx], by simpa using h0, by simpa using hx⟩
  | succ n ih =>
    intro x h0 hx
    by_cases h : x ≥ bounds
    · have hx' : (x - bounds) - n * bounds < bounds := by push_cast at hx; linarith
      obtain ⟨k, hk, h1, h2⟩ := ih (x - bounds) (by linarith) hx'
      refine ⟨k + 1, ?_, ?_, ?_⟩
      · rw [lowerLoop, if_pos h, hk]; push_cast; congr 1; ring
      · push_cast; linarith
      · push_cast; linarith
    · exact ⟨0, by simp [lowerLoop, h], by simpa using h0, by simpa using not_le.mp h⟩

/-- The rounds `repeat` needs for the coordinate `x`. -/
theorem repeat_value (dim : Int) (c : ℚ) (hd : 1 ≤ dim) (fuel : Nat)
    (hlo : 0 ≤ c + fuel * (dim : ℚ)) (hhi : c - fuel * (dim : ℚ) < dim) :
    my_shader.repeat fuel c dim = some (⌊c⌋ % dim) := by
  have hb : (0 : ℚ) < (dim : ℚ) := by exact_mod_cast (by omega : 0 < dim)
  obtain ⟨k, hk, h0, h1, h2⟩ := raiseLoop_spec dim fuel c hlo
  have hx2 : (c + k * (dim : ℚ)) - fuel * (dim : ℚ) < dim := by
    by_cases hc : c < 0
    · have := h1 hc
      have : (0 : ℚ) ≤ fuel * (dim : ℚ) := by positivity
      linarith
    · have := h2 (not_lt.mp hc); subst this; simpa using hhi
  obtain ⟨j, hj, h3, h4⟩ := lowerLoop_spec dim fuel _ h0 hx2
  have hval : c + k * (dim : ℚ) - j * (dim : ℚ) = c + (((k : Int) - j) * dim : Int) := by
    push_cast; ring
  rw [hval] at hj h3 h4
  have hfl : ⌊c + (((k : Int) - j) * dim : Int)⌋ = ⌊c⌋ + ((k : Int) - j) * dim :=
    Int.floor_add_int _ _
  have hge : 0 ≤ ⌊c⌋ + ((k : Int) - j) * dim := by
    rw [← hfl]; exact Int.floor_nonneg.mpr h3
  have hlt : ⌊c⌋ + ((k : Int) - j) * dim < dim := by
    rw [← hfl]; exact Int.floor_lt.mpr h4
  have hmod : ⌊c⌋ % dim = ⌊c⌋ + ((k : Int) - j) * dim := by
    have : (⌊c⌋ + ((k : Int) - j) * dim) % dim = ⌊c⌋ % dim := Int.add_mul_emod_self
    rw [← this]; exact Int.emod_eq_of_lt hge hlt
  simp only [my_shader.repeat, hk, hj, Option.bind_eq_bind, Option.some_bind, GFloorToInt,
    Option.pure_def, hfl, hmod]

/-- C21: for every `dim ≥ 1` and every coordinate `c` the repeat tiling of the
bitmap shader terminates (enough rounds give a result), the result is
`floor(c) mod dim`, so it is the same for `c + dim` and `c`, and it is
`floor(c)` when `0 ≤ c < dim`. -/
theorem repeat_tiling_periodic (dim : Int) (c : ℚ) (hd : 1 ≤ dim) :
    ∃ N : Nat, ∀ fuel, N ≤ fuel →
      my_shader.repeat fuel c dim = some (⌊c⌋ % dim) ∧
      my_shader.repeat fuel (c + dim) dim = my_shader.repeat fuel c dim ∧
      (0 ≤ c → c < (dim : ℚ) → my_shader.repeat fuel c dim = some ⌊c⌋) := by
  have hb : (1 : ℚ) ≤ (dim : ℚ) := by exact_mod_cast hd
  obtain ⟨N, hN⟩ := exists_nat_ge (|c| + 1)
  refine ⟨N, fun fuel hf => ?_⟩
  have hf' : (N : ℚ) ≤ fuel := by exact_mod_cast hf
  have habs := abs_nonneg c
  have h1 := le_abs_self c
  have h2 := neg_abs_le c
  have hfd : (fuel : ℚ) ≤ fuel * (dim : ℚ) := by
    have : (0 : ℚ) ≤ fuel := by positivity
    nlinarith
  have hc : my_shader.repeat fuel c dim = some (⌊c⌋ % dim) :=
    repeat_value dim c hd fuel (by linarith) (by linarith)
  have hc' : my_shader.repeat fuel (c + dim) dim = some (⌊c + dim⌋ % dim) :=
    repeat_value dim (c + dim) hd fuel (by linarith) (by linarith)
  refine ⟨hc, ?_, ?_⟩
  · rw [hc, hc', Int.floor_add_int, Int.add_emod_self]
  · intro h0 h3
    rw [hc, Int.emod_eq_of_lt (Int.floor_nonneg.mpr h0) (Int.floor_lt.mpr h3)]

theorem repeat_tiling_periodic_witness :
    ∃ N : Nat, ∀ fuel, N ≤ fuel →
      my_shader.repeat fuel (5 / 2) 4 = some (⌊(5 / 2 : ℚ)⌋ % 4) ∧
      my_shader.repeat fuel (5 / 2 + ((4 : Int) : ℚ)) 4 = my_shader.repeat fuel (5 / 2) 4 ∧
      (0 ≤ (5 / 2 : ℚ) → (5 / 2 : ℚ) < ((4 : Int) : ℚ) →
        my_shader.repeat fuel (5 / 2) 4 = some ⌊(5 / 2 : ℚ)⌋) :=
  repeat_tiling_periodic 4 (5 / 2) (by decide)

theorem invertTo_regular (M out : GMatrix) (h : (M.invertTo out).1 = true) :
    GMatrix.Concat M (M.invertTo out).2 = GMatrix.identity ∧
      GMatrix.Concat (M.invertTo out).2 M = GMatrix.identity := by
  have hd : M.det ≠ 0 := by
    intro h0
    rw [invertTo_singular M out h0] at h
    exact Bool.false_ne_true h
  have h0 : (if (0 : Nat) = 0 then M else out).b * (if (0 : Nat) = 0 then M else out).d
      - (if (0 : Nat) = 0 then M else out).a * (if (0 : Nat) = 0 then M else out).e ≠ 0 := by
    simp only [if_true]
    unfold GMatrix.det at hd
    intro h1
    apply hd
    linarith
  have := invert_regular_inverse (fun q => if q = 0 then M else out) 0 1 h0
  simpa [GMatrix.invertTo] using this

theorem invertTo_of_det_ne (M out : GMatrix) (h : M.det ≠ 0) : (M.invertTo out).1 = true := by
  have h0 : (if (0 : Nat) = 0 then M else out).b * (if (0 : Nat) = 0 then M else out).d
      - (if (0 : Nat) = 0 then M else out).a * (if (0 : Nat) = 0 then M else out).e ≠ 0 := by
    simp only [if_true]
    unfold GMatrix.det at h
    intro h1
    apply h
    linarith
  unfold GMatrix.invertTo
  rw [invert_regular _ 0 1 h0]

/-- A point is mapped back by the inverse `invertTo` computes. -/
theorem invertTo_mapPoint (M out : GMatrix) (h : (M.invertTo out).1 = true) (p q : GPoint)
    (hq : M.mapPoint p = q) : (M.invertTo out).2.mapPoint q = p := by
  rw [← hq, ← mapPoint_Concat, (invertTo_regular M out h).2, mapPoint_identity]

theorem mapPoint_invertTo (M out : GMatrix) (h : (M.invertTo out).1 = true) (q : GPoint) :
    M.mapPoint ((M.invertTo out).2.mapPoint q) = q := by
  rw [← mapPoint_Concat, (invertTo_regular M out h).1, mapPoint_identity]

/-! ## Mirror tiling -/

/-- C22, the defect: for `dim = 4` the mirror index of `c = -1/2` is 0 and the
one of `c + 2*dim = 15/2` is 1. -/
theorem mirror_tiling_not_periodic :
    my_shader.mirrorIndex (-1 / 2) 4 = some 0 ∧
      my_shader.mirrorIndex (-1 / 2 + 2 * 4) 4 = some 1 := by
  have h1 : Int.tmod 0 2 = 0 := by decide
  have h2 : Int.tmod 0 4 = 0 := by decide
  have h3 : Int.tmod 1 2 = 1 := by decide
  have h4 : Int.tmod 7 4 = 3 := by decide
  constructor <;>
    norm_num [my_shader.mirrorIndex, my_shader.mirror, my_shader.clamp, GFloorToInt, h1, h2,
      h3, h4]

/-- For a coordinate `c ≥ 0` the mirror index has period `2*dim`. -/
theorem mirrorIndex_periodic_nonneg (dim : Int) (c : ℚ) (hd : 1 ≤ dim) (hc : 0 ≤ c) :
    my_shader.mirrorIndex (c + 2 * dim) dim = my_shader.mirrorIndex c dim := by
  have hdq : (0 : ℚ) < (dim : ℚ) := by exact_mod_cast (by omega : 0 < dim)
  have hd0 : dim ≠ 0 := by omega
  have hc2 : ¬ (c + 2 * (dim : ℚ) < 0) := by linarith
  have hr : (c + 2 * (dim : ℚ)) / dim = c / dim + ((2 : Int) : ℚ) := by
    field_simp
  have hx : c + 2 * (dim : ℚ) = c + ((2 * dim : Int) : ℚ) := by push_cast; ring
  have hf0 : 0 ≤ ⌊c / (dim : ℚ)⌋ := Int.floor_nonneg.mpr (div_nonneg hc hdq.le)
  have hc0 : 0 ≤ ⌊c⌋ := Int.floor_nonneg.mpr hc
  have e1 : (⌊c / (dim : ℚ)⌋ + 2).tmod 2 = ⌊c / (dim : ℚ)⌋.tmod 2 := by
    rw [Int.tmod_eq_emod (by omega) (by omega), Int.tmod_eq_emod hf0 (by omega)]
    omega
  have e2 : (⌊c⌋ + 2 * dim).tmod dim = ⌊c⌋.tmod dim := by
    rw [Int.tmod_eq_emod (by omega) (by omega), Int.tmod_eq_emod hc0 (by omega)]
    exact Int.add_mul_emod_self
  simp only [my_shader.mirrorIndex, my_shader.mirror, hc2, not_lt.mpr hc, if_false, hd0,
    GFloorToInt, hr, Int.floor_add_int, e1]
  rw [hx, Int.floor_add_int, e2]

/-- The matrix `invertTo` leaves in the output object of a regular matrix. -/
theorem invertTo_value (M out : GMatrix) (h : M.b * M.d - M.a * M.e ≠ 0) :
    M.invertTo out =
      (true,
        ⟨(-1 * M.e) * (1 / (M.b * M.d - M.a * M.e)), M.b * (1 / (M.b * M.d - M.a * M.e)),
         (-1 * M.b * M.f + M.e * M.c) * (1 / (M.b * M.d - M.a * M.e)),
         M.d * (1 / (M.b * M.d - M.a * M.e)), (-1 * M.a) * (1 / (M.b * M.d - M.a * M.e)),
         (-1 * M.c * M.d + M.a * M.f) * (1 / (M.b * M.d - M.a * M.e))⟩) := by
  have h0 : (if (0 : Nat) = 0 then M else out).b * (if (0 : Nat) = 0 then M else out).d
      - (if (0 : Nat) = 0 then M else out).a * (if (0 : Nat) = 0 then M else out).e ≠ 0 := by
    simpa using h
  unfold GMatrix.invertTo
  rw [invert_regular _ 0 1 h0]
  simp

theorem mirrorGradient_context :
    mirrorGradient.setContext GMatrix.identity =
      (true, Shader.linearGradient [⟨1, 0, 0, 1⟩, ⟨0, 0, 1, 1⟩] 2 ⟨1 / 2, 0, -1 / 4, 0, 1 / 2, -1 / 4⟩
        ⟨2, 0, 1 / 2, 0, 2, 1 / 2⟩ TileMode.kMirror) := by
  simp only [mirrorGradient, my_linear_gradient.create, Shader.setContext, Concat_identity_left]
  rw [invertTo_value _ _ (by norm_num)]
  norm_num

theorem MUcolorToPixel_blue : MUcolorToPixel ⟨0, 0, 1, 1⟩ = 0xFF0000FF := by
  have h1 : MUfloatTo255 1 = 255 := by norm_num [MUfloatTo255]
  have h0 : MUfloatTo255 0 = 0 := by norm_num [MUfloatTo255]
  have p1 : pinUnit 1 = 1 := by norm_num [pinUnit]
  have p0 : pinUnit 0 = 0 := by norm_num [pinUnit]
  simp only [MUcolorToPixel, GColor.pinToUnit, p1, p0, mul_one, zero_mul, h1, h0]
  decide

theorem MUcolorToPixel_purple : MUcolorToPixel ⟨1 / 2, 0, 1 / 2, 1⟩ = 0xFF800080 := by
  have h1 : MUfloatTo255 1 = 255 := by norm_num [MUfloatTo255]
  have h0 : MUfloatTo255 0 = 0 := by norm_num [MUfloatTo255]
  have hh : MUfloatTo255 (1 / 2) = 128 := by norm_num [MUfloatTo255]
  have p1 : pinUnit 1 = 1 := by norm_num [pinUnit]
  have p0 : pinUnit 0 = 0 := by norm_num [pinUnit]
  have ph : pinUnit (1 / 2) = 1 / 2 := by norm_num [pinUnit]
  simp only [MUcolorToPixel, GColor.pinToUnit, p1, p0, ph, mul_one, zero_mul, h1, h0, hh]
  decide

theorem GColor.add_def (c d : GColor) : c + d = ⟨c.r + d.r, c.g + d.g, c.b + d.b, c.a + d.a⟩ :=
  rfl

theorem GColor.sub_def (c d : GColor) : c - d = ⟨c.r - d.r, c.g - d.g, c.b - d.b, c.a - d.a⟩ :=
  rfl

theorem GColor.smul_def (s : ℚ) (c : GColor) : s * c = ⟨s * c.r, s * c.g, s * c.b, s * c.a⟩ :=
  rfl

/-- The pixel of a mirrored gradient at a position that falls between two
colours. -/
theorem gradient_mirror_mix (fuel : Nat) (cs : List GColor) (n : Int) (inv : GMatrix)
    (x y : Int) (i : Nat) (t : ℚ) (k : Int) (ca cb : GColor)
    (ht : my_linear_gradient.mirror
      (inv.mapPoint ⟨(x : ℚ) + 1 / 2 + (i : ℚ), (y : ℚ) + 1 / 2⟩) = t)
    (hk : ⌊t * ((n : ℚ) - 1)⌋ = k) (hw : t * ((n : ℚ) - 1) - (k : ℚ) ≠ 0)
    (ha : arrayAt cs k = some ca) (hb : arrayAt cs (k + 1) = some cb) :
    my_linear_gradient.shadePixel fuel cs n inv TileMode.kMirror x y i
      = some (MUcolorToPixel ((1 - (t * ((n : ℚ) - 1) - (k : ℚ))) * ca
          + (t * ((n : ℚ) - 1) - (k : ℚ)) * cb)) := by
  simp only [my_linear_gradient.shadePixel, ht, Option.bind_eq_bind, Option.some_bind,
    GFloorToInt, hk, hw, if_false, ha, hb, Option.pure_def]

/-- The pixel of a mirrored gradient at a position that falls on a colour. -/
theorem gradient_mirror_exact (fuel : Nat) (cs : List GColor) (n : Int) (inv : GMatrix)
    (x y : Int) (i : Nat) (t : ℚ) (k : Int) (ca : GColor)
    (ht : my_linear_gradient.mirror
      (inv.mapPoint ⟨(x : ℚ) + 1 / 2 + (i : ℚ), (y : ℚ) + 1 / 2⟩) = t)
    (hk : t * ((n : ℚ) - 1) = (k : ℚ)) (hn : k ≤ n - 1)
    (ha : arrayAt cs k = some ca) :
    my_linear_gradient.shadePixel fuel cs n inv TileMode.kMirror x y i
      = some (MUcolorToPixel ca) := by
  simp only [my_linear_gradient.shadePixel, ht, Option.bind_eq_bind, Option.some_bind,
    GFloorToInt, hk, Int.floor_intCast, sub_self, if_true, hn, ha, Option.pure_def]

theorem mirror_pixel0 (fuel : Nat) :
    my_linear_gradient.shadePixel fuel [⟨1, 0, 0, 1⟩, ⟨0, 0, 1, 1⟩] 2
      ⟨1 / 2, 0, -1 / 4, 0, 1 / 2, -1 / 4⟩ TileMode.kMirror 0 0 0 = some 0xFF0000FF := by
  have h1 : Int.tmod 0 2 = 0 := by decide
  have hp : (⟨1 / 2, 0, -1 / 4, 0, 1 / 2, -1 / 4⟩ : GMatrix).mapPoint
      ⟨((0 : Int) : ℚ) + 1 / 2 + ((0 : Nat) : ℚ), ((0 : Int) : ℚ) + 1 / 2⟩ = ⟨0, 0⟩ := by
    norm_num [GMatrix.mapPoint]
  have hm : my_linear_gradient.mirror ⟨0, 0⟩ = 1 := by
    norm_num [my_linear_gradient.mirror, GFloorToInt, h1]
  rw [gradient_mirror_exact fuel [⟨1, 0, 0, 1⟩, ⟨0, 0, 1, 1⟩] 2
    ⟨1 / 2, 0, -1 / 4, 0, 1 / 2, -1 / 4⟩ 0 0 0 1 1 ⟨0, 0, 1, 1⟩
    (by rw [hp]; exact hm) (by norm_num) (by decide) rfl, MUcolorToPixel_blue]

theorem mirror_pixel1 (fuel : Nat) :
    my_linear_gradient.shadePixel fuel [⟨1, 0, 0, 1⟩, ⟨0, 0, 1, 1⟩] 2
      ⟨1 / 2, 0, -1 / 4, 0, 1 / 2, -1 / 4⟩ TileMode.kMirror 0 0 1 = some 0xFF800080 := by
  have h1 : Int.tmod 0 2 = 0 := by decide
  have hp : (⟨1 / 2, 0, -1 / 4, 0, 1 / 2, -1 / 4⟩ : GMatrix).mapPoint
      ⟨((0 : Int) : ℚ) + 1 / 2 + ((1 : Nat) : ℚ), ((0 : Int) : ℚ) + 1 / 2⟩ = ⟨1 / 2, 0⟩ := by
    norm_num [GMatrix.mapPoint]
  have hm : my_linear_gradient.mirror ⟨1 / 2, 0⟩ = 1 / 2 := by
    norm_num [my_linear_gradient.mirror, GFloorToInt, h1]
  have hcol : (1 - ((1 / 2 : ℚ) * ((((2 : Int) : ℚ)) - 1) - ((0 : Int) : ℚ)))
        * (⟨1, 0, 0, 1⟩ : GColor)
      + ((1 / 2 : ℚ) * ((((2 : Int) : ℚ)) - 1) - ((0 : Int) : ℚ)) * (⟨0, 0, 1, 1⟩ : GColor)
      = ⟨1 / 2, 0, 1 / 2, 1⟩ := by
    simp only [GColor.add_def, GColor.smul_def, GColor.mk.injEq]
    norm_num
  rw [gradient_mirror_mix fuel [⟨1, 0, 0, 1⟩, ⟨0, 0, 1, 1⟩] 2
    ⟨1 / 2, 0, -1 / 4, 0, 1 / 2, -1 / 4⟩ 0 0 1 (1 / 2) 0 ⟨1, 0, 0, 1⟩ ⟨0, 0, 1, 1⟩
    (by rw [hp]; exact hm) (by norm_num) (by norm_num) rfl rfl, hcol, MUcolorToPixel_purple]

theorem mirror_pixel2 (fuel : Nat) :
    my_linear_gradient.shadePixel fuel [⟨1, 0, 0, 1⟩, ⟨0, 0, 1, 1⟩] 2
      ⟨1 / 2, 0, -1 / 4, 0, 1 / 2, -1 / 4⟩ TileMode.kMirror 0 0 2 = some 0xFFFF0000 := by
  have h1 : Int.tmod 1 2 = 1 := by decide
  have hp : (⟨1 / 2, 0, -1 / 4, 0, 1 / 2, -1 / 4⟩ : GMatrix).mapPoint
      ⟨((0 : Int) : ℚ) + 1 / 2 + ((2 : Nat) : ℚ), ((0 : Int) : ℚ) + 1 / 2⟩ = ⟨1, 0⟩ := by
    norm_num [GMatrix.mapPoint]
  have hm : my_linear_gradient.mirror ⟨1, 0⟩ = 0 := by
    norm_num [my_linear_gradient.mirror, GFloorToInt, h1]
  rw [gradient_mirror_exact fuel [⟨1, 0, 0, 1⟩, ⟨0, 0, 1, 1⟩] 2
    ⟨1 / 2, 0, -1 / 4, 0, 1 / 2, -1 / 4⟩ 0 0 2 0 0 ⟨1, 0, 0, 1⟩
    (by rw [hp]; exact hm) (by norm_num) (by decide) rfl, MUcolorToPixel_red]

theorem mirror_row (fuel : Nat) :
    (Shader.linearGradient [⟨1, 0, 0, 1⟩, ⟨0, 0, 1, 1⟩] 2 ⟨1 / 2, 0, -1 / 4, 0, 1 / 2, -1 / 4⟩
        ⟨2, 0, 1 / 2, 0, 2, 1 / 2⟩ TileMode.kMirror).shadeRow fuel 0 0 3
      = some [0xFF0000FF, 0xFF800080, 0xFFFF0000] := by
  simp only [Shader.shadeRow, shadeLoop, mirror_pixel0, mirror_pixel1, mirror_pixel2]
  rfl

/-- C23, the defect: the mirrored gradient from (1/2, 1/2) to (5/2, 1/2), red
to blue, accepts the identity CTM and shades the pixels 0, 1, 2 of row 0 as
blue, purple, red: the sample at `p0` (the centre of pixel 0) gets the last
colour and the sample at `p1` (the centre of pixel 2) the first one. -/
theorem gradient_mirror_reversed (fuel : Nat) :
    (mirrorGradient.setContext GMatrix.identity).1 = true ∧
      (mirrorGradient.setContext GMatrix.identity).2.shadeRow fuel 0 0 3
        = some [0xFF0000FF, 0xFF800080, 0xFFFF0000] ∧
      MUcolorToPixel ⟨1, 0, 0, 1⟩ = 0xFFFF0000 ∧ MUcolorToPixel ⟨0, 0, 1, 1⟩ = 0xFF0000FF := by
  rw [mirrorGradient_context]
  exact ⟨rfl, mirror_row fuel, MUcolorToPixel_red, MUcolorToPixel_blue⟩

/-! ## Gradient end points -/

theorem raiseLoop_nonneg (bounds : ℚ) (fuel : Nat) (x : ℚ) (h : 0 ≤ x) :
    raiseLoop bounds fuel x = some x := by
  cases fuel <;> simp [raiseLoop, not_lt.mpr h]

theorem lowerUnitLoop_le (fuel : Nat) (x : ℚ) (h : x ≤ 1) : lowerUnitLoop fuel x = some x := by
  cases fuel <;> simp [lowerUnitLoop, not_lt.mpr h]

/-- In the modes Clamp and Repeat a position inside `[0, 1]` stays as it is. -/
theorem gradient_tile_inside (fuel : Nat) (p : GPoint) (h0 : 0 ≤ p.fX) (h1 : p.fX ≤ 1) :
    my_linear_gradient.clamp p = p.fX ∧ my_linear_gradient.repeat fuel p = some p.fX := by
  constructor
  · simp [my_linear_gradient.clamp, not_lt.mpr h0, not_lt.mpr h1]
  · simp [my_linear_gradient.repeat, raiseLoop_nonneg 1 fuel p.fX h0, lowerUnitLoop_le fuel p.fX h1]

/-- The pixel of a gradient in mode Clamp or Repeat at a sample whose position
is `t = 0` or `t = 1`. -/
theorem gradient_pixel_at_end (cs : List GColor) (inv : GMatrix) (tm : TileMode) (fuel : Nat)
    (x y : Int) (i : Nat) (htm : tm ≠ TileMode.kMirror) (k : Nat) (c : GColor)
    (hc : cs.get? (k * (cs.length - 1)) = some c) (hk : k = 0 ∨ k = 1) (hn : 1 ≤ cs.length)
    (hp : (inv.mapPoint ⟨(x : ℚ) + 1 / 2 + (i : ℚ), (y : ℚ) + 1 / 2⟩).fX = (k : ℚ)) :
    my_linear_gradient.shadePixel fuel cs cs.length inv tm x y i = some (MUcolorToPixel c) := by
  have h0 : (0 : ℚ) ≤ (k : ℚ) := by positivity
  have h1 : (k : ℚ) ≤ 1 := by rcases hk with rfl | rfl <;> norm_num
  obtain ⟨t1, t2⟩ := gradient_tile_inside fuel
    (inv.mapPoint ⟨(x : ℚ) + 1 / 2 + (i : ℚ), (y : ℚ) + 1 / 2⟩) (by rw [hp]; exact h0)
    (by rw [hp]; exact h1)
  rw [hp] at t1 t2
  have hx : (k : ℚ) * ((((cs.length : Nat) : Int) : ℚ) - 1) = (((k * (cs.length - 1) : Nat) : Int) : ℚ) := by
    push_cast [Nat.cast_sub hn]; ring
  have hidx : ((k * (cs.length - 1) : Nat) : Int) ≤ ((cs.length : Nat) : Int) - 1 := by
    rcases hk with rfl | rfl <;> omega
  have hat : arrayAt cs ((k * (cs.length - 1) : Nat) : Int) = some c := by
    simp only [arrayAt, Int.natCast_nonneg, if_true, Int.toNat_natCast]
    exact hc
  cases tm with
  | kMirror => exact absurd rfl htm
  | kClamp =>
    simp only [my_linear_gradient.shadePixel, t1, Option.bind_eq_bind, Option.some_bind, hx,
      GFloorToInt, Int.floor_intCast, sub_self, if_true, hidx, hat, Option.pure_def]
  | kRepeat =>
    simp only [my_linear_gradient.shadePixel, t2, Option.bind_eq_bind, Option.some_bind, hx,
      GFloorToInt, Int.floor_intCast, sub_self, if_true, hidx, hat, Option.pure_def]

/-- In the modes Clamp and Repeat, under the identity CTM, the gradient accepts
the context when `p0 ≠ p1`, the sample at `p0` gets the first colour and the
sample at `p1` the last one. -/
theorem gradient_endpoints (p0 p1 : GPoint) (cs : List GColor) (tm : TileMode) (fuel : Nat)
    (x y : Int) (i : Nat) (hne : p0 ≠ p1) (hn : 1 ≤ cs.length) (htm : tm ≠ TileMode.kMirror) :
    ∃ inv M first last, cs.get? 0 = some first ∧ cs.get? (cs.length - 1) = some last ∧
      (my_linear_gradient.create p0 p1 cs cs.length tm).setContext GMatrix.identity
        = (true, Shader.linearGradient cs cs.length inv M tm) ∧
      ((⟨(x : ℚ) + 1 / 2 + (i : ℚ), (y : ℚ) + 1 / 2⟩ : GPoint) = p0 →
        my_linear_gradient.shadePixel fuel cs cs.length inv tm x y i
          = some (MUcolorToPixel first)) ∧
      ((⟨(x : ℚ) + 1 / 2 + (i : ℚ), (y : ℚ) + 1 / 2⟩ : GPoint) = p1 →
        my_linear_gradient.shadePixel fuel cs cs.length inv tm x y i
          = some (MUcolorToPixel last)) := by
  obtain ⟨first, hfirst⟩ : ∃ c, cs.get? 0 = some c := by
    rw [List.get?_eq_getElem?]
    exact ⟨cs[0], List.getElem?_eq_getElem (by omega)⟩
  obtain ⟨last, hlast⟩ : ∃ c, cs.get? (cs.length - 1) = some c := by
    rw [List.get?_eq_getElem?]
    exact ⟨cs[cs.length - 1], List.getElem?_eq_getElem (by omega)⟩
  have hdet : (⟨p1.fX - p0.fX, -(p1.fY - p0.fY), p0.fX, p1.fY - p0.fY, p1.fX - p0.fX, p0.fY⟩ :
      GMatrix).det ≠ 0 := by
    simp only [GMatrix.det]
    intro h
    have h2 : (p1.fX - p0.fX) ^ 2 + (p1.fY - p0.fY) ^ 2 = 0 := by linarith
    have hx : p1.fX - p0.fX = 0 := by nlinarith [sq_nonneg (p1.fX - p0.fX), sq_nonneg (p1.fY - p0.fY)]
    have hy : p1.fY - p0.fY = 0 := by nlinarith [sq_nonneg (p1.fX - p0.fX), sq_nonneg (p1.fY - p0.fY)]
    apply hne
    rw [GPoint.ext_iff']
    constructor <;> linarith
  have hacc := invertTo_of_det_ne _ GMatrix.identity hdet
  refine ⟨((⟨p1.fX - p0.fX, -(p1.fY - p0.fY), p0.fX, p1.fY - p0.fY, p1.fX - p0.fX, p0.fY⟩ :
      GMatrix).invertTo GMatrix.identity).2,
    ⟨p1.fX - p0.fX, -(p1.fY - p0.fY), p0.fX, p1.fY - p0.fY, p1.fX - p0.fX, p0.fY⟩,
    first, last, hfirst, hlast, ?_, ?_, ?_⟩
  · simp only [my_linear_gradient.create, Shader.setContext, Concat_identity_left,
      List.take_length]
    rw [hacc]
  · intro hp
    refine gradient_pixel_at_end cs _ tm fuel x y i htm 0 first (by simpa using hfirst)
      (Or.inl rfl) hn ?_
    rw [invertTo_mapPoint _ _ hacc ⟨0, 0⟩ _ (by rw [hp]; cases p0; simp [GMatrix.mapPoint])]
    simp
  · intro hp
    refine gradient_pixel_at_end cs _ tm fuel x y i htm 1 last (by simpa using hlast)
      (Or.inr rfl) hn ?_
    rw [invertTo_mapPoint _ _ hacc ⟨1, 0⟩ _
      (by rw [hp]; cases p1; cases p0; simp [GMatrix.mapPoint])]
    simp

/-! ## The tri-colour shader -/

theorem triColorLoop_length (n : Nat) : ∀ c dc : GColor, (triColorLoop n c dc).length = n := by
  induction n with
  | zero => intro c dc; rfl
  | succ n ih => intro c dc; simp [triColorLoop, ih]

theorem triColorLoop_get (n : Nat) :
    ∀ (c dc : GColor) (i : Nat), i < n →
      (triColorLoop n c dc).get? i = some (MUcolorToPixel (c + (i : ℚ) * dc)) := by
  induction n with
  | zero => intro c dc i hi; omega
  | succ n ih =>
    intro c dc i hi
    cases i with
    | zero =>
      have : c + ((0 : Nat) : ℚ) * dc = c := by
        cases c; cases dc; simp [GColor.add_def, GColor.smul_def]
      rw [this]
      rfl
    | succ i =>
      have : c + ((i + 1 : Nat) : ℚ) * dc = (c + dc) + (i : ℚ) * dc := by
        cases c; cases dc
        simp only [GColor.add_def, GColor.smul_def, GColor.mk.injEq]
        push_cast
        refine ⟨?_, ?_, ?_, ?_⟩ <;> ring
      rw [this, ← ih (c + dc) dc i (by omega)]
      rfl

/-- C24: after a successful `setContext(ctm)` the tri-colour shader writes a
row of `count` pixels, and for every `i < count` the pixel `row[i]` is
`MUcolorToPixel(c0 + u*(c1 - c0) + v*(c2 - c0))` for the one `(u, v)` that the
matrix `ctm * [[p1.x-p0.x, p2.x-p0.x, p0.x], [p1.y-p0.y, p2.y-p0.y, p0.y]]` maps
to `(x + i + 1/2, y + 1/2)`; such a `(u, v)` exists. -/
theorem triColor_row_barycentric (points : Nat → GPoint) (colors : Nat → GColor)
    (ctm : GMatrix) (fuel : Nat) (x y : Int) (count i : Nat)
    (hctx : ((my_tri_color_shader.create points colors).setContext ctm).1 = true)
    (hi : i < count) :
    ∃ row, ((my_tri_color_shader.create points colors).setContext ctm).2.shadeRow fuel x y count
        = some row ∧ row.length = count ∧
      (∃ u v : ℚ, (GMatrix.Concat ctm
          ⟨(points 1).fX - (points 0).fX, (points 2).fX - (points 0).fX, (points 0).fX,
           (points 1).fY - (points 0).fY, (points 2).fY - (points 0).fY, (points 0).fY⟩).mapPoint
            ⟨u, v⟩ = ⟨(x : ℚ) + (i : ℚ) + 1 / 2, (y : ℚ) + 1 / 2⟩) ∧
      ∀ u v : ℚ, (GMatrix.Concat ctm
          ⟨(points 1).fX - (points 0).fX, (points 2).fX - (points 0).fX, (points 0).fX,
           (points 1).fY - (points 0).fY, (points 2).fY - (points 0).fY, (points 0).fY⟩).mapPoint
            ⟨u, v⟩ = ⟨(x : ℚ) + (i : ℚ) + 1 / 2, (y : ℚ) + 1 / 2⟩ →
        row.get? i = some (MUcolorToPixel
          (colors 0 + u * (colors 1 - colors 0) + v * (colors 2 - colors 0))) := by
  set M : GMatrix := GMatrix.Concat ctm
    ⟨(points 1).fX - (points 0).fX, (points 2).fX - (points 0).fX, (points 0).fX,
     (points 1).fY - (points 0).fY, (points 2).fY - (points 0).fY, (points 0).fY⟩ with hM
  have hacc : (M.invertTo GMatrix.identity).1 = true := hctx
  have hst : ((my_tri_color_shader.create points colors).setContext ctm).2
      = Shader.triColor (colors 0) (colors 1) (colors 2) (points 0) (points 1) (points 2)
          (M.invertTo GMatrix.identity).2
          ⟨(points 1).fX - (points 0).fX, (points 2).fX - (points 0).fX, (points 0).fX,
           (points 1).fY - (points 0).fY, (points 2).fY - (points 0).fY, (points 0).fY⟩ := rfl
  rw [hst]
  refine ⟨_, rfl, ?_, ?_, ?_⟩
  · simp only [my_tri_color_shader.shadeRow]
    exact triColorLoop_length _ _ _
  · refine ⟨((M.invertTo GMatrix.identity).2.mapPoint
        ⟨(x : ℚ) + (i : ℚ) + 1 / 2, (y : ℚ) + 1 / 2⟩).fX,
      ((M.invertTo GMatrix.identity).2.mapPoint
        ⟨(x : ℚ) + (i : ℚ) + 1 / 2, (y : ℚ) + 1 / 2⟩).fY, ?_⟩
    exact mapPoint_invertTo M GMatrix.identity hacc _
  · intro u v huv
    have hinv := invertTo_mapPoint M GMatrix.identity hacc _ _ huv
    simp only [my_tri_color_shader.shadeRow]
    rw [triColorLoop_get count _ _ i hi]
    congr 2
    rw [GPoint.ext_iff'] at hinv
    obtain ⟨hu, hv⟩ := hinv
    simp only [GMatrix.mapPoint] at hu hv ⊢
    rw [← hu, ← hv]
    generalize (M.invertTo GMatrix.identity).2 = inv
    cases inv
    cases h0 : colors 0
    cases h1 : colors 1
    cases h2 : colors 2
    simp only [GColor.add_def, GColor.smul_def, GColor.sub_def, GColor.mk.injEq]
    refine ⟨?_, ?_, ?_, ?_⟩ <;> ring

theorem triColor_row_barycentric_witness :
    ((my_tri_color_shader.create triPoints triColors).setContext GMatrix.identity).1 = true ∧
    ∃ row, ((my_tri_color_shader.create triPoints triColors).setContext
          GMatrix.identity).2.shadeRow 0 0 0 2 = some row ∧ row.length = 2 ∧
      (∃ u v : ℚ, (GMatrix.Concat GMatrix.identity
          ⟨(triPoints 1).fX - (triPoints 0).fX, (triPoints 2).fX - (triPoints 0).fX,
           (triPoints 0).fX,
           (triPoints 1).fY - (triPoints 0).fY, (triPoints 2).fY - (triPoints 0).fY,
           (triPoints 0).fY⟩).mapPoint
            ⟨u, v⟩ = ⟨((0 : Int) : ℚ) + ((1 : Nat) : ℚ) + 1 / 2, ((0 : Int) : ℚ) + 1 / 2⟩) ∧
      ∀ u v : ℚ, (GMatrix.Concat GMatrix.identity
          ⟨(triPoints 1).fX - (triPoints 0).fX, (triPoints 2).fX - (triPoints 0).fX,
           (triPoints 0).fX,
           (triPoints 1).fY - (triPoints 0).fY, (triPoints 2).fY - (triPoints 0).fY,
           (triPoints 0).fY⟩).mapPoint
            ⟨u, v⟩ = ⟨((0 : Int) : ℚ) + ((1 : Nat) : ℚ) + 1 / 2, ((0 : Int) : ℚ) + 1 / 2⟩ →
        row.get? 1 = some (MUcolorToPixel
          (triColors 0 + u * (triColors 1 - triColors 0) + v * (triColors 2 - triColors 0))) :=
  have h : ((my_tri_color_shader.create triPoints triColors).setContext GMatrix.identity).1
      = true := by
    simp only [my_tri_color_shader.create, Shader.setContext, Concat_identity_left]
    exact invertTo_of_det_ne _ _
      (by norm_num [GMatrix.det, triPoints, pointArray, GPoint.sub_fX, GPoint.sub_fY])
  ⟨h, triColor_row_barycentric triPoints triColors GMatrix.identity 0 0 0 2 1 h (by decide)⟩

/-! ## The composite shader -/

theorem shadeLoop_length (pixel : Nat → Option GPixel) :
    ∀ (n : Nat) (row : List GPixel), shadeLoop pixel n = some row → row.length = n := by
  intro n
  induction n with
  | zero => intro row h; simp only [shadeLoop, Option.some.injEq] at h; subst h; rfl
  | succ n ih =>
    intro row h
    simp only [shadeLoop, Option.bind_eq_bind, Option.pure_def] at h
    cases hr : shadeLoop pixel n with
    | none => simp [hr] at h
    | some r =>
      cases hp : pixel n with
      | none => simp [hr, hp] at h
      | some p =>
        simp only [hr, hp, Option.some_bind, Option.some.injEq] at h
        subst h
        simp [ih r hr]

/-- A shaded row has `count` pixels. -/
theorem shadeRow_length (fuel : Nat) (s : Shader) :
    ∀ (x y : Int) (count : Nat) (row : List GPixel),
      s.shadeRow fuel x y count = some row → row.length = count := by
  induction s with
  | bitmap d M inv tm =>
    intro x y count row h
    simp only [Shader.shadeRow] at h
    exact shadeLoop_length _ _ _ h
  | linearGradient cs n inv M tm =>
    intro x y count row h
    simp only [Shader.shadeRow] at h
    exact shadeLoop_length _ _ _ h
  | triColor c0 c1 c2 p0 p1 p2 inv M =>
    intro x y count row h
    simp only [Shader.shadeRow, Option.some.injEq] at h
    rw [← h]
    exact triColorLoop_length _ _ _
  | proxy real E ih =>
    intro x y count row h
    exact ih x y count row h
  | composite s0 s1 ih0 ih1 =>
    intro x y count row h
    simp only [Shader.shadeRow, Option.bind_eq_bind, Option.pure_def] at h
    cases h0 : s0.shadeRow fuel x y count with
    | none => simp [h0] at h
    | some a =>
      cases h1 : s1.shadeRow fuel x y count with
      | none => simp [h0, h1] at h
      | some b =>
        simp [h0, h1] at h
        rw [← h, List.length_zipWith, ih0 x y count a h0, ih1 x y count b h1, min_self]

theorem quickDivide255_mul_le {a b : Nat} (ha : a ≤ 255) (hb : b ≤ 255) :
    MUquickDivide255 (a * b) ≤ 255 :=
  quickDivide255_le (by nlinarith) (le_refl 255)

/-- Every channel of `MUmultiplyPixels(p0, p1)` is the fast division of the
product of the two channels. -/
theorem MUmultiplyPixels_channels (p0 p1 : GPixel) :
    GPixel_GetA (MUmultiplyPixels p0 p1) = MUquickDivide255 (GPixel_GetA p0 * GPixel_GetA p1) ∧
    GPixel_GetR (MUmultiplyPixels p0 p1) = MUquickDivide255 (GPixel_GetR p0 * GPixel_GetR p1) ∧
    GPixel_GetG (MUmultiplyPixels p0 p1) = MUquickDivide255 (GPixel_GetG p0 * GPixel_GetG p1) ∧
    GPixel_GetB (MUmultiplyPixels p0 p1) = MUquickDivide255 (GPixel_GetB p0 * GPixel_GetB p1) := by
  have ha := quickDivide255_mul_le (getA_le p0) (getA_le p1)
  have hr := quickDivide255_mul_le (getR_le p0) (getR_le p1)
  have hg := quickDivide255_mul_le (getG_le p0) (getG_le p1)
  have hb := quickDivide255_mul_le (getB_le p0) (getB_le p1)
  simp only [MUmultiplyPixels]
  exact ⟨getA_pack ha hr hg hb, getR_pack ha hr hg hb, getG_pack ha hr hg hb,
    getB_pack ha hr hg hb⟩

/-- C25: the composite shader accepts a CTM exactly when both children accept
it, and from the rows `a` and `b` of the two children for the same
`(x, y, count)` it writes a row of `count` pixels in which every channel of the
pixel `i` is the fast division by 255 of the product of the channels of `a[i]`
and `b[i]`. -/
theorem composite_shader_multiplies (s0 s1 : Shader) :
    (∀ ctm, ((Shader.composite s0 s1).setContext ctm).1 = true ↔
      ((s0.setContext ctm).1 = true ∧ (s1.setContext ctm).1 = true)) ∧
    ∀ (fuel : Nat) (x y : Int) (count : Nat) (a b : List GPixel),
      s0.shadeRow fuel x y count = some a → s1.shadeRow fuel x y count = some b →
      ∃ row, (Shader.composite s0 s1).shadeRow fuel x y count = some row ∧
        row.length = count ∧
        ∀ i, i < count → ∃ ai bi p, a.get? i = some ai ∧ b.get? i = some bi ∧
          row.get? i = some p ∧
          GPixel_GetA p = MUquickDivide255 (GPixel_GetA ai * GPixel_GetA bi) ∧
          GPixel_GetR p = MUquickDivide255 (GPixel_GetR ai * GPixel_GetR bi) ∧
          GPixel_GetG p = MUquickDivide255 (GPixel_GetG ai * GPixel_GetG bi) ∧
          GPixel_GetB p = MUquickDivide255 (GPixel_GetB ai * GPixel_GetB bi) := by
  constructor
  · intro ctm
    simp only [Shader.setContext]
    cases h0 : (s0.setContext ctm).1 <;> simp
  · intro fuel x y count a b ha hb
    have la := shadeRow_length fuel s0 x y count a ha
    have lb := shadeRow_length fuel s1 x y count b hb
    refine ⟨List.zipWith MUmultiplyPixels a b, ?_, ?_, ?_⟩
    · simp [Shader.shadeRow, ha, hb]
    · rw [List.length_zipWith, la, lb, min_self]
    · intro i hi
      have hia : i < a.length := by omega
      have hib : i < b.length := by omega
      refine ⟨a[i], b[i], MUmultiplyPixels a[i] b[i], ?_, ?_, ?_, MUmultiplyPixels_channels _ _⟩
      · rw [List.get?_eq_getElem?]; exact List.getElem?_eq_getElem hia
      · rw [List.get?_eq_getElem?]; exact List.getElem?_eq_getElem hib
      · rw [List.get?_eq_getElem?, List.getElem?_eq_getElem (by simp [hia, hib])]
        simp

/-! ## The tessellation of `drawQuad` -/

theorem flatMap_range_succ {α : Type} (f : Nat → List α) (n : Nat) :
    (List.range (n + 1)).flatMap f = (List.range n).flatMap f ++ f n := by
  rw [List.range_succ, List.flatMap_append]
  simp

theorem flatMap_range_front {α : Type} (f : Nat → List α) (n : Nat) :
    (List.range (n + 1)).flatMap f = f 0 ++ (List.range n).flatMap (fun i => f (i + 1)) := by
  rw [List.range_succ_eq_map, List.flatMap_cons, List.flatMap_map]

theorem length_flatMap_const {α β : Type} (f : α → List β) (k : Nat) (hf : ∀ a, (f a).length = k) :
    ∀ l : List α, (l.flatMap f).length = l.length * k := by
  intro l
  induction l with
  | nil => simp
  | cons a t ih => rw [List.flatMap_cons, List.length_append, hf, ih, List.length_cons]; ring

/-- The element of a grid stored row by row. -/
theorem grid_get {α : Type} (g : Nat → Nat → α) (k : Nat) :
    ∀ n y x, y < n → x < k →
      ((List.range n).flatMap fun y => (List.range k).map (g y)).get? (y * k + x)
        = some (g y x) := by
  intro n
  induction n with
  | zero => intro y x hy; omega
  | succ n ih =>
    intro y x hy hx
    rw [flatMap_range_succ, List.get?_eq_getElem?]
    have hlen : ((List.range n).flatMap fun y => (List.range k).map (g y)).length = n * k := by
      rw [length_flatMap_const _ k (by intro a; simp), List.length_range]
    by_cases hyn : y < n
    · have hlt : y * k + x < n * k := by
        have : (y + 1) * k ≤ n * k := Nat.mul_le_mul_right k (by omega)
        nlinarith
      rw [List.getElem?_append_left (by rw [hlen]; exact hlt), ← List.get?_eq_getElem?]
      exact ih y x hyn hx
    · have hy' : y = n := by omega
      subst hy'
      rw [List.getElem?_append_right (by rw [hlen]; omega), hlen]
      simp [hx]

theorem quadInner_eq (level : Int) :
    ∀ (n : Nat) (l : Int) (ind : List Int),
      quadInner level n l ind =
        (l + n, ind ++ (List.range n).flatMap fun m : Nat =>
          [l + m, l + m + level + 2, l + m + level + 1, l + m, l + m + 1, l + m + level + 2]) := by
  intro n
  induction n with
  | zero => intro l ind; simp [quadInner]
  | succ n ih =>
    intro l ind
    rw [quadInner, ih, flatMap_range_front]
    simp only [Prod.mk.injEq]
    constructor
    · push_cast; ring
    · simp only [List.append_assoc, Nat.cast_zero, add_zero, Nat.cast_add, Nat.cast_one]
      congr 2
      apply List.flatMap_congr
      intro m _
      simp only [List.cons.injEq, and_true]
      refine ⟨?_, ?_, ?_, ?_, ?_, ?_⟩ <;> ring

/-- The indices of one row of cells, from the index `t` of its first corner. -/
theorem quadInner_cells (L : Nat) (t : Int) :
    ∀ k : Nat,
      [t, t + 1, t + (L : Int) + 2] ++ ((List.range k).flatMap fun m : Nat =>
        [t + 1 + m, t + 1 + m + (L : Int) + 2, t + 1 + m + (L : Int) + 1, t + 1 + m,
          t + 1 + m + 1, t + 1 + m + (L : Int) + 2])
      = ((List.range k).flatMap fun m : Nat =>
          [t + m, t + m + 1, t + m + (L : Int) + 2, t + m + 1, t + m + (L : Int) + 3,
            t + m + (L : Int) + 2])
        ++ [t + k, t + k + 1, t + k + (L : Int) + 2] := by
  intro k
  induction k with
  | zero => simp
  | succ k ih =>
    rw [flatMap_range_succ, ← List.append_assoc, ih, flatMap_range_succ]
    simp only [List.append_assoc, List.cons_append, List.nil_append, List.append_cancel_left_eq,
      List.cons.injEq, and_true]
    push_cast
    refine ⟨trivial, trivial, trivial, ?_, ?_, ?_, ?_, ?_, ?_⟩ <;> ring

theorem quadRows_eq (L : Nat) :
    ∀ (n : Nat) (l : Int) (ind : List Int),
      quadRows L n l ind =
        ind ++ (List.range n).flatMap fun j : Nat => (List.range (L + 1)).flatMap fun m : Nat =>
          [l + j * ((L : Int) + 2) + m, l + j * ((L : Int) + 2) + m + 1,
            l + j * ((L : Int) + 2) + m + (L : Int) + 2, l + j * ((L : Int) + 2) + m + 1,
            l + j * ((L : Int) + 2) + m + (L : Int) + 3,
            l + j * ((L : Int) + 2) + m + (L : Int) + 2] := by
  intro n
  induction n with
  | zero => intro l ind; simp [quadRows]
  | succ n ih =>
    intro l ind
    rw [quadRows]
    simp only [quadInner_eq, Int.toNat_natCast]
    rw [ih, flatMap_range_front]
    have hrow := quadInner_cells L l L
    simp only [List.append_assoc]
    congr 1
    rw [← List.append_assoc, ← List.append_assoc, hrow, flatMap_range_succ]
    simp only [List.append_assoc, Nat.cast_zero, zero_mul, add_zero]
    congr 1
    simp only [List.cons_append, List.nil_append, List.cons.injEq]
    refine ⟨trivial, trivial, trivial, by ring, by ring, by ring, ?_⟩
    apply List.flatMap_congr
    intro j _
    apply List.flatMap_congr
    intro m _
    simp only [List.cons.injEq, and_true]
    push_cast
    refine ⟨?_, ?_, ?_, ?_, ?_, ?_⟩ <;> ring

theorem quadIndices_eq (L : Nat) : quadIndices L = cellIndices L := by
  have h : ((L : Int) + 1).toNat = L + 1 := by omega
  rw [quadIndices, h, quadRows_eq, cellIndices, List.nil_append]
  apply List.flatMap_congr
  intro j _
  apply List.flatMap_congr
  intro m _
  simp [cellTriangles]

theorem bilerp_corners (verts : Nat → GPoint) :
    MUbilerpPoint verts 0 0 = verts 0 ∧ MUbilerpPoint verts 1 0 = verts 1 ∧
      MUbilerpPoint verts 1 1 = verts 2 ∧ MUbilerpPoint verts 0 1 = verts 3 := by
  have hadd : ∀ p q : GPoint, p + q = ⟨p.fX + q.fX, p.fY + q.fY⟩ := fun _ _ => rfl
  have hmul : ∀ (s : ℚ) (p : GPoint), s * p = ⟨s * p.fX, s * p.fY⟩ := fun _ _ => rfl
  refine ⟨?_, ?_, ?_, ?_⟩ <;> simp [MUbilerpPoint, hadd, hmul]

/-- C26: for every level `L ≥ 0` the grid of `drawQuad` has `(L+2)^2` corners,
the one in row `y`, column `x` being the bilinear interpolation at
`u = x/(L+1)`, `v = y/(L+1)`; its four extreme corners are `verts[0]` (top
left), `verts[1]` (top right), `verts[2]` (bottom right) and `verts[3]` (bottom
left); the index array holds, cell by cell, the triangles (TL, TR, BL) and
(TR, BR, BL), has `6*(L+1)^2` entries, each in `0..(L+2)^2 - 1`; and `drawQuad`
is the call of `drawMesh` with these corners, `2*(L+1)^2` triangles and these
indices. -/
theorem drawQuad_tessellation (L : Nat) (verts : Nat → GPoint) :
    (quadGrid L (MUbilerpPoint verts)).length = (L + 2) ^ 2 ∧
    (∀ x y : Nat, x ≤ L + 1 → y ≤ L + 1 →
      (quadGrid L (MUbilerpPoint verts)).get? (y * (L + 2) + x)
        = some (MUbilerpPoint verts ((x : ℚ) / ((L : ℚ) + 1)) ((y : ℚ) / ((L : ℚ) + 1)))) ∧
    (quadGrid L (MUbilerpPoint verts)).get? 0 = some (verts 0) ∧
    (quadGrid L (MUbilerpPoint verts)).get? (L + 1) = some (verts 1) ∧
    (quadGrid L (MUbilerpPoint verts)).get? ((L + 2) ^ 2 - 1) = some (verts 2) ∧
    (quadGrid L (MUbilerpPoint verts)).get? ((L + 1) * (L + 2)) = some (verts 3) ∧
    quadIndices L = cellIndices L ∧
    (quadIndices L).length = 6 * (L + 1) ^ 2 ∧
    (∀ i ∈ quadIndices L, 0 ≤ i ∧ i ≤ ((L : Int) + 2) ^ 2 - 1) ∧
    ∀ (cv : my_canvas) (colors : Option (Nat → GColor)) (texs : Option (Nat → GPoint))
      (paint : GPaint),
      cv.drawQuad verts colors texs L paint =
        cv.drawMesh (quadGrid L (MUbilerpPoint verts))
          (colors.map fun c => quadGrid L (MUbilerpColor c))
          (texs.map fun t => quadGrid L (MUbilerpPoint t))
          (2 * ((L : Int) + 1) ^ 2) (quadIndices L) paint := by
  have h2 : ((L : Int) + 2).toNat = L + 2 := by omega
  have hL : (((L : Int) + 1 : Int) : ℚ) = (L : ℚ) + 1 := by push_cast; rfl
  have hL0 : ((L : ℚ) + 1) ≠ 0 := by positivity
  have hget : ∀ x y : Nat, x ≤ L + 1 → y ≤ L + 1 →
      (quadGrid L (MUbilerpPoint verts)).get? (y * (L + 2) + x)
        = some (MUbilerpPoint verts ((x : ℚ) / ((L : ℚ) + 1)) ((y : ℚ) / ((L : ℚ) + 1))) := by
    intro x y hx hy
    simp only [quadGrid, h2, hL]
    exact grid_get (fun y x => MUbilerpPoint verts ((x : ℚ) / ((L : ℚ) + 1))
      ((y : ℚ) / ((L : ℚ) + 1))) (L + 2) (L + 2) y x (by omega) (by omega)
  obtain ⟨c0, c1, c2, c3⟩ := bilerp_corners verts
  have hone : (((L + 1 : Nat) : ℚ)) / ((L : ℚ) + 1) = 1 := by
    push_cast; exact div_self hL0
  refine ⟨?_, hget, ?_, ?_, ?_, ?_, quadIndices_eq L, ?_, ?_, ?_⟩
  · simp only [quadGrid, h2]
    rw [length_flatMap_const _ (L + 2) (by intro a; simp), List.length_range]
    ring
  · have := hget 0 0 (by omega) (by omega)
    simpa [c0] using this
  · have := hget (L + 1) 0 (by omega) (by omega)
    rw [hone] at this
    simpa [c1] using this
  · have := hget (L + 1) (L + 1) (by omega) (by omega)
    rw [hone] at this
    have e : (L + 1) * (L + 2) + (L + 1) = (L + 2) ^ 2 - 1 := by
      have : (L + 2) ^ 2 = (L + 1) * (L + 2) + (L + 1) + 1 := by ring
      omega
    rw [e, c2] at this
    exact this
  · have := hget 0 (L + 1) (by omega) (by omega)
    rw [hone] at this
    simpa [c3] using this
  · rw [quadIndices_eq, cellIndices,
      length_flatMap_const _ ((L + 1) * 6)
        (fun j => by
          rw [length_flatMap_const _ 6 (fun m => by simp [cellTriangles]), List.length_range]),
      List.length_range]
    ring
  · intro i hi
    rw [quadIndices_eq, cellIndices] at hi
    simp only [List.mem_flatMap, List.mem_range] at hi
    obtain ⟨j, hj, m, hm, hi⟩ := hi
    have hj' : (j : Int) ≤ L := by exact_mod_cast Nat.lt_succ_iff.mp hj
    have hm' : (m : Int) ≤ L := by exact_mod_cast Nat.lt_succ_iff.mp hm
    have hj0 : (0 : Int) ≤ j := Int.natCast_nonneg j
    have hm0 : (0 : Int) ≤ m := Int.natCast_nonneg m
    have hL0' : (0 : Int) ≤ L := Int.natCast_nonneg L
    have hjL : (j : Int) * ((L : Int) + 2) ≤ (L : Int) * ((L : Int) + 2) :=
      mul_le_mul_of_nonneg_right hj' (by omega)
    have hjL0 : (0 : Int) ≤ (j : Int) * ((L : Int) + 2) := mul_nonneg hj0 (by omega)
    have hsq : ((L : Int) + 2) ^ 2 = (L : Int) * ((L : Int) + 2) + 2 * L + 4 := by ring
    simp only [cellTriangles, List.mem_cons, List.mem_singleton, List.not_mem_nil, or_false] at hi
    rcases hi with rfl | rfl | rfl | rfl | rfl | rfl <;> constructor <;> omega
  · intro cv colors texs paint
    simp only [my_canvas.drawQuad]
    congr 1
    ring

theorem gather_sampleTriangle : gather sampleTriangle [0, 1, 2] 0 = some sampleTriangle := by
  rfl

theorem gather_unitTexs : gather unitTexs [0, 1, 2] 0 = some unitTexs := by
  rfl

theorem gather_zeroTexs : gather zeroTexs [0, 1, 2] 0 = some zeroTexs := by
  rfl

theorem meshLoop_zero (verts : List GPoint) (cs : Option (List GColor))
    (ts : Option (List GPoint)) (indices : List Int) (paint : GPaint) (n : Int) (cv : my_canvas) :
    meshLoop verts cs ts indices paint 0 n cv = some cv := by
  rw [meshLoop]

/-- A mesh of one triangle without colours and texture coordinates, drawn with
a paint without shader, is the triangle drawn as a convex polygon. -/
theorem meshLoop_one_plain (verts : List GPoint) (indices : List Int) (paint : GPaint) (n : Int)
    (cv : my_canvas) (points : List GPoint) (hg : gather verts indices n = some points)
    (hs : paint.fShader = none) :
    meshLoop verts none none indices paint 1 n cv = cv.drawConvexPolygon points 3 paint := by
  rw [meshLoop]
  simp only [hg, Option.bind_eq_bind, Option.some_bind, my_canvas.drawTriangle,
    my_canvas.drawConvexPolygonBuilt, GPaint.built, hs, Option.map_none', meshLoop_zero]
  have hp : ({ fColor := paint.fColor, fMode := paint.fMode } : GPaint) = paint := by
    cases paint
    simp only at hs
    simp [hs]
  rw [hp]
  cases cv.drawConvexPolygon points 3 paint <;> rfl

/-- C27, the defect: on a fresh canvas over a 100x100 bitmap of zeros, with an
opaque red paint in mode Src that has no shader, `drawMesh` of the one triangle
(10,10), (90,10), (50,90) without colours is undefined for the texture
coordinates (0,0), (1,0), (0,1) (the proxy shader calls `setContext` through
the null shader pointer of the paint), draws nothing for texture coordinates
that are three times (0,0), and with `texs = null` it fills the triangle:
pixel (50,50) becomes 0xFFFF0000. -/
theorem drawMesh_texs_without_shader :
    (my_canvas.create hundredBitmap).drawMesh sampleTriangle none (some unitTexs) 1 [0, 1, 2]
        redPaint = none ∧
    (my_canvas.create hundredBitmap).drawMesh sampleTriangle none (some zeroTexs) 1 [0, 1, 2]
        redPaint = some (my_canvas.create hundredBitmap) ∧
    ∃ bm1, (my_canvas.create hundredBitmap).drawMesh sampleTriangle none none 1 [0, 1, 2]
        redPaint = some { my_canvas.create hundredBitmap with fDevice := bm1 } ∧
      bm1.pixels 50 50 = 0xFFFF0000 ∧ (my_canvas.create hundredBitmap).fDevice.pixels 50 50 = 0 := by
  have h1 : (1 : Int).toNat = 1 := rfl
  refine ⟨?_, ?_, ?_⟩
  · simp only [my_canvas.drawMesh, h1, meshLoop, gather_sampleTriangle, gather_unitTexs,
      Option.bind_eq_bind, Option.some_bind]
    have hT : ((⟨(pointArray unitTexs 1).fX - (pointArray unitTexs 0).fX,
        (pointArray unitTexs 2).fX - (pointArray unitTexs 0).fX, (pointArray unitTexs 0).fX,
        (pointArray unitTexs 1).fY - (pointArray unitTexs 0).fY,
        (pointArray unitTexs 2).fY - (pointArray unitTexs 0).fY,
        (pointArray unitTexs 0).fY⟩ : GMatrix).invertTo GMatrix.identity).1 = true :=
      invertTo_of_det_ne _ _ (by norm_num [GMatrix.det, unitTexs, pointArray])
    simp only [my_canvas.drawTriangleWithTex, hT, redPaint, Option.map_none']
    rfl
  · simp only [my_canvas.drawMesh, h1, meshLoop, gather_sampleTriangle, gather_zeroTexs,
      Option.bind_eq_bind, Option.some_bind]
    have hT : ((⟨(pointArray zeroTexs 1).fX - (pointArray zeroTexs 0).fX,
        (pointArray zeroTexs 2).fX - (pointArray zeroTexs 0).fX, (pointArray zeroTexs 0).fX,
        (pointArray zeroTexs 1).fY - (pointArray zeroTexs 0).fY,
        (pointArray zeroTexs 2).fY - (pointArray zeroTexs 0).fY,
        (pointArray zeroTexs 0).fY⟩ : GMatrix).invertTo GMatrix.identity).1 = false := by
      rw [invertTo_singular _ _ (by norm_num [GMatrix.det, zeroTexs, pointArray])]
    simp only [my_canvas.drawTriangleWithTex, hT, if_true]
    rfl
  · obtain ⟨bm1, hb, _, _, hpix⟩ := convex_fill_inside (my_canvas.create hundredBitmap)
      sampleTriangle redPaint rfl rfl rfl rfl sampleTriangle_convex sampleTriangle_inside
    refine ⟨bm1, ?_, ?_, rfl⟩
    · have h3 : sampleTriangle.length = 3 := rfl
      rw [h3] at hb
      have hm : (my_canvas.create hundredBitmap).drawMesh sampleTriangle none none 1 [0, 1, 2]
          redPaint = meshLoop sampleTriangle none none [0, 1, 2] redPaint 1 0
            (my_canvas.create hundredBitmap) := rfl
      rw [hm, meshLoop_one_plain _ _ _ _ _ _ gather_sampleTriangle rfl, hb]
    · rw [(hpix 50 50).1 sampleTriangle_centre]
      exact MUcolorToPixel_red

/-! ## The edges `MUclipPoints` emits -/

theorem MUmakeEdgeWinding_piece (a c : GPoint) (edges : List my_edge) (wd : Int) :
    MUmakeEdgeWinding a c edges wd = edges ++ pieceEdges a c wd := by
  unfold pieceEdges pieceEdge MUmakeEdgeWinding my_edge.setWinding my_edge.set
  by_cases hs : a.fY > c.fY
  · by_cases hr : GRoundToInt a.fY = GRoundToInt c.fY
    · simp [hs, hr]
    · have hr' : ¬ GRoundToInt c.fY = GRoundToInt a.fY := fun e => hr e.symm
      simp [hs, hr, hr', my_edge.fresh, insideEdge, topEnd, bottomEnd]
  · by_cases hr : GRoundToInt a.fY = GRoundToInt c.fY
    · simp [hs, hr]
    · simp [hs, hr, my_edge.fresh, insideEdge, topEnd, bottomEnd]

theorem topEnd_fY (a c : GPoint) : (topEnd (a, c)).fY = min a.fY c.fY := by
  unfold topEnd
  by_cases h : a.fY > c.fY
  · simp [h, min_eq_right (le_of_lt h)]
  · simp [h, min_eq_left (not_lt.mp h)]

theorem bottomEnd_fY (a c : GPoint) : (bottomEnd (a, c)).fY = max a.fY c.fY := by
  unfold bottomEnd
  by_cases h : a.fY > c.fY
  · simp [h, max_eq_left (le_of_lt h)]
  · simp [h, max_eq_right (not_lt.mp h)]

/-- The rows of the edge between two points. -/
theorem piece_covers (a c : GPoint) (wd : Int) (y : Int) :
    (pieceEdge a c wd).covers y ↔ rowBetween a.fY c.fY y := by
  have h := insideEdge_covers (a, c) y
  rw [topEnd_fY, bottomEnd_fY] at h
  exact h

theorem piece_xAt (a c : GPoint) (wd : Int) (y : Int) :
    (pieceEdge a c wd).xAt y = sideX (a, c) ((y : ℚ) + 1 / 2) :=
  insideEdge_xAt (a, c) y

/-- Two heights that round to the same row have no row centre between them. -/
theorem not_rowBetween_of_round_eq {a c : ℚ} (h : GRoundToInt a = GRoundToInt c) (y : Int) :
    ¬ rowBetween a c y := by
  rintro ⟨h1, h2⟩
  rcases le_total a c with hac | hac
  · rw [min_eq_left hac] at h1
    rw [max_eq_right hac] at h2
    have := (round_le_iff a y).mpr h1
    have := (lt_round_iff c y).mpr h2
    omega
  · rw [min_eq_right hac] at h1
    rw [max_eq_left hac] at h2
    have := (round_le_iff c y).mpr h1
    have := (lt_round_iff a y).mpr h2
    omega

/-- The edges of a piece on the row `y`. -/
theorem covering_piece (a c : GPoint) (wd : Int) (y : Int) :
    coveringEdges (pieceEdges a c wd) y =
      if rowBetween a.fY c.fY y then [pieceEdge a c wd] else [] := by
  unfold coveringEdges pieceEdges
  by_cases hr : GRoundToInt a.fY = GRoundToInt c.fY
  · simp [hr, not_rowBetween_of_round_eq hr y]
  · by_cases hb : rowBetween a.fY c.fY y
    · simp [hr, hb, (piece_covers a c wd y).mpr hb]
    · have : ¬ (pieceEdge a c wd).covers y :=
        fun hc => hb ((piece_covers a c wd y).mp hc)
      simp [hr, hb, this]

theorem covering_append (l1 l2 : List my_edge) (y : Int) :
    coveringEdges (l1 ++ l2) y = coveringEdges l1 y ++ coveringEdges l2 y := by
  unfold coveringEdges
  exact List.filter_append _ _

theorem mem_pieceEdges {a c : GPoint} {wd : Int} {e : my_edge} (h : e ∈ pieceEdges a c wd) :
    e = pieceEdge a c wd ∧ GRoundToInt a.fY ≠ GRoundToInt c.fY := by
  unfold pieceEdges at h
  by_cases hr : GRoundToInt a.fY = GRoundToInt c.fY
  · simp [hr] at h
  · simp [hr] at h
    exact ⟨h, hr⟩

/-- The x of a vertical piece. -/
theorem sideX_vertical (x a c t : ℚ) : sideX (⟨x, a⟩, ⟨x, c⟩) t = x := by
  unfold sideX topEnd bottomEnd
  by_cases h : a > c <;> simp [h]

/-- The x of a piece that lies on the line `x = m*y + b`. -/
theorem sideX_on_line (m b a c t : ℚ) (h : a ≠ c) :
    sideX (⟨m * a + b, a⟩, ⟨m * c + b, c⟩) t = m * t + b := by
  unfold sideX topEnd bottomEnd
  by_cases hs : a > c
  · have hd : a - c ≠ 0 := sub_ne_zero.mpr h
    simp only [hs, if_true]
    field_simp
    ring
  · have hd : c - a ≠ 0 := sub_ne_zero.mpr (Ne.symm h)
    simp only [hs, if_false]
    field_simp
    ring

theorem clampTo_of_nonpos {x : ℚ} {w : Int} (hw : 0 < w) (h : x ≤ 0) : clampTo x w = 0 := by
  have hw' : (0 : ℚ) < (w : ℚ) := by exact_mod_cast hw
  unfold clampTo
  by_cases h0 : x < 0
  · simp [h0, not_lt.mpr hw'.le]
  · have : x = 0 := le_antisymm h (not_lt.mp h0)
    simp [this, not_lt.mpr hw'.le]

theorem clampTo_of_ge {x : ℚ} {w : Int} (hw : 0 < w) (h : (w : ℚ) ≤ x) : clampTo x w = w := by
  have hw' : (0 : ℚ) < (w : ℚ) := by exact_mod_cast hw
  unfold clampTo
  have h0 : ¬ x < 0 := by linarith
  by_cases h1 : x > (w : ℚ)
  · simp [h0, h1]
  · have : x = w := le_antisymm (not_lt.mp h1) h
    simp [this, not_lt.mpr hw'.le]

theorem clampTo_of_mem {x : ℚ} {w : Int} (h0 : 0 ≤ x) (h1 : x ≤ (w : ℚ)) : clampTo x w = x := by
  unfold clampTo
  simp [not_lt.mpr h0, not_lt.mpr h1]

theorem rowBetween_iff_of_le {a c : ℚ} (h : a ≤ c) (y : Int) :
    rowBetween a c y ↔ a < (y : ℚ) + 1 / 2 ∧ (y : ℚ) + 1 / 2 ≤ c := by
  unfold rowBetween
  rw [min_eq_left h, max_eq_right h]

theorem rowBetween_iff_of_ge {a c : ℚ} (h : c ≤ a) (y : Int) :
    rowBetween a c y ↔ c < (y : ℚ) + 1 / 2 ∧ (y : ℚ) + 1 / 2 ≤ a := by
  unfold rowBetween
  rw [min_eq_right h, max_eq_left h]

/-- On every row exactly one piece of a chain has the row, and its x is the
clamped x of the line. -/
theorem chain_rows {m b : ℚ} {w : Int} {cL cR c1 c2 X1 X2 : ℚ}
    (hc : ClipChain m b w cL cR c1 c2 X1 X2) (hw : 0 < w) (wd : Int) (y : Int) :
    (rowBetween cL cR y → ∃ e, coveringEdges (chainEdges w wd cL cR c1 c2 X1 X2) y = [e] ∧
      e.xAt y = clampTo (m * ((y : ℚ) + 1 / 2) + b) w) ∧
    (¬ rowBetween cL cR y → coveringEdges (chainEdges w wd cL cR c1 c2 X1 X2) y = []) := by
  unfold chainEdges
  rw [covering_append, covering_append, covering_piece, covering_piece, covering_piece]
  rcases hc.order with ⟨o1, o2, o3⟩ | ⟨o1, o2, o3⟩
  · simp only [rowBetween_iff_of_ge o1, rowBetween_iff_of_le o3, rowBetween_iff_of_le o2,
      rowBetween_iff_of_le (le_trans o1 (le_trans o2 o3))]
    by_cases hA : (y : ℚ) + 1 / 2 ≤ cL
    · have n1 : ¬ (cL < (y : ℚ) + 1 / 2 ∧ (y : ℚ) + 1 / 2 ≤ c1) := fun h => by linarith [h.1]
      have n2 : ¬ (c2 < (y : ℚ) + 1 / 2 ∧ (y : ℚ) + 1 / 2 ≤ cR) := fun h => by linarith [h.1]
      have n3 : ¬ (c1 < (y : ℚ) + 1 / 2 ∧ (y : ℚ) + 1 / 2 ≤ c2) := fun h => by linarith [h.1]
      have n : ¬ (cL < (y : ℚ) + 1 / 2 ∧ (y : ℚ) + 1 / 2 ≤ cR) := fun h => by linarith [h.1]
      rw [if_neg n1, if_neg n2, if_neg n3]
      exact ⟨fun hp => absurd hp n, fun _ => rfl⟩
    by_cases hB : (y : ℚ) + 1 / 2 ≤ c1
    · have p1 : cL < (y : ℚ) + 1 / 2 ∧ (y : ℚ) + 1 / 2 ≤ c1 := ⟨not_le.mp hA, hB⟩
      have n2 : ¬ (c2 < (y : ℚ) + 1 / 2 ∧ (y : ℚ) + 1 / 2 ≤ cR) := fun h => by linarith [h.1]
      have n3 : ¬ (c1 < (y : ℚ) + 1 / 2 ∧ (y : ℚ) + 1 / 2 ≤ c2) := fun h => by linarith [h.1]
      have p : cL < (y : ℚ) + 1 / 2 ∧ (y : ℚ) + 1 / 2 ≤ cR := ⟨not_le.mp hA, by linarith⟩
      rw [if_pos p1, if_neg n2, if_neg n3]
      refine ⟨fun _ => ⟨_, rfl, ?_⟩, fun hn => absurd p hn⟩
      rw [piece_xAt, sideX_vertical,
        clampTo_of_nonpos hw (hc.left _ (by rw [min_eq_left o1]; linarith)
          (by rw [max_eq_right o1]; linarith) (by intro e; linarith [p1.1]))]
    by_cases hC : (y : ℚ) + 1 / 2 ≤ c2
    · have n1 : ¬ (cL < (y : ℚ) + 1 / 2 ∧ (y : ℚ) + 1 / 2 ≤ c1) := fun h => hB h.2
      have n2 : ¬ (c2 < (y : ℚ) + 1 / 2 ∧ (y : ℚ) + 1 / 2 ≤ cR) := fun h => by linarith [h.1]
      have p3 : c1 < (y : ℚ) + 1 / 2 ∧ (y : ℚ) + 1 / 2 ≤ c2 := ⟨not_le.mp hB, hC⟩
      have p : cL < (y : ℚ) + 1 / 2 ∧ (y : ℚ) + 1 / 2 ≤ cR := ⟨not_le.mp hA, by linarith⟩
      rw [if_neg n1, if_neg n2, if_pos p3]
      refine ⟨fun _ => ⟨_, rfl, ?_⟩, fun hn => absurd p hn⟩
      rw [piece_xAt, hc.main _ (by rw [min_eq_left o2]; linarith)
          (by rw [max_eq_right o2]; linarith) (by intro e; linarith [p3.1])]
    by_cases hD : (y : ℚ) + 1 / 2 ≤ cR
    · have n1 : ¬ (cL < (y : ℚ) + 1 / 2 ∧ (y : ℚ) + 1 / 2 ≤ c1) := fun h => hB h.2
      have p2 : c2 < (y : ℚ) + 1 / 2 ∧ (y : ℚ) + 1 / 2 ≤ cR := ⟨not_le.mp hC, hD⟩
      have n3 : ¬ (c1 < (y : ℚ) + 1 / 2 ∧ (y : ℚ) + 1 / 2 ≤ c2) := fun h => hC h.2
      have p : cL < (y : ℚ) + 1 / 2 ∧ (y : ℚ) + 1 / 2 ≤ cR := ⟨not_le.mp hA, hD⟩
      rw [if_neg n1, if_pos p2, if_neg n3]
      refine ⟨fun _ => ⟨_, rfl, ?_⟩, fun hn => absurd p hn⟩
      rw [piece_xAt, sideX_vertical,
        clampTo_of_ge hw (hc.right _ (by rw [min_eq_left o3]; linarith)
          (by rw [max_eq_right o3]; linarith) (by intro e; linarith [p2.1]))]
    · have n1 : ¬ (cL < (y : ℚ) + 1 / 2 ∧ (y : ℚ) + 1 / 2 ≤ c1) := fun h => hB h.2
      have n2 : ¬ (c2 < (y : ℚ) + 1 / 2 ∧ (y : ℚ) + 1 / 2 ≤ cR) := fun h => hD h.2
      have n3 : ¬ (c1 < (y : ℚ) + 1 / 2 ∧ (y : ℚ) + 1 / 2 ≤ c2) := fun h => hC h.2
      have n : ¬ (cL < (y : ℚ) + 1 / 2 ∧ (y : ℚ) + 1 / 2 ≤ cR) := fun h => hD h.2
      rw [if_neg n1, if_neg n2, if_neg n3]
      exact ⟨fun hp => absurd hp n, fun _ => rfl⟩
  · simp only [rowBetween_iff_of_le o3, rowBetween_iff_of_ge o1, rowBetween_iff_of_ge o2,
      rowBetween_iff_of_ge (le_trans o1 (le_trans o2 o3))]
    by_cases hA : (y : ℚ) + 1 / 2 ≤ cR
    · have n1 : ¬ (c1 < (y : ℚ) + 1 / 2 ∧ (y : ℚ) + 1 / 2 ≤ cL) := fun h => by linarith [h.1]
      have n2 : ¬ (cR < (y : ℚ) + 1 / 2 ∧ (y : ℚ) + 1 / 2 ≤ c2) := fun h => by linarith [h.1]
      have n3 : ¬ (c2 < (y : ℚ) + 1 / 2 ∧ (y : ℚ) + 1 / 2 ≤ c1) := fun h => by linarith [h.1]
      have n : ¬ (cR < (y : ℚ) + 1 / 2 ∧ (y : ℚ) + 1 / 2 ≤ cL) := fun h => by linarith [h.1]
      rw [if_neg n1, if_neg n2, if_neg n3]
      exact ⟨fun hp => absurd hp n, fun _ => rfl⟩
    by_cases hB : (y : ℚ) + 1 / 2 ≤ c2
    · have n1 : ¬ (c1 < (y : ℚ) + 1 / 2 ∧ (y : ℚ) + 1 / 2 ≤ cL) := fun h => by linarith [h.1]
      have p2 : cR < (y : ℚ) + 1 / 2 ∧ (y : ℚ) + 1 / 2 ≤ c2 := ⟨not_le.mp hA, hB⟩
      have n3 : ¬ (c2 < (y : ℚ) + 1 / 2 ∧ (y : ℚ) + 1 / 2 ≤ c1) := fun h => by linarith [h.1]
      have p : cR < (y : ℚ) + 1 / 2 ∧ (y : ℚ) + 1 / 2 ≤ cL := ⟨not_le.mp hA, by linarith⟩
      rw [if_neg n1, if_pos p2, if_neg n3]
      refine ⟨fun _ => ⟨_, rfl, ?_⟩, fun hn => absurd p hn⟩
      rw [piece_xAt, sideX_vertical,
        clampTo_of_ge hw (hc.right _ (by rw [min_eq_right o1]; linarith)
          (by rw [max_eq_left o1]; linarith) (by intro e; linarith [p2.1]))]
    by_cases hC : (y : ℚ) + 1 / 2 ≤ c1
    · have n1 : ¬ (c1 < (y : ℚ) + 1 / 2 ∧ (y : ℚ) + 1 / 2 ≤ cL) := fun h => by linarith [h.1]
      have n2 : ¬ (cR < (y : ℚ) + 1 / 2 ∧ (y : ℚ) + 1 / 2 ≤ c2) := fun h => hB h.2
      have p3 : c2 < (y : ℚ) + 1 / 2 ∧ (y : ℚ) + 1 / 2 ≤ c1 := ⟨not_le.mp hB, hC⟩
      have p : cR < (y : ℚ) + 1 / 2 ∧ (y : ℚ) + 1 / 2 ≤ cL := ⟨not_le.mp hA, by linarith⟩
      rw [if_neg n1, if_neg n2, if_pos p3]
      refine ⟨fun _ => ⟨_, rfl, ?_⟩, fun hn => absurd p hn⟩
      rw [piece_xAt, hc.main _ (by rw [min_eq_right o2]; linarith)
          (by rw [max_eq_left o2]; linarith) (by intro e; linarith [p3.1])]
    by_cases hD : (y : ℚ) + 1 / 2 ≤ cL
    · have p1 : c1 < (y : ℚ) + 1 / 2 ∧ (y : ℚ) + 1 / 2 ≤ cL := ⟨not_le.mp hC, hD⟩
      have n2 : ¬ (cR < (y : ℚ) + 1 / 2 ∧ (y : ℚ) + 1 / 2 ≤ c2) := fun h => hB h.2
      have n3 : ¬ (c2 < (y : ℚ) + 1 / 2 ∧ (y : ℚ) + 1 / 2 ≤ c1) := fun h => hC h.2
      have p : cR < (y : ℚ) + 1 / 2 ∧ (y : ℚ) + 1 / 2 ≤ cL := ⟨not_le.mp hA, hD⟩
      rw [if_pos p1, if_neg n2, if_neg n3]
      refine ⟨fun _ => ⟨_, rfl, ?_⟩, fun hn => absurd p hn⟩
      rw [piece_xAt, sideX_vertical,
        clampTo_of_nonpos hw (hc.left _ (by rw [min_eq_right o3]; linarith)
          (by rw [max_eq_left o3]; linarith) (by intro e; linarith [p1.1]))]
    · have n1 : ¬ (c1 < (y : ℚ) + 1 / 2 ∧ (y : ℚ) + 1 / 2 ≤ cL) := fun h => hD h.2
      have n2 : ¬ (cR < (y : ℚ) + 1 / 2 ∧ (y : ℚ) + 1 / 2 ≤ c2) := fun h => hB h.2
      have n3 : ¬ (c2 < (y : ℚ) + 1 / 2 ∧ (y : ℚ) + 1 / 2 ≤ c1) := fun h => hC h.2
      have n : ¬ (cR < (y : ℚ) + 1 / 2 ∧ (y : ℚ) + 1 / 2 ≤ cL) := fun h => hD h.2
      rw [if_neg n1, if_neg n2, if_neg n3]
      exact ⟨fun hp => absurd hp n, fun _ => rfl⟩

theorem pieceEdges_level (x x' c : ℚ) (wd : Int) : pieceEdges ⟨x, c⟩ ⟨x', c⟩ wd = [] := by
  simp [pieceEdges]

theorem line_le_pos {m : ℚ} (b : ℚ) (hm : 0 < m) (u v : ℚ) :
    m * u + b ≤ m * v + b ↔ u ≤ v := by
  constructor
  · intro h
    by_contra hc
    have := mul_lt_mul_of_pos_left (not_le.mp hc) hm
    linarith
  · intro h
    have := mul_le_mul_of_nonneg_left h hm.le
    linarith

theorem line_le_neg {m : ℚ} (b : ℚ) (hm : m < 0) (u v : ℚ) :
    m * u + b ≤ m * v + b ↔ v ≤ u := by
  have h := line_le_pos (-b) (neg_pos.mpr hm) v u
  rw [← h]
  constructor <;> intro h' <;> linarith

/-- The line `x = m*y + b` takes, between two heights, values between its
values at the two heights. -/
theorem line_between (m b u v c : ℚ) (h1 : min u v ≤ c) (h2 : c ≤ max u v) :
    min (m * u + b) (m * v + b) ≤ m * c + b ∧ m * c + b ≤ max (m * u + b) (m * v + b) := by
  rcases lt_trichotomy m 0 with hm | hm | hm
  · rcases le_total u v with huv | huv
    · rw [min_eq_left huv] at h1
      rw [max_eq_right huv] at h2
      have a1 := (line_le_neg b hm c u).mpr h1
      have a2 := (line_le_neg b hm v c).mpr h2
      exact ⟨le_trans (min_le_right _ _) a2, le_trans a1 (le_max_left _ _)⟩
    · rw [min_eq_right huv] at h1
      rw [max_eq_left huv] at h2
      have a1 := (line_le_neg b hm c v).mpr h1
      have a2 := (line_le_neg b hm u c).mpr h2
      exact ⟨le_trans (min_le_left _ _) a2, le_trans a1 (le_max_right _ _)⟩
  · subst hm
    simp
  · rcases le_total u v with huv | huv
    · rw [min_eq_left huv] at h1
      rw [max_eq_right huv] at h2
      have a1 := (line_le_pos b hm u c).mpr h1
      have a2 := (line_le_pos b hm c v).mpr h2
      exact ⟨le_trans (min_le_left _ _) a1, le_trans a2 (le_max_right _ _)⟩
    · rw [min_eq_right huv] at h1
      rw [max_eq_left huv] at h2
      have a1 := (line_le_pos b hm v c).mpr h1
      have a2 := (line_le_pos b hm c u).mpr h2
      exact ⟨le_trans (min_le_right _ _) a1, le_trans a2 (le_max_left _ _)⟩

/-- Heights whose x on the line are in order are in order themselves, up or
down. -/
theorem chain_order (m b cL cR c1 c2 : ℚ) (h1 : m * cL + b ≤ m * c1 + b)
    (h2 : m * c1 + b ≤ m * c2 + b) (h3 : m * c2 + b ≤ m * cR + b)
    (h0 : m = 0 → c1 = cL ∧ c2 = cR) :
    (cL ≤ c1 ∧ c1 ≤ c2 ∧ c2 ≤ cR) ∨ (cR ≤ c2 ∧ c2 ≤ c1 ∧ c1 ≤ cL) := by
  rcases lt_trichotomy m 0 with hm | hm | hm
  · exact Or.inr ⟨(line_le_neg b hm _ _).mp h3, (line_le_neg b hm _ _).mp h2,
      (line_le_neg b hm _ _).mp h1⟩
  · obtain ⟨e1, e2⟩ := h0 hm
    subst e1 e2
    rcases le_total c1 c2 with h | h
    · exact Or.inl ⟨le_refl _, h, le_refl _⟩
    · exact Or.inr ⟨le_refl _, h, le_refl _⟩
  · exact Or.inl ⟨(line_le_pos b hm _ _).mp h1, (line_le_pos b hm _ _).mp h2,
      (line_le_pos b hm _ _).mp h3⟩

/-- The horizontal clipping of the part of a line between two heights: the
edges appended are a chain that follows the clamped line. -/
theorem clipSides_chain (m b : ℚ) (w : Int) (wd : Int) (cL cR : ℚ) (hw : 0 < w)
    (hx : m * cL + b ≤ m * cR + b) :
    ∃ c1 c2 X1 X2, ClipChain m b w cL cR c1 c2 X1 X2 ∧
      ∀ edges, clipSides m b w wd ⟨m * cL + b, cL⟩ ⟨m * cR + b, cR⟩ edges
        = edges ++ chainEdges w wd cL cR c1 c2 X1 X2 := by
  have hw' : (0 : ℚ) < (w : ℚ) := by exact_mod_cast hw
  have hbet : ∀ c, min cL cR ≤ c → c ≤ max cL cR → m * cL + b ≤ m * c + b ∧ m * c + b ≤ m * cR + b := by
    intro c a1 a2
    have := line_between m b cL cR c a1 a2
    rwa [min_eq_left hx, max_eq_right hx] at this
  by_cases hL0 : m * cL + b < 0
  · by_cases hR0 : m * cR + b < 0
    · -- both ends left of the device
      refine ⟨cL, cR, 0, 0, ⟨?_, ?_, ?_, ?_, ⟨le_refl _, hw'.le⟩, ⟨le_refl _, hw'.le⟩⟩, ?_⟩
      · rcases le_total cL cR with h | h
        · exact Or.inl ⟨le_refl _, h, le_refl _⟩
        · exact Or.inr ⟨le_refl _, h, le_refl _⟩
      · intro c _ _ h; exact absurd rfl h
      · intro c _ _ h; exact absurd rfl h
      · intro c a1 a2 _
        rw [sideX_vertical, clampTo_of_nonpos hw (by linarith [(hbet c a1 a2).2])]
      · intro edges
        simp [clipSides, clipLeft, clipRight, hL0, hR0, not_lt.mpr hw'.le,
          MUmakeEdgeWinding_piece, chainEdges, pieceEdges_level]
    · -- the left end is left of the device, the right end is not
      have hm : m ≠ 0 := by
        intro h0
        rw [h0] at hL0 hR0
        linarith
      have hs : m * ((0 - b) / m) + b = 0 := by
        field_simp
        ring
      have he : m * (((w : ℚ) - b) / m) + b = w := by field_simp
      have hsne : cL ≠ (0 - b) / m := by
        intro e
        rw [← e] at hs
        linarith
      by_cases hRw : m * cR + b > (w : ℚ)
      · refine ⟨(0 - b) / m, ((w : ℚ) - b) / m, 0, w,
          ⟨?_, ?_, ?_, ?_, ⟨le_refl _, hw'.le⟩, ⟨hw'.le, le_refl _⟩⟩, ?_⟩
        · exact chain_order m b _ _ _ _ (by linarith) (by linarith) (by linarith)
            (fun h => absurd h hm)
        · intro c a1 a2 _
          have := (line_between m b _ _ c a1 a2).2
          rw [hs, max_eq_right hL0.le] at this
          exact this
        · intro c a1 a2 _
          have := (line_between m b _ _ c a1 a2).1
          rw [he, min_eq_left hRw.le] at this
          exact this
        · intro c a1 a2 hcc
          have hb := line_between m b _ _ c a1 a2
          rw [hs, he, min_eq_left hw'.le, max_eq_right hw'.le] at hb
          have e1 : (⟨0, (0 - b) / m⟩ : GPoint) = ⟨m * ((0 - b) / m) + b, (0 - b) / m⟩ := by
            rw [hs]
          have e2 : (⟨(w : ℚ), ((w : ℚ) - b) / m⟩ : GPoint)
              = ⟨m * (((w : ℚ) - b) / m) + b, ((w : ℚ) - b) / m⟩ := by
            rw [he]
          rw [e1, e2, sideX_on_line m b _ _ c hcc, clampTo_of_mem hb.1 hb.2]
        · intro edges
          simp [clipSides, clipLeft, clipRight, hL0, hR0, hRw, not_lt.mpr hw'.le,
            MUmakeEdgeWinding_piece, chainEdges]
      · have hRw' : m * cR + b ≤ (w : ℚ) := not_lt.mp hRw
        refine ⟨(0 - b) / m, cR, 0, m * cR + b,
          ⟨?_, ?_, ?_, ?_, ⟨le_refl _, hw'.le⟩, ⟨not_lt.mp hR0, hRw'⟩⟩, ?_⟩
        · exact chain_order m b _ _ _ _ (by linarith) (by linarith [not_lt.mp hR0]) (le_refl _)
            (fun h => absurd h hm)
        · intro c a1 a2 _
          have := (line_between m b _ _ c a1 a2).2
          rw [hs, max_eq_right hL0.le] at this
          exact this
        · intro c _ _ h; exact absurd rfl h
        · intro c a1 a2 hcc
          have hb := line_between m b _ _ c a1 a2
          rw [hs, min_eq_left (not_lt.mp hR0), max_eq_right (not_lt.mp hR0)] at hb
          have e1 : (⟨0, (0 - b) / m⟩ : GPoint) = ⟨m * ((0 - b) / m) + b, (0 - b) / m⟩ := by
            rw [hs]
          rw [e1, sideX_on_line m b _ _ c hcc, clampTo_of_mem hb.1 (le_trans hb.2 hRw')]
        · intro edges
          simp [clipSides, clipLeft, clipRight, hL0, hR0, hRw, not_lt.mpr hw'.le,
            MUmakeEdgeWinding_piece, chainEdges, pieceEdges_level]
  · have hL0' : 0 ≤ m * cL + b := not_lt.mp hL0
    by_cases hRw : m * cR + b > (w : ℚ)
    · by_cases hLw : m * cL + b > (w : ℚ)
      · -- both ends right of the device
        refine ⟨cL, cR, w, w, ⟨?_, ?_, ?_, ?_, ⟨hw'.le, le_refl _⟩, ⟨hw'.le, le_refl _⟩⟩, ?_⟩
        · rcases le_total cL cR with h | h
          · exact Or.inl ⟨le_refl _, h, le_refl _⟩
          · exact Or.inr ⟨le_refl _, h, le_refl _⟩
        · intro c _ _ h; exact absurd rfl h
        · intro c _ _ h; exact absurd rfl h
        · intro c a1 a2 _
          rw [sideX_vertical, clampTo_of_ge hw (by linarith [(hbet c a1 a2).1])]
        · intro edges
          simp [clipSides, clipLeft, clipRight, hL0, hRw, hLw,
            MUmakeEdgeWinding_piece, chainEdges, pieceEdges_level]
      · have hLw' : m * cL + b ≤ (w : ℚ) := not_lt.mp hLw
        have hm : m ≠ 0 := by
          intro h0
          rw [h0] at hRw hLw'
          linarith
        have he : m * (((w : ℚ) - b) / m) + b = w := by field_simp
        refine ⟨cL, ((w : ℚ) - b) / m, m * cL + b, w,
          ⟨?_, ?_, ?_, ?_, ⟨hL0', hLw'⟩, ⟨hw'.le, le_refl _⟩⟩, ?_⟩
        · exact chain_order m b _ _ _ _ (le_refl _) (by linarith) (by linarith)
            (fun h => absurd h hm)
        · intro c _ _ h; exact absurd rfl h
        · intro c a1 a2 _
          have := (line_between m b _ _ c a1 a2).1
          rw [he, min_eq_left hRw.le] at this
          exact this
        · intro c a1 a2 hcc
          have hb := line_between m b _ _ c a1 a2
          rw [he, min_eq_left hLw', max_eq_right hLw'] at hb
          have e2 : (⟨(w : ℚ), ((w : ℚ) - b) / m⟩ : GPoint)
              = ⟨m * (((w : ℚ) - b) / m) + b, ((w : ℚ) - b) / m⟩ := by
            rw [he]
          rw [e2, sideX_on_line m b _ _ c hcc, clampTo_of_mem (le_trans hL0' hb.1) hb.2]
        · intro edges
          simp [clipSides, clipLeft, clipRight, hL0, hRw, hLw,
            MUmakeEdgeWinding_piece, chainEdges, pieceEdges_level]
    · have hRw' : m * cR + b ≤ (w : ℚ) := not_lt.mp hRw
      refine ⟨cL, cR, m * cL + b, m * cR + b,
        ⟨?_, ?_, ?_, ?_, ⟨hL0', le_trans hx hRw'⟩, ⟨le_trans hL0' hx, hRw'⟩⟩, ?_⟩
      · rcases le_total cL cR with h | h
        · exact Or.inl ⟨le_refl _, h, le_refl _⟩
        · exact Or.inr ⟨le_refl _, h, le_refl _⟩
      · intro c _ _ h; exact absurd rfl h
      · intro c _ _ h; exact absurd rfl h
      · intro c a1 a2 hcc
        have hb := hbet c a1 a2
        rw [sideX_on_line m b _ _ c hcc,
          clampTo_of_mem (le_trans hL0' hb.1) (le_trans hb.2 hRw')]
      · intro edges
        simp [clipSides, clipLeft, clipRight, hL0, hRw,
          MUmakeEdgeWinding_piece, chainEdges, pieceEdges_level]

/-- `MUclipPoints` in terms of the upper and the lower end of the segment. -/
theorem MUclipPoints_eq (p0 p1 : GPoint) (w h : Int) (edges : List my_edge) :
    MUclipPoints p0 p1 w h edges =
      if GRoundToInt (topEnd (p0, p1)).fY = GRoundToInt (bottomEnd (p0, p1)).fY then edges else
      if (bottomEnd (p0, p1)).fY ≤ 0 then edges else
      if (topEnd (p0, p1)).fY ≥ (h : ℚ) then edges else
      clipSides
        (((bottomEnd (p0, p1)).fX - (topEnd (p0, p1)).fX)
          / ((bottomEnd (p0, p1)).fY - (topEnd (p0, p1)).fY))
        ((topEnd (p0, p1)).fX - ((bottomEnd (p0, p1)).fX - (topEnd (p0, p1)).fX)
          / ((bottomEnd (p0, p1)).fY - (topEnd (p0, p1)).fY) * (topEnd (p0, p1)).fY)
        w (if p0.fY > p1.fY then 1 else -1)
        (if (topEnd (p0, p1)).fX < (bottomEnd (p0, p1)).fX then
          clipTop ((topEnd (p0, p1)).fX - ((bottomEnd (p0, p1)).fX - (topEnd (p0, p1)).fX)
            / ((bottomEnd (p0, p1)).fY - (topEnd (p0, p1)).fY) * (topEnd (p0, p1)).fY)
            (topEnd (p0, p1))
         else
          clipBottom (((bottomEnd (p0, p1)).fX - (topEnd (p0, p1)).fX)
              / ((bottomEnd (p0, p1)).fY - (topEnd (p0, p1)).fY))
            ((topEnd (p0, p1)).fX - ((bottomEnd (p0, p1)).fX - (topEnd (p0, p1)).fX)
              / ((bottomEnd (p0, p1)).fY - (topEnd (p0, p1)).fY) * (topEnd (p0, p1)).fY)
            h (bottomEnd (p0, p1)))
        (if (topEnd (p0, p1)).fX < (bottomEnd (p0, p1)).fX then
          clipBottom (((bottomEnd (p0, p1)).fX - (topEnd (p0, p1)).fX)
              / ((bottomEnd (p0, p1)).fY - (topEnd (p0, p1)).fY))
            ((topEnd (p0, p1)).fX - ((bottomEnd (p0, p1)).fX - (topEnd (p0, p1)).fX)
              / ((bottomEnd (p0, p1)).fY - (topEnd (p0, p1)).fY) * (topEnd (p0, p1)).fY)
            h (bottomEnd (p0, p1))
         else
          clipTop ((topEnd (p0, p1)).fX - ((bottomEnd (p0, p1)).fX - (topEnd (p0, p1)).fX)
            / ((bottomEnd (p0, p1)).fY - (topEnd (p0, p1)).fY) * (topEnd (p0, p1)).fY)
            (topEnd (p0, p1)))
        edges := by
  unfold MUclipPoints clipSides topEnd bottomEnd
  by_cases hs : p0.fY > p1.fY
  · by_cases hx : p1.fX < p0.fX
    · simp [hs, hx, not_le.mpr hx]
    · simp [hs, hx, not_lt.mp hx]
  · by_cases hx : p0.fX < p1.fX
    · simp [hs, hx, not_le.mpr hx]
    · simp [hs, hx, not_lt.mp hx]

/-- The x of the line of a segment at the height `c`, in slope form. -/
theorem line_eq_sideX (s : GPoint × GPoint) (c : ℚ) :
    ((bottomEnd s).fX - (topEnd s).fX) / ((bottomEnd s).fY - (topEnd s).fY) * c
      + ((topEnd s).fX - ((bottomEnd s).fX - (topEnd s).fX)
          / ((bottomEnd s).fY - (topEnd s).fY) * (topEnd s).fY)
      = sideX s c := by
  unfold sideX
  ring

/-- What `MUclipPoints` appends for a segment: nothing, when no row of the
device has its centre between the two heights of the segment, or else a chain
of three pieces that follows the line of the segment, clamped to `[0, w]`,
between two heights inside `[0, h]` that bound the same rows of the device as
the segment. -/
theorem MUclipPoints_chain (p0 p1 : GPoint) (w h : Int) (hw : 0 < w) (hh : 0 < h) :
    ((∀ edges, MUclipPoints p0 p1 w h edges = edges) ∧
      ∀ y : Int, 0 ≤ y → y < h → ¬ rowBetween p0.fY p1.fY y) ∨
    ∃ m b cL cR c1 c2 X1 X2, ClipChain m b w cL cR c1 c2 X1 X2 ∧
      (∀ edges, MUclipPoints p0 p1 w h edges
        = edges ++ chainEdges w (if p0.fY > p1.fY then 1 else -1) cL cR c1 c2 X1 X2) ∧
      0 ≤ min cL cR ∧ max cL cR ≤ (h : ℚ) ∧
      (∀ y : Int, 0 ≤ y → y < h → (rowBetween p0.fY p1.fY y ↔ rowBetween cL cR y)) ∧
      (∀ c, m * c + b = sideX (p0, p1) c) := by
  have hh' : (0 : ℚ) < (h : ℚ) := by exact_mod_cast hh
  have hrow : ∀ y : Int, rowBetween p0.fY p1.fY y ↔
      (topEnd (p0, p1)).fY < (y : ℚ) + 1 / 2 ∧ (y : ℚ) + 1 / 2 ≤ (bottomEnd (p0, p1)).fY := by
    intro y
    rw [topEnd_fY, bottomEnd_fY]
    rfl
  have hrange : ∀ y : Int, 0 ≤ y → y < h → (0 : ℚ) < (y : ℚ) + 1 / 2 ∧ (y : ℚ) + 1 / 2 < h := by
    intro y h0 h1
    have a0 : (0 : ℚ) ≤ (y : ℚ) := by exact_mod_cast h0
    have a1 : (y : ℚ) + 1 ≤ (h : ℚ) := by exact_mod_cast Int.add_one_le_iff.mpr h1
    constructor <;> linarith
  by_cases hr : GRoundToInt (topEnd (p0, p1)).fY = GRoundToInt (bottomEnd (p0, p1)).fY
  · left
    refine ⟨fun edges => by rw [MUclipPoints_eq, if_pos hr], fun y _ _ hb => ?_⟩
    have := not_rowBetween_of_round_eq hr y
    apply this
    rw [hrow] at hb
    unfold rowBetween
    rw [min_eq_left (topEnd_le_bottomEnd _), max_eq_right (topEnd_le_bottomEnd _)]
    exact hb
  by_cases hb0 : (bottomEnd (p0, p1)).fY ≤ 0
  · left
    refine ⟨fun edges => by rw [MUclipPoints_eq, if_neg hr, if_pos hb0], fun y h0 h1 hb => ?_⟩
    rw [hrow] at hb
    linarith [(hrange y h0 h1).1, hb.2]
  by_cases hth : (topEnd (p0, p1)).fY ≥ (h : ℚ)
  · left
    refine ⟨fun edges => by rw [MUclipPoints_eq, if_neg hr, if_neg hb0, if_pos hth],
      fun y h0 h1 hb => ?_⟩
    rw [hrow] at hb
    linarith [(hrange y h0 h1).2, hb.1]
  right
  have hlt : (topEnd (p0, p1)).fY < (bottomEnd (p0, p1)).fY := by
    rcases lt_or_eq_of_le (topEnd_le_bottomEnd (p0, p1)) with h' | h'
    · exact h'
    · exact absurd (by rw [h']) hr
  have hb0' : 0 < (bottomEnd (p0, p1)).fY := not_le.mp hb0
  have hth' : (topEnd (p0, p1)).fY < (h : ℚ) := not_le.mp hth
  generalize hm : ((bottomEnd (p0, p1)).fX - (topEnd (p0, p1)).fX)
      / ((bottomEnd (p0, p1)).fY - (topEnd (p0, p1)).fY) = m
  generalize hbb : (topEnd (p0, p1)).fX - m * (topEnd (p0, p1)).fY = b
  have hline : ∀ c, m * c + b = sideX (p0, p1) c := by
    intro c
    rw [← line_eq_sideX, hm, hbb]
  have hd : (bottomEnd (p0, p1)).fY - (topEnd (p0, p1)).fY ≠ 0 := by
    intro e; linarith
  have hxT : m * (topEnd (p0, p1)).fY + b = (topEnd (p0, p1)).fX := by
    rw [← hbb]; ring
  have hxB : m * (bottomEnd (p0, p1)).fY + b = (bottomEnd (p0, p1)).fX := by
    rw [← hbb, ← hm]; field_simp; ring
  -- the two ends after the vertical clipping
  obtain ⟨yT, hT, hT0, hTle, hTrow⟩ : ∃ yT, clipTop b (topEnd (p0, p1)) = ⟨m * yT + b, yT⟩ ∧
      0 ≤ yT ∧ (topEnd (p0, p1)).fY ≤ yT ∧
      (yT = (topEnd (p0, p1)).fY ∨ yT = 0) := by
    by_cases hc : (topEnd (p0, p1)).fY < 0
    · refine ⟨0, ?_, le_refl _, hc.le, Or.inr rfl⟩
      simp [clipTop, hc]
    · refine ⟨(topEnd (p0, p1)).fY, ?_, not_lt.mp hc, le_refl _, Or.inl rfl⟩
      rw [hxT]
      simp [clipTop, hc]
  obtain ⟨yB, hB, hBh, hBle, hBrow⟩ : ∃ yB, clipBottom m b h (bottomEnd (p0, p1))
        = ⟨m * yB + b, yB⟩ ∧
      yB ≤ (h : ℚ) ∧ yB ≤ (bottomEnd (p0, p1)).fY ∧
      (yB = (bottomEnd (p0, p1)).fY ∨ yB = h) := by
    by_cases hc : (bottomEnd (p0, p1)).fY > (h : ℚ)
    · refine ⟨h, ?_, le_refl _, hc.le, Or.inr rfl⟩
      simp [clipBottom, hc]
    · refine ⟨(bottomEnd (p0, p1)).fY, ?_, not_lt.mp hc, le_refl _, Or.inl rfl⟩
      rw [hxB]
      simp [clipBottom, hc]
  have hTB : yT < yB := by
    rcases hTrow with e | e <;> rcases hBrow with e' | e' <;> rw [e, e'] <;> linarith
  have hrows : ∀ y : Int, 0 ≤ y → y < h →
      (rowBetween p0.fY p1.fY y ↔ yT < (y : ℚ) + 1 / 2 ∧ (y : ℚ) + 1 / 2 ≤ yB) := by
    intro y h0 h1
    rw [hrow]
    obtain ⟨r0, r1⟩ := hrange y h0 h1
    constructor
    · rintro ⟨a1, a2⟩
      constructor
      · rcases hTrow with e | e <;> rw [e] <;> linarith
      · rcases hBrow with e | e <;> rw [e] <;> linarith
    · rintro ⟨a1, a2⟩
      exact ⟨by linarith, by linarith⟩
  have hcode : ∀ edges, MUclipPoints p0 p1 w h edges =
      clipSides m b w (if p0.fY > p1.fY then 1 else -1)
        (if (topEnd (p0, p1)).fX < (bottomEnd (p0, p1)).fX then
          clipTop b (topEnd (p0, p1)) else clipBottom m b h (bottomEnd (p0, p1)))
        (if (topEnd (p0, p1)).fX < (bottomEnd (p0, p1)).fX then
          clipBottom m b h (bottomEnd (p0, p1)) else clipTop b (topEnd (p0, p1))) edges := by
    intro edges
    rw [MUclipPoints_eq, if_neg hr, if_neg hb0, if_neg hth, hm, hbb]
  by_cases hx : (topEnd (p0, p1)).fX < (bottomEnd (p0, p1)).fX
  · have hmpos : 0 < m := by
      rw [← hm]
      exact div_pos (by linarith) (by linarith)
    obtain ⟨c1, c2, X1, X2, hchain, hcs⟩ := clipSides_chain m b w
      (if p0.fY > p1.fY then 1 else -1) yT yB hw ((line_le_pos b hmpos _ _).mpr hTB.le)
    refine ⟨m, b, yT, yB, c1, c2, X1, X2, hchain, ?_, ?_, ?_, ?_, hline⟩
    · intro edges
      rw [hcode, if_pos hx, if_pos hx, hT, hB, hcs]
    · rw [min_eq_left hTB.le]; exact hT0
    · rw [max_eq_right hTB.le]; exact hBh
    · intro y h0 h1
      rw [hrows y h0 h1, rowBetween_iff_of_le hTB.le]
  · have hmneg : m ≤ 0 := by
      rw [← hm]
      exact div_nonpos_of_nonpos_of_nonneg (by linarith) (by linarith)
    have hxl : m * yB + b ≤ m * yT + b := by
      have := mul_le_mul_of_nonpos_left hTB.le hmneg
      linarith
    obtain ⟨c1, c2, X1, X2, hchain, hcs⟩ := clipSides_chain m b w
      (if p0.fY > p1.fY then 1 else -1) yB yT hw hxl
    refine ⟨m, b, yB, yT, c1, c2, X1, X2, hchain, ?_, ?_, ?_, ?_, hline⟩
    · intro edges
      rw [hcode, if_neg hx, if_neg hx, hT, hB, hcs]
    · rw [min_eq_right hTB.le]; exact hT0
    · rw [max_eq_left hTB.le]; exact hBh
    · intro y h0 h1
      rw [hrows y h0 h1, rowBetween_iff_of_ge hTB.le]

theorem mem_chainEdges {w wd : Int} {cL cR c1 c2 X1 X2 : ℚ} {e : my_edge}
    (h : e ∈ chainEdges w wd cL cR c1 c2 X1 X2) :
    ∃ a c : GPoint, e = pieceEdge a c wd ∧ GRoundToInt a.fY ≠ GRoundToInt c.fY ∧
      ((a = ⟨0, c1⟩ ∧ c = ⟨0, cL⟩) ∨ (a = ⟨w, c2⟩ ∧ c = ⟨w, cR⟩) ∨
        (a = ⟨X1, c1⟩ ∧ c = ⟨X2, c2⟩)) := by
  unfold chainEdges at h
  rw [List.mem_append, List.mem_append] at h
  rcases h with (h | h) | h
  · exact ⟨_, _, (mem_pieceEdges h).1, (mem_pieceEdges h).2, Or.inl ⟨rfl, rfl⟩⟩
  · exact ⟨_, _, (mem_pieceEdges h).1, (mem_pieceEdges h).2, Or.inr (Or.inl ⟨rfl, rfl⟩)⟩
  · exact ⟨_, _, (mem_pieceEdges h).1, (mem_pieceEdges h).2, Or.inr (Or.inr ⟨rfl, rfl⟩)⟩

/-- The end points of the pieces of a chain lie in the device rectangle. -/
theorem chain_ends_inDevice {m b : ℚ} {w h : Int} {cL cR c1 c2 X1 X2 : ℚ}
    (hc : ClipChain m b w cL cR c1 c2 X1 X2) (hw : 0 < w) (h0 : 0 ≤ min cL cR)
    (h1 : max cL cR ≤ (h : ℚ)) {a c : GPoint}
    (hac : (a = ⟨0, c1⟩ ∧ c = ⟨0, cL⟩) ∨ (a = ⟨w, c2⟩ ∧ c = ⟨w, cR⟩) ∨
        (a = ⟨X1, c1⟩ ∧ c = ⟨X2, c2⟩)) :
    a.inDevice w h ∧ c.inDevice w h := by
  have hw' : (0 : ℚ) < (w : ℚ) := by exact_mod_cast hw
  have hL0 : 0 ≤ cL := le_trans h0 (min_le_left _ _)
  have hR0 : 0 ≤ cR := le_trans h0 (min_le_right _ _)
  have hLh : cL ≤ (h : ℚ) := le_trans (le_max_left _ _) h1
  have hRh : cR ≤ (h : ℚ) := le_trans (le_max_right _ _) h1
  have hall : 0 ≤ c1 ∧ c1 ≤ (h : ℚ) ∧ 0 ≤ c2 ∧ c2 ≤ (h : ℚ) := by
    rcases hc.order with ⟨o1, o2, o3⟩ | ⟨o1, o2, o3⟩
    · exact ⟨by linarith, by linarith, by linarith, by linarith⟩
    · exact ⟨by linarith, by linarith, by linarith, by linarith⟩
  obtain ⟨a1, a2, a3, a4⟩ := hall
  unfold GPoint.inDevice
  rcases hac with ⟨rfl, rfl⟩ | ⟨rfl, rfl⟩ | ⟨rfl, rfl⟩
  · exact ⟨⟨le_refl _, hw'.le, a1, a2⟩, ⟨le_refl _, hw'.le, hL0, hLh⟩⟩
  · exact ⟨⟨hw'.le, le_refl _, a3, a4⟩, ⟨hw'.le, le_refl _, hR0, hRh⟩⟩
  · exact ⟨⟨hc.x1.1, hc.x1.2, a1, a2⟩, ⟨hc.x2.1, hc.x2.2, a3, a4⟩⟩

/-- The edge between two points of the device rectangle that round to
different rows is valid and stays inside the device. -/
theorem pieceEdge_valid {a c : GPoint} {w h : Int} (wd : Int) (ha : a.inDevice w h)
    (hc : c.inDevice w h) (hr : GRoundToInt a.fY ≠ GRoundToInt c.fY) :
    0 ≤ (pieceEdge a c wd).top ∧ (pieceEdge a c wd).top < (pieceEdge a c wd).bottom ∧
      (pieceEdge a c wd).bottom ≤ h ∧
      (pieceEdge a c wd).top = GRoundToInt (min a.fY c.fY) ∧
      (pieceEdge a c wd).bottom = GRoundToInt (max a.fY c.fY) ∧
      ∀ y : Int, (pieceEdge a c wd).top ≤ y → y < (pieceEdge a c wd).bottom →
        0 ≤ (pieceEdge a c wd).xAt y ∧ (pieceEdge a c wd).xAt y ≤ (w : ℚ) ∧
        0 ≤ (pieceEdge a c wd).get_X y ∧ (pieceEdge a c wd).get_X y ≤ w := by
  obtain ⟨ax0, ax1, ay0, ay1⟩ := ha
  obtain ⟨cx0, cx1, cy0, cy1⟩ := hc
  have htop : (pieceEdge a c wd).top = GRoundToInt (min a.fY c.fY) := by
    rw [← topEnd_fY]; rfl
  have hbot : (pieceEdge a c wd).bottom = GRoundToInt (max a.fY c.fY) := by
    rw [← bottomEnd_fY]; rfl
  have hle : GRoundToInt (min a.fY c.fY) ≤ GRoundToInt (max a.fY c.fY) :=
    round_mono (le_trans (min_le_left _ _) (le_max_left _ _))
  have hne : GRoundToInt (min a.fY c.fY) ≠ GRoundToInt (max a.fY c.fY) := by
    rcases le_total a.fY c.fY with hac | hac
    · rw [min_eq_left hac, max_eq_right hac]; exact hr
    · rw [min_eq_right hac, max_eq_left hac]; exact fun e => hr e.symm
  have h0 : 0 ≤ GRoundToInt (min a.fY c.fY) := by
    have := round_mono (le_min ay0 cy0)
    rwa [show GRoundToInt (0 : ℚ) = 0 from by exact_mod_cast round_intCast 0] at this
  have h1 : GRoundToInt (max a.fY c.fY) ≤ h := by
    have := round_mono (max_le ay1 cy1)
    rwa [round_intCast] at this
  have tx : 0 ≤ (topEnd (a, c)).fX ∧ (topEnd (a, c)).fX ≤ (w : ℚ) := by
    unfold topEnd
    by_cases hs : a.fY > c.fY
    · simp only [hs, if_true]; exact ⟨cx0, cx1⟩
    · simp only [hs, if_false]; exact ⟨ax0, ax1⟩
  have bx : 0 ≤ (bottomEnd (a, c)).fX ∧ (bottomEnd (a, c)).fX ≤ (w : ℚ) := by
    unfold bottomEnd
    by_cases hs : a.fY > c.fY
    · simp only [hs, if_true]; exact ⟨ax0, ax1⟩
    · simp only [hs, if_false]; exact ⟨cx0, cx1⟩
  refine ⟨by rw [htop]; exact h0, by rw [htop, hbot]; omega, by rw [hbot]; exact h1, htop, hbot,
    ?_⟩
  intro y hy0 hy1
  have hcov : (insideEdge (a, c)).covers y := ⟨hy0, hy1⟩
  rw [insideEdge_covers] at hcov
  have hx := sideX_between hcov.1 hcov.2 tx.1 tx.2 bx.1 bx.2
  rw [← insideEdge_xAt] at hx
  have e1 : (pieceEdge a c wd).xAt y = (insideEdge (a, c)).xAt y := rfl
  have e2 : (pieceEdge a c wd).get_X y = GRoundToInt ((insideEdge (a, c)).xAt y) := rfl
  rw [e1, e2]
  refine ⟨hx.1, hx.2, ?_, ?_⟩
  · have := round_mono hx.1
    rwa [show GRoundToInt (0 : ℚ) = 0 from by exact_mod_cast round_intCast 0] at this
  · have := round_mono hx.2
    rwa [round_intCast] at this

/-- C28: for a device with `w, h > 0`, a segment `(p0, p1)` and a row `y` with
`0 ≤ y < h`: the edges `MUclipPoints` appends do not depend on the list they
are appended to; if `min(p0.y, p1.y) < y + 1/2 ≤ max(p0.y, p1.y)` then exactly
one of them has `top ≤ y < bottom`, and its x at the row centre is the x of
the segment at the height `y + 1/2` clamped to `[0, w]`; otherwise none has
`top ≤ y < bottom`; and all of them carry the same winding. -/
theorem MUclipPoints_row_equivalent (p0 p1 : GPoint) (w h : Int) (y : Int) (hw : 0 < w)
    (hh : 0 < h) (hy0 : 0 ≤ y) (hy1 : y < h) :
    (∀ edges, MUclipPoints p0 p1 w h edges = edges ++ MUclipPoints p0 p1 w h []) ∧
    (rowBetween p0.fY p1.fY y →
      ∃ e, coveringEdges (MUclipPoints p0 p1 w h []) y = [e] ∧
        e.xAt y = clampTo (sideX (p0, p1) ((y : ℚ) + 1 / 2)) w) ∧
    (¬ rowBetween p0.fY p1.fY y → coveringEdges (MUclipPoints p0 p1 w h []) y = []) ∧
    ∀ e ∈ MUclipPoints p0 p1 w h [], ∀ e' ∈ MUclipPoints p0 p1 w h [],
      e.winding = e'.winding := by
  rcases MUclipPoints_chain p0 p1 w h hw hh with ⟨hnone, hrows⟩ |
    ⟨m, b, cL, cR, c1, c2, X1, X2, hchain, hcode, _, _, hrows, hline⟩
  · have hnil : MUclipPoints p0 p1 w h [] = [] := hnone []
    rw [hnil]
    refine ⟨fun edges => by rw [hnone, List.append_nil],
      fun hb => absurd hb (hrows y hy0 hy1), fun _ => rfl, fun e he => ?_⟩
    simp at he
  · have hnil : MUclipPoints p0 p1 w h []
        = chainEdges w (if p0.fY > p1.fY then 1 else -1) cL cR c1 c2 X1 X2 := by
      rw [hcode, List.nil_append]
    rw [hnil]
    obtain ⟨r1, r2⟩ := chain_rows hchain hw (if p0.fY > p1.fY then 1 else -1) y
    refine ⟨fun edges => hcode edges, fun hb => ?_, fun hb => ?_, fun e he e' he' => ?_⟩
    · obtain ⟨e, he, hx⟩ := r1 ((hrows y hy0 hy1).mp hb)
      exact ⟨e, he, by rw [hx, hline]⟩
    · exact r2 (fun hc => hb ((hrows y hy0 hy1).mpr hc))
    · obtain ⟨a, c, rfl, _⟩ := mem_chainEdges he
      obtain ⟨a', c', rfl, _⟩ := mem_chainEdges he'
      rfl

/-- C30: for a device with `w, h > 0`, every edge `MUclipPoints` appends for a
segment is the edge between two points of the closed device rectangle (its
clipped end points): `0 ≤ top < bottom ≤ h`, `top` and `bottom` are the rounded
smaller and larger y of the two points, and on every row `top ≤ y < bottom`
the x of the edge at the row centre is in `[0, w]`, so `get_X(y)` is in
`0..w`. -/
theorem MUclipPoints_edges_inside (p0 p1 : GPoint) (w h : Int) (e : my_edge) (hw : 0 < w)
    (hh : 0 < h) (he : e ∈ MUclipPoints p0 p1 w h []) :
    0 ≤ e.top ∧ e.top < e.bottom ∧ e.bottom ≤ h ∧
    (∃ a c : GPoint, a.inDevice w h ∧ c.inDevice w h ∧ e = pieceEdge a c e.winding ∧
      e.top = GRoundToInt (min a.fY c.fY) ∧ e.bottom = GRoundToInt (max a.fY c.fY)) ∧
    ∀ y : Int, e.top ≤ y → y < e.bottom →
      0 ≤ e.xAt y ∧ e.xAt y ≤ (w : ℚ) ∧ 0 ≤ e.get_X y ∧ e.get_X y ≤ w := by
  rcases MUclipPoints_chain p0 p1 w h hw hh with ⟨hnone, _⟩ |
    ⟨m, b, cL, cR, c1, c2, X1, X2, hchain, hcode, h0, h1, _, _⟩
  · rw [hnone] at he
    simp at he
  · rw [hcode, List.nil_append] at he
    obtain ⟨a, c, rfl, hr, hac⟩ := mem_chainEdges he
    obtain ⟨ha, hc⟩ := chain_ends_inDevice hchain hw h0 h1 hac
    obtain ⟨v1, v2, v3, v4, v5, v6⟩ := pieceEdge_valid (if p0.fY > p1.fY then 1 else -1) ha hc hr
    exact ⟨v1, v2, v3, ⟨a, c, ha, hc, rfl, v4, v5⟩, v6⟩

/-! ## The winding of the emitted edges -/

theorem makeEdge_winding (a c : GPoint) (edges : List my_edge) (wd : Int)
    (h : ∀ e ∈ edges, e.winding = wd) : ∀ e ∈ MUmakeEdgeWinding a c edges wd, e.winding = wd := by
  intro e he
  rw [MUmakeEdgeWinding_piece, List.mem_append] at he
  rcases he with he | he
  · exact h e he
  · rw [(mem_pieceEdges he).1]
    rfl

theorem clipLeft_winding (m b : ℚ) (wd : Int) (pL pR : GPoint) (edges : List my_edge)
    (h : ∀ e ∈ edges, e.winding = wd) :
    ∀ e ∈ (clipLeft m b wd pL pR edges).2.2, e.winding = wd := by
  unfold clipLeft
  split_ifs
  · exact h
  · exact makeEdge_winding _ _ _ _ h
  · exact h

theorem clipRight_winding (m b : ℚ) (w wd : Int) (pL pR : GPoint) (edges : List my_edge)
    (h : ∀ e ∈ edges, e.winding = wd) :
    ∀ e ∈ (clipRight m b w wd pL pR edges).2.2, e.winding = wd := by
  unfold clipRight
  split_ifs
  · exact h
  · exact makeEdge_winding _ _ _ _ h
  · exact h

theorem clipSides_winding (m b : ℚ) (w wd : Int) (pL pR : GPoint) (edges : List my_edge)
    (h : ∀ e ∈ edges, e.winding = wd) :
    ∀ e ∈ clipSides m b w wd pL pR edges, e.winding = wd := by
  have e1 : clipSides m b w wd pL pR edges =
      MUmakeEdgeWinding
        (clipRight m b w wd (clipLeft m b wd pL pR edges).1 (clipLeft m b wd pL pR edges).2.1
          (clipLeft m b wd pL pR edges).2.2).1
        (clipRight m b w wd (clipLeft m b wd pL pR edges).1 (clipLeft m b wd pL pR edges).2.1
          (clipLeft m b wd pL pR edges).2.2).2.1
        (clipRight m b w wd (clipLeft m b wd pL pR edges).1 (clipLeft m b wd pL pR edges).2.1
          (clipLeft m b wd pL pR edges).2.2).2.2 wd := rfl
  rw [e1]
  exact makeEdge_winding _ _ _ _ (clipRight_winding _ _ _ _ _ _ _ (clipLeft_winding _ _ _ _ _ _ h))

/-- C29, as the code has it: every edge `MUclipPoints` emits for a segment
`(p0, p1)`, projection edges included, has the winding +1 when `p0.y > p1.y`
and -1 otherwise, whatever the order of the x coordinates. -/
theorem MUclipPoints_winding_by_direction (p0 p1 : GPoint) (w h : Int) (e : my_edge)
    (he : e ∈ MUclipPoints p0 p1 w h []) :
    e.winding = if p0.fY > p1.fY then 1 else -1 := by
  rw [MUclipPoints_eq] at he
  by_cases h1 : GRoundToInt (topEnd (p0, p1)).fY = GRoundToInt (bottomEnd (p0, p1)).fY
  · rw [if_pos h1] at he
    exact absurd he (List.not_mem_nil e)
  rw [if_neg h1] at he
  by_cases h2 : (bottomEnd (p0, p1)).fY ≤ 0
  · rw [if_pos h2] at he
    exact absurd he (List.not_mem_nil e)
  rw [if_neg h2] at he
  by_cases h3 : (topEnd (p0, p1)).fY ≥ (h : ℚ)
  · rw [if_pos h3] at he
    exact absurd he (List.not_mem_nil e)
  rw [if_neg h3] at he
  exact clipSides_winding _ _ _ _ _ _ _ (fun e he => absurd he (List.not_mem_nil e)) e he

/-- C29, counterexample: for the segment from (-1,0) to (1,2) on a 4x4 device
`MUclipPoints` emits the projection edge on `x = 0` (rows 0..1) and the main
edge (rows 1..2), both with winding -1, whereas the sign of the claim is +1:
no swap, and `p0.x < p1.x`. -/
theorem MUclipPoints_winding_not_as_claimed :
    MUclipPoints ⟨-1, 0⟩ ⟨1, 2⟩ 4 4 [] = [⟨0, 0, 0, 0, 1, -1⟩, ⟨1, -1, 1 / 2, 1, 2, -1⟩] ∧
      claimedWinding ⟨-1, 0⟩ ⟨1, 2⟩ = 1 := by
  constructor
  · norm_num [MUclipPoints, GRoundToInt, clipTop, clipBottom, clipLeft, clipRight,
      MUmakeEdgeWinding, my_edge.setWinding, my_edge.set, my_edge.fresh]
  · norm_num [claimedWinding]

theorem MUclipPoints_winding_by_direction_witness :
    (⟨0, 0, 0, 0, 1, -1⟩ : my_edge) ∈ MUclipPoints ⟨-1, 0⟩ ⟨1, 2⟩ 4 4 [] ∧
      (⟨0, 0, 0, 0, 1, -1⟩ : my_edge).winding
        = if (⟨-1, 0⟩ : GPoint).fY > (⟨1, 2⟩ : GPoint).fY then 1 else -1 :=
  have h : (⟨0, 0, 0, 0, 1, -1⟩ : my_edge) ∈ MUclipPoints ⟨-1, 0⟩ ⟨1, 2⟩ 4 4 [] := by
    norm_num [MUclipPoints, GRoundToInt, clipTop, clipBottom, clipLeft, clipRight,
      MUmakeEdgeWinding, my_edge.setWinding, my_edge.set, my_edge.fresh]
  ⟨h, MUclipPoints_winding_by_direction ⟨-1, 0⟩ ⟨1, 2⟩ 4 4 _ h⟩

/-- The main edge of the segment from (-1,0) to (1,2) on a 4x4 device. -/
theorem sample_segment_main_edge :
    (⟨1, -1, 1 / 2, 1, 2, -1⟩ : my_edge) ∈ MUclipPoints ⟨-1, 0⟩ ⟨1, 2⟩ 4 4 [] := by
  norm_num [MUclipPoints, GRoundToInt, clipTop, clipBottom, clipLeft, clipRight,
    MUmakeEdgeWinding, my_edge.setWinding, my_edge.set, my_edge.fresh]

theorem MUclipPoints_row_equivalent_witness :
    rowBetween (⟨-1, 0⟩ : GPoint).fY (⟨1, 2⟩ : GPoint).fY 0 ∧
      ∃ e, coveringEdges (MUclipPoints ⟨-1, 0⟩ ⟨1, 2⟩ 4 4 []) 0 = [e] ∧
        e.xAt 0 = clampTo (sideX (⟨-1, 0⟩, ⟨1, 2⟩) (((0 : Int) : ℚ) + 1 / 2)) 4 :=
  have hb : rowBetween (⟨-1, 0⟩ : GPoint).fY (⟨1, 2⟩ : GPoint).fY 0 := by
    norm_num [rowBetween]
  ⟨hb, (MUclipPoints_row_equivalent ⟨-1, 0⟩ ⟨1, 2⟩ 4 4 0 (by decide) (by decide) (by decide)
    (by decide)).2.1 hb⟩

theorem MUclipPoints_edges_inside_witness :
    (⟨1, -1, 1 / 2, 1, 2, -1⟩ : my_edge) ∈ MUclipPoints ⟨-1, 0⟩ ⟨1, 2⟩ 4 4 [] ∧
      0 ≤ (⟨1, -1, 1 / 2, 1, 2, -1⟩ : my_edge).top ∧
      (⟨1, -1, 1 / 2, 1, 2, -1⟩ : my_edge).top < (⟨1, -1, 1 / 2, 1, 2, -1⟩ : my_edge).bottom ∧
      (⟨1, -1, 1 / 2, 1, 2, -1⟩ : my_edge).bottom ≤ 4 :=
  ⟨sample_segment_main_edge,
    (MUclipPoints_edges_inside ⟨-1, 0⟩ ⟨1, 2⟩ 4 4 _ (by decide) (by decide)
      sample_segment_main_edge).1,
    (MUclipPoints_edges_inside ⟨-1, 0⟩ ⟨1, 2⟩ 4 4 _ (by decide) (by decide)
      sample_segment_main_edge).2.1,
    (MUclipPoints_edges_inside ⟨-1, 0⟩ ⟨1, 2⟩ 4 4 _ (by decide) (by decide)
      sample_segment_main_edge).2.2.1⟩

/-! ## Edges appended by one call of `MUclipPoints` -/

/-! ## The number of edges of a segment -/

theorem pieceEdges_length (a c : GPoint) (wd : Int) : (pieceEdges a c wd).length ≤ 1 := by
  unfold pieceEdges
  split_ifs <;> simp

/-- A piece between two points with the same x is vertical: its slope is 0 and
its x is the x of the points. -/
theorem pieceEdges_vertical (x a c : ℚ) (wd : Int) :
    ∀ e ∈ pieceEdges ⟨x, a⟩ ⟨x, c⟩ wd, e.m = 0 ∧ e.b = x := by
  intro e he
  rw [(mem_pieceEdges he).1]
  unfold pieceEdge insideEdge topEnd bottomEnd
  by_cases h : a > c <;> simp [h]

/-- The `// LEFT` step appends to the list it is given, and what it appends is
a piece on `x = 0`, if anything. -/
theorem clipLeft_append (m b : ℚ) (wd : Int) (pL pR : GPoint) :
    ∃ (qL qR : GPoint) (a c : ℚ), ∀ edges,
      clipLeft m b wd pL pR edges = (qL, qR, edges ++ pieceEdges ⟨0, a⟩ ⟨0, c⟩ wd) := by
  unfold clipLeft
  by_cases h1 : pL.fX < 0
  · by_cases h2 : pR.fX < 0
    · exact ⟨⟨0, pL.fY⟩, ⟨0, pR.fY⟩, 0, 0, fun edges => by simp [h1, h2, pieceEdges_level]⟩
    · exact ⟨⟨0, (0 - b) / m⟩, pR, (0 - b) / m, pL.fY,
        fun edges => by simp [h1, h2, MUmakeEdgeWinding_piece]⟩
  · exact ⟨pL, pR, 0, 0, fun edges => by simp [h1, pieceEdges_level]⟩

/-- The `// RIGHT` step appends to the list it is given, and what it appends
is a piece on `x = w`, if anything. -/
theorem clipRight_append (m b : ℚ) (w wd : Int) (pL pR : GPoint) :
    ∃ (qL qR : GPoint) (a c : ℚ), ∀ edges,
      clipRight m b w wd pL pR edges = (qL, qR, edges ++ pieceEdges ⟨w, a⟩ ⟨w, c⟩ wd) := by
  unfold clipRight
  by_cases h1 : pR.fX > (w : ℚ)
  · by_cases h2 : pL.fX > (w : ℚ)
    · exact ⟨⟨w, pL.fY⟩, ⟨w, pR.fY⟩, 0, 0, fun edges => by simp [h1, h2, pieceEdges_level]⟩
    · exact ⟨pL, ⟨w, ((w : ℚ) - b) / m⟩, ((w : ℚ) - b) / m, pR.fY,
        fun edges => by simp [h1, h2, MUmakeEdgeWinding_piece]⟩
  · exact ⟨pL, pR, 0, 0, fun edges => by simp [h1, pieceEdges_level]⟩

/-- The edges the horizontal clipping appends: a piece on `x = 0`, a piece on
`x = w` and the main piece, each present or not. -/
theorem clipSides_append (m b : ℚ) (w wd : Int) (pL pR : GPoint) :
    ∃ (a0 c0 aw cw : ℚ) (qL qR : GPoint), ∀ edges,
      clipSides m b w wd pL pR edges
        = edges ++ (pieceEdges ⟨0, a0⟩ ⟨0, c0⟩ wd ++ pieceEdges ⟨w, aw⟩ ⟨w, cw⟩ wd
            ++ pieceEdges qL qR wd) := by
  obtain ⟨qL, qR, a0, c0, hl⟩ := clipLeft_append m b wd pL pR
  obtain ⟨rL, rR, aw, cw, hr⟩ := clipRight_append m b w wd qL qR
  refine ⟨a0, c0, aw, cw, rL, rR, fun edges => ?_⟩
  unfold clipSides
  rw [hl]
  simp only
  rw [hr]
  simp only
  rw [MUmakeEdgeWinding_piece]
  simp only [List.append_assoc]

/-- What `MUclipPoints` appends: a piece on `x = 0`, a piece on `x = w` and
the main piece, each present or not. -/
theorem MUclipPoints_pieces (p0 p1 : GPoint) (w h : Int) :
    ∃ l0 lw lm : List my_edge,
      (∀ edges, MUclipPoints p0 p1 w h edges = edges ++ (l0 ++ lw ++ lm)) ∧
      l0.length ≤ 1 ∧ lw.length ≤ 1 ∧ lm.length ≤ 1 ∧
      (∀ e ∈ l0, e.m = 0 ∧ e.b = 0) ∧ (∀ e ∈ lw, e.m = 0 ∧ e.b = (w : ℚ)) := by
  have hnone : (∀ edges, MUclipPoints p0 p1 w h edges = edges) →
      ∃ l0 lw lm : List my_edge,
        (∀ edges, MUclipPoints p0 p1 w h edges = edges ++ (l0 ++ lw ++ lm)) ∧
        l0.length ≤ 1 ∧ lw.length ≤ 1 ∧ lm.length ≤ 1 ∧
        (∀ e ∈ l0, e.m = 0 ∧ e.b = 0) ∧ (∀ e ∈ lw, e.m = 0 ∧ e.b = (w : ℚ)) := by
    intro hn
    exact ⟨[], [], [], fun edges => by rw [hn]; simp, by simp, by simp, by simp,
      fun e he => absurd he (List.not_mem_nil e), fun e he => absurd he (List.not_mem_nil e)⟩
  by_cases h1 : GRoundToInt (topEnd (p0, p1)).fY = GRoundToInt (bottomEnd (p0, p1)).fY
  · exact hnone fun edges => by rw [MUclipPoints_eq, if_pos h1]
  by_cases h2 : (bottomEnd (p0, p1)).fY ≤ 0
  · exact hnone fun edges => by rw [MUclipPoints_eq, if_neg h1, if_pos h2]
  by_cases h3 : (topEnd (p0, p1)).fY ≥ (h : ℚ)
  · exact hnone fun edges => by rw [MUclipPoints_eq, if_neg h1, if_neg h2, if_pos h3]
  obtain ⟨a0, c0, aw, cw, qL, qR, hs⟩ := clipSides_append
    (((bottomEnd (p0, p1)).fX - (topEnd (p0, p1)).fX)
      / ((bottomEnd (p0, p1)).fY - (topEnd (p0, p1)).fY))
    ((topEnd (p0, p1)).fX - ((bottomEnd (p0, p1)).fX - (topEnd (p0, p1)).fX)
      / ((bottomEnd (p0, p1)).fY - (topEnd (p0, p1)).fY) * (topEnd (p0, p1)).fY)
    w (if p0.fY > p1.fY then 1 else -1)
    (if (topEnd (p0, p1)).fX < (bottomEnd (p0, p1)).fX then
      clipTop ((topEnd (p0, p1)).fX - ((bottomEnd (p0, p1)).fX - (topEnd (p0, p1)).fX)
        / ((bottomEnd (p0, p1)).fY - (topEnd (p0, p1)).fY) * (topEnd (p0, p1)).fY)
        (topEnd (p0, p1))
     else
      clipBottom (((bottomEnd (p0, p1)).fX - (topEnd (p0, p1)).fX)
          / ((bottomEnd (p0, p1)).fY - (topEnd (p0, p1)).fY))
        ((topEnd (p0, p1)).fX - ((bottomEnd (p0, p1)).fX - (topEnd (p0, p1)).fX)
          / ((bottomEnd (p0, p1)).fY - (topEnd (p0, p1)).fY) * (topEnd (p0, p1)).fY)
        h (bottomEnd (p0, p1)))
    (if (topEnd (p0, p1)).fX < (bottomEnd (p0, p1)).fX then
      clipBottom (((bottomEnd (p0, p1)).fX - (topEnd (p0, p1)).fX)
          / ((bottomEnd (p0, p1)).fY - (topEnd (p0, p1)).fY))
        ((topEnd (p0, p1)).fX - ((bottomEnd (p0, p1)).fX - (topEnd (p0, p1)).fX)
          / ((bottomEnd (p0, p1)).fY - (topEnd (p0, p1)).fY) * (topEnd (p0, p1)).fY)
        h (bottomEnd (p0, p1))
     else
      clipTop ((topEnd (p0, p1)).fX - ((bottomEnd (p0, p1)).fX - (topEnd (p0, p1)).fX)
        / ((bottomEnd (p0, p1)).fY - (topEnd (p0, p1)).fY) * (topEnd (p0, p1)).fY)
        (topEnd (p0, p1)))
  refine ⟨pieceEdges ⟨0, a0⟩ ⟨0, c0⟩ (if p0.fY > p1.fY then 1 else -1),
    pieceEdges ⟨w, aw⟩ ⟨w, cw⟩ (if p0.fY > p1.fY then 1 else -1),
    pieceEdges qL qR (if p0.fY > p1.fY then 1 else -1),
    fun edges => ?_, pieceEdges_length _ _ _, pieceEdges_length _ _ _,
    pieceEdges_length _ _ _, pieceEdges_vertical 0 a0 c0 _, pieceEdges_vertical w aw cw _⟩
  rw [MUclipPoints_eq, if_neg h1, if_neg h2, if_neg h3, hs]

/-- C31, as the code has it: for every segment and every device size
`MUclipPoints` appends between 0 and 3 edges to the list it is given: at most
one vertical projection edge on `x = 0`, at most one vertical projection edge
on `x = w`, and at most one main edge, in this order. -/
theorem MUclipPoints_appends_at_most_three (p0 p1 : GPoint) (w h : Int) :
    ∃ l0 lw lm : List my_edge,
      (∀ edges, MUclipPoints p0 p1 w h edges = edges ++ (l0 ++ lw ++ lm)) ∧
      l0.length ≤ 1 ∧ lw.length ≤ 1 ∧ lm.length ≤ 1 ∧ (l0 ++ lw ++ lm).length ≤ 3 ∧
      (∀ e ∈ l0, e.m = 0 ∧ e.b = 0) ∧ (∀ e ∈ lw, e.m = 0 ∧ e.b = (w : ℚ)) := by
  obtain ⟨l0, lw, lm, h1, h2, h3, h4, h5, h6⟩ := MUclipPoints_pieces p0 p1 w h
  refine ⟨l0, lw, lm, h1, h2, h3, h4, ?_, h5, h6⟩
  simp only [List.length_append]
  omega

/-- C31, counterexample: for the segment from (-2,0) to (6,4) on a 4x4 device
`MUclipPoints` appends three edges: the projection on `x = 0` (rows 0..1), the
projection on `x = 4` (rows 3..4) and the main edge (rows 1..3). -/
theorem MUclipPoints_appends_three :
    MUclipPoints ⟨-2, 0⟩ ⟨6, 4⟩ 4 4 []
      = [⟨0, 0, 0, 0, 1, -1⟩, ⟨0, 4, 4, 3, 4, -1⟩, ⟨2, -2, 1, 1, 3, -1⟩] ∧
    (MUclipPoints ⟨-2, 0⟩ ⟨6, 4⟩ 4 4 []).length = 3 := by
  have h : MUclipPoints ⟨-2, 0⟩ ⟨6, 4⟩ 4 4 []
      = [⟨0, 0, 0, 0, 1, -1⟩, ⟨0, 4, 4, 3, 4, -1⟩, ⟨2, -2, 1, 1, 3, -1⟩] := by
    norm_num [MUclipPoints, GRoundToInt, clipTop, clipBottom, clipLeft, clipRight,
      MUmakeEdgeWinding, my_edge.setWinding, my_edge.set, my_edge.fresh]
  rw [h]
  exact ⟨rfl, rfl⟩

/-! ## Segments off the device -/

/-! ## Segments outside the device -/

theorem ends_fX_le (p0 p1 : GPoint) (hi : ℚ) (h0 : p0.fX ≤ hi) (h1 : p1.fX ≤ hi) :
    (topEnd (p0, p1)).fX ≤ hi ∧ (bottomEnd (p0, p1)).fX ≤ hi := by
  unfold topEnd bottomEnd
  by_cases h : p0.fY > p1.fY <;> simp [h, h0, h1]

theorem ends_fX_ge (p0 p1 : GPoint) (lo : ℚ) (h0 : lo ≤ p0.fX) (h1 : lo ≤ p1.fX) :
    lo ≤ (topEnd (p0, p1)).fX ∧ lo ≤ (bottomEnd (p0, p1)).fX := by
  unfold topEnd bottomEnd
  by_cases h : p0.fY > p1.fY <;> simp [h, h0, h1]

/-- The row of the one edge a segment has on a row of the device, and its x
there. -/
theorem MUclipPoints_on_row (p0 p1 : GPoint) (w h : Int) (hw : 0 < w) (hh : 0 < h) (y : Int)
    (hy0 : 0 ≤ y) (hy1 : y < h) (hb : rowBetween p0.fY p1.fY y) :
    ∃ e, coveringEdges (MUclipPoints p0 p1 w h []) y = [e] ∧
      e.xAt y = clampTo (sideX (p0, p1) ((y : ℚ) + 1 / 2)) w ∧
      e.winding = (if p0.fY > p1.fY then 1 else -1) := by
  rcases MUclipPoints_chain p0 p1 w h hw hh with ⟨_, hrows⟩ |
    ⟨m, b, cL, cR, c1, c2, X1, X2, hchain, hcode, _, _, hrows, hline⟩
  · exact absurd hb (hrows y hy0 hy1)
  · have hnil : MUclipPoints p0 p1 w h []
        = chainEdges w (if p0.fY > p1.fY then 1 else -1) cL cR c1 c2 X1 X2 := by
      rw [hcode, List.nil_append]
    rw [hnil]
    obtain ⟨e, he, hx⟩ := (chain_rows hchain hw (if p0.fY > p1.fY then 1 else -1) y).1
      ((hrows y hy0 hy1).mp hb)
    refine ⟨e, he, by rw [hx, hline], ?_⟩
    have hmem : e ∈ coveringEdges (chainEdges w (if p0.fY > p1.fY then 1 else -1)
        cL cR c1 c2 X1 X2) y := by
      rw [he]; exact List.mem_singleton.mpr rfl
    unfold coveringEdges at hmem
    obtain ⟨a, c, rfl, _⟩ := mem_chainEdges (List.mem_filter.mp hmem).1
    rfl

/-- No edge of a segment has a row on which the segment has no row. -/
theorem MUclipPoints_off_row (p0 p1 : GPoint) (w h : Int) (hw : 0 < w) (hh : 0 < h) (y : Int)
    (hb : ¬ (0 ≤ y ∧ y < h ∧ rowBetween p0.fY p1.fY y)) :
    coveringEdges (MUclipPoints p0 p1 w h []) y = [] := by
  rcases MUclipPoints_chain p0 p1 w h hw hh with ⟨hnone, _⟩ |
    ⟨m, b, cL, cR, c1, c2, X1, X2, hchain, hcode, h0, h1, hrows, hline⟩
  · rw [hnone]; rfl
  · have hnil : MUclipPoints p0 p1 w h []
        = chainEdges w (if p0.fY > p1.fY then 1 else -1) cL cR c1 c2 X1 X2 := by
      rw [hcode, List.nil_append]
    rw [hnil]
    by_cases hy : 0 ≤ y ∧ y < h
    · exact (chain_rows hchain hw _ y).2
        (fun hc => hb ⟨hy.1, hy.2, (hrows y hy.1 hy.2).mpr hc⟩)
    · apply (chain_rows hchain hw _ y).2
      intro hc
      apply hy
      obtain ⟨c1', c2'⟩ := hc
      have a1 : (0 : ℚ) < (y : ℚ) + 1 / 2 := lt_of_le_of_lt h0 c1'
      have a2 : (y : ℚ) + 1 / 2 ≤ (h : ℚ) := le_trans c2' h1
      constructor
      · have : (-1 : ℚ) < (y : ℚ) := by linarith
        have : (-1 : Int) < y := by exact_mod_cast this
        omega
      · have : (y : ℚ) < (h : ℚ) := by linarith
        exact_mod_cast this

/-- C32, as the code has it: a segment wholly above the device (both `y ≤ 0`)
or wholly below it (both `y ≥ h`), and a segment whose two y round to the same
row, appends no edge. A segment wholly left of the device (both `x < 0`) or
wholly right of it (both `x > w`) is not dropped but projected on the border:
on every row of the device whose centre lies between its two heights it has
exactly one edge, and the x of that edge at the row centre is 0, respectively
`w`. -/
theorem MUclipPoints_offscreen (p0 p1 : GPoint) (w h : Int) (hw : 0 < w) (hh : 0 < h) :
    (((p0.fY ≤ 0 ∧ p1.fY ≤ 0) ∨ ((h : ℚ) ≤ p0.fY ∧ (h : ℚ) ≤ p1.fY) ∨
        GRoundToInt p0.fY = GRoundToInt p1.fY) →
      ∀ edges, MUclipPoints p0 p1 w h edges = edges) ∧
    ((p0.fX < 0 ∧ p1.fX < 0) → ∀ y : Int, 0 ≤ y → y < h → rowBetween p0.fY p1.fY y →
      ∃ e, coveringEdges (MUclipPoints p0 p1 w h []) y = [e] ∧ e.xAt y = 0) ∧
    (((w : ℚ) < p0.fX ∧ (w : ℚ) < p1.fX) → ∀ y : Int, 0 ≤ y → y < h →
      rowBetween p0.fY p1.fY y →
      ∃ e, coveringEdges (MUclipPoints p0 p1 w h []) y = [e] ∧ e.xAt y = (w : ℚ)) := by
  refine ⟨?_, ?_, ?_⟩
  · intro hc edges
    rw [MUclipPoints_eq]
    by_cases h1 : GRoundToInt (topEnd (p0, p1)).fY = GRoundToInt (bottomEnd (p0, p1)).fY
    · rw [if_pos h1]
    rw [if_neg h1]
    by_cases h2 : (bottomEnd (p0, p1)).fY ≤ 0
    · rw [if_pos h2]
    rw [if_neg h2]
    by_cases h3 : (topEnd (p0, p1)).fY ≥ (h : ℚ)
    · rw [if_pos h3]
    exfalso
    rw [topEnd_fY, bottomEnd_fY] at h1
    rw [bottomEnd_fY] at h2
    rw [topEnd_fY] at h3
    rcases hc with ⟨a, b⟩ | ⟨a, b⟩ | hr
    · exact h2 (max_le a b)
    · exact h3 (le_min a b)
    · apply h1
      rcases le_total p0.fY p1.fY with hle | hle
      · rw [min_eq_left hle, max_eq_right hle]; exact hr
      · rw [min_eq_right hle, max_eq_left hle]; exact hr.symm
  · rintro ⟨a, b⟩ y hy0 hy1 hb
    obtain ⟨e, he, hx, _⟩ := MUclipPoints_on_row p0 p1 w h hw hh y hy0 hy1 hb
    refine ⟨e, he, ?_⟩
    have hb' := hb
    unfold rowBetween at hb'
    rw [← topEnd_fY, ← bottomEnd_fY] at hb'
    obtain ⟨t1, t2⟩ := ends_fX_le p0 p1 (max p0.fX p1.fX) (le_max_left _ _) (le_max_right _ _)
    obtain ⟨t3, t4⟩ := ends_fX_ge p0 p1 (min p0.fX p1.fX) (min_le_left _ _) (min_le_right _ _)
    have := (sideX_between hb'.1 hb'.2 t3 t1 t4 t2).2
    rw [hx, clampTo_of_nonpos hw (le_trans this (max_le a.le b.le))]
  · rintro ⟨a, b⟩ y hy0 hy1 hb
    obtain ⟨e, he, hx, _⟩ := MUclipPoints_on_row p0 p1 w h hw hh y hy0 hy1 hb
    refine ⟨e, he, ?_⟩
    have hb' := hb
    unfold rowBetween at hb'
    rw [← topEnd_fY, ← bottomEnd_fY] at hb'
    obtain ⟨t1, t2⟩ := ends_fX_le p0 p1 (max p0.fX p1.fX) (le_max_left _ _) (le_max_right _ _)
    obtain ⟨t3, t4⟩ := ends_fX_ge p0 p1 (min p0.fX p1.fX) (min_le_left _ _) (min_le_right _ _)
    have := (sideX_between hb'.1 hb'.2 t3 t1 t4 t2).1
    rw [hx, clampTo_of_ge hw (le_trans (le_min a.le b.le) this)]

/-- C32, counterexample: the segment from (-2,0) to (-1,4) lies wholly left of
a 4x4 device, and `MUclipPoints` appends the vertical edge on `x = 0` over the
rows 0..4. -/
theorem MUclipPoints_left_of_device :
    (⟨-2, 0⟩ : GPoint).fX < 0 ∧ (⟨-1, 4⟩ : GPoint).fX < 0 ∧
      MUclipPoints ⟨-2, 0⟩ ⟨-1, 4⟩ 4 4 [] = [⟨0, 0, 0, 0, 4, -1⟩] := by
  refine ⟨by norm_num, by norm_num, ?_⟩
  norm_num [MUclipPoints, GRoundToInt, clipTop, clipBottom, clipLeft, clipRight,
    MUmakeEdgeWinding, my_edge.setWinding, my_edge.set, my_edge.fresh]

theorem MUclipPoints_offscreen_witness :
    (∀ edges, MUclipPoints ⟨1, -3⟩ ⟨2, -1⟩ 4 4 edges = edges) ∧
      ∃ e, coveringEdges (MUclipPoints ⟨-2, 0⟩ ⟨-1, 4⟩ 4 4 []) 1 = [e] ∧ e.xAt 1 = 0 :=
  ⟨(MUclipPoints_offscreen ⟨1, -3⟩ ⟨2, -1⟩ 4 4 (by decide) (by decide)).1
      (Or.inl ⟨by norm_num, by norm_num⟩),
    (MUclipPoints_offscreen ⟨-2, 0⟩ ⟨-1, 4⟩ 4 4 (by decide) (by decide)).2.1
      ⟨by norm_num, by norm_num⟩ 1 (by decide) (by decide) (by norm_num [rowBetween])⟩

/-! ## Windings of a closed polygon -/

/-! ## The windings of a closed polygon -/

theorem MUclipPoints_append (p0 p1 : GPoint) (w h : Int) (edges : List my_edge) :
    MUclipPoints p0 p1 w h edges = edges ++ MUclipPoints p0 p1 w h [] := by
  obtain ⟨l0, lw, lm, h1, _⟩ := MUclipPoints_pieces p0 p1 w h
  rw [h1 edges, h1 [], List.nil_append]

theorem foldl_clip_eq (w h : Int) (sides : List (GPoint × GPoint)) :
    ∀ acc : List my_edge,
      sides.foldl (fun edges s => MUclipPoints s.1 s.2 w h edges) acc
        = acc ++ sides.flatMap fun s => MUclipPoints s.1 s.2 w h [] := by
  induction sides with
  | nil => intro acc; simp
  | cons s t ih =>
    intro acc
    rw [List.foldl_cons, ih, MUclipPoints_append, List.flatMap_cons, List.append_assoc]

theorem closedPolygonEdges_eq (pts : List GPoint) (w h : Int) :
    closedPolygonEdges pts w h
      = (polygonSides pts).flatMap fun s => MUclipPoints s.1 s.2 w h [] := by
  unfold closedPolygonEdges
  rw [foldl_clip_eq, List.nil_append]

theorem windingSum_append (l1 l2 : List my_edge) :
    windingSum (l1 ++ l2) = windingSum l1 + windingSum l2 := by
  unfold windingSum
  rw [List.map_append, List.sum_append]

theorem covering_flatMap {α : Type} (f : α → List my_edge) (y : Int) :
    ∀ l : List α, coveringEdges (l.flatMap f) y = l.flatMap fun a => coveringEdges (f a) y := by
  intro l
  induction l with
  | nil => rfl
  | cons a t ih => rw [List.flatMap_cons, covering_append, ih, List.flatMap_cons]

theorem windingSum_flatMap {α : Type} (f : α → List my_edge) :
    ∀ l : List α, windingSum (l.flatMap f) = (l.map fun a => windingSum (f a)).sum := by
  intro l
  induction l with
  | nil => rfl
  | cons a t ih => rw [List.flatMap_cons, windingSum_append, ih, List.map_cons, List.sum_cons]

/-- The windings of the edges of one side on a row: the side leaves the part
above the row centre (-1), enters it (+1), or does neither. -/
theorem side_winding_sum (p q : GPoint) (w h : Int) (hw : 0 < w) (hh : 0 < h) (y : Int)
    (hy0 : 0 ≤ y) (hy1 : y < h) :
    windingSum (coveringEdges (MUclipPoints p q w h []) y) = aboveRow y q - aboveRow y p := by
  unfold aboveRow
  by_cases hb : rowBetween p.fY q.fY y
  · obtain ⟨e, he, _, hwd⟩ := MUclipPoints_on_row p q w h hw hh y hy0 hy1 hb
    rw [he]
    simp only [windingSum, List.map_cons, List.map_nil, List.sum_cons, List.sum_nil, add_zero,
      hwd]
    obtain ⟨b1, b2⟩ := hb
    by_cases hs : p.fY > q.fY
    · rw [min_eq_right hs.le] at b1
      rw [max_eq_left hs.le] at b2
      rw [if_pos hs, if_pos b1, if_neg (not_lt.mpr b2)]
      rfl
    · rw [min_eq_left (not_lt.mp hs)] at b1
      rw [max_eq_right (not_lt.mp hs)] at b2
      rw [if_neg hs, if_pos b1, if_neg (not_lt.mpr b2)]
      rfl
  · rw [MUclipPoints_off_row p q w h hw hh y (fun hc => hb hc.2.2)]
    have hb' : ¬ (min p.fY q.fY < (y : ℚ) + 1 / 2 ∧ (y : ℚ) + 1 / 2 ≤ max p.fY q.fY) := hb
    simp only [windingSum, List.map_nil, List.sum_nil]
    by_cases h1 : p.fY < (y : ℚ) + 1 / 2 <;> by_cases h2 : q.fY < (y : ℚ) + 1 / 2
    · rw [if_pos h1, if_pos h2]; rfl
    · exfalso
      exact hb' ⟨lt_of_le_of_lt (min_le_left _ _) h1, le_trans (not_lt.mp h2) (le_max_right _ _)⟩
    · exfalso
      exact hb' ⟨lt_of_le_of_lt (min_le_right _ _) h2, le_trans (not_lt.mp h1) (le_max_left _ _)⟩
    · rw [if_neg h1, if_neg h2]; rfl

/-- The differences of a function along a chain of points add up to the
difference between the last and the first point. -/
theorem chain_telescope (g : GPoint → Int) :
    ∀ (l : List GPoint) (a : GPoint),
      ((chainPairs (a :: l)).map fun s => g s.2 - g s.1).sum
        = g ((a :: l).getLast (List.cons_ne_nil a l)) - g a := by
  intro l
  induction l with
  | nil => intro a; simp [chainPairs]
  | cons b t ih =>
    intro a
    have hc : chainPairs (a :: b :: t) = (a, b) :: chainPairs (b :: t) := rfl
    rw [hc, List.map_cons, List.sum_cons, ih b, List.getLast_cons (List.cons_ne_nil b t)]
    ring

theorem sides_telescope (g : GPoint → Int) (pts : List GPoint) :
    ((polygonSides pts).map fun s => g s.2 - g s.1).sum = 0 := by
  cases pts with
  | nil => rfl
  | cons p t =>
    have hs : polygonSides (p :: t) = chainPairs (p :: (t ++ [p])) := rfl
    rw [hs, chain_telescope g (t ++ [p]) p]
    have : (p :: (t ++ [p])).getLast (List.cons_ne_nil p (t ++ [p])) = p := by
      rw [List.getLast_cons (by simp)]
      simp
    rw [this, sub_self]

/-- The rows and the winding of an edge of a segment. -/
theorem emitted_edge_facts (p0 p1 : GPoint) (w h : Int) (hw : 0 < w) (hh : 0 < h) (e : my_edge)
    (he : e ∈ MUclipPoints p0 p1 w h []) :
    0 ≤ e.top ∧ e.top < e.bottom ∧ e.bottom ≤ h ∧ (e.winding = 1 ∨ e.winding = -1) ∧
      ∀ y : Int, e.top ≤ y → y < e.bottom → 0 ≤ e.get_X y ∧ e.get_X y ≤ w := by
  rcases MUclipPoints_chain p0 p1 w h hw hh with ⟨hnone, _⟩ |
    ⟨m, b, cL, cR, c1, c2, X1, X2, hchain, hcode, h0, h1, _, _⟩
  · rw [hnone] at he
    simp at he
  · rw [hcode, List.nil_append] at he
    obtain ⟨a, c, rfl, hr, hac⟩ := mem_chainEdges he
    obtain ⟨ha, hc⟩ := chain_ends_inDevice hchain hw h0 h1 hac
    obtain ⟨v1, v2, v3, _, _, v6⟩ := pieceEdge_valid (if p0.fY > p1.fY then 1 else -1) ha hc hr
    refine ⟨v1, v2, v3, ?_, fun y a1 a2 => ⟨(v6 y a1 a2).2.2.1, (v6 y a1 a2).2.2.2⟩⟩
    show (if p0.fY > p1.fY then (1 : Int) else -1) = 1 ∨ (if p0.fY > p1.fY then (1 : Int) else -1) = -1
    by_cases hs : p0.fY > p1.fY <;> simp [hs]

theorem mem_closedPolygonEdges {pts : List GPoint} {w h : Int} {e : my_edge}
    (he : e ∈ closedPolygonEdges pts w h) :
    ∃ s ∈ polygonSides pts, e ∈ MUclipPoints s.1 s.2 w h [] := by
  rw [closedPolygonEdges_eq, List.mem_flatMap] at he
  exact he

/-- The sum of windings that are all +1 or -1 has the parity of their
number. -/
theorem windingSum_parity :
    ∀ l : List my_edge, (∀ e ∈ l, e.winding = 1 ∨ e.winding = -1) →
      ∃ k : Int, windingSum l + (l.length : Int) = 2 * k := by
  intro l
  induction l with
  | nil => intro _; exact ⟨0, rfl⟩
  | cons a t ih =>
    intro h
    obtain ⟨k, hk⟩ := ih (fun e he => h e (List.mem_cons_of_mem a he))
    have hs : windingSum (a :: t) = a.winding + windingSum t := by
      simp [windingSum]
    rw [hs, List.length_cons]
    rcases h a (List.mem_cons_self a t) with ha | ha
    · exact ⟨k + 1, by rw [ha]; push_cast; linarith⟩
    · exact ⟨k, by rw [ha]; push_cast; linarith⟩

/-- The windings on a row of the edges of a closed polygon add up to zero. -/
theorem closed_winding_zero (pts : List GPoint) (w h : Int) (hw : 0 < w) (hh : 0 < h)
    (y : Int) : windingSum (coveringEdges (closedPolygonEdges pts w h) y) = 0 := by
  rw [closedPolygonEdges_eq, covering_flatMap, windingSum_flatMap]
  by_cases hy : 0 ≤ y ∧ y < h
  · have : ((polygonSides pts).map fun s =>
        windingSum (coveringEdges (MUclipPoints s.1 s.2 w h []) y))
        = (polygonSides pts).map fun s => aboveRow y s.2 - aboveRow y s.1 :=
      List.map_congr_left fun s _ => side_winding_sum s.1 s.2 w h hw hh y hy.1 hy.2
    rw [this, sides_telescope]
  · have : ((polygonSides pts).map fun s =>
        windingSum (coveringEdges (MUclipPoints s.1 s.2 w h []) y))
        = (polygonSides pts).map fun _ => (0 : Int) :=
      List.map_congr_left fun s _ => by
        rw [MUclipPoints_off_row s.1 s.2 w h hw hh y (fun hc => hy ⟨hc.1, hc.2.1⟩)]
        rfl
    rw [this]
    simp

/-- The loop of `buildPolygonEdges` over the consecutive pairs, for points
anywhere. -/
theorem buildLoop_clip (pts : List GPoint) (w h : Int) :
    ∀ n, n + 1 ≤ pts.length →
      (List.range n).foldlM
        (fun edges i => do
          let p ← pts.get? i
          let q ← pts.get? (i + 1)
          pure (MUclipPoints p q w h edges))
        [] = some ((chainPairs (pts.take (n + 1))).flatMap
          fun s => MUclipPoints s.1 s.2 w h []) := by
  intro n
  induction n with
  | zero =>
    intro hn
    cases pts with
    | nil => simp at hn
    | cons p t => simp [chainPairs]
  | succ n ih =>
    intro hn
    rw [List.range_succ, List.foldlM_append, ih (by omega)]
    have hp : pts.get? n = some pts[n] := by
      rw [List.get?_eq_getElem?]; exact List.getElem?_eq_getElem (by omega)
    have hq : pts.get? (n + 1) = some pts[n + 1] := by
      rw [List.get?_eq_getElem?]; exact List.getElem?_eq_getElem (by omega)
    obtain ⟨t2, t1⟩ := take_two_succ pts n _ _ hp hq
    rw [t2, chainPairs_snoc, ← t1, List.flatMap_append]
    simp only [Option.some_bind, Option.bind_eq_bind, List.foldlM_cons, List.foldlM_nil, hp, hq,
      pure, Option.some_bind]
    rw [MUclipPoints_append]
    simp

/-- The edges `drawConvexPolygon` builds of a polygon are the edges of the
closed polygon. -/
theorem buildPolygonEdges_closed (pts : List GPoint) (w h : Int) (hne : pts ≠ []) :
    buildPolygonEdges pts pts.length w h = some (closedPolygonEdges pts w h) := by
  unfold buildPolygonEdges
  have hl : 0 < pts.length := List.length_pos.mpr hne
  rw [buildLoop_clip pts w h (pts.length - 1) (by omega)]
  have e1 : pts.length - 1 + 1 = pts.length := by omega
  rw [e1, List.take_length]
  have hp : pts.get? (pts.length - 1) = some pts[pts.length - 1] := by
    rw [List.get?_eq_getElem?]; exact List.getElem?_eq_getElem (by omega)
  have hq : pts.get? 0 = some pts[0] := by
    rw [List.get?_eq_getElem?]; exact List.getElem?_eq_getElem hl
  simp only [Option.some_bind, Option.bind_eq_bind, hp, hq, pure]
  rw [MUclipPoints_append, closedPolygonEdges_eq]
  have hs : polygonSides pts
      = chainPairs pts ++ [(pts[pts.length - 1], pts[0])] := by
    obtain ⟨p, t, rfl⟩ := List.exists_cons_of_ne_nil hne
    rw [polygonSides_cons, List.getLast_eq_getElem]
    rfl
  rw [hs, List.flatMap_append]
  simp

/-- C35: for a device with `w, h > 0`, every list of points and every row `y`:
the edges `drawConvexPolygon` builds are those of `MUclipPoints` on every
consecutive pair and on the pair from the last point to the first; the
windings of those with `top ≤ y < bottom` add up to zero, their number is
even, and the whole edge list never has exactly one edge. -/
theorem closed_polygon_windings_cancel (pts : List GPoint) (w h : Int) (y : Int) (hw : 0 < w)
    (hh : 0 < h) :
    (pts ≠ [] → buildPolygonEdges pts pts.length w h = some (closedPolygonEdges pts w h)) ∧
    windingSum (coveringEdges (closedPolygonEdges pts w h) y) = 0 ∧
    Even (coveringEdges (closedPolygonEdges pts w h) y).length ∧
    (closedPolygonEdges pts w h).length ≠ 1 := by
  have hpm : ∀ e ∈ closedPolygonEdges pts w h, e.top < e.bottom ∧
      (e.winding = 1 ∨ e.winding = -1) := by
    intro e he
    obtain ⟨s, _, hs⟩ := mem_closedPolygonEdges he
    obtain ⟨_, v2, _, v4, _⟩ := emitted_edge_facts s.1 s.2 w h hw hh e hs
    exact ⟨v2, v4⟩
  refine ⟨buildPolygonEdges_closed pts w h, closed_winding_zero pts w h hw hh y, ?_, ?_⟩
  · obtain ⟨k, hk⟩ := windingSum_parity (coveringEdges (closedPolygonEdges pts w h) y)
      (fun e he => (hpm e (List.mem_filter.mp he).1).2)
    rw [closed_winding_zero pts w h hw hh y, zero_add] at hk
    rw [← Int.even_coe_nat, hk]
    exact even_two_mul k
  · intro hlen
    obtain ⟨e, he⟩ := List.length_eq_one.mp hlen
    have hmem : e ∈ closedPolygonEdges pts w h := by rw [he]; exact List.mem_singleton.mpr rfl
    obtain ⟨hlt, hwd⟩ := hpm e hmem
    have hz := closed_winding_zero pts w h hw hh e.top
    rw [he] at hz
    have hcov : coveringEdges [e] e.top = [e] := by
      unfold coveringEdges
      have : e.covers e.top := ⟨le_refl _, hlt⟩
      simp [this]
    rw [hcov] at hz
    simp only [windingSum, List.map_cons, List.map_nil, List.sum_cons, List.sum_nil,
      add_zero] at hz
    rcases hwd with h1 | h1 <;> rw [h1] at hz <;> omega

theorem closed_polygon_windings_cancel_witness :
    windingSum (coveringEdges (closedPolygonEdges overhangTriangle 4 4) 1) = 0 ∧
      Even (coveringEdges (closedPolygonEdges overhangTriangle 4 4) 1).length ∧
      (closedPolygonEdges overhangTriangle 4 4).length ≠ 1 :=
  (closed_polygon_windings_cancel overhangTriangle 4 4 1 (by decide) (by decide)).2

/-! ## Segment counts and chords of curves -/

theorem ceilRoot4_eq_zero_iff (q : ℚ) : ceilRoot4 q = 0 ↔ q ≤ 0 := by
  unfold ceilRoot4
  constructor
  · intro h
    by_contra hq
    push_neg at hq
    cases hf : (List.range (Int.toNat ⌈q⌉ + 1)).find?
        fun (k : Nat) => decide (q ≤ (k : ℚ) ^ 4) with
    | none =>
      rw [List.find?_eq_none] at hf
      have hm : Int.toNat ⌈q⌉ ∈ List.range (Int.toNat ⌈q⌉ + 1) :=
        List.mem_range.mpr (Nat.lt_succ_self _)
      have hn := hf _ hm
      simp only [decide_eq_true_eq, not_le] at hn
      have hc : (0 : Int) < ⌈q⌉ := Int.ceil_pos.mpr hq
      have h1 : ((Int.toNat ⌈q⌉ : Nat) : ℚ) = ((⌈q⌉ : Int) : ℚ) := by
        have := Int.toNat_of_nonneg hc.le
        exact_mod_cast this
      have h2 : q ≤ ((⌈q⌉ : Int) : ℚ) := Int.le_ceil q
      have h3 : (1 : ℚ) ≤ ((⌈q⌉ : Int) : ℚ) := by exact_mod_cast hc
      rw [h1] at hn
      have h4 : ((⌈q⌉ : Int) : ℚ) ≤ ((⌈q⌉ : Int) : ℚ) ^ 4 := le_self_pow₀ h3 (by norm_num)
      linarith
    | some k =>
      rw [hf] at h
      simp only [Option.getD_some] at h
      have hp := List.find?_some hf
      rw [h] at hp
      simp only [decide_eq_true_eq] at hp
      norm_num at hp
      linarith
  · intro hq
    rw [List.range_succ_eq_map, List.find?_cons]
    have : decide (q ≤ ((0 : Nat) : ℚ) ^ 4) = true := by
      simp only [decide_eq_true_eq]; norm_num; exact hq
    rw [this]
    rfl

theorem sq_sum_nonpos_iff (c x y : ℚ) (hc : 0 < c) :
    c * (x * x + y * y) ≤ 0 ↔ x = 0 ∧ y = 0 := by
  constructor
  · intro h
    have h1 : x * x + y * y ≤ 0 := by
      by_contra hn
      push_neg at hn
      have := mul_pos hc hn
      linarith
    have hx := mul_self_nonneg x
    have hy := mul_self_nonneg y
    exact ⟨mul_self_eq_zero.mp (by linarith), mul_self_eq_zero.mp (by linarith)⟩
  · rintro ⟨rfl, rfl⟩
    simp

/-- The quadratic count is zero exactly when the second difference of the
control points vanishes. -/
theorem quadSegments_eq_zero_iff (pts : Nat → GPoint) :
    MUcomputeQuadSegments pts = 0 ↔
      (2 * (pts 1).fX = (pts 0).fX + (pts 2).fX ∧ 2 * (pts 1).fY = (pts 0).fY + (pts 2).fY) := by
  unfold MUcomputeQuadSegments
  simp only [Int.natCast_eq_zero, ceilRoot4_eq_zero_iff]
  rw [sq_sum_nonpos_iff _ _ _ (by norm_num)]
  have hx : ∀ p : GPoint, ∀ s : ℚ, (p * s).fX = p.fX * s := fun _ _ => rfl
  have hy : ∀ p : GPoint, ∀ s : ℚ, (p * s).fY = p.fY * s := fun _ _ => rfl
  simp only [hx, hy, GPoint.sub_fX, GPoint.sub_fY, GPoint.add_fX, GPoint.add_fY, GPoint.smul_fX,
    GPoint.smul_fY]
  constructor
  · rintro ⟨h1, h2⟩
    constructor <;> linarith
  · rintro ⟨h1, h2⟩
    constructor <;> linarith

/-- The cubic count is zero exactly when both second differences of the
control points vanish. -/
theorem cubicSegments_eq_zero_iff (pts : Nat → GPoint) :
    MUcomputeCubicSegments pts = 0 ↔
      (2 * (pts 1).fX = (pts 0).fX + (pts 2).fX ∧ 2 * (pts 1).fY = (pts 0).fY + (pts 2).fY ∧
        2 * (pts 2).fX = (pts 1).fX + (pts 3).fX ∧ 2 * (pts 2).fY = (pts 1).fY + (pts 3).fY) := by
  unfold MUcomputeCubicSegments
  simp only [Int.natCast_eq_zero, ceilRoot4_eq_zero_iff]
  rw [sq_sum_nonpos_iff _ _ _ (by norm_num)]
  simp only [GPoint.sub_fX, GPoint.sub_fY, GPoint.add_fX, GPoint.add_fY, GPoint.smul_fX,
    GPoint.smul_fY]
  have hm : ∀ u v : ℚ, max |u| |v| = 0 ↔ u = 0 ∧ v = 0 := by
    intro u v
    constructor
    · intro h
      have h1 : |u| ≤ 0 := h ▸ le_max_left _ _
      have h2 : |v| ≤ 0 := h ▸ le_max_right _ _
      exact ⟨abs_eq_zero.mp (le_antisymm h1 (abs_nonneg u)),
        abs_eq_zero.mp (le_antisymm h2 (abs_nonneg v))⟩
    · rintro ⟨rfl, rfl⟩
      simp
  rw [hm, hm]
  constructor
  · rintro ⟨⟨h1, h2⟩, h3, h4⟩
    refine ⟨?_, ?_, ?_, ?_⟩ <;> linarith
  · rintro ⟨h1, h2, h3, h4⟩
    refine ⟨⟨?_, ?_⟩, ?_, ?_⟩ <;> linarith

theorem curvePoints_succ (eval : ℚ → GPoint) (k i : Int) (n : Nat) :
    curvePoints eval k i (n + 1)
      = eval ((i : ℚ) / (k : ℚ)) :: curvePoints eval k (i + 1) n := by
  unfold curvePoints
  rw [List.range_succ_eq_map, List.map_cons, List.map_map]
  congr 1
  · simp
  · apply List.map_congr_left
    intro j _
    simp only [Function.comp, Nat.succ_eq_add_one]
    congr 2
    push_cast
    ring

theorem getLastD_cons_eq (a d : GPoint) (l : List GPoint) :
    (a :: l).getLastD d = l.getLastD a := by
  cases l <;> rfl

theorem curvePoints_length (eval : ℚ → GPoint) (k i : Int) (n : Nat) :
    (curvePoints eval k i n).length = n := by
  simp [curvePoints]

/-- The loop over a curve, for any fuel that covers the steps up to `k`:
it never divides by zero, visits the points at `t = i/k` and stops by its own
condition. -/
theorem chordLoop_eq (eval : ℚ → GPoint) (k : Int) :
    ∀ (fuel n : Nat) (i : Int) (p0 : GPoint), 0 ≤ i → (k - i).toNat = n → n ≤ fuel →
      chordLoop eval k fuel i p0
        = some ((curvePoints eval k i n).getLastD p0,
            (p0 :: curvePoints eval k i n).zip (curvePoints eval k i n)) := by
  intro fuel
  induction fuel with
  | zero =>
    intro n i p0 _ _ hn
    have : n = 0 := by omega
    subst this
    simp [chordLoop, curvePoints]
  | succ fuel ih =>
    intro n i p0 hi hk hn
    unfold chordLoop
    by_cases hlt : i < k
    · have hk0 : k ≠ 0 := by omega
      obtain ⟨n', rfl⟩ : ∃ n', n = n' + 1 := ⟨n - 1, by omega⟩
      rw [if_pos hlt, if_neg hk0]
      simp only
      rw [ih n' (i + 1) _ (by omega) (by omega) (by omega), curvePoints_succ]
      rw [getLastD_cons_eq]
      rfl
    · have : n = 0 := by omega
      subst this
      rw [if_neg hlt]
      simp [curvePoints]

/-- The model `flattenLoop` makes the calls `chordLoop` lists. -/
theorem flattenLoop_chords (eval : ℚ → GPoint) (k w h : Int) :
    ∀ (fuel : Nat) (i : Int) (p0 p : GPoint) (cs : List (GPoint × GPoint))
      (edges : List my_edge), chordLoop eval k fuel i p0 = some (p, cs) →
      flattenLoop eval k w h fuel i p0 edges
        = (p, cs.foldl (fun es s => MUclipPoints s.1 s.2 w h es) edges) := by
  intro fuel
  induction fuel with
  | zero =>
    intro i p0 p cs edges hc
    simp only [chordLoop, Option.some.injEq, Prod.mk.injEq] at hc
    obtain ⟨rfl, rfl⟩ := hc
    rfl
  | succ fuel ih =>
    intro i p0 p cs edges hc
    unfold chordLoop at hc
    unfold flattenLoop
    by_cases hlt : i < k
    · rw [if_pos hlt] at hc
      rw [if_pos hlt]
      by_cases hk0 : k = 0
      · rw [if_pos hk0] at hc
        exact absurd hc (by simp)
      · rw [if_neg hk0] at hc
        simp only at hc
        cases hr : chordLoop eval k fuel (i + 1) (eval ((i : ℚ) / (k : ℚ))) with
        | none => rw [hr] at hc; exact absurd hc (by simp)
        | some r =>
          obtain ⟨p', cs'⟩ := r
          rw [hr] at hc
          simp only [Option.some.injEq, Prod.mk.injEq] at hc
          obtain ⟨rfl, rfl⟩ := hc
          simp only
          rw [ih _ _ _ _ _ hr]
          rfl
    · rw [if_neg hlt] at hc
      rw [if_neg hlt]
      simp only [Option.some.injEq, Prod.mk.injEq] at hc
      obtain ⟨rfl, rfl⟩ := hc
      rfl

theorem zip_snoc_last (p0 last : GPoint) (mid : List GPoint) :
    (p0 :: mid).zip mid ++ [(mid.getLastD p0, last)] = (p0 :: mid).zip (mid ++ [last]) := by
  induction mid generalizing p0 with
  | nil => simp
  | cons q mid ih =>
    have := ih q
    rw [getLastD_cons_eq]
    simp only [List.zip_cons_cons, List.cons_append] at this ⊢
    rw [this]

/-- The chords of a curve with count `k` and evaluation `eval`, in closed
form. -/
theorem curve_chords (eval : ℚ → GPoint) (k : Int) (a last : GPoint) :
    (match chordLoop eval k (k - 1).toNat 1 a with
      | none => none
      | some (p0, chords) => some (chords ++ [(p0, last)]))
      = some ((a :: curvePoints eval k 1 (k - 1).toNat).zip
          (curvePoints eval k 1 (k - 1).toNat ++ [last])) := by
  rw [chordLoop_eq eval k (k - 1).toNat (k - 1).toNat 1 a (by norm_num) rfl le_rfl]
  simp only
  rw [zip_snoc_last]

theorem curve_clip (eval : ℚ → GPoint) (k w h : Int) (a last : GPoint) (edges : List my_edge) :
    MUclipPoints (flattenLoop eval k w h (k - 1).toNat 1 a edges).1 last w h
        (flattenLoop eval k w h (k - 1).toNat 1 a edges).2
      = ((a :: curvePoints eval k 1 (k - 1).toNat).zip
          (curvePoints eval k 1 (k - 1).toNat ++ [last])).foldl
          (fun es s => MUclipPoints s.1 s.2 w h es) edges := by
  rw [flattenLoop_chords eval k w h _ _ _ _ _ edges
    (chordLoop_eq eval k (k - 1).toNat (k - 1).toNat 1 a (by norm_num) rfl le_rfl)]
  rw [← zip_snoc_last, List.foldl_append]
  rfl

theorem curve_chords_length (eval : ℚ → GPoint) (k : Int) (a last : GPoint) :
    (((a :: curvePoints eval k 1 (k - 1).toNat).zip
      (curvePoints eval k 1 (k - 1).toNat ++ [last])).length : Int) = max k 1 := by
  rw [List.length_zip, List.length_cons, List.length_append, curvePoints_length,
    List.length_singleton, min_self]
  omega

theorem curvePoints_get (eval : ℚ → GPoint) (k : Int) (n i : Nat) (h1 : 1 ≤ i) (h2 : i ≤ n) :
    (curvePoints eval k 1 n)[i - 1]? = some (eval ((i : ℚ) / (k : ℚ))) := by
  unfold curvePoints
  rw [List.getElem?_map, List.getElem?_range (by omega)]
  simp only [Option.map_some']
  congr 2
  have : ((i - 1 : Nat) : Int) = (i : Int) - 1 := by omega
  rw [this]
  push_cast
  ring

theorem segmentChords_quad (a b c : GPoint) :
    segmentChords (Segment.quad a b c)
      = some ((a :: curvePoints (MUevalQuad (pointArray [a, b, c]))
            (MUcomputeQuadSegments (pointArray [a, b, c])) 1
            (MUcomputeQuadSegments (pointArray [a, b, c]) - 1).toNat).zip
          (curvePoints (MUevalQuad (pointArray [a, b, c]))
            (MUcomputeQuadSegments (pointArray [a, b, c])) 1
            (MUcomputeQuadSegments (pointArray [a, b, c]) - 1).toNat ++ [c])) :=
  curve_chords _ _ a c

theorem segmentChords_cubic (a b c d : GPoint) :
    segmentChords (Segment.cubic a b c d)
      = some ((a :: curvePoints (MUevalCubic (pointArray [a, b, c, d]))
            (MUcomputeCubicSegments (pointArray [a, b, c, d])) 1
            (MUcomputeCubicSegments (pointArray [a, b, c, d]) - 1).toNat).zip
          (curvePoints (MUevalCubic (pointArray [a, b, c, d]))
            (MUcomputeCubicSegments (pointArray [a, b, c, d])) 1
            (MUcomputeCubicSegments (pointArray [a, b, c, d]) - 1).toNat ++ [d])) :=
  curve_chords _ _ a d

theorem chords_ne_nil (a last : GPoint) (mid : List GPoint) :
    (a :: mid).zip (mid ++ [last]) ≠ [] := by
  cases mid <;> simp

/-- C33, as the code has it: the counts of `MUcomputeQuadSegments` and
`MUcomputeCubicSegments` are never negative, and zero exactly when the second
differences of the control points vanish; for every curve the loop of
`drawPath` divides by `k` only when `k` is not zero (the chords exist) and
passes at least one chord to `MUclipPoints`. -/
theorem curve_segments_nonneg (pts : Nat → GPoint) (a b c d : GPoint) :
    0 ≤ MUcomputeQuadSegments pts ∧ 0 ≤ MUcomputeCubicSegments pts ∧
    (MUcomputeQuadSegments pts = 0 ↔
      (2 * (pts 1).fX = (pts 0).fX + (pts 2).fX ∧
        2 * (pts 1).fY = (pts 0).fY + (pts 2).fY)) ∧
    (MUcomputeCubicSegments pts = 0 ↔
      (2 * (pts 1).fX = (pts 0).fX + (pts 2).fX ∧ 2 * (pts 1).fY = (pts 0).fY + (pts 2).fY ∧
        2 * (pts 2).fX = (pts 1).fX + (pts 3).fX ∧
        2 * (pts 2).fY = (pts 1).fY + (pts 3).fY)) ∧
    (∃ chords, segmentChords (Segment.quad a b c) = some chords ∧ chords ≠ []) ∧
    (∃ chords, segmentChords (Segment.cubic a b c d) = some chords ∧ chords ≠ []) :=
  ⟨Int.natCast_nonneg _, Int.natCast_nonneg _, quadSegments_eq_zero_iff pts,
    cubicSegments_eq_zero_iff pts,
    ⟨_, segmentChords_quad a b c, chords_ne_nil _ _ _⟩,
    ⟨_, segmentChords_cubic a b c d, chords_ne_nil _ _ _⟩⟩

/-- C33 fails for control points on a line at equal steps: the quadratic
`(0,0), (1,1), (2,2)` and the cubic `(0,0), (1,1), (2,2), (3,3)` both get the
count 0. -/
theorem curve_segments_zero :
    MUcomputeQuadSegments (pointArray [⟨0, 0⟩, ⟨1, 1⟩, ⟨2, 2⟩]) = 0 ∧
    MUcomputeCubicSegments (pointArray [⟨0, 0⟩, ⟨1, 1⟩, ⟨2, 2⟩, ⟨3, 3⟩]) = 0 := by
  constructor
  · rw [quadSegments_eq_zero_iff]
    norm_num [pointArray]
  · rw [cubicSegments_eq_zero_iff]
    norm_num [pointArray]

/-- C34: for every quadratic `a, b, c` and cubic `a, b, c, d` with count `k`,
the pairs `drawPath` passes to `MUclipPoints` are the consecutive pairs of the
polyline `a, mid, last`, where `mid` holds the curve at `t = i/k` for
`i = 1 .. k-1` and `last` is the stored last control point; they are
`max(k,1)` chords, and the edges of the segment are those of these chords in
order. -/
theorem curve_chords_polyline (a b c d : GPoint) (w h : Int) (edges : List my_edge) :
    (let k := MUcomputeQuadSegments (pointArray [a, b, c])
     let mid := curvePoints (MUevalQuad (pointArray [a, b, c])) k 1 (k - 1).toNat
     segmentChords (Segment.quad a b c) = some ((a :: mid).zip (mid ++ [c])) ∧
     (((a :: mid).zip (mid ++ [c])).length : Int) = max k 1 ∧
     mid.length = (k - 1).toNat ∧
     (∀ i : Nat, 1 ≤ i → (i : Int) < k →
        mid[i - 1]? = some (MUevalQuad (pointArray [a, b, c]) ((i : ℚ) / (k : ℚ)))) ∧
     clipSegment w h edges (Segment.quad a b c)
       = ((a :: mid).zip (mid ++ [c])).foldl (fun es s => MUclipPoints s.1 s.2 w h es) edges) ∧
    (let k := MUcomputeCubicSegments (pointArray [a, b, c, d])
     let mid := curvePoints (MUevalCubic (pointArray [a, b, c, d])) k 1 (k - 1).toNat
     segmentChords (Segment.cubic a b c d) = some ((a :: mid).zip (mid ++ [d])) ∧
     (((a :: mid).zip (mid ++ [d])).length : Int) = max k 1 ∧
     mid.length = (k - 1).toNat ∧
     (∀ i : Nat, 1 ≤ i → (i : Int) < k →
        mid[i - 1]? = some (MUevalCubic (pointArray [a, b, c, d]) ((i : ℚ) / (k : ℚ)))) ∧
     clipSegment w h edges (Segment.cubic a b c d)
       = ((a :: mid).zip (mid ++ [d])).foldl
          (fun es s => MUclipPoints s.1 s.2 w h es) edges) := by
  refine ⟨?_, ?_⟩
  · intro k mid
    exact ⟨segmentChords_quad a b c, curve_chords_length _ _ a c, curvePoints_length _ _ _ _,
      fun i h1 h2 => curvePoints_get _ _ _ i h1 (by omega),
      curve_clip _ _ w h a c edges⟩
  · intro k mid
    exact ⟨segmentChords_cubic a b c d, curve_chords_length _ _ a d,
      curvePoints_length _ _ _ _,
      fun i h1 h2 => curvePoints_get _ _ _ i h1 (by omega),
      curve_clip _ _ w h a d edges⟩

/-! ## The convex scan with a shader on a clipped polygon -/

theorem overhangTriangle_convex : ConvexPolygon overhangTriangle := by
  refine ⟨by simp [overhangTriangle], ⟨(⟨0, 4⟩, ⟨2, 2⟩), ?_, ⟨-2, 0⟩, ?_, ?_⟩, Or.inr ?_⟩
  · simp [polygonSides, chainPairs, overhangTriangle]
  · simp [overhangTriangle]
  · norm_num [cross]
  · intro s hs p hp
    simp only [polygonSides, chainPairs, overhangTriangle, List.cons_append, List.nil_append,
      List.mem_cons, List.mem_singleton, List.not_mem_nil, or_false] at hs hp
    rcases hs with rfl | rfl | rfl <;> rcases hp with rfl | rfl | rfl <;> norm_num [cross]

theorem texturePaint_accepts :
    ∃ sh, texturePaint.fShader = some sh ∧
      sh.setContext (my_canvas.create sampleBitmap).ctm = true := by
  have h : (GMatrix.Concat GMatrix.identity GMatrix.identity).det ≠ 0 := by
    norm_num [GMatrix.Concat, GMatrix.identity, GMatrix.det]
  have h2 := invertTo_of_det_ne (GMatrix.Concat GMatrix.identity GMatrix.identity)
    GMatrix.identity h
  refine ⟨_, rfl, ?_⟩
  show (Shader.setContext (my_shader.create sampleBitmap GMatrix.identity TileMode.kClamp)
    GMatrix.identity).1 = true
  simp only [my_shader.create, Shader.setContext, h2]

/-- A blit with a shader from `x0` to a smaller `x1` fails its assertion. -/
theorem blit_shader_backwards (cv : my_canvas) (x0 x1 y : Int) (paint : GPaint) (sh : GShader)
    (hp : paint.fShader = some sh) (h : x1 < x0) : cv.blit x0 x1 y paint = none := by
  unfold my_canvas.blit
  rw [hp]
  have : ¬ (x0 ≥ 0 ∧ x1 - x0 ≥ 0) := by omega
  simp only [this, if_false]

/-- A blit with a shader over an empty span at a column `x0 ≥ 0` changes
nothing. -/
theorem blit_shader_empty (cv : my_canvas) (x0 y : Int) (paint : GPaint) (sh : GShader)
    (hp : paint.fShader = some sh) (h : 0 ≤ x0) : cv.blit x0 x0 y paint = some cv := by
  unfold my_canvas.blit
  rw [hp]
  have : (x0 ≥ 0 ∧ x0 - x0 ≥ 0) := by omega
  simp [this, blendRow]

/-- C36 fails on the convex triangle (0,4), (2,2), (-2,0), which reaches over
the left border of a 4x4 device, with a paint that has a shader: the triangle
is convex, the CTM is accepted, and on row 1 the left index holds the edge
with `get_X = 1` and the right index the border edge with `get_X = 0`, so
`blit(1, 0, 1)` fails its assertion and the draw does not complete. -/
theorem drawConvexPolygon_blit_assertion_fails :
    ConvexPolygon overhangTriangle ∧
    (∃ built edges eL eR, buildPolygonEdges overhangTriangle 3 4 4 = some built ∧
      MUsortEdges built = edges ∧ edges.get? 2 = some eL ∧ edges.get? 1 = some eR ∧
      eL.get_X 1 = 1 ∧ eR.get_X 1 = 0 ∧
      (my_canvas.create sampleBitmap).blit (eL.get_X 1) (eR.get_X 1) 1 texturePaint = none) ∧
    (my_canvas.create sampleBitmap).drawConvexPolygon overhangTriangle 3 texturePaint
      = none := by
  have g1 : (⟨2, -2, 1, 1, 2, 1⟩ : my_edge).get_X 1 = 1 := by
    norm_num [my_edge.get_X, GRoundToInt]
  have g0 : ∀ (t bt wd y : Int), (⟨0, 0, 0, t, bt, wd⟩ : my_edge).get_X y = 0 := by
    intro t bt wd y
    norm_num [my_edge.get_X, GRoundToInt]
  have hb : ∀ cv : my_canvas, cv.blit 1 0 1 texturePaint = none :=
    fun cv => blit_shader_backwards cv 1 0 1 texturePaint _ rfl (by norm_num)
  have he : ∀ cv : my_canvas, cv.blit 0 0 0 texturePaint = some cv :=
    fun cv => blit_shader_empty cv 0 0 texturePaint _ rfl (by norm_num)
  refine ⟨overhangTriangle_convex, ⟨_, _, _, _, overhang_edges, overhang_sorted, rfl, rfl, g1,
    g0 _ _ _ _, ?_⟩, ?_⟩
  · rw [g1, g0]
    exact hb _
  · have hmap : (my_canvas.create sampleBitmap).ctm.mapPoints (List.replicate 3 ⟨0, 0⟩)
        overhangTriangle 3 = some overhangTriangle := mapPoints_identity_rect _ 3 rfl
    obtain ⟨sh, hs, hctx⟩ := texturePaint_accepts
    unfold my_canvas.drawConvexPolygon
    rw [hmap]
    simp only [hs, hctx, Bool.not_true, Bool.false_eq_true, if_false]
    have hw : (my_canvas.create sampleBitmap).width = 4 := rfl
    have hh : (my_canvas.create sampleBitmap).height = 4 := rfl
    simp only [hw, hh, overhang_edges, overhang_sorted]
    norm_num [convexScan, g1, g0, hb, he, my_edge.valid]

/-! ## Indices of the bitmap shader -/

/-- The pixel of the bitmap shader is the bitmap read at the indices. -/
theorem shadePixel_eq_load (fuel : Nat) (d : GBitmap) (inv : GMatrix) (tm : TileMode)
    (x y : Int) (i : Nat) :
    my_shader.shadePixel fuel d inv tm x y i
      = (my_shader.tileIndices fuel d inv tm x y i).bind fun r => d.load r.1 r.2 := by
  cases tm with
  | kClamp => rfl
  | kRepeat =>
    unfold my_shader.shadePixel my_shader.tileIndices
    simp only
    generalize my_shader.repeat fuel _ d.width = a
    generalize my_shader.repeat fuel _ d.height = b
    cases a <;> cases b <;> rfl
  | kMirror =>
    unfold my_shader.shadePixel my_shader.tileIndices
    simp only
    generalize my_shader.mirror _ d.width = a
    generalize my_shader.mirror _ d.height = b
    cases a <;> cases b <;> rfl

theorem clamp_range (x : ℚ) (bounds : Int) (hb : 1 ≤ bounds) :
    0 ≤ my_shader.clamp x bounds ∧ my_shader.clamp x bounds < bounds := by
  unfold my_shader.clamp GFloorToInt
  simp only [Int.floor_intCast]
  constructor
  · exact le_min (le_max_right _ _) (by omega)
  · exact lt_of_le_of_lt (min_le_right _ _) (by omega)

/-- Enough rounds let `repeat` return `floor(c) mod dim`. -/
theorem repeat_enough (dim : Int) (c : ℚ) (hd : 1 ≤ dim) :
    ∃ N : Nat, ∀ fuel, N ≤ fuel → my_shader.repeat fuel c dim = some (⌊c⌋ % dim) := by
  have hb : (1 : ℚ) ≤ (dim : ℚ) := by exact_mod_cast hd
  obtain ⟨N, hN⟩ := exists_nat_ge (|c| + 1)
  refine ⟨N, fun fuel hf => ?_⟩
  have hf' : (N : ℚ) ≤ fuel := by exact_mod_cast hf
  have habs := abs_nonneg c
  have h1 := le_abs_self c
  have h2 := neg_abs_le c
  have hfd : (fuel : ℚ) ≤ fuel * (dim : ℚ) := by
    have : (0 : ℚ) ≤ fuel := by positivity
    nlinarith
  exact repeat_value dim c hd fuel (by linarith) (by linarith)

theorem mirror_some (c : ℚ) (dim : Int) (hd : 1 ≤ dim) :
    ∃ m, my_shader.mirror c dim = some m := by
  unfold my_shader.mirror
  have : dim ≠ 0 := by omega
  simp only [this, if_false]
  split_ifs <;> exact ⟨_, rfl⟩

/-- The indices of one pixel of the bitmap shader, for enough rounds of the
loops of `repeat`. -/
theorem tileIndices_range (d : GBitmap) (inv : GMatrix) (tm : TileMode) (x y : Int) (i : Nat)
    (hw : 1 ≤ d.width) (hh : 1 ≤ d.height) :
    ∃ N : Nat, ∀ fuel, N ≤ fuel → ∃ x_ y_,
      my_shader.tileIndices fuel d inv tm x y i = some (x_, y_) ∧
      0 ≤ x_ ∧ x_ < d.width ∧ 0 ≤ y_ ∧ y_ < d.height := by
  cases tm with
  | kClamp =>
    refine ⟨0, fun fuel _ => ⟨_, _, rfl, ?_⟩⟩
    exact ⟨(clamp_range _ _ hw).1, (clamp_range _ _ hw).2, (clamp_range _ _ hh).1,
      (clamp_range _ _ hh).2⟩
  | kRepeat =>
    obtain ⟨N1, h1⟩ := repeat_enough d.width
      (inv.mapPoint ⟨(x : ℚ) + 1 / 2 + (i : ℚ), (y : ℚ) + 1 / 2⟩).fX hw
    obtain ⟨N2, h2⟩ := repeat_enough d.height
      (inv.mapPoint ⟨(x : ℚ) + 1 / 2 + (i : ℚ), (y : ℚ) + 1 / 2⟩).fY hh
    refine ⟨max N1 N2, fun fuel hf =>
      ⟨⌊(inv.mapPoint ⟨(x : ℚ) + 1 / 2 + (i : ℚ), (y : ℚ) + 1 / 2⟩).fX⌋ % d.width,
        ⌊(inv.mapPoint ⟨(x : ℚ) + 1 / 2 + (i : ℚ), (y : ℚ) + 1 / 2⟩).fY⌋ % d.height, ?_, ?_⟩⟩
    · unfold my_shader.tileIndices
      simp only [h1 fuel (le_trans (le_max_left _ _) hf),
        h2 fuel (le_trans (le_max_right _ _) hf)]
      rfl
    · exact ⟨Int.emod_nonneg _ (by omega), Int.emod_lt_of_pos _ (by omega),
        Int.emod_nonneg _ (by omega), Int.emod_lt_of_pos _ (by omega)⟩
  | kMirror =>
    obtain ⟨m1, h1⟩ := mirror_some
      (inv.mapPoint ⟨(x : ℚ) + 1 / 2 + (i : ℚ), (y : ℚ) + 1 / 2⟩).fX d.width hw
    obtain ⟨m2, h2⟩ := mirror_some
      (inv.mapPoint ⟨(x : ℚ) + 1 / 2 + (i : ℚ), (y : ℚ) + 1 / 2⟩).fY d.height hh
    refine ⟨0, fun fuel _ => ⟨my_shader.clamp (m1 : ℚ) d.width,
      my_shader.clamp (m2 : ℚ) d.height, ?_, ?_⟩⟩
    · unfold my_shader.tileIndices
      simp only [h1, h2]
      rfl
    · exact ⟨(clamp_range _ _ hw).1, (clamp_range _ _ hw).2, (clamp_range _ _ hh).1,
        (clamp_range _ _ hh).2⟩

theorem tileIndices_mono_exists (d : GBitmap) (inv : GMatrix) (tm : TileMode) (x y : Int)
    (hw : 1 ≤ d.width) (hh : 1 ≤ d.height) (count : Nat) :
    ∃ N : Nat, ∀ fuel, N ≤ fuel → ∀ i, i < count → ∃ x_ y_,
      my_shader.tileIndices fuel d inv tm x y i = some (x_, y_) ∧
      0 ≤ x_ ∧ x_ < d.width ∧ 0 ≤ y_ ∧ y_ < d.height := by
  induction count with
  | zero => exact ⟨0, fun _ _ i hi => absurd hi (Nat.not_lt_zero i)⟩
  | succ n ih =>
    obtain ⟨N1, h1⟩ := ih
    obtain ⟨N2, h2⟩ := tileIndices_range d inv tm x y n hw hh
    refine ⟨max N1 N2, fun fuel hf i hi => ?_⟩
    rcases Nat.lt_succ_iff_lt_or_eq.mp hi with h | rfl
    · exact h1 fuel (le_trans (le_max_left _ _) hf) i h
    · exact h2 fuel (le_trans (le_max_right _ _) hf)

theorem shadeLoop_some (pixel : Nat → Option GPixel) (n : Nat)
    (h : ∀ i, i < n → ∃ p, pixel i = some p) : ∃ row, shadeLoop pixel n = some row := by
  induction n with
  | zero => exact ⟨[], rfl⟩
  | succ n ih =>
    obtain ⟨row, hr⟩ := ih fun i hi => h i (Nat.lt_succ_of_lt hi)
    obtain ⟨p, hp⟩ := h n (Nat.lt_succ_self n)
    exact ⟨row ++ [p], by simp [shadeLoop, hr, hp]⟩

/-- C38: for a source bitmap with `width ≥ 1` and `height ≥ 1`, every tile
mode, every inverse matrix and every row `x, y, count`, once the loops of
`repeat` have enough rounds: for each pixel `i < count` the indices
`(x_, y_)` passed to `getAddr` exist and satisfy `0 ≤ x_ < width` and
`0 ≤ y_ < height`, the pixel is the bitmap's pixel there, and `shadeRow`
returns a row. -/
theorem bitmap_shader_indices_in_range (d : GBitmap) (M inv : GMatrix) (tm : TileMode)
    (x y : Int) (count : Nat) (hw : 1 ≤ d.width) (hh : 1 ≤ d.height) :
    ∃ N : Nat, ∀ fuel, N ≤ fuel →
      (∀ i, i < count → ∃ x_ y_,
        my_shader.tileIndices fuel d inv tm x y i = some (x_, y_) ∧
        0 ≤ x_ ∧ x_ < d.width ∧ 0 ≤ y_ ∧ y_ < d.height ∧
        my_shader.shadePixel fuel d inv tm x y i = some (d.pixels x_ y_)) ∧
      ∃ row, (Shader.bitmap d M inv tm).shadeRow fuel x y count = some row := by
  obtain ⟨N, hN⟩ := tileIndices_mono_exists d inv tm x y hw hh count
  refine ⟨N, fun fuel hf => ?_⟩
  have hpix : ∀ i, i < count → ∃ x_ y_,
      my_shader.tileIndices fuel d inv tm x y i = some (x_, y_) ∧
      0 ≤ x_ ∧ x_ < d.width ∧ 0 ≤ y_ ∧ y_ < d.height ∧
      my_shader.shadePixel fuel d inv tm x y i = some (d.pixels x_ y_) := by
    intro i hi
    obtain ⟨x_, y_, ht, a1, a2, a3, a4⟩ := hN fuel hf i hi
    refine ⟨x_, y_, ht, a1, a2, a3, a4, ?_⟩
    rw [shadePixel_eq_load, ht]
    simp [GBitmap.load, a1, a2, a3, a4]
  refine ⟨hpix, ?_⟩
  exact shadeLoop_some _ count fun i hi => by
    obtain ⟨x_, y_, _, _, _, _, _, hp⟩ := hpix i hi
    exact ⟨_, hp⟩

theorem bitmap_shader_indices_in_range_witness :
    ∃ N : Nat, ∀ fuel, N ≤ fuel →
      (∀ i, i < 3 → ∃ x_ y_,
        my_shader.tileIndices fuel sampleBitmap sampleMatrix TileMode.kRepeat (-7) 5 i
          = some (x_, y_) ∧
        0 ≤ x_ ∧ x_ < sampleBitmap.width ∧ 0 ≤ y_ ∧ y_ < sampleBitmap.height ∧
        my_shader.shadePixel fuel sampleBitmap sampleMatrix TileMode.kRepeat (-7) 5 i
          = some (sampleBitmap.pixels x_ y_)) ∧
      ∃ row, (Shader.bitmap sampleBitmap GMatrix.identity sampleMatrix
        TileMode.kRepeat).shadeRow fuel (-7) 5 3 = some row :=
  bitmap_shader_indices_in_range sampleBitmap GMatrix.identity sampleMatrix TileMode.kRepeat
    (-7) 5 3 (by decide) (by decide)

/-! ## Indices of the gradient -/

/-- The pixel of the gradient is the mix at the tiled position. -/
theorem gradient_pixel_eq_mix (fuel : Nat) (cs : List GColor) (n : Int) (inv : GMatrix)
    (tm : TileMode) (x y : Int) (i : Nat) :
    my_linear_gradient.shadePixel fuel cs n inv tm x y i
      = (my_linear_gradient.tile fuel tm
          (inv.mapPoint ⟨(x : ℚ) + 1 / 2 + (i : ℚ), (y : ℚ) + 1 / 2⟩)).bind
        (my_linear_gradient.mix cs n) := by
  cases tm with
  | kClamp => rfl
  | kMirror => rfl
  | kRepeat =>
    unfold my_linear_gradient.shadePixel my_linear_gradient.tile
    simp only
    generalize my_linear_gradient.repeat fuel _ = a
    cases a <;> rfl

theorem lowerUnitLoop_spec :
    ∀ (fuel : Nat) (x : ℚ), 0 ≤ x → x - fuel ≤ 1 →
      ∃ t, lowerUnitLoop fuel x = some t ∧ 0 ≤ t ∧ t ≤ 1 := by
  intro fuel
  induction fuel with
  | zero =>
    intro x h0 hx
    simp only [Nat.cast_zero, sub_zero] at hx
    exact ⟨x, by simp [lowerUnitLoop, not_lt.mpr hx], h0, hx⟩
  | succ n ih =>
    intro x h0 hx
    by_cases h : x > 1
    · have hx' : (x - 1) - n ≤ 1 := by push_cast at hx; linarith
      obtain ⟨t, ht, t0, t1⟩ := ih (x - 1) (by linarith) hx'
      exact ⟨t, by simp [lowerUnitLoop, h, ht], t0, t1⟩
    · exact ⟨x, by simp [lowerUnitLoop, h], h0, not_lt.mp h⟩

/-- The tiled position exists for enough rounds and lies in `[0, 1]`. -/
theorem gradient_tile_unit (tm : TileMode) (p : GPoint) :
    ∃ N : Nat, ∀ fuel, N ≤ fuel →
      ∃ t, my_linear_gradient.tile fuel tm p = some t ∧ 0 ≤ t ∧ t ≤ 1 := by
  cases tm with
  | kClamp =>
    refine ⟨0, fun fuel _ => ⟨_, rfl, ?_⟩⟩
    unfold my_linear_gradient.clamp
    simp only
    by_cases h1 : p.fX > 1
    · rw [if_pos h1]; norm_num
    · rw [if_neg h1]
      by_cases h0 : p.fX < 0
      · rw [if_pos h0]; norm_num
      · rw [if_neg h0]; exact ⟨not_lt.mp h0, not_lt.mp h1⟩
  | kMirror =>
    refine ⟨0, fun fuel _ => ⟨_, rfl, ?_⟩⟩
    unfold my_linear_gradient.mirror GFloorToInt
    simp only
    have f0 : 0 ≤ p.fX - (⌊p.fX⌋ : ℚ) := by linarith [Int.floor_le p.fX]
    have f1 : p.fX - (⌊p.fX⌋ : ℚ) < 1 := by linarith [Int.lt_floor_add_one p.fX]
    split_ifs
    · constructor <;> linarith
    · constructor <;> linarith
  | kRepeat =>
    obtain ⟨N, hN⟩ := exists_nat_ge (|p.fX| + 1)
    refine ⟨N, fun fuel hf => ?_⟩
    have hf' : (N : ℚ) ≤ fuel := by exact_mod_cast hf
    have habs := abs_nonneg p.fX
    have h1 := le_abs_self p.fX
    have h2 := neg_abs_le p.fX
    obtain ⟨k, hk, k0, k1, k2⟩ := raiseLoop_spec 1 fuel p.fX (by linarith)
    have hx : p.fX + k * 1 - fuel ≤ 1 := by
      by_cases hc : p.fX < 0
      · have := k1 hc
        have : (0 : ℚ) ≤ fuel := by positivity
        linarith
      · have := k2 (not_lt.mp hc); subst this
        simp only [Nat.cast_zero, zero_mul, add_zero]
        linarith
    obtain ⟨t, ht, t0, t1⟩ := lowerUnitLoop_spec fuel _ k0 hx
    refine ⟨t, ?_, t0, t1⟩
    unfold my_linear_gradient.tile my_linear_gradient.repeat
    simp only [hk, Option.bind_eq_bind, Option.some_bind]
    exact ht

theorem arrayAt_some {α : Type} (a : List α) (index : Int) (h0 : 0 ≤ index)
    (h1 : index < a.length) : ∃ c, arrayAt a index = some c ∧ a.get? index.toNat = some c := by
  have hlt : index.toNat < a.length := by omega
  refine ⟨a[index.toNat], ?_, ?_⟩
  · unfold arrayAt
    rw [if_pos h0, List.get?_eq_getElem?]
    exact List.getElem?_eq_getElem hlt
  · rw [List.get?_eq_getElem?]
    exact List.getElem?_eq_getElem hlt

/-- The index and weight of a position `t` in `[0, 1]` among `n ≥ 1` colours,
and the reads of the mix. -/
theorem gradient_mix_range (cs : List GColor) (t : ℚ) (hn : 1 ≤ cs.length) (t0 : 0 ≤ t)
    (t1 : t ≤ 1) :
    0 ≤ GFloorToInt (t * (((cs.length : Int) : ℚ) - 1)) ∧
    GFloorToInt (t * (((cs.length : Int) : ℚ) - 1)) ≤ (cs.length : Int) - 1 ∧
    (t * (((cs.length : Int) : ℚ) - 1)
        - (GFloorToInt (t * (((cs.length : Int) : ℚ) - 1)) : ℚ) ≠ 0 →
      GFloorToInt (t * (((cs.length : Int) : ℚ) - 1)) + 1 ≤ (cs.length : Int) - 1) ∧
    ∃ ca, arrayAt cs (GFloorToInt (t * (((cs.length : Int) : ℚ) - 1))) = some ca ∧
      (t * (((cs.length : Int) : ℚ) - 1)
          - (GFloorToInt (t * (((cs.length : Int) : ℚ) - 1)) : ℚ) = 0 →
        my_linear_gradient.mix cs cs.length t = some (MUcolorToPixel ca)) ∧
      (t * (((cs.length : Int) : ℚ) - 1)
          - (GFloorToInt (t * (((cs.length : Int) : ℚ) - 1)) : ℚ) ≠ 0 →
        ∃ cb, arrayAt cs (GFloorToInt (t * (((cs.length : Int) : ℚ) - 1)) + 1) = some cb ∧
          my_linear_gradient.mix cs cs.length t
            = some (MUcolorToPixel
              ((1 - (t * (((cs.length : Int) : ℚ) - 1)
                  - (GFloorToInt (t * (((cs.length : Int) : ℚ) - 1)) : ℚ))) * ca
                + (t * (((cs.length : Int) : ℚ) - 1)
                  - (GFloorToInt (t * (((cs.length : Int) : ℚ) - 1)) : ℚ)) * cb))) := by
  have hn' : (1 : ℚ) ≤ ((cs.length : Int) : ℚ) := by exact_mod_cast hn
  set s : ℚ := t * (((cs.length : Int) : ℚ) - 1) with hs
  have s0 : 0 ≤ s := mul_nonneg t0 (by linarith)
  have s1 : s ≤ (((cs.length : Int) - 1 : Int) : ℚ) := by
    rw [Int.cast_sub, Int.cast_one]
    have : t * (((cs.length : Int) : ℚ) - 1) ≤ 1 * (((cs.length : Int) : ℚ) - 1) :=
      mul_le_mul_of_nonneg_right t1 (by linarith)
    linarith
  have i0 : 0 ≤ GFloorToInt s := Int.floor_nonneg.mpr s0
  have i1 : GFloorToInt s ≤ (cs.length : Int) - 1 := by
    have : GFloorToInt s ≤ ⌊((((cs.length : Int) - 1 : Int)) : ℚ)⌋ := Int.floor_mono s1
    rwa [Int.floor_intCast] at this
  have i2 : s - (GFloorToInt s : ℚ) ≠ 0 → GFloorToInt s + 1 ≤ (cs.length : Int) - 1 := by
    intro hw
    by_contra hc
    have he : GFloorToInt s = (cs.length : Int) - 1 := by omega
    have hle : (GFloorToInt s : ℚ) ≤ s := Int.floor_le s
    rw [he] at hle hw
    exact hw (by linarith)
  obtain ⟨ca, hca, _⟩ := arrayAt_some cs (GFloorToInt s) i0 (by omega)
  refine ⟨i0, i1, i2, ca, hca, ?_, ?_⟩
  · intro hw
    unfold my_linear_gradient.mix
    simp only [← hs, hw, if_true, i1, hca]
    rfl
  · intro hw
    obtain ⟨cb, hcb, _⟩ := arrayAt_some cs (GFloorToInt s + 1) (by omega)
      (by have := i2 hw; omega)
    refine ⟨cb, hcb, ?_⟩
    unfold my_linear_gradient.mix
    simp only [← hs, hw, if_false, hca, hcb]
    rfl

theorem gradient_pixels_exist (inv : GMatrix) (tm : TileMode) (x y : Int) (count : Nat) :
    ∃ N : Nat, ∀ fuel, N ≤ fuel → ∀ i, i < count →
      ∃ t, my_linear_gradient.tile fuel tm
          (inv.mapPoint ⟨(x : ℚ) + 1 / 2 + (i : ℚ), (y : ℚ) + 1 / 2⟩) = some t ∧
        0 ≤ t ∧ t ≤ 1 := by
  induction count with
  | zero => exact ⟨0, fun _ _ i hi => absurd hi (Nat.not_lt_zero i)⟩
  | succ n ih =>
    obtain ⟨N1, h1⟩ := ih
    obtain ⟨N2, h2⟩ := gradient_tile_unit tm
      (inv.mapPoint ⟨(x : ℚ) + 1 / 2 + (n : ℚ), (y : ℚ) + 1 / 2⟩)
    refine ⟨max N1 N2, fun fuel hf i hi => ?_⟩
    rcases Nat.lt_succ_iff_lt_or_eq.mp hi with h | rfl
    · exact h1 fuel (le_trans (le_max_left _ _) hf) i h
    · exact h2 fuel (le_trans (le_max_right _ _) hf)

/-- C39: for `n ≥ 1` colours, every tile mode, every inverse matrix and every
row `x, y, count`, once the loops of `repeat` have enough rounds: for each
pixel `i < count` the tiled position `t` exists and lies in `[0, 1]`, the
index `floor(t * (n-1))` lies in `0 .. n-1`, the assertion
`index ≤ colors_count - 1` holds, `colors[index]` is read inside the vector
and `colors[index + 1]` only when the weight is not zero, in which case
`index + 1 ≤ n-1` and the read is inside too; the pixel is the colour read or
the mix of the two, `shadeRow` returns a row, and for `n = 1` every pixel is
`colors[0]`. -/
theorem gradient_indices_in_range (cs : List GColor) (inv M : GMatrix) (tm : TileMode)
    (x y : Int) (count : Nat) (hn : 1 ≤ cs.length) :
    ∃ N : Nat, ∀ fuel, N ≤ fuel →
      (∀ i, i < count → ∃ t index w ca,
        my_linear_gradient.tile fuel tm
          (inv.mapPoint ⟨(x : ℚ) + 1 / 2 + (i : ℚ), (y : ℚ) + 1 / 2⟩) = some t ∧
        0 ≤ t ∧ t ≤ 1 ∧
        index = GFloorToInt (t * (((cs.length : Int) : ℚ) - 1)) ∧
        w = t * (((cs.length : Int) : ℚ) - 1) - (index : ℚ) ∧
        0 ≤ index ∧ index ≤ (cs.length : Int) - 1 ∧
        arrayAt cs index = some ca ∧
        (w = 0 → my_linear_gradient.shadePixel fuel cs cs.length inv tm x y i
          = some (MUcolorToPixel ca)) ∧
        (w ≠ 0 → index + 1 ≤ (cs.length : Int) - 1 ∧
          ∃ cb, arrayAt cs (index + 1) = some cb ∧
            my_linear_gradient.shadePixel fuel cs cs.length inv tm x y i
              = some (MUcolorToPixel ((1 - w) * ca + w * cb))) ∧
        (cs.length = 1 → index = 0 ∧ w = 0)) ∧
      ∃ row, (Shader.linearGradient cs cs.length inv M tm).shadeRow fuel x y count
        = some row := by
  obtain ⟨N, hN⟩ := gradient_pixels_exist inv tm x y count
  refine ⟨N, fun fuel hf => ?_⟩
  have hpix : ∀ i, i < count → ∃ t index w ca,
        my_linear_gradient.tile fuel tm
          (inv.mapPoint ⟨(x : ℚ) + 1 / 2 + (i : ℚ), (y : ℚ) + 1 / 2⟩) = some t ∧
        0 ≤ t ∧ t ≤ 1 ∧
        index = GFloorToInt (t * (((cs.length : Int) : ℚ) - 1)) ∧
        w = t * (((cs.length : Int) : ℚ) - 1) - (index : ℚ) ∧
        0 ≤ index ∧ index ≤ (cs.length : Int) - 1 ∧
        arrayAt cs index = some ca ∧
        (w = 0 → my_linear_gradient.shadePixel fuel cs cs.length inv tm x y i
          = some (MUcolorToPixel ca)) ∧
        (w ≠ 0 → index + 1 ≤ (cs.length : Int) - 1 ∧
          ∃ cb, arrayAt cs (index + 1) = some cb ∧
            my_linear_gradient.shadePixel fuel cs cs.length inv tm x y i
              = some (MUcolorToPixel ((1 - w) * ca + w * cb))) ∧
        (cs.length = 1 → index = 0 ∧ w = 0) := by
    intro i hi
    obtain ⟨t, ht, t0, t1⟩ := hN fuel hf i hi
    obtain ⟨i0, i1, i2, ca, hca, m0, m1⟩ := gradient_mix_range cs t hn t0 t1
    refine ⟨t, _, _, ca, ht, t0, t1, rfl, rfl, i0, i1, hca, ?_, ?_, ?_⟩
    · intro hw
      rw [gradient_pixel_eq_mix, ht]
      exact m0 hw
    · intro hw
      obtain ⟨cb, hcb, hm⟩ := m1 hw
      refine ⟨i2 hw, cb, hcb, ?_⟩
      rw [gradient_pixel_eq_mix, ht]
      exact hm
    · intro h1
      rw [h1]
      norm_num [GFloorToInt]
  refine ⟨hpix, ?_⟩
  exact shadeLoop_some _ count fun i hi => by
    obtain ⟨t, index, w, ca, _, _, _, _, _, _, _, _, p0, p1, _⟩ := hpix i hi
    by_cases hw : w = 0
    · exact ⟨_, p0 hw⟩
    · obtain ⟨_, cb, _, hp⟩ := p1 hw
      exact ⟨_, hp⟩

theorem gradient_indices_in_range_witness :
    ∃ N : Nat, ∀ fuel, N ≤ fuel → ∃ row,
      (Shader.linearGradient [⟨1, 0, 0, 1⟩, ⟨0, 0, 1, 1⟩] 2 sampleMatrix GMatrix.identity
        TileMode.kRepeat).shadeRow fuel (-7) 5 3 = some row := by
  obtain ⟨N, h⟩ := gradient_indices_in_range [⟨1, 0, 0, 1⟩, ⟨0, 0, 1, 1⟩] sampleMatrix
    GMatrix.identity TileMode.kRepeat (-7) 5 3 (by decide)
  exact ⟨N, fun fuel hf => (h fuel hf).2⟩

/-! ## Blend mode of a mesh -/

/-- A polygon drawn with the caller's paint seen as a paint over built shaders
is the polygon drawn with the caller's paint. -/
theorem drawConvexPolygonBuilt_built (cv : my_canvas) (points : List GPoint) (count : Nat)
    (paint : GPaint) :
    cv.drawConvexPolygonBuilt points count paint.built
      = cv.drawConvexPolygon points count paint := by
  obtain ⟨c, m, sh⟩ := paint
  cases sh with
  | none => rfl
  | some s => rfl

/-- A polygon drawn with the paint `GPaint(shader)` around a shader that is
not built on a null pointer is the polygon drawn with an opaque black paint in
mode SrcOver that has this shader. -/
theorem drawConvexPolygonBuilt_fresh (cv : my_canvas) (points : List GPoint) (count : Nat)
    (g : GShader) :
    cv.drawConvexPolygonBuilt points count (BuiltPaint.ofShader g.built)
      = cv.drawConvexPolygon points count
          { fColor := ⟨0, 0, 0, 1⟩, fMode := GBlendMode.kSrcOver, fShader := some g } := rfl

/-- The loop of `drawMesh` with colours does not look at the colour and the
blend mode of the caller's paint. -/
theorem meshLoop_colors_any_mode (verts : List GPoint) (cs : List GColor)
    (ts : Option (List GPoint)) (indices : List Int) (paint : GPaint) (m : GBlendMode)
    (c : GColor) :
    ∀ (k : Nat) (n : Int) (cv : my_canvas),
      meshLoop verts (some cs) ts indices paint k n cv
        = meshLoop verts (some cs) ts indices { paint with fMode := m, fColor := c } k n cv := by
  intro k
  induction k with
  | zero => intro n cv; rw [meshLoop, meshLoop]
  | succ k ih =>
    intro n cv
    rw [meshLoop, meshLoop]
    cases ts with
    | none =>
      simp only [my_canvas.drawTriangle, ih]
    | some ts =>
      simp only [ih]

/-- The loop of `drawMesh` with texture coordinates does not look at the
colour and the blend mode of the caller's paint. -/
theorem meshLoop_texs_any_mode (verts : List GPoint) (cs : Option (List GColor))
    (ts : List GPoint) (indices : List Int) (paint : GPaint) (m : GBlendMode) (c : GColor) :
    ∀ (k : Nat) (n : Int) (cv : my_canvas),
      meshLoop verts cs (some ts) indices paint k n cv
        = meshLoop verts cs (some ts) indices { paint with fMode := m, fColor := c } k n cv := by
  intro k
  induction k with
  | zero => intro n cv; rw [meshLoop, meshLoop]
  | succ k ih =>
    intro n cv
    rw [meshLoop, meshLoop]
    cases cs with
    | none => simp only [ih]
    | some cs => simp only [ih]

/-- The loop of `drawMesh` without colours and texture coordinates draws every
triangle with the caller's paint. -/
theorem meshLoop_plain_step (verts : List GPoint) (indices : List Int) (paint : GPaint)
    (k : Nat) (n : Int) (cv : my_canvas) :
    meshLoop verts none none indices paint (k + 1) n cv
      = (gather verts indices n).bind fun points =>
          (cv.drawConvexPolygon points 3 paint).bind fun cv1 =>
            meshLoop verts none none indices paint k (n + 3) cv1 := by
  rw [meshLoop]
  simp only [my_canvas.drawTriangle, drawConvexPolygonBuilt_built]
  rfl

/-- The loop of `drawMesh` with colours only: every triangle is filled by
`drawConvexPolygon` with an opaque black paint in mode SrcOver that has the
tri-colour shader of the triangle. -/
theorem meshLoop_colors_step (verts : List GPoint) (cs : List GColor) (indices : List Int)
    (paint : GPaint) (k : Nat) (n : Int) (cv : my_canvas) :
    meshLoop verts (some cs) none indices paint (k + 1) n cv
      = (gather verts indices n).bind fun points =>
          (gather cs indices n).bind fun colors =>
            (cv.drawConvexPolygon points 3
              { fColor := ⟨0, 0, 0, 1⟩, fMode := GBlendMode.kSrcOver,
                fShader := some ((my_tri_color_shader.create (pointArray points)
                  (colorArray colors)).toGShader
                    fun s x y count => (s.shadeRow 0 x y count).getD []) }).bind fun cv1 =>
              meshLoop verts (some cs) none indices paint k (n + 3) cv1 := by
  rw [meshLoop]
  simp only [Option.bind_eq_bind, Option.bind_assoc]
  rfl

/-- The loop of `drawMesh` with texture coordinates: every triangle goes to
`drawTriangleWithTex` with the shader of the caller's paint. -/
theorem meshLoop_texs_step (verts : List GPoint) (colors : Option (List GColor))
    (ts : List GPoint) (indices : List Int) (paint : GPaint) (k : Nat) (n : Int)
    (cv : my_canvas) :
    meshLoop verts colors (some ts) indices paint (k + 1) n cv
      = (gather verts indices n).bind fun points =>
          (match colors with
            | some cs => (gather cs indices n).map some
            | none => some none).bind fun tri =>
            (gather ts indices n).bind fun texs =>
              (cv.drawTriangleWithTex points tri texs
                (paint.fShader.map GShader.built)).bind fun cv1 =>
                meshLoop verts colors (some ts) indices paint k (n + 3) cv1 := by
  rw [meshLoop]
  cases colors with
  | none =>
    simp only [Option.bind_eq_bind, Option.bind_assoc, Option.some_bind]
  | some cs =>
    simp only [Option.bind_eq_bind, Option.bind_assoc, Option.some_bind]
    cases gather verts indices n with
    | none => rfl
    | some points =>
      cases gather cs indices n with
      | none => rfl
      | some tri => rfl

/-- The body of `drawTriangleWithTex`: nothing is drawn when the texture
matrix is singular, else the triangle goes to `drawTriangle` with the paint
`GPaint(&proxy)`: opaque black, mode SrcOver, the proxy shader around the
caller's shader. -/
theorem drawTriangleWithTex_eq (cv : my_canvas) (points : List GPoint)
    (colors : Option (List GColor)) (tx : List GPoint) (originalShader : Option BuiltShader) :
    cv.drawTriangleWithTex points colors tx originalShader
      = if ((⟨(pointArray tx 1).fX - (pointArray tx 0).fX,
            (pointArray tx 2).fX - (pointArray tx 0).fX, (pointArray tx 0).fX,
            (pointArray tx 1).fY - (pointArray tx 0).fY,
            (pointArray tx 2).fY - (pointArray tx 0).fY,
            (pointArray tx 0).fY⟩ : GMatrix).invertTo GMatrix.identity).1 = false
        then some cv
        else cv.drawTriangle points colors (some tx)
          { fColor := ⟨0, 0, 0, 1⟩, fMode := GBlendMode.kSrcOver,
            fShader := some (my_proxy_shader.built originalShader
              (GMatrix.Concat
                ⟨(pointArray points 1).fX - (pointArray points 0).fX,
                  (pointArray points 2).fX - (pointArray points 0).fX,
                  (pointArray points 0).fX,
                  (pointArray points 1).fY - (pointArray points 0).fY,
                  (pointArray points 2).fY - (pointArray points 0).fY,
                  (pointArray points 0).fY⟩
                ((⟨(pointArray tx 1).fX - (pointArray tx 0).fX,
                  (pointArray tx 2).fX - (pointArray tx 0).fX, (pointArray tx 0).fX,
                  (pointArray tx 1).fY - (pointArray tx 0).fY,
                  (pointArray tx 2).fY - (pointArray tx 0).fY,
                  (pointArray tx 0).fY⟩ : GMatrix).invertTo GMatrix.identity).2)) } := rfl

/-- C40: the paint `GPaint(shader)` that `drawTriangle` and
`drawTriangleWithTex` construct is opaque black in mode SrcOver. `drawMesh` is
its loop over the triangles, and one round of the loop draws the triangle
`points` gathered at `n` as follows. With colours only: `drawConvexPolygon`
with a fresh paint in mode SrcOver that has the tri-colour shader. With
texture coordinates: `drawTriangleWithTex`, which draws nothing when the
texture matrix is singular and else calls `drawTriangle` with a fresh paint in
mode SrcOver that has the proxy shader; `drawTriangle` then fills through this
paint (no colours) or through a fresh paint in mode SrcOver that has the
composite of the tri-colour shader and the proxy shader (colours). So with
colours or texture coordinates the result of `drawMesh` is the same whatever
colour and blend mode the caller's paint has. With neither, the round is
`drawConvexPolygon` with the caller's paint. -/
theorem drawMesh_blend_mode (cv : my_canvas) (verts : List GPoint) (cs : List GColor)
    (ts : List GPoint) (colors : Option (List GColor)) (texs : Option (List GPoint))
    (count : Int) (indices : List Int) (paint : GPaint) (m : GBlendMode) (c : GColor)
    (s : BuiltShader) (points : List GPoint) (tri : List GColor) (tx : List GPoint)
    (originalShader : Option BuiltShader) (bpaint : BuiltPaint) (k : Nat) (n : Int) :
    BuiltPaint.ofShader s
      = { fColor := ⟨0, 0, 0, 1⟩, fMode := GBlendMode.kSrcOver, fShader := some s } ∧
    cv.drawMesh verts colors texs count indices paint
      = meshLoop verts colors texs indices paint count.toNat 0 cv ∧
    meshLoop verts colors texs indices paint 0 n cv = some cv ∧
    meshLoop verts (some cs) none indices paint (k + 1) n cv
      = ((gather verts indices n).bind fun points =>
          (gather cs indices n).bind fun colors =>
            (cv.drawConvexPolygon points 3
              { fColor := ⟨0, 0, 0, 1⟩, fMode := GBlendMode.kSrcOver,
                fShader := some ((my_tri_color_shader.create (pointArray points)
                  (colorArray colors)).toGShader
                    fun s x y count => (s.shadeRow 0 x y count).getD []) }).bind fun cv1 =>
              meshLoop verts (some cs) none indices paint k (n + 3) cv1) ∧
    meshLoop verts colors (some ts) indices paint (k + 1) n cv
      = ((gather verts indices n).bind fun points =>
          (match colors with
            | some cs => (gather cs indices n).map some
            | none => some none).bind fun tri =>
            (gather ts indices n).bind fun texs =>
              (cv.drawTriangleWithTex points tri texs
                (paint.fShader.map GShader.built)).bind fun cv1 =>
                meshLoop verts colors (some ts) indices paint k (n + 3) cv1) ∧
    cv.drawTriangleWithTex points colors tx originalShader
      = (if ((⟨(pointArray tx 1).fX - (pointArray tx 0).fX,
            (pointArray tx 2).fX - (pointArray tx 0).fX, (pointArray tx 0).fX,
            (pointArray tx 1).fY - (pointArray tx 0).fY,
            (pointArray tx 2).fY - (pointArray tx 0).fY,
            (pointArray tx 0).fY⟩ : GMatrix).invertTo GMatrix.identity).1 = false
        then some cv
        else cv.drawTriangle points colors (some tx)
          { fColor := ⟨0, 0, 0, 1⟩, fMode := GBlendMode.kSrcOver,
            fShader := some (my_proxy_shader.built originalShader
              (GMatrix.Concat
                ⟨(pointArray points 1).fX - (pointArray points 0).fX,
                  (pointArray points 2).fX - (pointArray points 0).fX,
                  (pointArray points 0).fX,
                  (pointArray points 1).fY - (pointArray points 0).fY,
                  (pointArray points 2).fY - (pointArray points 0).fY,
                  (pointArray points 0).fY⟩
                ((⟨(pointArray tx 1).fX - (pointArray tx 0).fX,
                  (pointArray tx 2).fX - (pointArray tx 0).fX, (pointArray tx 0).fX,
                  (pointArray tx 1).fY - (pointArray tx 0).fY,
                  (pointArray tx 2).fY - (pointArray tx 0).fY,
                  (pointArray tx 0).fY⟩ : GMatrix).invertTo GMatrix.identity).2)) }) ∧
    cv.drawTriangle points (some tri) (some tx) bpaint
      = cv.drawConvexPolygonBuilt points 3
          { fColor := ⟨0, 0, 0, 1⟩, fMode := GBlendMode.kSrcOver,
            fShader := some (my_composite_shader.built
              (my_tri_color_shader.built (pointArray points) (colorArray tri))
              bpaint.fShader) } ∧
    cv.drawTriangle points (some tri) none bpaint
      = cv.drawConvexPolygon points 3
          { fColor := ⟨0, 0, 0, 1⟩, fMode := GBlendMode.kSrcOver,
            fShader := some ((my_tri_color_shader.create (pointArray points)
              (colorArray tri)).toGShader
                fun s x y count => (s.shadeRow 0 x y count).getD []) } ∧
    cv.drawTriangle points none texs bpaint = cv.drawConvexPolygonBuilt points 3 bpaint ∧
    cv.drawMesh verts (some cs) texs count indices paint
      = cv.drawMesh verts (some cs) texs count indices { paint with fMode := m, fColor := c } ∧
    cv.drawMesh verts colors (some ts) count indices paint
      = cv.drawMesh verts colors (some ts) count indices
          { paint with fMode := m, fColor := c } ∧
    cv.drawTriangle points none none paint.built = cv.drawConvexPolygon points 3 paint ∧
    meshLoop verts none none indices paint (k + 1) n cv
      = ((gather verts indices n).bind fun points =>
          (cv.drawConvexPolygon points 3 paint).bind fun cv1 =>
            meshLoop verts none none indices paint k (n + 3) cv1) := by
  refine ⟨rfl, rfl, meshLoop_zero verts colors texs indices paint n cv,
    meshLoop_colors_step verts cs indices paint k n cv,
    meshLoop_texs_step verts colors ts indices paint k n cv,
    drawTriangleWithTex_eq cv points colors tx originalShader, rfl, rfl, ?_,
    meshLoop_colors_any_mode verts cs texs indices paint m c _ _ _,
    meshLoop_texs_any_mode verts colors ts indices paint m c _ _ _, ?_,
    meshLoop_plain_step verts indices paint k n cv⟩
  · cases texs <;> rfl
  · simp only [my_canvas.drawTriangle, drawConvexPolygonBuilt_built]

/-! ## Termination of the winding scan -/

theorem advanced_top (y : Int) (e : my_edge) :
    (e.advanced y).top = e.top ∧ (e.advanced y).bottom = e.bottom := ⟨rfl, rfl⟩

end GraphicsLib
